import Mathlib

/-! # Multi-function network optimization

A shallow embedding of `multi_function_network_optimization.cc`
(`optimize_network__remove_duplicates`, `optimize_network__remove_unused_nodes`,
`optimize_network__constant_folding`) together with the part of the network
builder these passes rely on, and theorems about the three passes.

Machine integers (`uint32_t`) are natural numbers reduced modulo `2 ^ 32`. The network
builder, the reachability helpers and the evaluation of a network are not part of that
file; their models follow the specification and say so in their doc comments.
-/

namespace FN

/-! ## Data model -/

/-- Data type attached to a socket: a single value or a vector of values. -/
inductive MFDataType where
  | Single (cpp_type : Nat)
  | Vector (cpp_base_type : Nat)
deriving DecidableEq, Repr

/-- A concrete value carried by a socket during evaluation. -/
inductive GenericValue where
  | single (v : Nat)
  | vector (vs : List Nat)
deriving DecidableEq, Repr

instance : Inhabited GenericValue := ⟨GenericValue.single 0⟩

/-- The external context an evaluation runs in. -/
abbrev MFContext := Nat

/-- Modelled from the spec: the function descriptor `MultiFunction` (declared in
`FN_multi_function.h`, not part of the sources at hand): a socket type signature, the
"depends on external context" flag, an optional operation identity, and the computation
itself. -/
structure MultiFunction where
  input_types : List MFDataType
  output_types : List MFDataType
  depends_on_context : Bool
  operation_hash : Option Nat
  call : MFContext → List GenericValue → List GenericValue

/-- Modelled from the spec: a node of the network builder. A dummy node has no function
attached; `inputs` and `outputs` are the ordered lists of its socket ids. -/
structure MFBuilderNode where
  function : Option MultiFunction
  inputs : List Nat
  outputs : List Nat

/-- Modelled from the spec: a socket of the network builder. It belongs to one node, has a
direction, an index within its node, a data type and, for an input, at most one origin. -/
structure MFBuilderSocket where
  node : Nat
  is_output : Bool
  index : Nat
  data_type : MFDataType
  origin : Option Nat

/-- Modelled from the spec: the network builder `MFNetworkBuilder` (declared in
`FN_multi_function_network.h`, not part of the sources at hand). Nodes and sockets are
stored in arrays indexed by their dense ids; a removed entity leaves a null entry. A link
is not stored on its own: it is the origin relation between an input and an output
socket, and the targets of an output socket are the input sockets whose origin it is. -/
structure MFNetworkBuilder where
  node_or_null_by_id : List (Option MFBuilderNode)
  socket_or_null_by_id : List (Option MFBuilderSocket)

namespace MFNetworkBuilder

def node_id_amount (net : MFNetworkBuilder) : Nat := net.node_or_null_by_id.length

def socket_id_amount (net : MFNetworkBuilder) : Nat := net.socket_or_null_by_id.length

def node_or_null_by_id_at (net : MFNetworkBuilder) (id : Nat) : Option MFBuilderNode :=
  (net.node_or_null_by_id[id]?).join

def socket_or_null_by_id_at (net : MFNetworkBuilder) (id : Nat) : Option MFBuilderSocket :=
  (net.socket_or_null_by_id[id]?).join

/-- Whether `id` is the id of a live dummy node. -/
def is_dummy (net : MFNetworkBuilder) (id : Nat) : Bool :=
  match net.node_or_null_by_id_at id with
  | some n => n.function.isNone
  | none => false

/-- Whether `id` is the id of a live function node. -/
def is_function (net : MFNetworkBuilder) (id : Nat) : Bool :=
  match net.node_or_null_by_id_at id with
  | some n => n.function.isSome
  | none => false

/-- The ids of the dummy nodes, in ascending order. -/
def dummy_nodes (net : MFNetworkBuilder) : List Nat :=
  (List.range net.node_id_amount).filter net.is_dummy

/-- The ids of the function nodes, in ascending order. -/
def function_nodes (net : MFNetworkBuilder) : List Nat :=
  (List.range net.node_id_amount).filter net.is_function

/-- The origin of input socket `t`, if any. -/
def origin (net : MFNetworkBuilder) (t : Nat) : Option Nat :=
  (net.socket_or_null_by_id_at t).bind MFBuilderSocket.origin

/-- The targets of output socket `s`: every socket whose origin is `s`. -/
def targets (net : MFNetworkBuilder) (s : Nat) : List Nat :=
  (List.range net.socket_id_amount).filter (fun t => net.origin t == some s)

/-- The id of the node owning socket `s`. -/
def socket_node (net : MFNetworkBuilder) (s : Nat) : Option Nat :=
  (net.socket_or_null_by_id_at s).map MFBuilderSocket.node

/-- Modelled from the spec: `relink_origin(new_from, to)` makes `new_from` the origin of
the input socket `to_socket` (which thereby leaves the targets of its former origin). -/
def relink_origin (net : MFNetworkBuilder) (new_from to_socket : Nat) : MFNetworkBuilder :=
  match net.socket_or_null_by_id_at to_socket with
  | some s =>
    { net with
      socket_or_null_by_id :=
        net.socket_or_null_by_id.set to_socket (some { s with origin := some new_from }) }
  | none => net

/-- Modelled from the spec: `add_link(from, to)` links an output socket to an input socket
that has no origin yet. -/
def add_link (net : MFNetworkBuilder) (from_socket to_socket : Nat) : MFNetworkBuilder :=
  net.relink_origin from_socket to_socket

/-- The sockets created for a new node: `types.length` sockets owned by `node`, with
indices `0, 1, ...`. -/
def new_sockets (node : Nat) (is_output : Bool) (types : List MFDataType) :
    List (Option MFBuilderSocket) :=
  types.enum.map fun entry =>
    some { node := node, is_output := is_output, index := entry.1, data_type := entry.2,
           origin := none }

/-- Modelled from the spec: "add node". The new node gets the next node id, its input
sockets the next socket ids, and its output sockets the socket ids after those. -/
def add_node (net : MFNetworkBuilder) (function : Option MultiFunction)
    (input_types output_types : List MFDataType) : MFNetworkBuilder :=
  { node_or_null_by_id :=
      net.node_or_null_by_id ++
        [some { function := function
                inputs := (List.range input_types.length).map (net.socket_id_amount + ·)
                outputs := (List.range output_types.length).map
                  (net.socket_id_amount + input_types.length + ·) }]
    socket_or_null_by_id :=
      net.socket_or_null_by_id ++
        (new_sockets net.node_id_amount false input_types ++
          new_sockets net.node_id_amount true output_types) }

/-- Modelled from the spec: `add_dummy(name, input_types, output_types, ...)`. -/
def add_dummy (net : MFNetworkBuilder) (input_types output_types : List MFDataType) :
    MFNetworkBuilder :=
  net.add_node none input_types output_types

/-- Modelled from the spec: `add_function(function)`. -/
def add_function (net : MFNetworkBuilder) (function : MultiFunction) : MFNetworkBuilder :=
  net.add_node (some function) function.input_types function.output_types

/-- The sockets listed by node `id` at positions `0, 1, ...` of `sockets` are live, owned
by `id`, of direction `is_output`, and carry their position as index. -/
def sockets_owned (net : MFNetworkBuilder) (id : Nat) (is_output : Bool)
    (sockets : List Nat) : Bool :=
  sockets.enum.all fun entry =>
    match net.socket_or_null_by_id_at entry.2 with
    | some s => s.node == id && s.is_output == is_output && s.index == entry.1
    | none => false

/-- Socket `sid` is listed by its owner at its index, and its origin, if any, is a live
output socket while `sid` itself is an input. -/
def socket_ok (net : MFNetworkBuilder) (sid : Nat) (s : MFBuilderSocket) : Bool :=
  (match net.node_or_null_by_id_at s.node with
    | some n =>
      if s.is_output then n.outputs[s.index]? == some sid else n.inputs[s.index]? == some sid
    | none => false) &&
  (match s.origin with
    | none => true
    | some o =>
      !s.is_output &&
        (match net.socket_or_null_by_id_at o with
          | some so => so.is_output
          | none => false))

/-- Sockets are correctly owned: nodes and sockets agree on ownership, direction and
index, and every origin is a live output socket. -/
def wellformed (net : MFNetworkBuilder) : Bool :=
  ((List.range net.node_id_amount).all fun id =>
    match net.node_or_null_by_id_at id with
    | some n => net.sockets_owned id false n.inputs && net.sockets_owned id true n.outputs
    | none => true) &&
  ((List.range net.socket_id_amount).all fun sid =>
    match net.socket_or_null_by_id_at sid with
    | some s => net.socket_ok sid s
    | none => true)

/-- Node `a` feeds node `b`: an input socket of `b` has an output socket of `a` as its
origin. -/
def link (net : MFNetworkBuilder) (a b : Nat) : Prop :=
  ∃ t o, net.socket_node t = some b ∧ net.origin t = some o ∧ net.socket_node o = some a

/-- No node reaches itself by following links forward. -/
def acyclic (net : MFNetworkBuilder) : Prop :=
  ∀ n, ¬ Relation.TransGen net.link n n

/-- The empty network. -/
def empty : MFNetworkBuilder := { node_or_null_by_id := [], socket_or_null_by_id := [] }

end MFNetworkBuilder

/-! ## `optimize_network__remove_duplicates` -/

/-- Reduction of an unsigned 32 bit result. -/
def u32 (n : Nat) : Nat := n % 2 ^ 32

/-- The local state of the hashing loop: `hash_by_output_socket`,
`node_outputs_are_hashed` and the number of values drawn from the generator so far. -/
structure HashState where
  hash_by_output_socket : List (Option Nat)
  node_outputs_are_hashed : List Bool
  rng : Nat

/-- Lines 22-25: every output socket of one dummy node gets a fresh random hash. -/
def hash_dummy_outputs (rng : Nat → Nat) : List Nat → HashState → HashState
  | [], st => st
  | output_socket :: rest, st =>
    hash_dummy_outputs rng rest
      { st with
        hash_by_output_socket :=
          st.hash_by_output_socket.set output_socket (some (u32 (rng st.rng)))
        rng := st.rng + 1 }

/-- Lines 21-27: the seeding loop over the dummy nodes. -/
def hash_dummy_nodes (rng : Nat → Nat) (net : MFNetworkBuilder) :
    List Nat → HashState → HashState
  | [], st => st
  | id :: rest, st =>
    match net.node_or_null_by_id_at id with
    | some node =>
      let st1 := hash_dummy_outputs rng node.outputs st
      hash_dummy_nodes rng net rest
        { st1 with node_outputs_are_hashed := st1.node_outputs_are_hashed.set id true }
    | none => hash_dummy_nodes rng net rest st

/-- Lines 38-43: the origin nodes of `node` whose outputs are not hashed yet, in the
order in which `foreach_origin_node` visits them (one entry per linked input). -/
def unhashed_origin_nodes (net : MFNetworkBuilder) (st : HashState)
    (node : MFBuilderNode) : List Nat :=
  node.inputs.filterMap fun input_socket =>
    match net.origin input_socket with
    | none => none
    | some origin =>
      match net.socket_node origin with
      | none => none
      | some origin_node =>
        if st.node_outputs_are_hashed.getD origin_node false then none else some origin_node

/-- The hash stored for socket `id`, if any. -/
def hash_at (hashes : List (Option Nat)) (id : Nat) : Option Nat := (hashes[id]?).join

/-- Lines 49-61: the polynomial accumulation of the input hashes. The result is the
combined hash and the generator position; a missing origin hash makes the lookup fail. -/
def combine_input_hashes (rng : Nat → Nat) (net : MFNetworkBuilder)
    (hashes : List (Option Nat)) : List Nat → Nat → Nat → Option (Nat × Nat)
  | [], combined_inputs_hash, pos => some (combined_inputs_hash, pos)
  | input_socket :: rest, combined_inputs_hash, pos =>
    match net.origin input_socket with
    | none =>
      combine_input_hashes rng net hashes rest
        (u32 (combined_inputs_hash * 456123 + u32 (rng pos))) (pos + 1)
    | some origin =>
      match hash_at hashes origin with
      | none => none
      | some input_hash =>
        combine_input_hashes rng net hashes rest
          (u32 (combined_inputs_hash * 456123 + input_hash)) pos

/-- Lines 68-71: the hash of each output socket from the node hash and the socket's
index. -/
def hash_outputs (net : MFNetworkBuilder) (node_hash : Nat) :
    List Nat → List (Option Nat) → List (Option Nat)
  | [], hashes => hashes
  | output_socket :: rest, hashes =>
    match net.socket_or_null_by_id_at output_socket with
    | some s =>
      hash_outputs net node_hash rest
        (hashes.set output_socket (some (u32 (node_hash * (45234 + 567243 * s.index)))))
    | none => hash_outputs net node_hash rest hashes

/-- Lines 29-75: the worklist loop. The stack is a list whose head is the top. The loop
returns `none` when the fuel runs out, when the top of the stack is not a function node,
or when an origin hash is missing. -/
def hash_function_nodes (rng : Nat → Nat) (net : MFNetworkBuilder) :
    Nat → List Nat → HashState → Option HashState
  | _, [], st => some st
  | 0, _ :: _, _ => none
  | fuel + 1, id :: rest, st =>
    if st.node_outputs_are_hashed.getD id false then
      hash_function_nodes rng net fuel rest st
    else
      match net.node_or_null_by_id_at id with
      | none => none
      | some node =>
        match node.function with
        | none => none
        | some function =>
          match unhashed_origin_nodes net st node with
          | origin_node :: more =>
            hash_function_nodes rng net fuel
              ((origin_node :: more).reverse ++ id :: rest) st
          | [] =>
            match combine_input_hashes rng net st.hash_by_output_socket node.inputs
                827823743 st.rng with
            | none => none
            | some (combined_inputs_hash, pos) =>
              let operation_hash :=
                match function.operation_hash with
                | some h => u32 h
                | none => u32 (rng pos)
              let pos1 :=
                match function.operation_hash with
                | some _ => pos
                | none => pos + 1
              let node_hash := u32 (combined_inputs_hash * 462347 + operation_hash)
              hash_function_nodes rng net fuel rest
                { hash_by_output_socket :=
                    hash_outputs net node_hash node.outputs st.hash_by_output_socket
                  node_outputs_are_hashed := st.node_outputs_are_hashed.set id true
                  rng := pos1 }

/-- Lines 16-75: the hashes of all output sockets. -/
def compute_output_hashes (rng : Nat → Nat) (net : MFNetworkBuilder) (fuel : Nat) :
    Option HashState :=
  hash_function_nodes rng net fuel net.function_nodes.reverse
    (hash_dummy_nodes rng net net.dummy_nodes
      { hash_by_output_socket := List.replicate net.socket_id_amount none
        node_outputs_are_hashed := List.replicate net.node_id_amount false
        rng := 0 })

/-- Modelled from the spec: `MultiMap::add` (declared in `BLI_multi_map.h`, not part of
the sources at hand) appends a value to the values stored for a key, in insertion order.
The map is a list of keys with their values, keys in order of first insertion. -/
def MultiMap_add : List (Nat × List Nat) → Nat → Nat → List (Nat × List Nat)
  | [], key, value => [(key, [value])]
  | (k, vs) :: rest, key, value =>
    if k = key then (k, vs ++ [value]) :: rest else (k, vs) :: MultiMap_add rest key value

/-- Lines 79-84: the body of the grouping loop. -/
def group_step (hashes : List (Option Nat)) (m : List (Nat × List Nat)) (id : Nat) :
    List (Nat × List Nat) :=
  match hash_at hashes id with
  | some hash => MultiMap_add m hash id
  | none => m

/-- Lines 77-85: group the hashed sockets by hash, in ascending id order. -/
def outputs_by_hash (hashes : List (Option Nat)) : List (Nat × List Nat) :=
  (List.range hashes.length).foldl (group_step hashes) []

/-- Lines 95-98: relink every target of the snapshot to `deduplicated_output`. -/
def relink_targets (net : MFNetworkBuilder) (deduplicated_output : Nat)
    (targets_copy : List Nat) : MFNetworkBuilder :=
  targets_copy.foldl (fun nb target => nb.relink_origin deduplicated_output target) net

/-- Lines 88-100: the body of `foreach_item` for one hash class. -/
def deduplicate_outputs (net : MFNetworkBuilder) : List Nat → MFNetworkBuilder
  | [] => net
  | [_] => net
  | deduplicated_output :: rest =>
    rest.foldl (fun nb socket => relink_targets nb deduplicated_output (nb.targets socket)) net

/-- Lines 87-100: `foreach_item` over the hash classes. -/
def deduplicate_all (net : MFNetworkBuilder) (m : List (Nat × List Nat)) :
    MFNetworkBuilder :=
  m.foldl (fun nb item => deduplicate_outputs nb item.2) net

/-- The pass `optimize_network__remove_duplicates`, with the random generator as the
stream `rng` and the loop bounded by `fuel`. -/
def optimize_network__remove_duplicates (rng : Nat → Nat) (fuel : Nat)
    (net : MFNetworkBuilder) : Option MFNetworkBuilder :=
  match compute_output_hashes rng net fuel with
  | none => none
  | some st => some (deduplicate_all net (outputs_by_hash st.hash_by_output_socket))

/-! ## Reachability and `optimize_network__remove_unused_nodes` -/

namespace MFNetworkBuilder

/-- Modelled from the spec: `foreach_origin_node`, the nodes owning the origins of the
inputs of node `id`, one entry per linked input. -/
def origin_nodes (net : MFNetworkBuilder) (id : Nat) : List Nat :=
  match net.node_or_null_by_id_at id with
  | some n => n.inputs.filterMap fun t => (net.origin t).bind net.socket_node
  | none => []

/-- Modelled from the spec: `foreach_target_node`, the nodes owning the targets of the
outputs of node `id`, one entry per link. -/
def target_nodes (net : MFNetworkBuilder) (id : Nat) : List Nat :=
  match net.node_or_null_by_id_at id with
  | some n => n.outputs.flatMap fun o => (net.targets o).filterMap net.socket_node
  | none => []

end MFNetworkBuilder

/-- One neighbour seen by the reachability worklist: an unmarked node is marked and
pushed. -/
def mark_and_push (state : List Bool × List Nat) (other_node : Nat) : List Bool × List Nat :=
  if state.1.getD other_node false then state
  else (state.1.set other_node true, other_node :: state.2)

/-- Modelled from the spec: the worklist of the reachability analysis. The node on top of
the stack is popped and each of its unmarked neighbours is marked and pushed; the loop
ends when the stack is empty. -/
def mark_reachable (next : Nat → List Nat) : Nat → List Nat → List Bool → List Bool
  | _, [], mask => mask
  | 0, _ :: _, mask => mask
  | fuel + 1, id :: rest, mask =>
    let state := (next id).foldl mark_and_push (mask, rest)
    mark_reachable next fuel state.2 state.1

/-- The mask of `amount` entries that is true exactly at the ids of `nodes`. -/
def mask_of_nodes (amount : Nat) (nodes : List Nat) : List Bool :=
  nodes.foldl (fun mask id => mask.set id true) (List.replicate amount false)

namespace MFNetworkBuilder

/-- Modelled from the spec: "nodes that can reach the set going forward", the given nodes
included. Every marking pops one stack entry or turns one entry of the mask, so
`nodes.length + node_id_amount` steps are enough. -/
def find_nodes_to_the_left_of__inclusive__mask (net : MFNetworkBuilder) (nodes : List Nat) :
    List Bool :=
  mark_reachable net.origin_nodes (nodes.length + net.node_id_amount) nodes.reverse
    (mask_of_nodes net.node_id_amount nodes)

/-- Modelled from the spec: forward reachability from the given nodes ("to the right of,
inclusive"). -/
def find_nodes_to_the_right_of__inclusive__mask (net : MFNetworkBuilder)
    (nodes : List Nat) : List Bool :=
  mark_reachable net.target_nodes (nodes.length + net.node_id_amount) nodes.reverse
    (mask_of_nodes net.node_id_amount nodes)

/-- Modelled from the spec: the live nodes whose mask entry is false (the complement of
the mask). -/
def nodes_by_id_inverted_id_mask (net : MFNetworkBuilder) (mask : List Bool) : List Nat :=
  (List.range net.node_id_amount).filter fun id =>
    (net.node_or_null_by_id_at id).isSome && !mask.getD id false

/-- Modelled from the spec: "given a set of terminal nodes, return all nodes ... with no
forward path into the terminal set"; a terminal node itself reaches the set. -/
def find_nodes_not_to_the_left_of__exclusive__vector (net : MFNetworkBuilder)
    (nodes : List Nat) : List Nat :=
  net.nodes_by_id_inverted_id_mask (net.find_nodes_to_the_left_of__inclusive__mask nodes)

/-- What removing node `id` does to one socket entry: a socket of `id` dies, and an input
fed by a socket of `id` loses its origin. -/
def remove_node_socket (net : MFNetworkBuilder) (id : Nat) :
    Option MFBuilderSocket → Option MFBuilderSocket
  | none => none
  | some s =>
    if s.node = id then none
    else if s.origin.bind net.socket_node = some id then some { s with origin := none }
    else some s

/-- Modelled from the spec: "remove node". The node and its sockets leave null entries;
the links from and to its sockets disappear. -/
def remove_node (net : MFNetworkBuilder) (id : Nat) : MFNetworkBuilder :=
  { node_or_null_by_id := net.node_or_null_by_id.set id none
    socket_or_null_by_id := net.socket_or_null_by_id.map (net.remove_node_socket id) }

/-- Modelled from the spec: `remove_nodes`, the batch removal. -/
def remove_nodes (net : MFNetworkBuilder) (nodes : List Nat) : MFNetworkBuilder :=
  nodes.foldl remove_node net

end MFNetworkBuilder

/-- The pass `optimize_network__remove_unused_nodes` (lines 105-111). -/
def optimize_network__remove_unused_nodes (net : MFNetworkBuilder) : MFNetworkBuilder :=
  net.remove_nodes (net.find_nodes_not_to_the_left_of__exclusive__vector net.dummy_nodes)

/-! ## Evaluation -/

/-- The results of `f` on all elements of the list, if all exist. -/
def all_values (f : Nat → Option GenericValue) : List Nat → Option (List GenericValue)
  | [] => some []
  | t :: rest =>
    match f t, all_values f rest with
    | some v, some vs => some (v :: vs)
    | _, _ => none

/-- Modelled from the spec: the value the evaluation engine computes for output socket
`o`. A dummy output and an unlinked input take their value from the assignment `values`
of external values; the output of a function node is computed by the function from the
values of its inputs. The recursion is bounded by `fuel`. -/
def evaluate_output (net : MFNetworkBuilder) (ctx : MFContext) (values : Nat → GenericValue) :
    Nat → Nat → Option GenericValue
  | 0, _ => none
  | fuel + 1, o =>
    match net.socket_or_null_by_id_at o with
    | none => none
    | some s =>
      match net.node_or_null_by_id_at s.node with
      | none => none
      | some n =>
        match n.function with
        | none => some (values o)
        | some f =>
          match all_values (fun t =>
              match net.origin t with
              | none => some (values t)
              | some origin => evaluate_output net ctx values fuel origin) n.inputs with
          | none => none
          | some args => some ((f.call ctx args).getD s.index default)

/-- Modelled from the spec: the value arriving at input socket `t`, the value of its
origin when it is linked and its external value otherwise. -/
def evaluate_input (net : MFNetworkBuilder) (ctx : MFContext) (values : Nat → GenericValue)
    (fuel : Nat) (t : Nat) : Option GenericValue :=
  match net.origin t with
  | none => some (values t)
  | some origin => evaluate_output net ctx values fuel origin

/-! ## `optimize_network__constant_folding` -/

/-- Lines 116-122: the dummy nodes and the function nodes that depend on context. -/
def non_constant_nodes (net : MFNetworkBuilder) : List Nat :=
  net.dummy_nodes ++ net.function_nodes.filter fun id =>
    match net.node_or_null_by_id_at id with
    | some n =>
      (match n.function with
        | some f => f.depends_on_context
        | none => false)
    | none => false

/-- Lines 139-150: the loop over the targets of one output socket. At the first target
owned by a non-constant node a dummy with one input is added and linked; the result is
the new network and the id of the dummy. -/
def probe_targets (net : MFNetworkBuilder) (node_is_not_constant : List Bool)
    (output_socket : Nat) (data_type : MFDataType) :
    List Nat → Option (MFNetworkBuilder × Nat)
  | [] => none
  | target_socket :: rest =>
    match net.socket_node target_socket with
    | none => probe_targets net node_is_not_constant output_socket data_type rest
    | some target_node =>
      if !node_is_not_constant.getD target_node false then
        probe_targets net node_is_not_constant output_socket data_type rest
      else
        some ((net.add_dummy [data_type] []).add_link output_socket net.socket_id_amount,
          net.node_id_amount)

/-- Lines 136-151: the loop over the output sockets of one constant node. -/
def probe_outputs (node_is_not_constant : List Bool) :
    List Nat → MFNetworkBuilder × List Nat → MFNetworkBuilder × List Nat
  | [], state => state
  | output_socket :: rest, state =>
    match state.1.socket_or_null_by_id_at output_socket with
    | none => probe_outputs node_is_not_constant rest state
    | some s =>
      match probe_targets state.1 node_is_not_constant output_socket s.data_type
          (state.1.targets output_socket) with
      | none => probe_outputs node_is_not_constant rest state
      | some (net1, dummy_node) =>
        probe_outputs node_is_not_constant rest (net1, state.2 ++ [dummy_node])

/-- Lines 131-152: the loop over the constant nodes; nodes without inputs are skipped.
The result is the network with the probes and `dummy_nodes_to_compute`. -/
def add_probes (node_is_not_constant : List Bool) :
    List Nat → MFNetworkBuilder × List Nat → MFNetworkBuilder × List Nat
  | [], state => state
  | id :: rest, state =>
    match state.1.node_or_null_by_id_at id with
    | none => add_probes node_is_not_constant rest state
    | some node =>
      if node.inputs.length = 0 then add_probes node_is_not_constant rest state
      else add_probes node_is_not_constant rest
        (probe_outputs node_is_not_constant node.outputs state)

/-- Input socket 0 of node `id`. -/
def MFNetworkBuilder.input_0 (net : MFNetworkBuilder) (id : Nat) : Option Nat :=
  match net.node_or_null_by_id_at id with
  | some n => n.inputs[0]?
  | none => none

/-- Modelled from the spec: `MF_GenericConstantValue`, "a zero-input function that always
returns the captured literal". -/
def MF_GenericConstantValue (cpp_type : Nat) (buffer : GenericValue) : MultiFunction :=
  { input_types := []
    output_types := [MFDataType.Single cpp_type]
    depends_on_context := false
    operation_hash := none
    call := fun _ _ => [buffer] }

/-- Modelled from the spec: `MF_GenericConstantVector`, the vector constant function. -/
def MF_GenericConstantVector (cpp_base_type : Nat) (array : GenericValue) : MultiFunction :=
  { input_types := []
    output_types := [MFDataType.Vector cpp_base_type]
    depends_on_context := false
    operation_hash := none
    call := fun _ _ => [array] }

/-- Lines 200-221: the constant function for a computed value, by data type category. -/
def constant_function (data_type : MFDataType) (value : GenericValue) : MultiFunction :=
  match data_type with
  | MFDataType.Single cpp_type => MF_GenericConstantValue cpp_type value
  | MFDataType.Vector cpp_base_type => MF_GenericConstantVector cpp_base_type value

/-- Lines 196-232, one iteration: a constant function node for the computed value is
added and every target of the probed socket is relinked to its output. -/
def fold_probe (computed : Nat → GenericValue) (dummy_nodes_to_compute : List Nat)
    (net : MFNetworkBuilder) (param_index : Nat) : MFNetworkBuilder :=
  match dummy_nodes_to_compute[param_index]? with
  | none => net
  | some dummy_node =>
    match (net.input_0 dummy_node).bind net.origin with
    | none => net
    | some original_socket =>
      match net.socket_or_null_by_id_at original_socket with
      | none => net
      | some s =>
        let folded_output := net.socket_id_amount
        let net1 := net.add_function (constant_function s.data_type (computed param_index))
        relink_targets net1 folded_output (net1.targets original_socket)

/-- The pass `optimize_network__constant_folding` (lines 113-237). The evaluation engine
is the parameter `engine`: for the network with the probes and the sockets to compute it
gives the computed value of each parameter index. -/
def optimize_network__constant_folding
    (engine : MFNetworkBuilder → List Nat → Nat → GenericValue) (net : MFNetworkBuilder) :
    MFNetworkBuilder :=
  let node_is_not_constant :=
    net.find_nodes_to_the_right_of__inclusive__mask (non_constant_nodes net)
  let constant_builder_nodes := net.nodes_by_id_inverted_id_mask node_is_not_constant
  let probed := add_probes node_is_not_constant constant_builder_nodes (net, [])
  let dummy_nodes_to_compute := probed.2
  if dummy_nodes_to_compute.length = 0 then probed.1
  else
    let sockets_to_compute := dummy_nodes_to_compute.filterMap probed.1.input_0
    let computed := engine probed.1 sockets_to_compute
    let folded := (List.range dummy_nodes_to_compute.length).foldl
      (fold_probe computed dummy_nodes_to_compute) probed.1
    folded.remove_nodes dummy_nodes_to_compute

/-! ## Notions used to state the properties -/

/-- The socket with its origin forgotten. -/
def MFBuilderSocket.without_origin (s : MFBuilderSocket) : MFBuilderSocket :=
  { s with origin := none }

/-- The two networks have the same nodes and the same sockets; only origins may differ. -/
def same_nodes_and_sockets (net net1 : MFNetworkBuilder) : Prop :=
  net1.node_or_null_by_id = net.node_or_null_by_id ∧
  net1.socket_id_amount = net.socket_id_amount ∧
  ∀ i, (net1.socket_or_null_by_id_at i).map MFBuilderSocket.without_origin =
    (net.socket_or_null_by_id_at i).map MFBuilderSocket.without_origin

/-- The output socket that replaces `o` when the hash class `c` is deduplicated: the first
member for every other member, `o` itself otherwise. -/
def class_representative (c : List Nat) (o : Nat) : Nat :=
  match c with
  | [] => o
  | r :: rest => if o ∈ rest then r else o

/-- The output socket that replaces `o` after the hash classes of `m` were deduplicated
one after the other. -/
def representative (m : List (Nat × List Nat)) (o : Nat) : Nat :=
  m.foldl (fun x item => class_representative item.2 x) o

/-- The values stored in the map for `key`, in insertion order. -/
def MultiMap_values : List (Nat × List Nat) → Nat → List Nat
  | [], _ => []
  | (k, vs) :: rest, key => if k = key then vs else MultiMap_values rest key

/-- The sockets with hash `h`, in ascending id order. -/
def hash_class (hashes : List (Option Nat)) (h : Nat) : List Nat :=
  (List.range hashes.length).filter fun id => hash_at hashes id == some h

/-- The first socket, in ascending id order, with hash `h`. -/
def first_with_hash (hashes : List (Option Nat)) (h : Nat) : Nat :=
  (hash_class hashes h).headD 0

/-- The operation hash used for a function node (lines 63-65): the function's operation
identity, or the random value drawn at generator position `pos`. -/
def operation_hash_or_random (rng : Nat → Nat) (function : MultiFunction) (pos : Nat) : Nat :=
  match function.operation_hash with
  | some h => u32 h
  | none => u32 (rng pos)

/-- Whether the outputs of node `id` are hashed in state `st`. -/
def HashState.is_hashed (st : HashState) (id : Nat) : Prop :=
  st.node_outputs_are_hashed.getD id false = true

/-- The part of the hashing invariant that holds from the start: the arrays have the
right sizes, a hashed node is live and all its outputs carry a hash, and a socket carries
a hash only when its node is hashed. -/
structure HashCore (net : MFNetworkBuilder) (st : HashState) : Prop where
  hash_length : st.hash_by_output_socket.length = net.socket_id_amount
  hashed_length : st.node_outputs_are_hashed.length = net.node_id_amount
  outputs_hashed : ∀ id, st.is_hashed id →
    ∃ n, net.node_or_null_by_id_at id = some n ∧
      ∀ o ∈ n.outputs, (hash_at st.hash_by_output_socket o).isSome = true
  hash_owner : ∀ o h, hash_at st.hash_by_output_socket o = some h →
    ∃ id, net.socket_node o = some id ∧ st.is_hashed id

/-- The invariant of the worklist loop: the core invariant, every dummy node is hashed,
and the hashes of the outputs of a hashed function node follow from the hashes of its
origins by the polynomial of lines 49-71. -/
structure HashInv (rng : Nat → Nat) (net : MFNetworkBuilder) (st : HashState) : Prop where
  core : HashCore net st
  dummies_hashed : ∀ id, net.is_dummy id = true → st.is_hashed id
  formula : ∀ id n f, st.is_hashed id → net.node_or_null_by_id_at id = some n →
    n.function = some f →
    ∃ pos c pos1,
      combine_input_hashes rng net st.hash_by_output_socket n.inputs 827823743 pos =
        some (c, pos1) ∧
      ∀ o s, o ∈ n.outputs → net.socket_or_null_by_id_at o = some s →
        hash_at st.hash_by_output_socket o =
          some (u32 (u32 (c * 462347 + operation_hash_or_random rng f pos1) *
            (45234 + 567243 * s.index)))

/-- State `st1` extends state `st`: hashed nodes stay hashed and stored hashes stay. -/
def HashState.extended_by (st st1 : HashState) : Prop :=
  (∀ id, st.is_hashed id → st1.is_hashed id) ∧
  ∀ o h, hash_at st.hash_by_output_socket o = some h →
    hash_at st1.hash_by_output_socket o = some h

/-- The worklist loop gets node `id` off the top of the stack in finitely many steps, from
every state that satisfies the invariant, and leaves it hashed. -/
def HashesNode (rng : Nat → Nat) (net : MFNetworkBuilder) (id : Nat) : Prop :=
  ∀ st rest, HashInv rng net st → (st.is_hashed id ∨ net.is_function id = true) →
    ∃ k st1, HashInv rng net st1 ∧ st.extended_by st1 ∧ st1.is_hashed id ∧
      ∀ fuel, hash_function_nodes rng net (fuel + k) (id :: rest) st =
        hash_function_nodes rng net fuel rest st1

/-- Every link runs from a node of smaller rank to a node of larger rank. -/
def topologically_ordered (net : MFNetworkBuilder) (rank : Nat → Nat) : Bool :=
  (List.range net.socket_id_amount).all fun t =>
    match net.origin t, net.socket_node t with
    | some o, some b =>
      (match net.socket_node o with
        | some a => decide (rank a < rank b)
        | none => true)
    | _, _ => true

/-- The origins of the inputs `t1` and `t2` exist and carry the same hash. -/
def same_origin_hash (net : MFNetworkBuilder) (hashes : List (Option Nat))
    (t1 t2 : Nat) : Bool :=
  match net.origin t1, net.origin t2 with
  | some a, some b => (hash_at hashes a).isSome && hash_at hashes a == hash_at hashes b
  | _, _ => false

/-- The output sockets `o1` and `o2` are outputs with the same index of two function
nodes that expose the same operation identity and have equally many inputs, all linked,
whose origins carry pairwise the same hash. -/
def structurally_equal (net : MFNetworkBuilder) (hashes : List (Option Nat))
    (o1 o2 : Nat) : Bool :=
  match net.socket_or_null_by_id_at o1, net.socket_or_null_by_id_at o2 with
  | some s1, some s2 =>
    s1.index == s2.index &&
    (match net.node_or_null_by_id_at s1.node, net.node_or_null_by_id_at s2.node with
      | some n1, some n2 =>
        (match n1.function, n2.function with
          | some f1, some f2 =>
            f1.operation_hash.isSome && f1.operation_hash == f2.operation_hash &&
            n1.inputs.length == n2.inputs.length &&
            (List.zip n1.inputs n2.inputs).all fun pair =>
              same_origin_hash net hashes pair.1 pair.2
          | _, _ => false)
      | _, _ => false)
  | _, _ => false

/-- The hashes are free of collisions: two distinct sockets carry the same hash only when
they are structurally equal. -/
def collision_free (net : MFNetworkBuilder) (hashes : List (Option Nat)) : Bool :=
  (List.range hashes.length).all fun o1 =>
    (List.range hashes.length).all fun o2 =>
      o1 == o2 || (hash_at hashes o1).isNone || hash_at hashes o1 != hash_at hashes o2 ||
        structurally_equal net hashes o1 o2

/-- The hashing phase returns with this fuel and its hashes are free of collisions. -/
def hashes_collision_free (rng : Nat → Nat) (net : MFNetworkBuilder) (fuel : Nat) : Bool :=
  match compute_output_hashes rng net fuel with
  | some st => collision_free net st.hash_by_output_socket
  | none => false

/-- The network with one more node that owns one more socket. -/
def MFNetworkBuilder.push (net : MFNetworkBuilder) (n : MFBuilderNode) (s : MFBuilderSocket) :
    MFNetworkBuilder :=
  { node_or_null_by_id := net.node_or_null_by_id ++ [some n]
    socket_or_null_by_id := net.socket_or_null_by_id ++ [some s] }

/-- Whether socket `t` is owned by a node marked in the mask. -/
def owner_marked (net : MFNetworkBuilder) (mask : List Bool) (t : Nat) : Bool :=
  match net.socket_node t with
  | some m => mask.getD m false
  | none => false

/-- Whether a target of output socket `o` is owned by a node marked in the mask. -/
def has_non_constant_target (net : MFNetworkBuilder) (mask : List Bool) (o : Nat) : Bool :=
  (net.targets o).any (owner_marked net mask)

/-- The boundary test and data type lookup for one output socket (lines 137-143). -/
def boundary_output (net : MFNetworkBuilder) (mask : List Bool) (o : Nat) :
    Option (Nat × MFDataType) :=
  match net.socket_or_null_by_id_at o with
  | some s => if has_non_constant_target net mask o then some (o, s.data_type) else none
  | none => none

/-- The output sockets of node `id`, with their data types, that have a target owned by a
node marked in the mask; none when the node has no inputs. -/
def boundary_outputs_of_node (net : MFNetworkBuilder) (mask : List Bool) (id : Nat) :
    List (Nat × MFDataType) :=
  match net.node_or_null_by_id_at id with
  | some n =>
    if n.inputs.length = 0 then []
    else n.outputs.filterMap (boundary_output net mask)
  | none => []

/-- The output sockets at the boundary between the given constant nodes and the nodes
marked in the mask. -/
def boundary_outputs (net : MFNetworkBuilder) (mask : List Bool) (nodes : List Nat) :
    List (Nat × MFDataType) :=
  nodes.flatMap (boundary_outputs_of_node net mask)

/-- The mask and the candidate constant set computed by
`optimize_network__constant_folding` (lines 124-127). -/
def node_is_not_constant (net : MFNetworkBuilder) : List Bool :=
  net.find_nodes_to_the_right_of__inclusive__mask (non_constant_nodes net)

/-- The candidate constant nodes (lines 126-127). -/
def constant_builder_nodes (net : MFNetworkBuilder) : List Nat :=
  net.nodes_by_id_inverted_id_mask (node_is_not_constant net)

/-- The probed output sockets of `optimize_network__constant_folding`, in the order in
which the probes are created, with their data types. -/
def probed_outputs (net : MFNetworkBuilder) : List (Nat × MFDataType) :=
  boundary_outputs net (node_is_not_constant net) (constant_builder_nodes net)

/-- The ids of the probes of a network with `amount` nodes before the probes: consecutive
node ids after the existing ones. -/
def probe_ids (amount : Nat) (probed : List (Nat × MFDataType)) : List Nat :=
  (List.range probed.length).map (amount + ·)

/-- Network `cur` is `net` with one probe for each entry of `probed`: the old nodes and
sockets are unchanged, and probe `i` is a dummy node with one input socket fed by the
probed output socket. -/
structure ProbesAdded (net cur : MFNetworkBuilder) (probed : List (Nat × MFDataType)) :
    Prop where
  node_amount : cur.node_id_amount = net.node_id_amount + probed.length
  socket_amount : cur.socket_id_amount = net.socket_id_amount + probed.length
  old_node : ∀ i, i < net.node_id_amount →
    cur.node_or_null_by_id_at i = net.node_or_null_by_id_at i
  old_socket : ∀ t, t < net.socket_id_amount →
    cur.socket_or_null_by_id_at t = net.socket_or_null_by_id_at t
  probe_node : ∀ (i : Nat) (p : Nat × MFDataType), probed[i]? = some p →
    cur.node_or_null_by_id_at (net.node_id_amount + i) =
      some { function := none, inputs := [net.socket_id_amount + i], outputs := [] }
  probe_socket : ∀ (i : Nat) (p : Nat × MFDataType), probed[i]? = some p →
    cur.socket_or_null_by_id_at (net.socket_id_amount + i) =
      some { node := net.node_id_amount + i, is_output := false, index := 0,
             data_type := p.2, origin := some p.1 }

/-- The origin that replaces origin `o` after the output sockets `outs` were folded: the
output socket of the constant node of `o`, when `o` was probed. -/
def folded_origin (outs : List Nat) (base : Nat) (o : Nat) : Nat :=
  if o ∈ outs then base + outs.indexOf o else o

/-- The socket after the output sockets `outs` were folded. -/
def fold_socket (outs : List Nat) (base : Nat) (s : MFBuilderSocket) : MFBuilderSocket :=
  { s with origin := s.origin.map (folded_origin outs base) }

/-- Network `cur` is the network with probes `net1` after the first `j` probes were
folded: the old nodes are unchanged, the old sockets are relinked from the probed outputs
to the outputs of the constant nodes, and constant node `i` holds the computed value
`i`. -/
structure ProbesFolded (net1 : MFNetworkBuilder) (probed : List (Nat × MFDataType))
    (computed : Nat → GenericValue) (j : Nat) (cur : MFNetworkBuilder) : Prop where
  node_amount : cur.node_id_amount = net1.node_id_amount + j
  socket_amount : cur.socket_id_amount = net1.socket_id_amount + j
  old_node : ∀ i, i < net1.node_id_amount →
    cur.node_or_null_by_id_at i = net1.node_or_null_by_id_at i
  old_socket : ∀ t, t < net1.socket_id_amount →
    cur.socket_or_null_by_id_at t =
      (net1.socket_or_null_by_id_at t).map
        (fold_socket ((probed.take j).map Prod.fst) net1.socket_id_amount)
  folded_node : ∀ (i : Nat) (p : Nat × MFDataType), i < j → probed[i]? = some p →
    cur.node_or_null_by_id_at (net1.node_id_amount + i) =
      some { function := some (constant_function p.2 (computed i)), inputs := [],
             outputs := [net1.socket_id_amount + i] }
  folded_socket : ∀ (i : Nat) (p : Nat × MFDataType), i < j → probed[i]? = some p →
    cur.socket_or_null_by_id_at (net1.socket_id_amount + i) =
      some { node := net1.node_id_amount + i, is_output := true, index := 0,
             data_type := p.2, origin := none }

/-- Network `result` is `net` after constant folding with the probed outputs `probed`:
the old nodes are unchanged, the probes are gone, constant node `i` holds the computed
value `i`, and the old sockets are relinked from the probed outputs to the outputs of the
constant nodes. -/
structure ConstantsFolded (net : MFNetworkBuilder) (probed : List (Nat × MFDataType))
    (computed : Nat → GenericValue) (result : MFNetworkBuilder) : Prop where
  node_amount : result.node_id_amount = net.node_id_amount + probed.length + probed.length
  socket_amount :
    result.socket_id_amount = net.socket_id_amount + probed.length + probed.length
  old_node : ∀ i, i < net.node_id_amount →
    result.node_or_null_by_id_at i = net.node_or_null_by_id_at i
  probe_node : ∀ i, net.node_id_amount ≤ i → i < net.node_id_amount + probed.length →
    result.node_or_null_by_id_at i = none
  folded_node : ∀ (i : Nat) (p : Nat × MFDataType), probed[i]? = some p →
    result.node_or_null_by_id_at (net.node_id_amount + probed.length + i) =
      some { function := some (constant_function p.2 (computed i)), inputs := [],
             outputs := [net.socket_id_amount + probed.length + i] }
  old_socket : ∀ t, t < net.socket_id_amount →
    result.socket_or_null_by_id_at t =
      (net.socket_or_null_by_id_at t).map
        (fold_socket (probed.map Prod.fst) (net.socket_id_amount + probed.length))
  probe_socket : ∀ t, net.socket_id_amount ≤ t → t < net.socket_id_amount + probed.length →
    result.socket_or_null_by_id_at t = none
  folded_socket : ∀ (i : Nat) (p : Nat × MFDataType), probed[i]? = some p →
    result.socket_or_null_by_id_at (net.socket_id_amount + probed.length + i) =
      some { node := net.node_id_amount + probed.length + i, is_output := true, index := 0,
             data_type := p.2, origin := none }

/-- For every probe of `net` the engine returns the value that arrives at the input socket
of the probe, which evaluation finds with `fuel`. -/
def engine_computes_probes (engine : MFNetworkBuilder → List Nat → Nat → GenericValue)
    (net : MFNetworkBuilder) (ctx : MFContext) (values : Nat → GenericValue) (fuel : Nat) :
    Bool :=
  let probed := add_probes (node_is_not_constant net) (constant_builder_nodes net) (net, [])
  let sockets_to_compute := probed.2.filterMap probed.1.input_0
  (List.range sockets_to_compute.length).all fun param_index =>
    match sockets_to_compute[param_index]? with
    | some t =>
      decide (evaluate_input probed.1 ctx values fuel t =
        some (engine probed.1 sockets_to_compute param_index))
    | none => true

/-- Function nodes that expose the same operation identity compute the same function. -/
def honest_identities (net : MFNetworkBuilder) : Prop :=
  ∀ b c nb nc fb fc p, net.node_or_null_by_id_at b = some nb →
    net.node_or_null_by_id_at c = some nc → nb.function = some fb → nc.function = some fc →
    fb.operation_hash = some p → fc.operation_hash = some p → fb.call = fc.call

/-- Lines 30-74: one iteration of the worklist loop, with node `id` on top of the stack
and `rest` below it. The result is the stack and the state after the iteration; it is
`none` when the top of the stack is not a function node or an origin hash is missing. -/
def hash_loop_step (rng : Nat → Nat) (net : MFNetworkBuilder) (id : Nat) (rest : List Nat)
    (st : HashState) : Option (List Nat × HashState) :=
  if st.node_outputs_are_hashed.getD id false then some (rest, st)
  else
    match net.node_or_null_by_id_at id with
    | none => none
    | some node =>
      match node.function with
      | none => none
      | some function =>
        match unhashed_origin_nodes net st node with
        | origin_node :: more => some ((origin_node :: more).reverse ++ id :: rest, st)
        | [] =>
          match combine_input_hashes rng net st.hash_by_output_socket node.inputs
              827823743 st.rng with
          | none => none
          | some (combined_inputs_hash, pos) =>
            let operation_hash :=
              match function.operation_hash with
              | some h => u32 h
              | none => u32 (rng pos)
            let pos1 :=
              match function.operation_hash with
              | some _ => pos
              | none => pos + 1
            let node_hash := u32 (combined_inputs_hash * 462347 + operation_hash)
            some (rest,
              { hash_by_output_socket :=
                  hash_outputs net node_hash node.outputs st.hash_by_output_socket
                node_outputs_are_hashed := st.node_outputs_are_hashed.set id true
                rng := pos1 })

/-- The worklist loop goes from stack and state `a` to stack and state `b` in one
iteration. -/
def hash_loop_next (rng : Nat → Nat) (net : MFNetworkBuilder)
    (a b : List Nat × HashState) : Prop :=
  ∃ id rest, a.1 = id :: rest ∧ hash_loop_step rng net id rest a.2 = some b

/-- Lines 16-29: the stack and the state when the worklist loop starts. -/
def hash_loop_start (rng : Nat → Nat) (net : MFNetworkBuilder) : List Nat × HashState :=
  (net.function_nodes.reverse,
    hash_dummy_nodes rng net net.dummy_nodes
      { hash_by_output_socket := List.replicate net.socket_id_amount none
        node_outputs_are_hashed := List.replicate net.node_id_amount false
        rng := 0 })

/-- Stack and state `a` occur in the run of the worklist loop on `net`. -/
def hash_loop_reaches (rng : Nat → Nat) (net : MFNetworkBuilder)
    (a : List Nat × HashState) : Prop :=
  Relation.ReflTransGen (hash_loop_next rng net) (hash_loop_start rng net) a

/-- The random operation hashes of the function nodes without operation identity that are
hashed in state `st` were drawn at pairwise different positions of the generator, below the
current position: `draw id` is the position for node `id`, and the hashes of the outputs
of `id` follow from the value drawn there by the polynomial of lines 49-71. -/
structure HashDraws (rng : Nat → Nat) (net : MFNetworkBuilder) (st : HashState)
    (draw : Nat → Nat) : Prop where
  formula : ∀ id n f, st.is_hashed id → net.node_or_null_by_id_at id = some n →
    n.function = some f → f.operation_hash = none →
    draw id < st.rng ∧
    ∃ pos c,
      combine_input_hashes rng net st.hash_by_output_socket n.inputs 827823743 pos =
        some (c, draw id) ∧
      ∀ o s, o ∈ n.outputs → net.socket_or_null_by_id_at o = some s →
        hash_at st.hash_by_output_socket o =
          some (u32 (u32 (c * 462347 + u32 (rng (draw id))) * (45234 + 567243 * s.index)))
  different : ∀ id1 id2 n1 n2 f1 f2, st.is_hashed id1 → st.is_hashed id2 →
    net.node_or_null_by_id_at id1 = some n1 → net.node_or_null_by_id_at id2 = some n2 →
    n1.function = some f1 → n2.function = some f2 → f1.operation_hash = none →
    f2.operation_hash = none → draw id1 = draw id2 → id1 = id2

/-- The invariant of the worklist loop on stack and state: the hashing invariant, every
stack entry is a function node, and the random operation hashes were drawn at different
positions. -/
structure HashLoopInv (rng : Nat → Nat) (net : MFNetworkBuilder)
    (a : List Nat × HashState) : Prop where
  inv : HashInv rng net a.2
  stack_functions : ∀ id ∈ a.1, net.is_function id = true
  draws : ∃ draw, HashDraws rng net a.2 draw

/-- The hashes `h_1, ..., h_n` that enter the accumulation for the inputs of a node, in
socket order: the hash of the origin for a linked input, and for an input without origin
the next value of the generator, starting at position `pos`. -/
def input_hashes (rng : Nat → Nat) (net : MFNetworkBuilder) (hashes : List (Option Nat)) :
    List Nat → Nat → Option (List Nat)
  | [], _ => some []
  | input_socket :: rest, pos =>
    match net.origin input_socket with
    | none => (input_hashes rng net hashes rest (pos + 1)).map (u32 (rng pos) :: ·)
    | some origin =>
      match hash_at hashes origin with
      | none => none
      | some input_hash => (input_hashes rng net hashes rest pos).map (input_hash :: ·)

/-- The accumulator of the specification, `acc_0 = 827823743` and
`acc_k = acc_(k-1) * 456123 + h_k`, in unbounded arithmetic. -/
def accumulated_hash (hs : List Nat) : Nat :=
  hs.foldl (fun acc h => acc * 456123 + h) 827823743

/-- The output hash of the specification for input hashes `hs`, operation identity `p` and
output index `i`: `(acc_n * 462347 + p) * (45234 + 567243 * i)` modulo `2 ^ 32`. -/
def output_hash_formula (hs : List Nat) (p i : Nat) : Nat :=
  ((accumulated_hash hs * 462347 + p) * (45234 + 567243 * i)) % 2 ^ 32

/-- The number of inputs in `inputs` without origin: the number of values that lines 49-61
draw from the generator for these inputs. -/
def unlinked_inputs (net : MFNetworkBuilder) (inputs : List Nat) : Nat :=
  (inputs.filter fun x => (net.origin x).isNone).length

/-- The number of values that lines 49-65 draw from the generator for a function node: one
for every input without origin, and one more when the function exposes no operation
identity. -/
def draws_of_node (net : MFNetworkBuilder) (node : MFBuilderNode)
    (function : MultiFunction) : Nat :=
  unlinked_inputs net node.inputs +
    match function.operation_hash with
    | some _ => 0
    | none => 1

/-- The generator position when the worklist loop starts: the number of values drawn by
the seeding loop of lines 21-27. -/
def seed_draws (rng : Nat → Nat) (net : MFNetworkBuilder) : Nat :=
  (hash_loop_start rng net).2.rng

/-- The run of the worklist loop on `net` hashes node `id` in an iteration that finds the
generator at position `first` and leaves it at position `last`: the run reaches a state
with `id` on top of the stack and not hashed, and the next iteration pops `id` and leaves
it hashed. -/
def hash_loop_hashes_node (rng : Nat → Nat) (net : MFNetworkBuilder)
    (id first last : Nat) : Prop :=
  ∃ rest st0 st1, hash_loop_reaches rng net (id :: rest, st0) ∧
    hash_loop_next rng net (id :: rest, st0) (rest, st1) ∧
    ¬ st0.is_hashed id ∧ st1.is_hashed id ∧ st0.rng = first ∧ st1.rng = last

/-- The record of the generator positions in state `st`: the hashes of the dummy outputs
are values drawn below `seed_draws`, and every hashed function node `id` was hashed in an
iteration of the run that found the generator at position `start id`, drew
`draws_of_node` values, and computed the hashes of its outputs from them by the polynomial
of lines 49-71; the positions used for different nodes do not overlap. -/
structure HashPositions (rng : Nat → Nat) (net : MFNetworkBuilder) (st : HashState)
    (start : Nat → Nat) : Prop where
  seeded : seed_draws rng net ≤ st.rng
  dummy : ∀ id n o, net.node_or_null_by_id_at id = some n → n.function = none →
    o ∈ n.outputs →
    ∃ q, q < seed_draws rng net ∧ hash_at st.hash_by_output_socket o = some (u32 (rng q))
  node : ∀ id n f, st.is_hashed id → net.node_or_null_by_id_at id = some n →
    n.function = some f →
    seed_draws rng net ≤ start id ∧ start id + draws_of_node net n f ≤ st.rng ∧
    hash_loop_hashes_node rng net id (start id) (start id + draws_of_node net n f) ∧
    ∃ c,
      combine_input_hashes rng net st.hash_by_output_socket n.inputs 827823743 (start id) =
        some (c, start id + unlinked_inputs net n.inputs) ∧
      ∀ o s, o ∈ n.outputs → net.socket_or_null_by_id_at o = some s →
        hash_at st.hash_by_output_socket o =
          some (u32 (u32 (c * 462347 +
              operation_hash_or_random rng f (start id + unlinked_inputs net n.inputs)) *
            (45234 + 567243 * s.index)))
  disjoint : ∀ id1 id2 n1 n2 f1 f2, st.is_hashed id1 → st.is_hashed id2 → id1 ≠ id2 →
    net.node_or_null_by_id_at id1 = some n1 → net.node_or_null_by_id_at id2 = some n2 →
    n1.function = some f1 → n2.function = some f2 →
    start id1 + draws_of_node net n1 f1 ≤ start id2 ∨
      start id2 + draws_of_node net n2 f2 ≤ start id1

/-- What the batch removal of `nodes` does to one socket entry of `net`. -/
def remove_nodes_socket (net : MFNetworkBuilder) (nodes : List Nat) :
    Option MFBuilderSocket → Option MFBuilderSocket
  | none => none
  | some s =>
    if s.node ∈ nodes then none
    else
      match s.origin.bind net.socket_node with
      | some m => if m ∈ nodes then some { s with origin := none } else some s
      | none => some s

/-- Node `id` has a forward path, possibly of length zero, to a dummy node. -/
def reaches_dummy (net : MFNetworkBuilder) (id : Nat) : Prop :=
  ∃ d, net.is_dummy d = true ∧ Relation.ReflTransGen net.link id d

/-- Whether entry `i` of the mask is set. -/
def marked (mask : List Bool) (i : Nat) : Prop := mask.getD i false = true

/-- The invariant of the reachability worklist: a marked node is on the stack or all its
neighbours are marked. -/
def mark_closed (next : Nat → List Nat) (mask : List Bool) (stack : List Nat) : Prop :=
  ∀ i, marked mask i → i ∈ stack ∨ ∀ m ∈ next i, marked mask m

/-- Nodes `x` and `y` are the same node or own two output sockets with the same hash. -/
def similar_nodes (net : MFNetworkBuilder) (hashes : List (Option Nat)) (x y : Nat) : Prop :=
  x = y ∨ ∃ o1 o2 h, net.socket_node o1 = some x ∧ net.socket_node o2 = some y ∧
    hash_at hashes o1 = some h ∧ hash_at hashes o2 = some h

/-! ## Example networks -/

/-- A function with one input and one output whose operation identity makes the hash of
its output collide with the hash of the output of `example_source` feeding it. -/
def example_colliding : MultiFunction :=
  { input_types := [MFDataType.Single 0]
    output_types := [MFDataType.Single 0]
    depends_on_context := false
    operation_hash := some 1167595296
    call := fun _ xs => xs }

/-- A function without inputs and with one output, with operation identity 0. -/
def example_source : MultiFunction :=
  { input_types := []
    output_types := [MFDataType.Single 0]
    depends_on_context := false
    operation_hash := some 0
    call := fun _ _ => [GenericValue.single 1] }

/-- The network `S -> N`: node 0 is `N` (`example_colliding`, input socket 0, output
socket 1), node 1 is `S` (`example_source`, output socket 2), and socket 2 feeds
socket 0. -/
def network_colliding : MFNetworkBuilder :=
  ((MFNetworkBuilder.empty.add_function example_colliding).add_function
    example_source).add_link 2 0

/-- A pure function with one input, one output and operation identity `p`. -/
def example_pure (p : Nat) : MultiFunction :=
  { input_types := [MFDataType.Single 0]
    output_types := [MFDataType.Single 0]
    depends_on_context := false
    operation_hash := some p
    call := fun _ xs => xs }

/-- A context-dependent function with two inputs and one output, without operation
identity. -/
def example_context_sum : MultiFunction :=
  { input_types := [MFDataType.Single 0, MFDataType.Single 0]
    output_types := [MFDataType.Single 0]
    depends_on_context := true
    operation_hash := none
    call := fun ctx xs =>
      match xs with
      | [GenericValue.single a, GenericValue.single b] => [GenericValue.single (a + b + ctx)]
      | _ => [GenericValue.single ctx] }

/-- The network `A -> B -> D`, `A -> C -> D`: `A` is a dummy (node 0, output socket 0),
`B` and `C` are the same pure function (nodes 1 and 2, sockets 1-2 and 3-4), `D` is a
context-dependent sum (node 3, input sockets 5 and 6, output socket 7). -/
def network_ABCD : MFNetworkBuilder :=
  ((((((((MFNetworkBuilder.empty.add_dummy [] [MFDataType.Single 0]).add_function
    (example_pure 7)).add_function (example_pure 7)).add_function
    example_context_sum).add_link 0 1).add_link 0 3).add_link 2 5).add_link 4 6)

/-- The network `A -> F -> E`, `A -> G`: `A` is a dummy (node 0, output socket 0), `F` and
`G` are pure functions (nodes 1 and 2, sockets 1-2 and 3-4), `E` is a dummy (node 3, input
socket 5) fed by `F`; nothing consumes the output of `G`. -/
def network_unused : MFNetworkBuilder :=
  (((((((MFNetworkBuilder.empty.add_dummy [] [MFDataType.Single 0]).add_function
    (example_pure 7)).add_function (example_pure 8)).add_dummy
    [MFDataType.Single 0] []).add_link 0 1).add_link 0 3).add_link 2 5)

/-- A zero-input function that returns the constant `v`. -/
def scenario_const (ty : MFDataType) (h : Option Nat) (v : GenericValue) : MultiFunction :=
  { input_types := []
    output_types := [ty]
    depends_on_context := false
    operation_hash := h
    call := fun _ _ => [v] }

/-- A function with one input and one output that does not depend on context. -/
def scenario_pure (ty : MFDataType) (h : Option Nat)
    (call : List GenericValue → List GenericValue) : MultiFunction :=
  { input_types := [ty]
    output_types := [ty]
    depends_on_context := false
    operation_hash := h
    call := fun _ xs => call xs }

/-- A function with one input and one output that depends on context. -/
def scenario_context (ty : MFDataType) (h : Option Nat)
    (call : MFContext → List GenericValue → List GenericValue) : MultiFunction :=
  { input_types := [ty]
    output_types := [ty]
    depends_on_context := true
    operation_hash := h
    call := call }

/-- The network `const1 -> Add -> D`: `const1` is node 0 (output socket 0), `Add` is node 1
(input socket 1, output socket 2), `D` is node 2 (input socket 3, output socket 4). -/
def network_const_add (f_const f_add f_d : MultiFunction) : MFNetworkBuilder :=
  ((((MFNetworkBuilder.empty.add_function f_const).add_function f_add).add_function
    f_d).add_link 0 1).add_link 2 3

/-- The successor of a single value. -/
def example_increment (xs : List GenericValue) : List GenericValue :=
  match xs with
  | [GenericValue.single a] => [GenericValue.single (a + 1)]
  | _ => [GenericValue.single 0]

/-- The sum of a single value and the context. -/
def example_add_context (ctx : MFContext) (xs : List GenericValue) : List GenericValue :=
  match xs with
  | [GenericValue.single a] => [GenericValue.single (a + ctx)]
  | _ => [GenericValue.single ctx]

/-- The network `const1 -> Add -> D` with `const1 = 5`, `Add` the successor and `D` the sum
with the context. -/
def network_const_add_example : MFNetworkBuilder :=
  network_const_add (scenario_const (MFDataType.Single 0) (some 1) (GenericValue.single 5))
    (scenario_pure (MFDataType.Single 0) (some 2) example_increment)
    (scenario_context (MFDataType.Single 0) none example_add_context)

/-- An evaluation engine for the examples: it evaluates each socket to compute with the
evaluator of this file, without context and with external values 0. -/
def example_engine (net : MFNetworkBuilder) (sockets_to_compute : List Nat)
    (param_index : Nat) : GenericValue :=
  match sockets_to_compute[param_index]? with
  | some t =>
    (evaluate_input net 0 (fun _ => GenericValue.single 0) net.node_id_amount t).getD default
  | none => default

/-- The network `const1 -> Add -> E`, `A -> F -> E2` without context-dependent nodes:
`const1 = 5` is node 0 (output socket 0), `Add` is the successor (node 1, input socket 1,
output socket 2), `E` is a dummy (node 2, input socket 3), `A` is a dummy (node 3, output
socket 4), `F` is the successor (node 4, sockets 5 and 6) and `E2` is a dummy (node 5,
input socket 7). -/
def network_fold_example : MFNetworkBuilder :=
  ((((((((((MFNetworkBuilder.empty.add_function
    (scenario_const (MFDataType.Single 0) (some 1) (GenericValue.single 5))).add_function
    (scenario_pure (MFDataType.Single 0) (some 2) example_increment)).add_dummy
    [MFDataType.Single 0] []).add_dummy [] [MFDataType.Single 0]).add_function
    (scenario_pure (MFDataType.Single 0) (some 2) example_increment)).add_dummy
    [MFDataType.Single 0] []).add_link 0 1).add_link 2 3).add_link 4 5).add_link 6 7)

/-- External values used in the examples: socket `t` carries the value `t + 10`. -/
def example_values (t : Nat) : GenericValue := GenericValue.single (t + 10)

/-- A function without inputs and with two outputs that returns 1 and 2; its operation
identity makes the node hash of lines 49-63 zero, so that both outputs get hash 0. -/
def example_two_outputs : MultiFunction :=
  { input_types := []
    output_types := [MFDataType.Single 0, MFDataType.Single 0]
    depends_on_context := false
    operation_hash := some 4186478219
    call := fun _ _ => [GenericValue.single 1, GenericValue.single 2] }

/-- The network `G -> E`: `G` is `example_two_outputs` (node 0, output sockets 0 and 1) and
`E` is a dummy with two inputs (node 1, input sockets 2 and 3); output 0 feeds input 2 and
output 1 feeds input 3. -/
def network_two_outputs : MFNetworkBuilder :=
  (((MFNetworkBuilder.empty.add_function example_two_outputs).add_dummy
    [MFDataType.Single 0, MFDataType.Single 0] []).add_link 0 2).add_link 1 3

/-- The chain `const1 -> Add -> const2 -> Mul -> D`: `const1` is node 0 (output socket 0),
`Add` is node 1 (sockets 1 and 2), `const2` is node 2 (sockets 3 and 4), `Mul` is node 3
(sockets 5 and 6) and `D` is node 4 (input socket 7, output socket 8). -/
def network_chain (f_const1 f_add f_const2 f_mul f_d : MultiFunction) : MFNetworkBuilder :=
  ((((((((MFNetworkBuilder.empty.add_function f_const1).add_function f_add).add_function
    f_const2).add_function f_mul).add_function f_d).add_link 0 1).add_link 2 3).add_link
    4 5).add_link 6 7

/-- The double of a single value. -/
def example_double (xs : List GenericValue) : List GenericValue :=
  match xs with
  | [GenericValue.single a] => [GenericValue.single (2 * a)]
  | _ => [GenericValue.single 0]

/-- The chain `const1 -> Add -> const2 -> Mul -> D` with `const1 = 5`, `Add` and `const2`
the successor, `Mul` the double and `D` the sum with the context. -/
def network_chain_example : MFNetworkBuilder :=
  network_chain (scenario_const (MFDataType.Single 0) (some 1) (GenericValue.single 5))
    (scenario_pure (MFDataType.Single 0) (some 2) example_increment)
    (scenario_pure (MFDataType.Single 0) (some 3) example_increment)
    (scenario_pure (MFDataType.Single 0) (some 4) example_double)
    (scenario_context (MFDataType.Single 0) none example_add_context)

/-- The network `const1 -> Add`, `A -> D`: `const1 = 5` is node 0 (output socket 0), `Add`
is the successor (node 1, input socket 1, output socket 2), `A` is a dummy (node 2, output
socket 3) and `D` is the sum with the context (node 3, input socket 4, output socket 5);
nothing consumes the output of `Add`. -/
def network_no_frontier : MFNetworkBuilder :=
  (((((MFNetworkBuilder.empty.add_function
    (scenario_const (MFDataType.Single 0) (some 1) (GenericValue.single 5))).add_function
    (scenario_pure (MFDataType.Single 0) (some 2) example_increment)).add_dummy
    [] [MFDataType.Single 0]).add_function
    (scenario_context (MFDataType.Single 0) none example_add_context)).add_link 0 1).add_link
    3 4

/-- A function without inputs and with two outputs that returns 1 and 2, with operation
identity 0; its node hash of lines 49-65 is odd. -/
def example_pair : MultiFunction :=
  { input_types := []
    output_types := [MFDataType.Single 0, MFDataType.Single 0]
    depends_on_context := false
    operation_hash := some 0
    call := fun _ _ => [GenericValue.single 1, GenericValue.single 2] }

/-- The network `P -> E`: `P` is `example_pair` (node 0, output sockets 0 and 1) and `E` is
a dummy with two inputs (node 1, input sockets 2 and 3); output 0 feeds input 2 and
output 1 feeds input 3. -/
def network_pair : MFNetworkBuilder :=
  (((MFNetworkBuilder.empty.add_function example_pair).add_dummy
    [MFDataType.Single 0, MFDataType.Single 0] []).add_link 0 2).add_link 1 3

/-- The network `A`, `X -> E`, `Y -> E`: `A` is a dummy (node 0, output socket 0), `X` and
`Y` are the same pure function with operation identity 7 (node 1 with sockets 1-2 and
node 2 with sockets 3-4) whose inputs have no origin, and `E` is a dummy with two inputs
(node 3, input sockets 5 and 6) fed by `X` and `Y`. -/
def network_unlinked : MFNetworkBuilder :=
  ((((((MFNetworkBuilder.empty.add_dummy [] [MFDataType.Single 0]).add_function
    (example_pure 7)).add_function (example_pure 7)).add_dummy
    [MFDataType.Single 0, MFDataType.Single 0] []).add_link 2 5).add_link 4 6)

/-- A generator used in the examples. -/
def example_rng (k : Nat) : Nat := 1103515245 * k + 12345

open MFNetworkBuilder

/-! ## Relinking -/

namespace MFNetworkBuilder

theorem socket_at_eq_some_lt {net : MFNetworkBuilder} {i : Nat} {s : MFBuilderSocket}
    (h : net.socket_or_null_by_id_at i = some s) : i < net.socket_id_amount := by
  unfold socket_or_null_by_id_at at h
  unfold socket_id_amount
  by_contra hlt
  rw [List.getElem?_eq_none (by omega)] at h
  simp at h

theorem socket_at_relink_origin (net : MFNetworkBuilder) (r t i : Nat) :
    (net.relink_origin r t).socket_or_null_by_id_at i =
      if i = t then
        (net.socket_or_null_by_id_at t).map fun s => { s with origin := some r }
      else net.socket_or_null_by_id_at i := by
  unfold relink_origin
  cases h : net.socket_or_null_by_id_at t with
  | none => by_cases hi : i = t <;> simp [hi, h]
  | some s =>
    have hlt := socket_at_eq_some_lt h
    unfold socket_id_amount at hlt
    by_cases hi : i = t
    · subst hi
      simp [socket_or_null_by_id_at, List.getElem?_set, hlt]
    · have : t ≠ i := fun e => hi e.symm
      simp [socket_or_null_by_id_at, List.getElem?_set, hi, this]

theorem nodes_relink_origin (net : MFNetworkBuilder) (r t : Nat) :
    (net.relink_origin r t).node_or_null_by_id = net.node_or_null_by_id := by
  unfold relink_origin
  cases net.socket_or_null_by_id_at t <;> rfl

theorem socket_id_amount_relink_origin (net : MFNetworkBuilder) (r t : Nat) :
    (net.relink_origin r t).socket_id_amount = net.socket_id_amount := by
  unfold relink_origin
  cases net.socket_or_null_by_id_at t <;> simp [socket_id_amount]

theorem origin_relink_origin (net : MFNetworkBuilder) (r t i : Nat) :
    (net.relink_origin r t).origin i =
      if i = t ∧ (net.socket_or_null_by_id_at t).isSome then some r else net.origin i := by
  unfold origin
  rw [socket_at_relink_origin]
  by_cases hi : i = t
  · subst hi
    cases h : net.socket_or_null_by_id_at i <;> simp
  · simp [hi]

theorem origin_eq_some_lt {net : MFNetworkBuilder} {t o : Nat} (h : net.origin t = some o) :
    t < net.socket_id_amount := by
  unfold origin at h
  cases hs : net.socket_or_null_by_id_at t with
  | none => simp [hs] at h
  | some s => exact socket_at_eq_some_lt hs

theorem mem_targets {net : MFNetworkBuilder} {s t : Nat} :
    t ∈ net.targets s ↔ net.origin t = some s := by
  unfold targets
  simp only [List.mem_filter, List.mem_range, beq_iff_eq]
  constructor
  · exact fun h => h.2
  · exact fun h => ⟨origin_eq_some_lt h, h⟩

end MFNetworkBuilder



theorem same_nodes_and_sockets_refl (net : MFNetworkBuilder) :
    same_nodes_and_sockets net net := ⟨rfl, rfl, fun _ => rfl⟩

theorem same_nodes_and_sockets_trans {a b c : MFNetworkBuilder}
    (h1 : same_nodes_and_sockets a b) (h2 : same_nodes_and_sockets b c) :
    same_nodes_and_sockets a c :=
  ⟨h2.1.trans h1.1, h2.2.1.trans h1.2.1, fun i => (h2.2.2 i).trans (h1.2.2 i)⟩

theorem same_nodes_and_sockets_relink_origin (net : MFNetworkBuilder) (r t : Nat) :
    same_nodes_and_sockets net (net.relink_origin r t) := by
  refine ⟨nodes_relink_origin net r t, socket_id_amount_relink_origin net r t, fun i => ?_⟩
  rw [socket_at_relink_origin]
  by_cases hi : i = t
  · subst hi
    cases net.socket_or_null_by_id_at i <;> simp [MFBuilderSocket.without_origin]
  · simp [hi]

theorem same_nodes_and_sockets_isSome {net net1 : MFNetworkBuilder}
    (h : same_nodes_and_sockets net net1) (i : Nat) :
    (net1.socket_or_null_by_id_at i).isSome = (net.socket_or_null_by_id_at i).isSome := by
  have := congrArg Option.isSome (h.2.2 i)
  simpa using this

theorem same_nodes_and_sockets_relink_targets (net : MFNetworkBuilder) (r : Nat)
    (ts : List Nat) : same_nodes_and_sockets net (relink_targets net r ts) := by
  induction ts generalizing net with
  | nil => exact same_nodes_and_sockets_refl net
  | cons t ts ih =>
    exact same_nodes_and_sockets_trans (same_nodes_and_sockets_relink_origin net r t)
      (ih (net.relink_origin r t))

theorem origin_relink_targets (net : MFNetworkBuilder) (r : Nat) (ts : List Nat) (i : Nat) :
    (relink_targets net r ts).origin i =
      if i ∈ ts ∧ (net.socket_or_null_by_id_at i).isSome then some r else net.origin i := by
  induction ts generalizing net with
  | nil => simp [relink_targets]
  | cons t ts ih =>
    have hstep : relink_targets net r (t :: ts) = relink_targets (net.relink_origin r t) r ts :=
      rfl
    rw [hstep, ih, origin_relink_origin,
      same_nodes_and_sockets_isSome (same_nodes_and_sockets_relink_origin net r t)]
    by_cases hi : i = t
    · subst hi
      by_cases hl : (net.socket_or_null_by_id_at i).isSome <;> simp [hl]
    · by_cases hm : i ∈ ts <;> simp [hi, hm]

theorem origin_relink_all_targets (net : MFNetworkBuilder) (r s i : Nat) :
    (relink_targets net r (net.targets s)).origin i =
      if net.origin i = some s then some r else net.origin i := by
  rw [origin_relink_targets]
  by_cases h : net.origin i = some s
  · have hm : i ∈ net.targets s := mem_targets.mpr h
    have hl : (net.socket_or_null_by_id_at i).isSome := by
      unfold origin at h
      cases hs : net.socket_or_null_by_id_at i with
      | none => simp [hs] at h
      | some _ => rfl
    simp [h, hm, hl]
  · have hm : i ∉ net.targets s := fun hm => h (mem_targets.mp hm)
    simp [h, hm]


theorem origin_foldl_relink (net : MFNetworkBuilder) (r : Nat) (rest : List Nat)
    (hr : r ∉ rest) (i : Nat) :
    (rest.foldl (fun nb socket => relink_targets nb r (nb.targets socket)) net).origin i =
      (net.origin i).map fun o => if o ∈ rest then r else o := by
  induction rest generalizing net with
  | nil => simp
  | cons s rest ih =>
    have hr1 : r ∉ rest := fun h => hr (List.mem_cons_of_mem _ h)
    have hrs : r ≠ s := fun h => hr (h ▸ List.mem_cons_self _ _)
    rw [List.foldl_cons, ih _ hr1, origin_relink_all_targets]
    cases ho : net.origin i with
    | none => simp
    | some o =>
      by_cases hos : o = s
      · subst hos
        simp [hr1]
      · simp [hos]

theorem same_nodes_and_sockets_foldl_relink (net : MFNetworkBuilder) (r : Nat)
    (rest : List Nat) :
    same_nodes_and_sockets net
      (rest.foldl (fun nb socket => relink_targets nb r (nb.targets socket)) net) := by
  induction rest generalizing net with
  | nil => exact same_nodes_and_sockets_refl net
  | cons s rest ih =>
    exact same_nodes_and_sockets_trans (same_nodes_and_sockets_relink_targets net r _) (ih _)

theorem origin_deduplicate_outputs (net : MFNetworkBuilder) (c : List Nat) (hc : c.Nodup)
    (i : Nat) :
    (deduplicate_outputs net c).origin i = (net.origin i).map (class_representative c) := by
  match c, hc with
  | [], _ =>
    simp only [deduplicate_outputs]
    cases net.origin i <;> simp [class_representative]
  | [r], _ =>
    simp only [deduplicate_outputs]
    cases net.origin i <;> simp [class_representative]
  | r :: s :: rest, hc =>
    have hr : r ∉ s :: rest := (List.nodup_cons.mp hc).1
    simp only [deduplicate_outputs, class_representative]
    exact origin_foldl_relink net r (s :: rest) hr i

theorem same_nodes_and_sockets_deduplicate_outputs (net : MFNetworkBuilder) (c : List Nat) :
    same_nodes_and_sockets net (deduplicate_outputs net c) := by
  match c with
  | [] => exact same_nodes_and_sockets_refl net
  | [r] => exact same_nodes_and_sockets_refl net
  | r :: s :: rest => exact same_nodes_and_sockets_foldl_relink net r (s :: rest)


theorem origin_deduplicate_all (net : MFNetworkBuilder) (m : List (Nat × List Nat))
    (hm : ∀ item ∈ m, item.2.Nodup) (i : Nat) :
    (deduplicate_all net m).origin i = (net.origin i).map (representative m) := by
  induction m generalizing net with
  | nil =>
    simp only [deduplicate_all, List.foldl_nil]
    cases net.origin i <;> simp [representative]
  | cons item m ih =>
    have h1 : deduplicate_all net (item :: m) =
        deduplicate_all (deduplicate_outputs net item.2) m := rfl
    rw [h1, ih _ (fun x hx => hm x (List.mem_cons_of_mem _ hx)),
      origin_deduplicate_outputs net item.2 (hm item (List.mem_cons_self _ _))]
    cases net.origin i <;> simp [representative]

theorem same_nodes_and_sockets_deduplicate_all (net : MFNetworkBuilder)
    (m : List (Nat × List Nat)) : same_nodes_and_sockets net (deduplicate_all net m) := by
  induction m generalizing net with
  | nil => exact same_nodes_and_sockets_refl net
  | cons item m ih =>
    exact same_nodes_and_sockets_trans (same_nodes_and_sockets_deduplicate_outputs net item.2)
      (ih _)

/-! ## Grouping by hash -/

theorem MultiMap_values_add (m : List (Nat × List Nat)) (h id k : Nat) :
    MultiMap_values (MultiMap_add m h id) k =
      if k = h then MultiMap_values m h ++ [id] else MultiMap_values m k := by
  induction m with
  | nil =>
    by_cases hk : k = h
    · simp [MultiMap_add, MultiMap_values, hk]
    · have : ¬ h = k := fun e => hk e.symm
      simp [MultiMap_add, MultiMap_values, hk, this]
  | cons item m ih =>
    obtain ⟨k1, vs⟩ := item
    by_cases h1 : k1 = h
    · subst h1
      by_cases hk : k = k1
      · subst hk
        simp [MultiMap_add, MultiMap_values]
      · have : ¬ k1 = k := fun e => hk e.symm
        simp [MultiMap_add, MultiMap_values, hk, this]
    · by_cases hk : k = h
      · subst hk
        simp [MultiMap_add, MultiMap_values, h1, ih]
      · by_cases hk1 : k1 = k
        · simp [MultiMap_add, MultiMap_values, h1, hk, hk1]
        · simp [MultiMap_add, MultiMap_values, h1, hk, hk1, ih]

theorem MultiMap_keys_add (m : List (Nat × List Nat)) (h id k : Nat) :
    k ∈ (MultiMap_add m h id).map Prod.fst ↔ k ∈ m.map Prod.fst ∨ k = h := by
  induction m with
  | nil => simp [MultiMap_add]
  | cons item m ih =>
    obtain ⟨k1, vs⟩ := item
    by_cases h1 : k1 = h
    · subst h1
      simp only [MultiMap_add, if_true, List.map_cons, List.mem_cons]
      tauto
    · simp only [MultiMap_add, h1, if_false, List.map_cons, List.mem_cons, ih]
      tauto

theorem MultiMap_keys_nodup_add (m : List (Nat × List Nat)) (h id : Nat)
    (hm : (m.map Prod.fst).Nodup) : ((MultiMap_add m h id).map Prod.fst).Nodup := by
  induction m with
  | nil => simp [MultiMap_add]
  | cons item m ih =>
    obtain ⟨k1, vs⟩ := item
    have hm1 := List.nodup_cons.mp hm
    by_cases h1 : k1 = h
    · subst h1
      simpa [MultiMap_add] using hm
    · simp only [MultiMap_add, h1, if_false, List.map_cons]
      refine List.nodup_cons.mpr ⟨?_, ih hm1.2⟩
      intro hk
      rcases (MultiMap_keys_add m h id k1).mp hk with hk | hk
      · exact hm1.1 hk
      · exact h1 hk

theorem MultiMap_nonempty_add (m : List (Nat × List Nat)) (h id : Nat)
    (hm : ∀ item ∈ m, item.2 ≠ []) : ∀ item ∈ MultiMap_add m h id, item.2 ≠ [] := by
  induction m with
  | nil => simp [MultiMap_add]
  | cons item m ih =>
    obtain ⟨k1, vs⟩ := item
    by_cases h1 : k1 = h
    · subst h1
      intro x hx
      simp only [MultiMap_add, if_true, List.mem_cons] at hx
      rcases hx with hx | hx
      · subst hx
        simp
      · exact hm x (List.mem_cons_of_mem _ hx)
    · intro x hx
      simp only [MultiMap_add, h1, if_false, List.mem_cons] at hx
      rcases hx with hx | hx
      · subst hx
        exact hm _ (List.mem_cons_self _ _)
      · exact ih (fun y hy => hm y (List.mem_cons_of_mem _ hy)) x hx

theorem MultiMap_values_of_mem (m : List (Nat × List Nat)) (hm : (m.map Prod.fst).Nodup)
    (item : Nat × List Nat) (hi : item ∈ m) : MultiMap_values m item.1 = item.2 := by
  induction m with
  | nil => simp at hi
  | cons x m ih =>
    obtain ⟨k1, vs⟩ := x
    have hm1 := List.nodup_cons.mp hm
    rcases List.mem_cons.mp hi with hx | hx
    · subst hx
      simp [MultiMap_values]
    · have hne : k1 ≠ item.1 := by
        intro e
        apply hm1.1
        exact List.mem_map.mpr ⟨item, hx, e.symm⟩
      simp [MultiMap_values, hne, ih hm1.2 hx]


theorem group_foldl_values (hashes : List (Option Nat)) (ids : List Nat)
    (m : List (Nat × List Nat)) (k : Nat) :
    MultiMap_values (ids.foldl (group_step hashes) m) k =
      MultiMap_values m k ++ ids.filter (fun id => hash_at hashes id == some k) := by
  induction ids generalizing m with
  | nil => simp
  | cons id ids ih =>
    rw [List.foldl_cons, ih]
    unfold group_step
    cases hh : hash_at hashes id with
    | none => simp [List.filter_cons, hh]
    | some h =>
      simp only [MultiMap_values_add]
      by_cases hk : k = h
      · subst hk
        simp [List.filter_cons, hh]
      · have : ¬ h = k := fun e => hk e.symm
        simp [List.filter_cons, hh, hk, this]

theorem group_foldl_keys_nodup (hashes : List (Option Nat)) (ids : List Nat)
    (m : List (Nat × List Nat)) (hm : (m.map Prod.fst).Nodup) :
    ((ids.foldl (group_step hashes) m).map Prod.fst).Nodup := by
  induction ids generalizing m with
  | nil => simpa using hm
  | cons id ids ih =>
    rw [List.foldl_cons]
    apply ih
    unfold group_step
    cases hash_at hashes id with
    | none => exact hm
    | some h => exact MultiMap_keys_nodup_add m h id hm

theorem group_foldl_nonempty (hashes : List (Option Nat)) (ids : List Nat)
    (m : List (Nat × List Nat)) (hm : ∀ item ∈ m, item.2 ≠ []) :
    ∀ item ∈ ids.foldl (group_step hashes) m, item.2 ≠ [] := by
  induction ids generalizing m with
  | nil => simpa using hm
  | cons id ids ih =>
    rw [List.foldl_cons]
    apply ih
    unfold group_step
    cases hash_at hashes id with
    | none => exact hm
    | some h => exact MultiMap_nonempty_add m h id hm

theorem group_foldl_keys (hashes : List (Option Nat)) (ids : List Nat)
    (m : List (Nat × List Nat)) (k : Nat) :
    k ∈ (ids.foldl (group_step hashes) m).map Prod.fst ↔
      k ∈ m.map Prod.fst ∨ ∃ id ∈ ids, hash_at hashes id = some k := by
  induction ids generalizing m with
  | nil => simp
  | cons id ids ih =>
    rw [List.foldl_cons, ih]
    unfold group_step
    cases hh : hash_at hashes id with
    | none =>
      simp only [List.mem_cons, exists_eq_or_imp, hh]
      simp
    | some h =>
      simp only [MultiMap_keys_add, List.mem_cons, exists_eq_or_imp, hh, Option.some.injEq]
      constructor
      · rintro ((h1 | h1) | h1)
        · exact Or.inl h1
        · exact Or.inr (Or.inl h1.symm)
        · exact Or.inr (Or.inr h1)
      · rintro (h1 | h1 | h1)
        · exact Or.inl (Or.inl h1)
        · exact Or.inl (Or.inr h1.symm)
        · exact Or.inr h1


theorem outputs_by_hash_eq (hashes : List (Option Nat)) :
    outputs_by_hash hashes = (List.range hashes.length).foldl (group_step hashes) [] := rfl

theorem outputs_by_hash_keys_nodup (hashes : List (Option Nat)) :
    ((outputs_by_hash hashes).map Prod.fst).Nodup := by
  rw [outputs_by_hash_eq]
  exact group_foldl_keys_nodup hashes _ [] (by simp)

theorem outputs_by_hash_item (hashes : List (Option Nat)) (item : Nat × List Nat)
    (hi : item ∈ outputs_by_hash hashes) :
    item.2 = hash_class hashes item.1 ∧ item.2 ≠ [] := by
  constructor
  · rw [← MultiMap_values_of_mem _ (outputs_by_hash_keys_nodup hashes) item hi,
      outputs_by_hash_eq, group_foldl_values]
    simp [MultiMap_values, hash_class]
  · rw [outputs_by_hash_eq] at hi
    exact group_foldl_nonempty hashes _ [] (by simp) item hi

theorem hash_at_eq_some_lt {hashes : List (Option Nat)} {id h : Nat}
    (hh : hash_at hashes id = some h) : id < hashes.length := by
  unfold hash_at at hh
  by_contra hlt
  rw [List.getElem?_eq_none (by omega)] at hh
  simp at hh

theorem outputs_by_hash_key (hashes : List (Option Nat)) (id h : Nat)
    (hh : hash_at hashes id = some h) : h ∈ (outputs_by_hash hashes).map Prod.fst := by
  rw [outputs_by_hash_eq, group_foldl_keys]
  exact Or.inr ⟨id, List.mem_range.mpr (hash_at_eq_some_lt hh), hh⟩

theorem mem_hash_class {hashes : List (Option Nat)} {h id : Nat} :
    id ∈ hash_class hashes h ↔ hash_at hashes id = some h := by
  unfold hash_class
  simp only [List.mem_filter, List.mem_range, beq_iff_eq]
  exact ⟨fun x => x.2, fun x => ⟨hash_at_eq_some_lt x, x⟩⟩

theorem hash_class_nodup (hashes : List (Option Nat)) (h : Nat) :
    (hash_class hashes h).Nodup :=
  (List.nodup_range _).filter _


theorem class_representative_of_not_mem (c : List Nat) (o : Nat) (h : o ∉ c) :
    class_representative c o = o := by
  cases c with
  | nil => rfl
  | cons r rest =>
    have : o ∉ rest := fun hm => h (List.mem_cons_of_mem _ hm)
    simp [class_representative, this]

theorem class_representative_of_mem (c : List Nat) (o : Nat) (h : o ∈ c) (hc : c.Nodup) :
    class_representative c o = c.headD 0 := by
  cases c with
  | nil => simp at h
  | cons r rest =>
    rcases List.mem_cons.mp h with h1 | h1
    · subst h1
      have := (List.nodup_cons.mp hc).1
      simp [class_representative, this]
    · simp [class_representative, h1]

theorem representative_of_no_key (hashes : List (Option Nat)) (m : List (Nat × List Nat))
    (hm : ∀ item ∈ m, item.2 = hash_class hashes item.1) (o : Nat)
    (ho : ∀ h, hash_at hashes o = some h → h ∉ m.map Prod.fst) : representative m o = o := by
  induction m with
  | nil => rfl
  | cons item m ih =>
    have h1 : representative (item :: m) o = representative m (class_representative item.2 o) :=
      rfl
    have h2 : class_representative item.2 o = o := by
      apply class_representative_of_not_mem
      rw [hm item (List.mem_cons_self _ _)]
      intro hmem
      exact ho _ (mem_hash_class.mp hmem) (by simp)
    rw [h1, h2]
    apply ih (fun x hx => hm x (List.mem_cons_of_mem _ hx))
    intro h hh hk
    exact ho h hh (by simp only [List.map_cons, List.mem_cons]; exact Or.inr hk)

theorem hash_at_first_with_hash (hashes : List (Option Nat)) (h : Nat)
    (hne : hash_class hashes h ≠ []) : hash_at hashes (first_with_hash hashes h) = some h := by
  apply mem_hash_class.mp
  unfold first_with_hash
  cases hc : hash_class hashes h with
  | nil => exact absurd hc hne
  | cons r rest => simp

theorem representative_of_key (hashes : List (Option Nat)) (m : List (Nat × List Nat))
    (hm : ∀ item ∈ m, item.2 = hash_class hashes item.1) (hk : (m.map Prod.fst).Nodup)
    (o h : Nat) (ho : hash_at hashes o = some h) (hmem : h ∈ m.map Prod.fst) :
    representative m o = first_with_hash hashes h := by
  induction m generalizing o with
  | nil => simp at hmem
  | cons item m ih =>
    have h1 : representative (item :: m) o = representative m (class_representative item.2 o) :=
      rfl
    have hk1 := List.nodup_cons.mp (by simpa using hk : (item.1 :: m.map Prod.fst).Nodup)
    have hm1 : ∀ x ∈ m, x.2 = hash_class hashes x.1 :=
      fun x hx => hm x (List.mem_cons_of_mem _ hx)
    have hitem := hm item (List.mem_cons_self _ _)
    by_cases hi : item.1 = h
    · have hoc : o ∈ hash_class hashes h := mem_hash_class.mpr ho
      have h2 : class_representative item.2 o = first_with_hash hashes h := by
        rw [hitem, hi]
        exact class_representative_of_mem _ o hoc (hash_class_nodup hashes h)
      rw [h1, h2]
      apply representative_of_no_key hashes m hm1
      intro h3 hh3
      have hne : hash_class hashes h ≠ [] := List.ne_nil_of_mem hoc
      rw [hash_at_first_with_hash hashes h hne] at hh3
      cases hh3
      rw [← hi]
      exact hk1.1
    · have h2 : class_representative item.2 o = o := by
        apply class_representative_of_not_mem
        rw [hitem]
        intro hx
        have := mem_hash_class.mp hx
        rw [ho] at this
        exact hi (Option.some.inj this).symm
      rw [h1, h2]
      apply ih hm1 hk1.2 o ho
      simp only [List.map_cons, List.mem_cons] at hmem
      rcases hmem with hmem | hmem
      · exact absurd hmem.symm hi
      · exact hmem

/-- After grouping, every hashed socket is replaced by the first socket with its hash, and
every other socket by itself. -/
theorem representative_outputs_by_hash (hashes : List (Option Nat)) (o : Nat) :
    representative (outputs_by_hash hashes) o =
      match hash_at hashes o with
      | some h => first_with_hash hashes h
      | none => o := by
  have hm : ∀ item ∈ outputs_by_hash hashes, item.2 = hash_class hashes item.1 :=
    fun item hi => (outputs_by_hash_item hashes item hi).1
  cases ho : hash_at hashes o with
  | none =>
    exact representative_of_no_key hashes _ hm o (by simp [ho])
  | some h =>
    exact representative_of_key hashes _ hm (outputs_by_hash_keys_nodup hashes) o h ho
      (outputs_by_hash_key hashes o h ho)

theorem first_with_hash_le (hashes : List (Option Nat)) (h id : Nat)
    (hid : hash_at hashes id = some h) : first_with_hash hashes h ≤ id := by
  have hmem : id ∈ hash_class hashes h := mem_hash_class.mpr hid
  have hs : (hash_class hashes h).Pairwise (· < ·) :=
    (List.pairwise_lt_range _).filter _
  unfold first_with_hash
  cases hc : hash_class hashes h with
  | nil => rw [hc] at hmem; simp at hmem
  | cons r rest =>
    rw [hc] at hmem hs
    simp only [List.headD_cons]
    rcases List.mem_cons.mp hmem with e | e
    · omega
    · exact Nat.le_of_lt ((List.pairwise_cons.mp hs).1 id e)

theorem first_with_hash_spec (hashes : List (Option Nat)) {h s : Nat}
    (hs : hash_at hashes s = some h) :
    hash_at hashes (first_with_hash hashes h) = some h ∧
      ∀ s1, hash_at hashes s1 = some h → first_with_hash hashes h ≤ s1 :=
  ⟨hash_at_first_with_hash hashes h (List.ne_nil_of_mem (mem_hash_class.mpr hs)),
    fun s1 hs1 => first_with_hash_le hashes h s1 hs1⟩

/-! ## Well-formed networks -/

namespace MFNetworkBuilder

theorem node_at_eq_some_lt {net : MFNetworkBuilder} {i : Nat} {n : MFBuilderNode}
    (h : net.node_or_null_by_id_at i = some n) : i < net.node_id_amount := by
  unfold node_or_null_by_id_at at h
  unfold node_id_amount
  by_contra hlt
  rw [List.getElem?_eq_none (by omega)] at h
  simp at h

theorem sockets_owned_getElem? {net : MFNetworkBuilder} {id : Nat} {dir : Bool}
    {sockets : List Nat} (h : net.sockets_owned id dir sockets = true) {k t : Nat}
    (hk : sockets[k]? = some t) :
    ∃ s, net.socket_or_null_by_id_at t = some s ∧ s.node = id ∧ s.is_output = dir ∧
      s.index = k := by
  unfold sockets_owned at h
  rw [List.all_eq_true] at h
  have h1 := h (k, t) (List.mk_mem_enum_iff_getElem?.mpr hk)
  simp only at h1
  cases hs : net.socket_or_null_by_id_at t with
  | none => rw [hs] at h1; simp at h1
  | some s =>
    rw [hs] at h1
    simp only [Bool.and_eq_true, beq_iff_eq] at h1
    exact ⟨s, rfl, h1.1.1, h1.1.2, h1.2⟩

theorem wellformed_inputs {net : MFNetworkBuilder} (hwf : net.wellformed = true) {id : Nat}
    {n : MFBuilderNode} (hn : net.node_or_null_by_id_at id = some n) {k t : Nat}
    (hk : n.inputs[k]? = some t) :
    ∃ s, net.socket_or_null_by_id_at t = some s ∧ s.node = id ∧ s.is_output = false ∧
      s.index = k := by
  unfold wellformed at hwf
  rw [Bool.and_eq_true, List.all_eq_true] at hwf
  have h1 := hwf.1 id (List.mem_range.mpr (node_at_eq_some_lt hn))
  simp only [hn, Bool.and_eq_true] at h1
  exact sockets_owned_getElem? h1.1 hk

theorem wellformed_outputs {net : MFNetworkBuilder} (hwf : net.wellformed = true) {id : Nat}
    {n : MFBuilderNode} (hn : net.node_or_null_by_id_at id = some n) {k t : Nat}
    (hk : n.outputs[k]? = some t) :
    ∃ s, net.socket_or_null_by_id_at t = some s ∧ s.node = id ∧ s.is_output = true ∧
      s.index = k := by
  unfold wellformed at hwf
  rw [Bool.and_eq_true, List.all_eq_true] at hwf
  have h1 := hwf.1 id (List.mem_range.mpr (node_at_eq_some_lt hn))
  simp only [hn, Bool.and_eq_true] at h1
  exact sockets_owned_getElem? h1.2 hk

theorem wellformed_socket_ok {net : MFNetworkBuilder} (hwf : net.wellformed = true)
    {sid : Nat} {s : MFBuilderSocket} (hs : net.socket_or_null_by_id_at sid = some s) :
    net.socket_ok sid s = true := by
  unfold wellformed at hwf
  rw [Bool.and_eq_true, List.all_eq_true, List.all_eq_true] at hwf
  have h1 := hwf.2 sid (List.mem_range.mpr (socket_at_eq_some_lt hs))
  simpa only [hs] using h1

theorem wellformed_socket {net : MFNetworkBuilder} (hwf : net.wellformed = true) {sid : Nat}
    {s : MFBuilderSocket} (hs : net.socket_or_null_by_id_at sid = some s) :
    ∃ n, net.node_or_null_by_id_at s.node = some n ∧
      (s.is_output = true → n.outputs[s.index]? = some sid) ∧
      (s.is_output = false → n.inputs[s.index]? = some sid) := by
  have h := wellformed_socket_ok hwf hs
  unfold socket_ok at h
  rw [Bool.and_eq_true] at h
  cases hn : net.node_or_null_by_id_at s.node with
  | none => rw [hn] at h; simp at h
  | some n =>
    have h1 := h.1
    rw [hn] at h1
    refine ⟨n, rfl, ?_, ?_⟩
    · intro ho
      simpa [ho] using h1
    · intro ho
      simpa [ho] using h1

theorem wellformed_origin {net : MFNetworkBuilder} (hwf : net.wellformed = true) {t o : Nat}
    (ho : net.origin t = some o) :
    ∃ s so, net.socket_or_null_by_id_at t = some s ∧ s.origin = some o ∧
      s.is_output = false ∧ net.socket_or_null_by_id_at o = some so ∧ so.is_output = true := by
  unfold origin at ho
  cases hs : net.socket_or_null_by_id_at t with
  | none => simp [hs] at ho
  | some s =>
    rw [hs] at ho
    simp only [Option.some_bind] at ho
    have h := wellformed_socket_ok hwf hs
    unfold socket_ok at h
    rw [Bool.and_eq_true] at h
    have h2 := h.2
    rw [ho] at h2
    simp only [Bool.and_eq_true, Bool.not_eq_true'] at h2
    cases hso : net.socket_or_null_by_id_at o with
    | none => rw [hso] at h2; simp at h2
    | some so =>
      rw [hso] at h2
      exact ⟨s, so, rfl, ho, h2.1, rfl, h2.2⟩

/-- In a well-formed network a link runs between live nodes, from an output listed by the
source to an input listed by the destination. -/
theorem link_iff {net : MFNetworkBuilder} (hwf : net.wellformed = true) {a b : Nat} :
    net.link a b ↔
      ∃ na nb t o, net.node_or_null_by_id_at a = some na ∧
        net.node_or_null_by_id_at b = some nb ∧ t ∈ nb.inputs ∧ o ∈ na.outputs ∧
        net.origin t = some o := by
  constructor
  · rintro ⟨t, o, ht, hto, ho⟩
    obtain ⟨s, so, hs, _, hsin, hso, hsout⟩ := wellformed_origin hwf hto
    unfold socket_node at ht ho
    rw [hs] at ht
    rw [hso] at ho
    simp only [Option.map_some', Option.some.injEq] at ht ho
    obtain ⟨nb, hnb, _, hin⟩ := wellformed_socket hwf hs
    obtain ⟨na, hna, hout, _⟩ := wellformed_socket hwf hso
    rw [ht] at hnb
    rw [ho] at hna
    exact ⟨na, nb, t, o, hna, hnb, List.mem_iff_getElem?.mpr ⟨_, hin hsin⟩,
      List.mem_iff_getElem?.mpr ⟨_, hout hsout⟩, hto⟩
  · rintro ⟨na, nb, t, o, hna, hnb, ht, ho, hto⟩
    obtain ⟨k, hk⟩ := List.mem_iff_getElem?.mp ht
    obtain ⟨j, hj⟩ := List.mem_iff_getElem?.mp ho
    obtain ⟨s, hs, hsn, _, _⟩ := wellformed_inputs hwf hnb hk
    obtain ⟨so, hso, hson, _, _⟩ := wellformed_outputs hwf hna hj
    refine ⟨t, o, ?_, hto, ?_⟩
    · simp [socket_node, hs, hsn]
    · simp [socket_node, hso, hson]

theorem link_lt {net : MFNetworkBuilder} (hwf : net.wellformed = true) {a b : Nat}
    (h : net.link a b) : a < net.node_id_amount ∧ b < net.node_id_amount := by
  obtain ⟨na, nb, _, _, hna, hnb, _⟩ := (link_iff hwf).mp h
  exact ⟨node_at_eq_some_lt hna, node_at_eq_some_lt hnb⟩

/-- In an acyclic well-formed network the link relation is well-founded. -/
theorem acyclic_wellFounded {net : MFNetworkBuilder} (hwf : net.wellformed = true)
    (hac : net.acyclic) : WellFounded net.link := by
  let r : Fin net.node_id_amount → Fin net.node_id_amount → Prop :=
    fun a b => Relation.TransGen net.link a.val b.val
  haveI : IsTrans _ r := ⟨fun _ _ _ h1 h2 => Relation.TransGen.trans h1 h2⟩
  haveI : IsIrrefl _ r := ⟨fun a h => hac a.val h⟩
  have hr : WellFounded r := Finite.wellFounded_of_trans_of_irrefl r
  have hfin : ∀ a : Fin net.node_id_amount, Acc net.link a.val := by
    intro a
    induction a using hr.induction with
    | _ a ih =>
      refine Acc.intro _ fun y hy => ?_
      have hlt := (link_lt hwf hy).1
      exact ih ⟨y, hlt⟩ (Relation.TransGen.single hy)
  refine ⟨fun n => Acc.intro _ fun y hy => ?_⟩
  exact hfin ⟨y, (link_lt hwf hy).1⟩

end MFNetworkBuilder

/-! ## The hashing loop -/

theorem hash_at_set (hashes : List (Option Nat)) (o v i : Nat) :
    hash_at (hashes.set o (some v)) i =
      if i = o ∧ o < hashes.length then some v else hash_at hashes i := by
  unfold hash_at
  rw [List.getElem?_set]
  by_cases hi : o = i
  · subst hi
    by_cases hl : o < hashes.length
    · simp [hl]
    · simp [hl, List.getElem?_eq_none (Nat.le_of_not_lt hl)]
  · have : ¬ i = o := fun e => hi e.symm
    simp [hi, this]

theorem getD_set_true (bs : List Bool) (id i : Nat) :
    (bs.set id true).getD i false =
      if i = id ∧ id < bs.length then true else bs.getD i false := by
  simp only [List.getD_eq_getElem?_getD, List.getElem?_set]
  by_cases hi : id = i
  · subst hi
    by_cases hl : id < bs.length
    · simp [hl]
    · simp [hl, List.getElem?_eq_none (Nat.le_of_not_lt hl)]
  · have : ¬ i = id := fun e => hi e.symm
    simp [hi, this]

theorem hash_dummy_outputs_hashed (rng : Nat → Nat) (outs : List Nat) (st : HashState) :
    (hash_dummy_outputs rng outs st).node_outputs_are_hashed = st.node_outputs_are_hashed := by
  induction outs generalizing st with
  | nil => rfl
  | cons o outs ih => simp only [hash_dummy_outputs]; rw [ih]

theorem hash_dummy_outputs_length (rng : Nat → Nat) (outs : List Nat) (st : HashState) :
    (hash_dummy_outputs rng outs st).hash_by_output_socket.length =
      st.hash_by_output_socket.length := by
  induction outs generalizing st with
  | nil => rfl
  | cons o outs ih => simp only [hash_dummy_outputs]; rw [ih]; simp

theorem hash_dummy_outputs_isSome (rng : Nat → Nat) (outs : List Nat) (st : HashState)
    (i : Nat) :
    (hash_at (hash_dummy_outputs rng outs st).hash_by_output_socket i).isSome =
      ((hash_at st.hash_by_output_socket i).isSome ||
        decide (i ∈ outs ∧ i < st.hash_by_output_socket.length)) := by
  induction outs generalizing st with
  | nil => simp [hash_dummy_outputs]
  | cons o outs ih =>
    simp only [hash_dummy_outputs]
    rw [ih, hash_at_set]
    simp only [List.length_set, List.mem_cons]
    by_cases hio : i = o
    · subst hio
      by_cases hl : i < st.hash_by_output_socket.length <;> simp [hl]
    · simp [hio]

theorem hash_outputs_length (net : MFNetworkBuilder) (nh : Nat) (outs : List Nat)
    (hashes : List (Option Nat)) : (hash_outputs net nh outs hashes).length = hashes.length := by
  induction outs generalizing hashes with
  | nil => rfl
  | cons o outs ih =>
    simp only [hash_outputs]
    cases net.socket_or_null_by_id_at o with
    | none => exact ih _
    | some s => simp only []; rw [ih]; simp

theorem hash_at_hash_outputs (net : MFNetworkBuilder) (nh : Nat) (outs : List Nat)
    (hashes : List (Option Nat)) (i : Nat) :
    hash_at (hash_outputs net nh outs hashes) i =
      match net.socket_or_null_by_id_at i with
      | some s =>
        if i ∈ outs ∧ i < hashes.length then some (u32 (nh * (45234 + 567243 * s.index)))
        else hash_at hashes i
      | none => hash_at hashes i := by
  induction outs generalizing hashes with
  | nil => cases net.socket_or_null_by_id_at i <;> simp [hash_outputs]
  | cons o outs ih =>
    simp only [hash_outputs]
    cases ho : net.socket_or_null_by_id_at o with
    | none =>
      simp only []
      rw [ih]
      cases hi : net.socket_or_null_by_id_at i with
      | none => rfl
      | some s =>
        have hne : i ≠ o := by
          intro e
          rw [e, ho] at hi
          cases hi
        simp [hne]
    | some so =>
      simp only []
      rw [ih]
      cases hi : net.socket_or_null_by_id_at i with
      | none =>
        simp only []
        rw [hash_at_set]
        have hne : i ≠ o := by
          intro e
          rw [e, ho] at hi
          cases hi
        simp [hne]
      | some s =>
        simp only [List.length_set, List.mem_cons]
        rw [hash_at_set]
        by_cases hio : i = o
        · subst hio
          rw [ho] at hi
          cases hi
          by_cases hl : i < hashes.length <;> simp [hl]
        · simp [hio]

/-! ## Seeding the dummy nodes -/

theorem is_hashed_set (st : HashState) (hashes : List (Option Nat)) (pos id i : Nat) :
    HashState.is_hashed
      { hash_by_output_socket := hashes
        node_outputs_are_hashed := st.node_outputs_are_hashed.set id true
        rng := pos } i ↔
      (i = id ∧ id < st.node_outputs_are_hashed.length) ∨ st.is_hashed i := by
  unfold HashState.is_hashed
  simp only [getD_set_true]
  by_cases h : i = id ∧ id < st.node_outputs_are_hashed.length
  · simp [h]
  · simp [h]

theorem is_dummy_iff {net : MFNetworkBuilder} {id : Nat} :
    net.is_dummy id = true ↔
      ∃ n, net.node_or_null_by_id_at id = some n ∧ n.function = none := by
  unfold is_dummy
  cases h : net.node_or_null_by_id_at id with
  | none => simp
  | some n => cases hf : n.function <;> simp [hf]

theorem is_function_iff {net : MFNetworkBuilder} {id : Nat} :
    net.is_function id = true ↔
      ∃ n f, net.node_or_null_by_id_at id = some n ∧ n.function = some f := by
  unfold is_function
  cases h : net.node_or_null_by_id_at id with
  | none => simp
  | some n => cases hf : n.function <;> simp [hf]

theorem mem_dummy_nodes {net : MFNetworkBuilder} {id : Nat} :
    id ∈ net.dummy_nodes ↔ net.is_dummy id = true := by
  unfold dummy_nodes
  simp only [List.mem_filter, List.mem_range]
  constructor
  · exact fun h => h.2
  · intro h
    obtain ⟨n, hn, _⟩ := is_dummy_iff.mp h
    exact ⟨node_at_eq_some_lt hn, h⟩

theorem mem_function_nodes {net : MFNetworkBuilder} {id : Nat} :
    id ∈ net.function_nodes ↔ net.is_function id = true := by
  unfold function_nodes
  simp only [List.mem_filter, List.mem_range]
  constructor
  · exact fun h => h.2
  · intro h
    obtain ⟨n, f, hn, _⟩ := is_function_iff.mp h
    exact ⟨node_at_eq_some_lt hn, h⟩

theorem socket_node_of_output {net : MFNetworkBuilder} (hwf : net.wellformed = true)
    {id : Nat} {n : MFBuilderNode} (hn : net.node_or_null_by_id_at id = some n) {o : Nat}
    (ho : o ∈ n.outputs) :
    net.socket_node o = some id ∧ o < net.socket_id_amount := by
  obtain ⟨k, hk⟩ := List.mem_iff_getElem?.mp ho
  obtain ⟨s, hs, hsn, _, _⟩ := wellformed_outputs hwf hn hk
  exact ⟨by simp [socket_node, hs, hsn], socket_at_eq_some_lt hs⟩

theorem hash_at_isSome_iff {hashes : List (Option Nat)} {o : Nat} :
    (hash_at hashes o).isSome = true ↔ ∃ h, hash_at hashes o = some h :=
  Option.isSome_iff_exists

/-- Hashing the outputs of one dummy node keeps the core invariant. -/
theorem seed_step (rng : Nat → Nat) {net : MFNetworkBuilder} (hwf : net.wellformed = true)
    {st : HashState} (hc : HashCore net st)
    (hd : ∀ id, st.is_hashed id → net.is_dummy id = true) {id : Nat} {node : MFBuilderNode}
    (hn : net.node_or_null_by_id_at id = some node) (hid : net.is_dummy id = true) :
    let st1 := hash_dummy_outputs rng node.outputs st
    let st2 : HashState :=
      { st1 with node_outputs_are_hashed := st1.node_outputs_are_hashed.set id true }
    HashCore net st2 ∧ (∀ i, st2.is_hashed i → net.is_dummy i = true) ∧
      (∀ i, st2.is_hashed i ↔ i = id ∨ st.is_hashed i) := by
  intro st1 st2
  have hlt : id < st.node_outputs_are_hashed.length := by
    rw [hc.hashed_length]
    exact node_at_eq_some_lt hn
  have hh1 : st1.node_outputs_are_hashed = st.node_outputs_are_hashed :=
    hash_dummy_outputs_hashed rng node.outputs st
  have hiff : ∀ i, st2.is_hashed i ↔ i = id ∨ st.is_hashed i := by
    intro i
    have := is_hashed_set st1 st1.hash_by_output_socket st1.rng id i
    unfold HashState.is_hashed at this ⊢
    simp only [hh1] at this
    simp only [st2, hh1]
    rw [this]
    constructor
    · rintro (h | h)
      · exact Or.inl h.1
      · exact Or.inr h
    · rintro (h | h)
      · exact Or.inl ⟨h, hlt⟩
      · exact Or.inr h
  have hsome : ∀ i, (hash_at st2.hash_by_output_socket i).isSome =
      ((hash_at st.hash_by_output_socket i).isSome ||
        decide (i ∈ node.outputs ∧ i < st.hash_by_output_socket.length)) :=
    fun i => hash_dummy_outputs_isSome rng node.outputs st i
  refine ⟨⟨?_, ?_, ?_, ?_⟩, ?_, hiff⟩
  · simp only [st2]
    rw [hash_dummy_outputs_length]
    exact hc.hash_length
  · simp only [st2, List.length_set]
    rw [hh1]
    exact hc.hashed_length
  · intro i hi
    rcases (hiff i).mp hi with h | h
    · subst h
      refine ⟨node, hn, fun o ho => ?_⟩
      rw [hsome]
      have := (socket_node_of_output hwf hn ho).2
      rw [← hc.hash_length] at this
      simp [ho, this]
    · obtain ⟨n, hn1, hout⟩ := hc.outputs_hashed i h
      refine ⟨n, hn1, fun o ho => ?_⟩
      rw [hsome, hout o ho]
      rfl
  · intro o h ho
    have h1 : (hash_at st2.hash_by_output_socket o).isSome = true := by
      rw [ho]
      rfl
    rw [hsome, Bool.or_eq_true] at h1
    rcases h1 with h1 | h1
    · obtain ⟨h0, hh0⟩ := hash_at_isSome_iff.mp h1
      obtain ⟨i, hi1, hi2⟩ := hc.hash_owner o h0 hh0
      exact ⟨i, hi1, (hiff i).mpr (Or.inr hi2)⟩
    · have h2 := of_decide_eq_true h1
      exact ⟨id, (socket_node_of_output hwf hn h2.1).1, (hiff id).mpr (Or.inl rfl)⟩
  · intro i hi
    rcases (hiff i).mp hi with h | h
    · rw [h]
      exact hid
    · exact hd i h

theorem hash_dummy_nodes_spec (rng : Nat → Nat) {net : MFNetworkBuilder}
    (hwf : net.wellformed = true) (ids : List Nat)
    (hids : ∀ id ∈ ids, net.is_dummy id = true) (st : HashState) (hc : HashCore net st)
    (hd : ∀ id, st.is_hashed id → net.is_dummy id = true) :
    HashCore net (hash_dummy_nodes rng net ids st) ∧
      (∀ i, (hash_dummy_nodes rng net ids st).is_hashed i → net.is_dummy i = true) ∧
      (∀ i ∈ ids, (hash_dummy_nodes rng net ids st).is_hashed i) ∧
      (∀ i, st.is_hashed i → (hash_dummy_nodes rng net ids st).is_hashed i) := by
  induction ids generalizing st with
  | nil => exact ⟨hc, hd, by simp, fun _ h => h⟩
  | cons id ids ih =>
    have hid := hids id (List.mem_cons_self _ _)
    obtain ⟨node, hn, _⟩ := is_dummy_iff.mp hid
    obtain ⟨h1, h2, h3⟩ := seed_step rng hwf hc hd hn hid
    have hrest := ih (fun i hi => hids i (List.mem_cons_of_mem _ hi)) _ h1 h2
    simp only [hash_dummy_nodes, hn]
    refine ⟨hrest.1, hrest.2.1, ?_, ?_⟩
    · intro i hi
      rcases List.mem_cons.mp hi with e | e
      · exact hrest.2.2.2 i ((h3 i).mpr (Or.inl e))
      · exact hrest.2.2.1 i e
    · intro i hi
      exact hrest.2.2.2 i ((h3 i).mpr (Or.inr hi))

theorem hash_at_replicate_none (n i : Nat) : hash_at (List.replicate n none) i = none := by
  unfold hash_at
  rw [List.getElem?_replicate]
  by_cases h : i < n <;> simp [h]

/-- The state after the seeding loop satisfies the invariant of the worklist loop. -/
theorem seeding_invariant (rng : Nat → Nat) {net : MFNetworkBuilder}
    (hwf : net.wellformed = true) :
    HashInv rng net
      (hash_dummy_nodes rng net net.dummy_nodes
        { hash_by_output_socket := List.replicate net.socket_id_amount none
          node_outputs_are_hashed := List.replicate net.node_id_amount false
          rng := 0 }) := by
  have h0 : ∀ i, ¬ HashState.is_hashed
      { hash_by_output_socket := List.replicate net.socket_id_amount none
        node_outputs_are_hashed := List.replicate net.node_id_amount false
        rng := 0 } i := by
    intro i
    unfold HashState.is_hashed
    simp only [List.getD_eq_getElem?_getD, List.getElem?_replicate]
    by_cases h : i < net.node_id_amount <;> simp [h]
  have hc : HashCore net
      { hash_by_output_socket := List.replicate net.socket_id_amount none
        node_outputs_are_hashed := List.replicate net.node_id_amount false
        rng := 0 } := by
    refine ⟨by simp, by simp, fun i hi => absurd hi (h0 i), fun o h ho => ?_⟩
    simp only [hash_at_replicate_none] at ho
    cases ho
  obtain ⟨h1, h2, h3, _⟩ := hash_dummy_nodes_spec rng hwf net.dummy_nodes
    (fun id hid => mem_dummy_nodes.mp hid) _ hc (fun i hi => absurd hi (h0 i))
  refine ⟨h1, fun id hid => h3 id (mem_dummy_nodes.mpr hid), ?_⟩
  intro id n f hid hn hf
  obtain ⟨n1, hn1, hf1⟩ := is_dummy_iff.mp (h2 id hid)
  rw [hn] at hn1
  cases hn1
  rw [hf] at hf1
  cases hf1

/-! ## One step of the worklist loop -/

theorem extended_by_refl (st : HashState) : st.extended_by st :=
  ⟨fun _ h => h, fun _ _ h => h⟩

theorem extended_by_trans {a b c : HashState} (h1 : a.extended_by b) (h2 : b.extended_by c) :
    a.extended_by c :=
  ⟨fun i h => h2.1 i (h1.1 i h), fun o h hh => h2.2 o h (h1.2 o h hh)⟩

theorem combine_input_hashes_mono (rng : Nat → Nat) (net : MFNetworkBuilder)
    {hashes hashes1 : List (Option Nat)}
    (hext : ∀ o h, hash_at hashes o = some h → hash_at hashes1 o = some h)
    (inputs : List Nat) (acc pos : Nat) (r : Nat × Nat)
    (h : combine_input_hashes rng net hashes inputs acc pos = some r) :
    combine_input_hashes rng net hashes1 inputs acc pos = some r := by
  induction inputs generalizing acc pos with
  | nil => simpa [combine_input_hashes] using h
  | cons t inputs ih =>
    simp only [combine_input_hashes] at h ⊢
    cases ho : net.origin t with
    | none =>
      rw [ho] at h
      exact ih _ _ h
    | some o =>
      rw [ho] at h
      simp only at h ⊢
      cases hh : hash_at hashes o with
      | none => rw [hh] at h; cases h
      | some v =>
        rw [hh] at h
        rw [hext o v hh]
        exact ih _ _ h

theorem combine_input_hashes_some (rng : Nat → Nat) (net : MFNetworkBuilder)
    (hashes : List (Option Nat)) (inputs : List Nat)
    (hin : ∀ t ∈ inputs, ∀ o, net.origin t = some o → (hash_at hashes o).isSome = true)
    (acc pos : Nat) : ∃ r, combine_input_hashes rng net hashes inputs acc pos = some r := by
  induction inputs generalizing acc pos with
  | nil => exact ⟨_, rfl⟩
  | cons t inputs ih =>
    have ih1 := ih (fun x hx => hin x (List.mem_cons_of_mem _ hx))
    simp only [combine_input_hashes]
    cases ho : net.origin t with
    | none => exact ih1 _ _
    | some o =>
      obtain ⟨v, hv⟩ := hash_at_isSome_iff.mp (hin t (List.mem_cons_self _ _) o ho)
      simp only [hv]
      exact ih1 _ _

theorem mem_unhashed_origin_nodes {net : MFNetworkBuilder} {st : HashState}
    {node : MFBuilderNode} {d : Nat} :
    d ∈ unhashed_origin_nodes net st node ↔
      ∃ t o, t ∈ node.inputs ∧ net.origin t = some o ∧ net.socket_node o = some d ∧
        ¬ st.is_hashed d := by
  unfold unhashed_origin_nodes HashState.is_hashed
  simp only [List.mem_filterMap]
  constructor
  · rintro ⟨t, ht, h⟩
    cases ho : net.origin t with
    | none => simp [ho] at h
    | some o =>
      cases hn : net.socket_node o with
      | none => simp [ho, hn] at h
      | some m =>
        simp only [ho, hn] at h
        by_cases hh : st.node_outputs_are_hashed.getD m false = true
        · rw [if_pos hh] at h
          cases h
        · rw [if_neg hh] at h
          cases h
          exact ⟨t, o, ht, ho, hn, hh⟩
  · rintro ⟨t, o, ht, ho, hn, hh⟩
    refine ⟨t, ht, ?_⟩
    simp only [ho, hn]
    rw [if_neg hh]

theorem origin_owner {net : MFNetworkBuilder} (hwf : net.wellformed = true) {t o : Nat}
    (ho : net.origin t = some o) :
    ∃ m nm, net.socket_node o = some m ∧ net.node_or_null_by_id_at m = some nm ∧
      o ∈ nm.outputs := by
  obtain ⟨s, so, _, _, _, hso, hout⟩ := wellformed_origin hwf ho
  obtain ⟨nm, hnm, h1, _⟩ := wellformed_socket hwf hso
  exact ⟨so.node, nm, by simp [socket_node, hso], hnm,
    List.mem_iff_getElem?.mpr ⟨_, h1 hout⟩⟩

theorem ready_origins_hashed {net : MFNetworkBuilder} (hwf : net.wellformed = true)
    {st : HashState} (hc : HashCore net st) {node : MFBuilderNode}
    (hready : unhashed_origin_nodes net st node = []) :
    ∀ t ∈ node.inputs, ∀ o, net.origin t = some o →
      (hash_at st.hash_by_output_socket o).isSome = true := by
  intro t ht o ho
  obtain ⟨m, nm, hm, hnm, hom⟩ := origin_owner hwf ho
  have hh : st.is_hashed m := by
    by_contra hh
    have : m ∈ unhashed_origin_nodes net st node :=
      mem_unhashed_origin_nodes.mpr ⟨t, o, ht, ho, hm, hh⟩
    rw [hready] at this
    simp at this
  obtain ⟨n1, hn1, hout⟩ := hc.outputs_hashed m hh
  rw [hnm] at hn1
  cases hn1
  exact hout o hom

theorem hash_loop_pop (rng : Nat → Nat) (net : MFNetworkBuilder) {st : HashState} {id : Nat}
    (h : st.is_hashed id) (fuel : Nat) (rest : List Nat) :
    hash_function_nodes rng net (fuel + 1) (id :: rest) st =
      hash_function_nodes rng net fuel rest st := by
  unfold HashState.is_hashed at h
  simp only [hash_function_nodes]
  rw [if_pos h]

theorem hash_loop_push (rng : Nat → Nat) (net : MFNetworkBuilder) {st : HashState} {id : Nat}
    (h : ¬ st.is_hashed id) {node : MFBuilderNode} {f : MultiFunction}
    (hn : net.node_or_null_by_id_at id = some node) (hf : node.function = some f)
    (hne : unhashed_origin_nodes net st node ≠ []) (fuel : Nat) (rest : List Nat) :
    hash_function_nodes rng net (fuel + 1) (id :: rest) st =
      hash_function_nodes rng net fuel
        ((unhashed_origin_nodes net st node).reverse ++ id :: rest) st := by
  unfold HashState.is_hashed at h
  cases hu : unhashed_origin_nodes net st node with
  | nil => exact absurd hu hne
  | cons d more =>
    simp only [hash_function_nodes]
    rw [if_neg h]
    simp only [hn, hf, hu]

/-- A function node whose origins are all hashed is hashed and popped in one step, and the
invariant is kept. -/
theorem hash_loop_ready (rng : Nat → Nat) {net : MFNetworkBuilder}
    (hwf : net.wellformed = true) {st : HashState} (hinv : HashInv rng net st) {id : Nat}
    (h : ¬ st.is_hashed id) {node : MFBuilderNode} {f : MultiFunction}
    (hn : net.node_or_null_by_id_at id = some node) (hf : node.function = some f)
    (hready : unhashed_origin_nodes net st node = []) :
    ∃ st1, HashInv rng net st1 ∧ st.extended_by st1 ∧ st1.is_hashed id ∧
      ∀ fuel rest, hash_function_nodes rng net (fuel + 1) (id :: rest) st =
        hash_function_nodes rng net fuel rest st1 := by
  obtain ⟨⟨c, pos⟩, hcomb⟩ := combine_input_hashes_some rng net st.hash_by_output_socket
    node.inputs (ready_origins_hashed hwf hinv.core hready) 827823743 st.rng
  let nh := u32 (c * 462347 + operation_hash_or_random rng f pos)
  let st1 : HashState :=
    { hash_by_output_socket := hash_outputs net nh node.outputs st.hash_by_output_socket
      node_outputs_are_hashed := st.node_outputs_are_hashed.set id true
      rng := match f.operation_hash with
        | some _ => pos
        | none => pos + 1 }
  have hlt : id < st.node_outputs_are_hashed.length := by
    rw [hinv.core.hashed_length]
    exact node_at_eq_some_lt hn
  have hiff : ∀ i, st1.is_hashed i ↔ i = id ∨ st.is_hashed i := by
    intro i
    have := is_hashed_set st st1.hash_by_output_socket st1.rng id i
    rw [this]
    constructor
    · rintro (h1 | h1)
      · exact Or.inl h1.1
      · exact Or.inr h1
    · rintro (h1 | h1)
      · exact Or.inl ⟨h1, hlt⟩
      · exact Or.inr h1
  have hnew : ∀ o s, o ∈ node.outputs → net.socket_or_null_by_id_at o = some s →
      hash_at st1.hash_by_output_socket o = some (u32 (nh * (45234 + 567243 * s.index))) := by
    intro o s ho hs
    have hl : o < st.hash_by_output_socket.length := by
      rw [hinv.core.hash_length]
      exact socket_at_eq_some_lt hs
    simp only [st1]
    rw [hash_at_hash_outputs, hs]
    simp [ho, hl]
  have hold : ∀ o, o ∉ node.outputs →
      hash_at st1.hash_by_output_socket o = hash_at st.hash_by_output_socket o := by
    intro o ho
    simp only [st1]
    rw [hash_at_hash_outputs]
    cases net.socket_or_null_by_id_at o <;> simp [ho]
  have hnone : ∀ o h0, hash_at st.hash_by_output_socket o = some h0 → o ∉ node.outputs := by
    intro o h0 hh ho
    obtain ⟨m, hm, hmh⟩ := hinv.core.hash_owner o h0 hh
    rw [(socket_node_of_output hwf hn ho).1] at hm
    cases hm
    exact h hmh
  have hext : st.extended_by st1 := by
    refine ⟨fun i hi => (hiff i).mpr (Or.inr hi), fun o h0 hh => ?_⟩
    rw [hold o (hnone o h0 hh)]
    exact hh
  refine ⟨st1, ⟨⟨?_, ?_, ?_, ?_⟩, ?_, ?_⟩, hext, (hiff id).mpr (Or.inl rfl), ?_⟩
  · simp only [st1]
    rw [hash_outputs_length]
    exact hinv.core.hash_length
  · simp only [st1, List.length_set]
    exact hinv.core.hashed_length
  · intro i hi
    rcases (hiff i).mp hi with e | e
    · subst e
      refine ⟨node, hn, fun o ho => ?_⟩
      obtain ⟨k, hk⟩ := List.mem_iff_getElem?.mp ho
      obtain ⟨s, hs, _⟩ := wellformed_outputs hwf hn hk
      rw [hnew o s ho hs]
      rfl
    · obtain ⟨n1, hn1, hout⟩ := hinv.core.outputs_hashed i e
      refine ⟨n1, hn1, fun o ho => ?_⟩
      obtain ⟨v, hv⟩ := hash_at_isSome_iff.mp (hout o ho)
      rw [hext.2 o v hv]
      rfl
  · intro o h0 hh
    by_cases ho : o ∈ node.outputs
    · exact ⟨id, (socket_node_of_output hwf hn ho).1, (hiff id).mpr (Or.inl rfl)⟩
    · rw [hold o ho] at hh
      obtain ⟨m, hm, hmh⟩ := hinv.core.hash_owner o h0 hh
      exact ⟨m, hm, (hiff m).mpr (Or.inr hmh)⟩
  · intro i hi
    exact (hiff i).mpr (Or.inr (hinv.dummies_hashed i hi))
  · intro i n1 f1 hi hn1 hf1
    rcases (hiff i).mp hi with e | e
    · subst e
      rw [hn] at hn1
      cases hn1
      rw [hf] at hf1
      cases hf1
      refine ⟨st.rng, c, pos, combine_input_hashes_mono rng net hext.2 _ _ _ _ hcomb, ?_⟩
      intro o s ho hs
      exact hnew o s ho hs
    · obtain ⟨p0, c0, p1, hc0, hout⟩ := hinv.formula i n1 f1 e hn1 hf1
      refine ⟨p0, c0, p1, combine_input_hashes_mono rng net hext.2 _ _ _ _ hc0, ?_⟩
      intro o s ho hs
      exact hext.2 o _ (hout o s ho hs)
  · intro fuel rest
    unfold HashState.is_hashed at h
    simp only [hash_function_nodes]
    rw [if_neg h]
    simp only [hn, hf, hready, hcomb]
    rfl

/-! ## Termination of the worklist loop -/

/-- When the loop gets every node of `ids` off the stack, it gets the whole list off. -/
theorem hash_nodes_terminate (rng : Nat → Nat) (net : MFNetworkBuilder) (ids : List Nat)
    (hP : ∀ id ∈ ids, HashesNode rng net id) (st : HashState) (rest : List Nat)
    (hinv : HashInv rng net st)
    (hids : ∀ id ∈ ids, st.is_hashed id ∨ net.is_function id = true) :
    ∃ k st1, HashInv rng net st1 ∧ st.extended_by st1 ∧ (∀ id ∈ ids, st1.is_hashed id) ∧
      ∀ fuel, hash_function_nodes rng net (fuel + k) (ids ++ rest) st =
        hash_function_nodes rng net fuel rest st1 := by
  induction ids generalizing st with
  | nil => exact ⟨0, st, hinv, extended_by_refl st, by simp, fun fuel => rfl⟩
  | cons id ids ih =>
    obtain ⟨k1, st1, hinv1, hext1, hid1, hrun1⟩ :=
      hP id (List.mem_cons_self _ _) st (ids ++ rest) hinv (hids id (List.mem_cons_self _ _))
    have hids1 : ∀ i ∈ ids, st1.is_hashed i ∨ net.is_function i = true := by
      intro i hi
      rcases hids i (List.mem_cons_of_mem _ hi) with h | h
      · exact Or.inl (hext1.1 i h)
      · exact Or.inr h
    obtain ⟨k2, st2, hinv2, hext2, hid2, hrun2⟩ :=
      ih (fun i hi => hP i (List.mem_cons_of_mem _ hi)) st1 hinv1 hids1
    refine ⟨k2 + k1, st2, hinv2, extended_by_trans hext1 hext2, ?_, ?_⟩
    · intro i hi
      rcases List.mem_cons.mp hi with e | e
      · rw [e]
        exact hext2.1 id hid1
      · exact hid2 i e
    · intro fuel
      rw [List.cons_append, ← Nat.add_assoc, hrun1, hrun2]

theorem unhashed_origin_is_function (rng : Nat → Nat) {net : MFNetworkBuilder}
    (hwf : net.wellformed = true) {st : HashState} (hinv : HashInv rng net st)
    {node : MFBuilderNode} {d : Nat} (hd : d ∈ unhashed_origin_nodes net st node) :
    net.is_function d = true := by
  obtain ⟨t, o, _, ho, hn, hh⟩ := mem_unhashed_origin_nodes.mp hd
  obtain ⟨m, nm, hm, hnm, _⟩ := origin_owner hwf ho
  rw [hn] at hm
  cases hm
  cases hf : nm.function with
  | none => exact absurd (hinv.dummies_hashed d (is_dummy_iff.mpr ⟨nm, hnm, hf⟩)) hh
  | some f => exact is_function_iff.mpr ⟨nm, f, hnm, hf⟩

theorem unhashed_origin_link {net : MFNetworkBuilder} (hwf : net.wellformed = true)
    {st : HashState} {id : Nat} {node : MFBuilderNode}
    (hn : net.node_or_null_by_id_at id = some node) {d : Nat}
    (hd : d ∈ unhashed_origin_nodes net st node) : net.link d id := by
  obtain ⟨t, o, ht, ho, hso, _⟩ := mem_unhashed_origin_nodes.mp hd
  obtain ⟨k, hk⟩ := List.mem_iff_getElem?.mp ht
  obtain ⟨s, hs, hsn, _, _⟩ := wellformed_inputs hwf hn hk
  exact ⟨t, o, by simp [socket_node, hs, hsn], ho, hso⟩

/-- In a well-formed acyclic network the loop gets every node off the stack. -/
theorem hashes_node (rng : Nat → Nat) {net : MFNetworkBuilder} (hwf : net.wellformed = true)
    (hac : net.acyclic) (id : Nat) : HashesNode rng net id := by
  induction id using (acyclic_wellFounded hwf hac).induction with
  | _ id ih =>
    intro st rest hinv hid
    by_cases hh : st.is_hashed id
    · exact ⟨1, st, hinv, extended_by_refl st, hh, fun fuel => hash_loop_pop rng net hh fuel rest⟩
    · have hfun : net.is_function id = true := hid.resolve_left hh
      obtain ⟨node, f, hn, hf⟩ := is_function_iff.mp hfun
      by_cases hready : unhashed_origin_nodes net st node = []
      · obtain ⟨st1, hinv1, hext1, hid1, hrun1⟩ := hash_loop_ready rng hwf hinv hh hn hf hready
        exact ⟨1, st1, hinv1, hext1, hid1, fun fuel => hrun1 fuel rest⟩
      · have hP : ∀ d ∈ (unhashed_origin_nodes net st node).reverse, HashesNode rng net d :=
          fun d hd => ih d (unhashed_origin_link hwf hn (List.mem_reverse.mp hd))
        have hids : ∀ d ∈ (unhashed_origin_nodes net st node).reverse,
            st.is_hashed d ∨ net.is_function d = true :=
          fun d hd => Or.inr (unhashed_origin_is_function rng hwf hinv (List.mem_reverse.mp hd))
        obtain ⟨k1, st1, hinv1, hext1, hall1, hrun1⟩ :=
          hash_nodes_terminate rng net _ hP st (id :: rest) hinv hids
        by_cases hh1 : st1.is_hashed id
        · refine ⟨1 + k1 + 1, st1, hinv1, hext1, hh1, fun fuel => ?_⟩
          rw [← Nat.add_assoc, hash_loop_push rng net hh hn hf hready, ← Nat.add_assoc, hrun1,
            hash_loop_pop rng net hh1]
        · have hready1 : unhashed_origin_nodes net st1 node = [] := by
            apply List.eq_nil_iff_forall_not_mem.mpr
            intro d hd
            obtain ⟨t, o, ht, ho, hso, hnh⟩ := mem_unhashed_origin_nodes.mp hd
            by_cases hd0 : st.is_hashed d
            · exact hnh (hext1.1 d hd0)
            · have : d ∈ unhashed_origin_nodes net st node :=
                mem_unhashed_origin_nodes.mpr ⟨t, o, ht, ho, hso, hd0⟩
              exact hnh (hall1 d (List.mem_reverse.mpr this))
          obtain ⟨st2, hinv2, hext2, hid2, hrun2⟩ :=
            hash_loop_ready rng hwf hinv1 hh1 hn hf hready1
          refine ⟨1 + k1 + 1, st2, hinv2, extended_by_trans hext1 hext2, hid2, fun fuel => ?_⟩
          rw [← Nat.add_assoc, hash_loop_push rng net hh hn hf hready, ← Nat.add_assoc, hrun1,
            hrun2]

/-- The hashing phase terminates on a well-formed acyclic network: with enough fuel it
returns a state that satisfies the invariant and in which every live node is hashed. -/
theorem compute_output_hashes_terminates (rng : Nat → Nat) {net : MFNetworkBuilder}
    (hwf : net.wellformed = true) (hac : net.acyclic) :
    ∃ fuel0 st, HashInv rng net st ∧
      (∀ id n, net.node_or_null_by_id_at id = some n → st.is_hashed id) ∧
      ∀ fuel, fuel0 ≤ fuel → compute_output_hashes rng net fuel = some st := by
  have hinv0 := seeding_invariant rng hwf
  obtain ⟨k, st, hinv, _, hall, hrun⟩ :=
    hash_nodes_terminate rng net net.function_nodes.reverse
      (fun id _ => hashes_node rng hwf hac id) _ [] hinv0
      (fun id hid => Or.inr (mem_function_nodes.mp (List.mem_reverse.mp hid)))
  refine ⟨k, st, hinv, ?_, ?_⟩
  · intro id n hn
    cases hf : n.function with
    | none => exact hinv.dummies_hashed id (is_dummy_iff.mpr ⟨n, hn, hf⟩)
    | some f =>
      exact hall id (List.mem_reverse.mpr
        (mem_function_nodes.mpr (is_function_iff.mpr ⟨n, f, hn, hf⟩)))
  · intro fuel hfuel
    obtain ⟨j, rfl⟩ := Nat.exists_eq_add_of_le hfuel
    unfold compute_output_hashes
    have := hrun j
    rw [List.append_nil] at this
    rw [Nat.add_comm k j, this]
    cases j <;> rfl

/-! ## The result of `optimize_network__remove_duplicates` -/

/-- The origins after deduplication: every origin is replaced by the first socket with
the same hash. -/
theorem origin_remove_duplicates (net : MFNetworkBuilder) (hashes : List (Option Nat))
    (t : Nat) :
    (deduplicate_all net (outputs_by_hash hashes)).origin t =
      (net.origin t).map fun o =>
        match hash_at hashes o with
        | some h => first_with_hash hashes h
        | none => o := by
  rw [origin_deduplicate_all]
  · cases net.origin t with
    | none => rfl
    | some o => simp only [Option.map_some', representative_outputs_by_hash]
  · intro item hi
    rw [(outputs_by_hash_item hashes item hi).1]
    exact hash_class_nodup hashes item.1

/-- With enough fuel the pass returns, and its result is described by the final hashes:
nodes and sockets are kept, and every origin is replaced by the first socket with the
same hash. -/
theorem remove_duplicates_result (rng : Nat → Nat) {net : MFNetworkBuilder}
    (hwf : net.wellformed = true) (hac : net.acyclic) :
    ∃ fuel0 st net1, HashInv rng net st ∧
      (∀ id n, net.node_or_null_by_id_at id = some n → st.is_hashed id) ∧
      (∀ fuel, fuel0 ≤ fuel → compute_output_hashes rng net fuel = some st ∧
        optimize_network__remove_duplicates rng fuel net = some net1) ∧
      same_nodes_and_sockets net net1 ∧
      (∀ t, net.origin t = none → net1.origin t = none) ∧
      (∀ t o, net.origin t = some o →
        ∃ h, hash_at st.hash_by_output_socket o = some h ∧
          net1.origin t = some (first_with_hash st.hash_by_output_socket h)) := by
  obtain ⟨fuel0, st, hinv, hall, hrun⟩ := compute_output_hashes_terminates rng hwf hac
  refine ⟨fuel0, st, deduplicate_all net (outputs_by_hash st.hash_by_output_socket), hinv,
    hall, ?_, same_nodes_and_sockets_deduplicate_all net _, ?_, ?_⟩
  · intro fuel hfuel
    refine ⟨hrun fuel hfuel, ?_⟩
    unfold optimize_network__remove_duplicates
    rw [hrun fuel hfuel]
  · intro t ht
    rw [origin_remove_duplicates, ht]
    rfl
  · intro t o ht
    obtain ⟨m, nm, _, hnm, hom⟩ := origin_owner hwf ht
    obtain ⟨n1, hn1, hout⟩ := hinv.core.outputs_hashed m (hall m nm hnm)
    rw [hnm] at hn1
    cases hn1
    obtain ⟨h, hh⟩ := hash_at_isSome_iff.mp (hout o hom)
    refine ⟨h, hh, ?_⟩
    rw [origin_remove_duplicates, ht]
    simp only [Option.map_some', hh]

theorem combine_input_hashes_congr (rng : Nat → Nat) (net : MFNetworkBuilder)
    (hashes : List (Option Nat)) (inputs inputs1 : List Nat)
    (hmap : inputs.map net.origin = inputs1.map net.origin)
    (hlinked : ∀ t ∈ inputs, (net.origin t).isSome = true) (acc pos pos1 : Nat)
    (r r1 : Nat × Nat)
    (h : combine_input_hashes rng net hashes inputs acc pos = some r)
    (h1 : combine_input_hashes rng net hashes inputs1 acc pos1 = some r1) : r.1 = r1.1 := by
  induction inputs generalizing inputs1 acc pos pos1 with
  | nil =>
    cases inputs1 with
    | nil =>
      simp only [combine_input_hashes, Option.some.injEq] at h h1
      rw [← h, ← h1]
    | cons _ _ => simp at hmap
  | cons t inputs ih =>
    cases inputs1 with
    | nil => simp at hmap
    | cons t1 inputs1 =>
      simp only [List.map_cons, List.cons.injEq] at hmap
      obtain ⟨o, ho⟩ := Option.isSome_iff_exists.mp (hlinked t (List.mem_cons_self _ _))
      have ho1 : net.origin t1 = some o := by rw [← hmap.1, ho]
      simp only [combine_input_hashes, ho, ho1] at h h1
      cases hh : hash_at hashes o with
      | none => rw [hh] at h; cases h
      | some v =>
        rw [hh] at h h1
        exact ih inputs1 hmap.2 (fun x hx => hlinked x (List.mem_cons_of_mem _ hx)) _ _ _ h h1

/-! ## Acyclicity of concrete networks -/

theorem link_lt_of_topologically_ordered {net : MFNetworkBuilder} {rank : Nat → Nat}
    (h : topologically_ordered net rank = true) {a b : Nat} (hl : net.link a b) :
    rank a < rank b := by
  obtain ⟨t, o, ht, hto, ho⟩ := hl
  unfold topologically_ordered at h
  rw [List.all_eq_true] at h
  have h1 := h t (List.mem_range.mpr (origin_eq_some_lt hto))
  simp only [hto, ht, ho] at h1
  exact of_decide_eq_true h1

theorem acyclic_of_topologically_ordered {net : MFNetworkBuilder} (rank : Nat → Nat)
    (h : topologically_ordered net rank = true) : net.acyclic := by
  have h1 : ∀ a b, Relation.TransGen net.link a b → rank a < rank b := by
    intro a b hab
    induction hab with
    | single hl => exact link_lt_of_topologically_ordered h hl
    | tail _ hl ih => exact Nat.lt_trans ih (link_lt_of_topologically_ordered h hl)
  intro n hn
  exact Nat.lt_irrefl (rank n) (h1 n n hn)


/-! ## Partial correctness of the hashing phase -/

/-- Whenever the worklist loop returns, the invariant holds, the state was extended and
every node of the stack is hashed. -/
theorem hash_function_nodes_invariant (rng : Nat → Nat) {net : MFNetworkBuilder}
    (hwf : net.wellformed = true) (fuel : Nat) (stack : List Nat) (st st1 : HashState)
    (hinv : HashInv rng net st)
    (hrun : hash_function_nodes rng net fuel stack st = some st1) :
    HashInv rng net st1 ∧ st.extended_by st1 ∧ ∀ id ∈ stack, st1.is_hashed id := by
  induction fuel generalizing stack st with
  | zero =>
    cases stack with
    | nil =>
      simp only [hash_function_nodes, Option.some.injEq] at hrun
      subst hrun
      exact ⟨hinv, extended_by_refl st, by simp⟩
    | cons id rest => simp [hash_function_nodes] at hrun
  | succ fuel ih =>
    cases stack with
    | nil =>
      simp only [hash_function_nodes, Option.some.injEq] at hrun
      subst hrun
      exact ⟨hinv, extended_by_refl st, by simp⟩
    | cons id rest =>
      by_cases hh : st.is_hashed id
      · rw [hash_loop_pop rng net hh] at hrun
        obtain ⟨h1, h2, h3⟩ := ih rest st hinv hrun
        refine ⟨h1, h2, fun i hi => ?_⟩
        rcases List.mem_cons.mp hi with e | e
        · rw [e]
          exact h2.1 id hh
        · exact h3 i e
      · cases hn : net.node_or_null_by_id_at id with
        | none =>
          have hh1 : ¬ st.node_outputs_are_hashed.getD id false = true := hh
          simp only [hash_function_nodes] at hrun
          rw [if_neg hh1] at hrun
          simp [hn] at hrun
        | some node =>
          cases hf : node.function with
          | none =>
            have hh1 : ¬ st.node_outputs_are_hashed.getD id false = true := hh
            simp only [hash_function_nodes] at hrun
            rw [if_neg hh1] at hrun
            simp [hn, hf] at hrun
          | some f =>
            by_cases hready : unhashed_origin_nodes net st node = []
            · obtain ⟨st2, hinv2, hext2, hid2, hrun2⟩ :=
                hash_loop_ready rng hwf hinv hh hn hf hready
              rw [hrun2 fuel rest] at hrun
              obtain ⟨h1, h2, h3⟩ := ih rest st2 hinv2 hrun
              refine ⟨h1, extended_by_trans hext2 h2, fun i hi => ?_⟩
              rcases List.mem_cons.mp hi with e | e
              · rw [e]
                exact h2.1 id hid2
              · exact h3 i e
            · rw [hash_loop_push rng net hh hn hf hready] at hrun
              obtain ⟨h1, h2, h3⟩ := ih _ st hinv hrun
              refine ⟨h1, h2, fun i hi => ?_⟩
              exact h3 i (List.mem_append_right _ hi)

/-- Whenever the hashing phase returns, the invariant holds and every live node is
hashed. -/
theorem compute_output_hashes_invariant (rng : Nat → Nat) {net : MFNetworkBuilder}
    (hwf : net.wellformed = true) {fuel : Nat} {st : HashState}
    (hrun : compute_output_hashes rng net fuel = some st) :
    HashInv rng net st ∧
      ∀ id n, net.node_or_null_by_id_at id = some n → st.is_hashed id := by
  unfold compute_output_hashes at hrun
  obtain ⟨h1, _, h3⟩ :=
    hash_function_nodes_invariant rng hwf fuel _ _ st (seeding_invariant rng hwf) hrun
  refine ⟨h1, fun id n hn => ?_⟩
  cases hf : n.function with
  | none => exact h1.dummies_hashed id (is_dummy_iff.mpr ⟨n, hn, hf⟩)
  | some f =>
    exact h3 id (List.mem_reverse.mpr
      (mem_function_nodes.mpr (is_function_iff.mpr ⟨n, f, hn, hf⟩)))

/-- Whenever the hashing phase returns, every origin carries a hash and the pass replaces
it by the first socket with that hash. -/
theorem remove_duplicates_origin (rng : Nat → Nat) {net : MFNetworkBuilder}
    (hwf : net.wellformed = true) {fuel : Nat} {st : HashState}
    (hrun : compute_output_hashes rng net fuel = some st) {t o : Nat}
    (ht : net.origin t = some o) :
    ∃ h, hash_at st.hash_by_output_socket o = some h ∧
      (deduplicate_all net (outputs_by_hash st.hash_by_output_socket)).origin t =
        some (first_with_hash st.hash_by_output_socket h) := by
  obtain ⟨hinv, hall⟩ := compute_output_hashes_invariant rng hwf hrun
  obtain ⟨m, nm, _, hnm, hom⟩ := origin_owner hwf ht
  obtain ⟨n1, hn1, hout⟩ := hinv.core.outputs_hashed m (hall m nm hnm)
  rw [hnm] at hn1
  cases hn1
  obtain ⟨h, hh⟩ := hash_at_isSome_iff.mp (hout o hom)
  refine ⟨h, hh, ?_⟩
  rw [origin_remove_duplicates, ht]
  simp only [Option.map_some', hh]

/-! ## Fuel -/

theorem hash_function_nodes_succ (rng : Nat → Nat) (net : MFNetworkBuilder) (fuel : Nat)
    (stack : List Nat) (st r : HashState)
    (h : hash_function_nodes rng net fuel stack st = some r) :
    hash_function_nodes rng net (fuel + 1) stack st = some r := by
  induction fuel generalizing stack st with
  | zero =>
    cases stack with
    | nil => simpa [hash_function_nodes] using h
    | cons id rest => simp [hash_function_nodes] at h
  | succ fuel ih =>
    cases stack with
    | nil => simpa [hash_function_nodes] using h
    | cons id rest =>
      rw [hash_function_nodes] at h ⊢
      by_cases hh : st.node_outputs_are_hashed.getD id false = true
      · rw [if_pos hh] at h ⊢
        exact ih _ _ h
      · rw [if_neg hh] at h ⊢
        cases hn : net.node_or_null_by_id_at id with
        | none => rw [hn] at h; cases h
        | some node =>
          rw [hn] at h
          simp only at h ⊢
          cases hf : node.function with
          | none => rw [hf] at h; cases h
          | some f =>
            rw [hf] at h
            simp only at h ⊢
            cases hu : unhashed_origin_nodes net st node with
            | cons d more =>
              rw [hu] at h
              exact ih _ _ h
            | nil =>
              rw [hu] at h
              simp only at h ⊢
              cases hc : combine_input_hashes rng net st.hash_by_output_socket node.inputs
                  827823743 st.rng with
              | none => rw [hc] at h; cases h
              | some r1 =>
                rw [hc] at h
                exact ih _ _ h

theorem compute_output_hashes_mono (rng : Nat → Nat) (net : MFNetworkBuilder) {fuel : Nat}
    {st : HashState} (h : compute_output_hashes rng net fuel = some st) (fuel1 : Nat)
    (hle : fuel ≤ fuel1) : compute_output_hashes rng net fuel1 = some st := by
  induction hle with
  | refl => exact h
  | step _ ih => exact hash_function_nodes_succ rng net _ _ _ _ ih

theorem remove_duplicates_eq (rng : Nat → Nat) (net : MFNetworkBuilder) {fuel : Nat}
    {st : HashState} (h : compute_output_hashes rng net fuel = some st) (fuel1 : Nat)
    (hle : fuel ≤ fuel1) :
    optimize_network__remove_duplicates rng fuel1 net =
      some (deduplicate_all net (outputs_by_hash st.hash_by_output_socket)) := by
  unfold optimize_network__remove_duplicates
  rw [compute_output_hashes_mono rng net h fuel1 hle]

/-! ## Collision-free hashes -/

theorem same_origin_hash_spec {net : MFNetworkBuilder} {hashes : List (Option Nat)}
    {t1 t2 : Nat} (h : same_origin_hash net hashes t1 t2 = true) :
    ∃ a b v, net.origin t1 = some a ∧ net.origin t2 = some b ∧ hash_at hashes a = some v ∧
      hash_at hashes b = some v := by
  unfold same_origin_hash at h
  cases h1 : net.origin t1 with
  | none => simp [h1] at h
  | some a =>
    cases h2 : net.origin t2 with
    | none => simp [h1, h2] at h
    | some b =>
      simp only [h1, h2, Bool.and_eq_true, beq_iff_eq] at h
      obtain ⟨v, hv⟩ := Option.isSome_iff_exists.mp h.1
      exact ⟨a, b, v, rfl, rfl, hv, by rw [← h.2, hv]⟩

/-- What structural equality of two output sockets means. -/
theorem structurally_equal_spec {net : MFNetworkBuilder} {hashes : List (Option Nat)}
    {o1 o2 : Nat} (h : structurally_equal net hashes o1 o2 = true) :
    ∃ s1 s2 n1 n2 f1 f2 p, net.socket_or_null_by_id_at o1 = some s1 ∧
      net.socket_or_null_by_id_at o2 = some s2 ∧ s1.index = s2.index ∧
      net.node_or_null_by_id_at s1.node = some n1 ∧
      net.node_or_null_by_id_at s2.node = some n2 ∧
      n1.function = some f1 ∧ n2.function = some f2 ∧
      f1.operation_hash = some p ∧ f2.operation_hash = some p ∧
      n1.inputs.length = n2.inputs.length ∧
      ∀ (k t1 t2 : Nat), n1.inputs[k]? = some t1 → n2.inputs[k]? = some t2 →
        ∃ a b v, net.origin t1 = some a ∧ net.origin t2 = some b ∧
          hash_at hashes a = some v ∧ hash_at hashes b = some v := by
  unfold structurally_equal at h
  cases hs1 : net.socket_or_null_by_id_at o1 with
  | none => simp [hs1] at h
  | some s1 =>
    cases hs2 : net.socket_or_null_by_id_at o2 with
    | none => simp [hs1, hs2] at h
    | some s2 =>
      simp only [hs1, hs2, Bool.and_eq_true, beq_iff_eq] at h
      obtain ⟨hidx, h⟩ := h
      cases hn1 : net.node_or_null_by_id_at s1.node with
      | none => simp [hn1] at h
      | some n1 =>
        cases hn2 : net.node_or_null_by_id_at s2.node with
        | none => simp [hn1, hn2] at h
        | some n2 =>
          simp only [hn1, hn2] at h
          cases hf1 : n1.function with
          | none => simp [hf1] at h
          | some f1 =>
            cases hf2 : n2.function with
            | none => simp [hf1, hf2] at h
            | some f2 =>
              simp only [hf1, hf2, Bool.and_eq_true, beq_iff_eq, List.all_eq_true] at h
              obtain ⟨⟨⟨hp1, hp2⟩, hlen⟩, hall⟩ := h
              obtain ⟨p, hp⟩ := Option.isSome_iff_exists.mp hp1
              refine ⟨s1, s2, n1, n2, f1, f2, p, rfl, rfl, hidx, hn1, hn2, hf1, hf2, hp,
                by rw [← hp2, hp], hlen, ?_⟩
              intro k t1 t2 hk1 hk2
              have hmem : (t1, t2) ∈ List.zip n1.inputs n2.inputs :=
                List.mem_iff_getElem?.mpr ⟨k, List.getElem?_zip_eq_some.mpr ⟨hk1, hk2⟩⟩
              exact same_origin_hash_spec (hall (t1, t2) hmem)

theorem collision_free_spec {net : MFNetworkBuilder} {hashes : List (Option Nat)}
    (h : collision_free net hashes = true) {o1 o2 v : Nat} (hne : o1 ≠ o2)
    (h1 : hash_at hashes o1 = some v) (h2 : hash_at hashes o2 = some v) :
    structurally_equal net hashes o1 o2 = true := by
  unfold collision_free at h
  rw [List.all_eq_true] at h
  have ha := h o1 (List.mem_range.mpr (hash_at_eq_some_lt h1))
  rw [List.all_eq_true] at ha
  have hb := ha o2 (List.mem_range.mpr (hash_at_eq_some_lt h2))
  simpa [hne, h1, h2] using hb

/-! ## Acyclicity after deduplication -/

theorem socket_node_of_same_nodes_and_sockets {net net1 : MFNetworkBuilder}
    (h : same_nodes_and_sockets net net1) (s : Nat) : net1.socket_node s = net.socket_node s := by
  have h1 := congrArg (Option.map MFBuilderSocket.node) (h.2.2 s)
  simpa [socket_node, Option.map_map, Function.comp_def, MFBuilderSocket.without_origin]
    using h1

/-- A link of the deduplicated network comes from a link of the original network whose
source owns a socket with the same hash as a socket of the new source. -/
theorem link_remove_duplicates (rng : Nat → Nat) {net : MFNetworkBuilder}
    (hwf : net.wellformed = true) {fuel : Nat} {st : HashState}
    (hrun : compute_output_hashes rng net fuel = some st) {a1 b : Nat}
    (hl : (deduplicate_all net (outputs_by_hash st.hash_by_output_socket)).link a1 b) :
    ∃ t o r h, net.socket_node t = some b ∧ net.origin t = some o ∧
      net.socket_node r = some a1 ∧ hash_at st.hash_by_output_socket o = some h ∧
      hash_at st.hash_by_output_socket r = some h := by
  obtain ⟨t, r, ht, hto, hr⟩ := hl
  have hsame := same_nodes_and_sockets_deduplicate_all net
    (outputs_by_hash st.hash_by_output_socket)
  rw [socket_node_of_same_nodes_and_sockets hsame] at ht hr
  cases ho : net.origin t with
  | none =>
    rw [origin_remove_duplicates, ho] at hto
    cases hto
  | some o =>
    obtain ⟨h, hh, hnew⟩ := remove_duplicates_origin rng hwf hrun ho
    rw [hnew] at hto
    cases hto
    exact ⟨t, o, _, h, ht, ho, hr, hh, (first_with_hash_spec _ hh).1⟩

theorem acyclic_of_wellFounded {net : MFNetworkBuilder} (h : WellFounded net.link) :
    net.acyclic :=
  fun n hn => h.transGen.asymmetric n n hn hn

/-- With collision-free hashes, every node similar to `n` is accessible for the link
relation of the deduplicated network. -/
theorem similar_nodes_acc (rng : Nat → Nat) {net : MFNetworkBuilder}
    (hwf : net.wellformed = true) (hac : net.acyclic) {fuel : Nat} {st : HashState}
    (hrun : compute_output_hashes rng net fuel = some st)
    (hcf : collision_free net st.hash_by_output_socket = true) (n : Nat) :
    ∀ n1, similar_nodes net st.hash_by_output_socket n n1 →
      Acc (deduplicate_all net (outputs_by_hash st.hash_by_output_socket)).link n1 := by
  induction n using (acyclic_wellFounded hwf hac).induction with
  | _ n ih =>
    intro n1 hsim
    refine Acc.intro _ fun a1 hl => ?_
    obtain ⟨t, o, r, h, ht, hto, hr, hho, hhr⟩ := link_remove_duplicates rng hwf hrun hl
    obtain ⟨a, na, hoa, _, _⟩ := origin_owner hwf hto
    by_cases hnn : n = n1
    · subst hnn
      exact ih a ⟨t, o, ht, hto, hoa⟩ a1 (Or.inr ⟨o, r, h, hoa, hr, hho, hhr⟩)
    · rcases hsim with e | ⟨o1, o2, v, ho1, ho2, hv1, hv2⟩
      · exact absurd e hnn
      · have hne : o1 ≠ o2 := by
          intro e
          rw [e, ho2] at ho1
          exact hnn (Option.some.inj ho1).symm
        obtain ⟨s1, s2, m1, m2, f1, f2, p, hs1, hs2, _, hm1, hm2, _, _, _, _, hlen, hpair⟩ :=
          structurally_equal_spec (collision_free_spec hcf hne hv1 hv2)
        have e1 : s1.node = n := by
          simpa [socket_node, hs1] using ho1
        have e2 : s2.node = n1 := by
          simpa [socket_node, hs2] using ho2
        rw [e1] at hm1
        rw [e2] at hm2
        obtain ⟨st0, so0, hst0, _, hin0, _, _⟩ := wellformed_origin hwf hto
        obtain ⟨m3, hm3, _, hin3⟩ := wellformed_socket hwf hst0
        have e3 : st0.node = n1 := by
          simpa [socket_node, hst0] using ht
        rw [e3, hm2] at hm3
        cases hm3
        have hk2 := hin3 hin0
        have hlt : st0.index < m1.inputs.length := by
          have := (List.getElem?_eq_some_iff.mp hk2).1
          omega
        have hk1 : m1.inputs[st0.index]? = some m1.inputs[st0.index] :=
          List.getElem?_eq_getElem hlt
        obtain ⟨x, y, w, hx, hy, hwx, hwy⟩ := hpair _ _ _ hk1 hk2
        have ey : y = o := by
          rw [hto] at hy
          exact (Option.some.inj hy).symm
        rw [ey, hho] at hwy
        have ew : w = h := (Option.some.inj hwy).symm
        rw [ew] at hwx
        obtain ⟨ax, _, hax, _, _⟩ := origin_owner hwf hx
        obtain ⟨sx, hsx, hsxn, _, _⟩ := wellformed_inputs hwf hm1 hk1
        have hlink : net.link ax n := ⟨_, x, by simp [socket_node, hsx, hsxn], hx, hax⟩
        exact ih ax hlink a1 (Or.inr ⟨x, r, h, hax, hr, hwx, hhr⟩)

/-! ## Claims about `optimize_network__remove_duplicates` -/

/-- C1: two distinct function nodes `b` and `c` with the same operation identity, equally
many inputs and outputs and, input by input, the same existing origin: with enough fuel
`optimize_network__remove_duplicates` returns, and every input socket that was fed by
output `i` of `b` or by output `i` of `c` is fed by one and the same output socket. -/
theorem remove_duplicates_merges_equal_functions (rng : Nat → Nat) (net : MFNetworkBuilder)
    (hwf : net.wellformed = true) (hac : net.acyclic) (b c : Nat) (nb nc : MFBuilderNode)
    (fb fc : MultiFunction) (p : Nat) (_hbc : b ≠ c)
    (hb : net.node_or_null_by_id_at b = some nb) (hc : net.node_or_null_by_id_at c = some nc)
    (hfb : nb.function = some fb) (hfc : nc.function = some fc)
    (hpb : fb.operation_hash = some p) (hpc : fc.operation_hash = some p)
    (hin : nb.inputs.length = nc.inputs.length)
    (_hout : nb.outputs.length = nc.outputs.length)
    (horigin : ∀ (k tb tc : Nat), nb.inputs[k]? = some tb → nc.inputs[k]? = some tc →
      ∃ o, net.origin tb = some o ∧ net.origin tc = some o) :
    ∃ fuel0 net1,
      (∀ fuel, fuel0 ≤ fuel → optimize_network__remove_duplicates rng fuel net = some net1) ∧
      ∀ (i ob oc : Nat), nb.outputs[i]? = some ob → nc.outputs[i]? = some oc →
        ∃ r, ∀ t, net.origin t = some ob ∨ net.origin t = some oc →
          net1.origin t = some r := by
  obtain ⟨fuel0, st, net1, hinv, hall, hrun, _, _, horig⟩ :=
    remove_duplicates_result rng hwf hac
  refine ⟨fuel0, net1, fun fuel hfuel => (hrun fuel hfuel).2, ?_⟩
  intro i ob oc hob hoc
  have hbh : st.is_hashed b := hall b nb hb
  have hch : st.is_hashed c := hall c nc hc
  obtain ⟨pb, cb, pb1, hcb, hfb1⟩ := hinv.formula b nb fb hbh hb hfb
  obtain ⟨pc, cc, pc1, hcc, hfc1⟩ := hinv.formula c nc fc hch hc hfc
  have hmap : nb.inputs.map net.origin = nc.inputs.map net.origin := by
    apply List.ext_getElem?
    intro k
    simp only [List.getElem?_map]
    cases hkb : nb.inputs[k]? with
    | none =>
      have : nc.inputs[k]? = none := by
        rw [List.getElem?_eq_none_iff] at hkb ⊢
        omega
      rw [this]
    | some tb =>
      have hlt : k < nc.inputs.length := by
        have := (List.getElem?_eq_some_iff.mp hkb).1
        omega
      obtain ⟨o, ho1, ho2⟩ := horigin k tb nc.inputs[k] hkb (List.getElem?_eq_getElem hlt)
      rw [List.getElem?_eq_getElem hlt]
      simp [ho1, ho2]
  have hlinked : ∀ t ∈ nb.inputs, (net.origin t).isSome = true := by
    intro t ht
    obtain ⟨k, hk⟩ := List.mem_iff_getElem?.mp ht
    have hlt : k < nc.inputs.length := by
      have := (List.getElem?_eq_some_iff.mp hk).1
      omega
    obtain ⟨o, ho1, _⟩ := horigin k t nc.inputs[k] hk (List.getElem?_eq_getElem hlt)
    rw [ho1]
    rfl
  have hcomb : (cb, pb1).1 = (cc, pc1).1 :=
    combine_input_hashes_congr rng net _ _ _ hmap hlinked _ _ _ _ _ hcb hcc
  simp only at hcomb
  obtain ⟨sb, hsb, _, _, hib⟩ := wellformed_outputs hwf hb hob
  obtain ⟨sc, hsc, _, _, hic⟩ := wellformed_outputs hwf hc hoc
  have hhb := hfb1 ob sb (List.mem_iff_getElem?.mpr ⟨i, hob⟩) hsb
  have hhc := hfc1 oc sc (List.mem_iff_getElem?.mpr ⟨i, hoc⟩) hsc
  have hop : operation_hash_or_random rng fb pb1 = operation_hash_or_random rng fc pc1 := by
    simp [operation_hash_or_random, hpb, hpc]
  rw [hib, hcomb, hop] at hhb
  rw [hic] at hhc
  refine ⟨first_with_hash st.hash_by_output_socket
    (u32 (u32 (cc * 462347 + operation_hash_or_random rng fc pc1) * (45234 + 567243 * i))),
    ?_⟩
  intro t ht
  rcases ht with ht | ht
  · obtain ⟨h, hh, hr⟩ := horig t ob ht
    rw [hhb] at hh
    cases hh
    exact hr
  · obtain ⟨h, hh, hr⟩ := horig t oc ht
    rw [hhc] at hh
    cases hh
    exact hr

/-- Witness for C1 on the network `A -> B -> D`, `A -> C -> D`: both inputs of `D`
(sockets 5 and 6) end up with the same origin. -/
theorem remove_duplicates_merges_equal_functions_witness :
    ∃ fuel0 net1,
      (∀ fuel, fuel0 ≤ fuel →
        optimize_network__remove_duplicates example_rng fuel network_ABCD = some net1) ∧
      ∃ r, net1.origin 5 = some r ∧ net1.origin 6 = some r := by
  obtain ⟨fuel0, net1, hrun, h⟩ :=
    remove_duplicates_merges_equal_functions example_rng network_ABCD (by decide)
      (acyclic_of_topologically_ordered (fun n => n) (by decide)) 1 2
      { function := some (example_pure 7), inputs := [1], outputs := [2] }
      { function := some (example_pure 7), inputs := [3], outputs := [4] }
      (example_pure 7) (example_pure 7) 7 (by decide) rfl rfl rfl rfl rfl rfl rfl rfl
      (by
        intro k tb tc hb hc
        cases k with
        | zero =>
          simp only [List.getElem?_cons_zero, Option.some.injEq] at hb hc
          subst hb
          subst hc
          exact ⟨0, by decide, by decide⟩
        | succ k => simp at hb)
  obtain ⟨r, hr⟩ := h 0 2 4 rfl rfl
  exact ⟨fuel0, net1, hrun, r, hr 5 (Or.inl (by decide)), hr 6 (Or.inr (by decide))⟩

/-- C4: with enough fuel `optimize_network__remove_duplicates` returns a network with the
same nodes and sockets; an input without origin still has none; the origin of every other
input is the first socket, in ascending id order, of the hash class of its former origin;
so a non-first member of a hash class ends with no targets and the targets of the first
member are the union of the former targets of the class. -/
theorem remove_duplicates_changes_origins_only (rng : Nat → Nat) (net : MFNetworkBuilder)
    (hwf : net.wellformed = true) (hac : net.acyclic) :
    ∃ fuel0 st net1,
      (∀ fuel, fuel0 ≤ fuel → compute_output_hashes rng net fuel = some st ∧
        optimize_network__remove_duplicates rng fuel net = some net1) ∧
      same_nodes_and_sockets net net1 ∧
      (∀ t, net.origin t = none → net1.origin t = none) ∧
      (∀ t o, net.origin t = some o →
        ∃ h r, hash_at st.hash_by_output_socket o = some h ∧ net1.origin t = some r ∧
          hash_at st.hash_by_output_socket r = some h ∧
          ∀ s, hash_at st.hash_by_output_socket s = some h → r ≤ s) ∧
      (∀ h s r, hash_at st.hash_by_output_socket s = some h →
        hash_at st.hash_by_output_socket r = some h → r < s → net1.targets s = []) ∧
      (∀ h r, hash_at st.hash_by_output_socket r = some h →
        (∀ s, hash_at st.hash_by_output_socket s = some h → r ≤ s) →
        ∀ t, t ∈ net1.targets r ↔
          ∃ s, hash_at st.hash_by_output_socket s = some h ∧ t ∈ net.targets s) := by
  obtain ⟨fuel0, st, net1, _, _, hrun, hsame, hnone, horig⟩ :=
    remove_duplicates_result rng hwf hac
  refine ⟨fuel0, st, net1, hrun, hsame, hnone, ?_, ?_, ?_⟩
  · intro t o ht
    obtain ⟨h, hh, hr⟩ := horig t o ht
    obtain ⟨h1, h2⟩ := first_with_hash_spec st.hash_by_output_socket hh
    exact ⟨h, _, hh, hr, h1, h2⟩
  · intro h s r hs hr hlt
    apply List.eq_nil_iff_forall_not_mem.mpr
    intro t ht
    have ht1 := mem_targets.mp ht
    cases ho : net.origin t with
    | none =>
      rw [hnone t ho] at ht1
      cases ht1
    | some o =>
      obtain ⟨h0, hh0, hr0⟩ := horig t o ho
      rw [hr0] at ht1
      obtain ⟨h1, h2⟩ := first_with_hash_spec st.hash_by_output_socket hh0
      have hs0 : s = first_with_hash st.hash_by_output_socket h0 := (Option.some.inj ht1).symm
      rw [← hs0, hs] at h1
      cases h1
      have := h2 r hr
      omega
  · intro h r hr hmin t
    obtain ⟨h1, h2⟩ := first_with_hash_spec st.hash_by_output_socket hr
    have hfirst : first_with_hash st.hash_by_output_socket h = r :=
      Nat.le_antisymm (h2 r hr) (hmin _ h1)
    constructor
    · intro ht
      have ht1 := mem_targets.mp ht
      cases ho : net.origin t with
      | none =>
        rw [hnone t ho] at ht1
        cases ht1
      | some o =>
        obtain ⟨h0, hh0, hr0⟩ := horig t o ho
        rw [hr0] at ht1
        obtain ⟨h3, _⟩ := first_with_hash_spec st.hash_by_output_socket hh0
        rw [Option.some.inj ht1, hr] at h3
        cases h3
        exact ⟨o, hh0, mem_targets.mpr ho⟩
    · rintro ⟨s, hs, ht⟩
      obtain ⟨h0, hh0, hr0⟩ := horig t s (mem_targets.mp ht)
      rw [hs] at hh0
      cases hh0
      rw [hfirst] at hr0
      exact mem_targets.mpr hr0

/-- Witness for C4 on the network `A -> B -> D`, `A -> C -> D`. -/
theorem remove_duplicates_changes_origins_only_witness :
    ∃ fuel0 st net1,
      (∀ fuel, fuel0 ≤ fuel →
        compute_output_hashes example_rng network_ABCD fuel = some st ∧
        optimize_network__remove_duplicates example_rng fuel network_ABCD = some net1) ∧
      same_nodes_and_sockets network_ABCD net1 ∧
      (∀ t, network_ABCD.origin t = none → net1.origin t = none) ∧
      (∀ t o, network_ABCD.origin t = some o →
        ∃ h r, hash_at st.hash_by_output_socket o = some h ∧ net1.origin t = some r ∧
          hash_at st.hash_by_output_socket r = some h ∧
          ∀ s, hash_at st.hash_by_output_socket s = some h → r ≤ s) ∧
      (∀ h s r, hash_at st.hash_by_output_socket s = some h →
        hash_at st.hash_by_output_socket r = some h → r < s → net1.targets s = []) ∧
      (∀ h r, hash_at st.hash_by_output_socket r = some h →
        (∀ s, hash_at st.hash_by_output_socket s = some h → r ≤ s) →
        ∀ t, t ∈ net1.targets r ↔
          ∃ s, hash_at st.hash_by_output_socket s = some h ∧ t ∈ network_ABCD.targets s) :=
  remove_duplicates_changes_origins_only example_rng network_ABCD (by decide)
    (acyclic_of_topologically_ordered (fun n => n) (by decide))

/-- C3 (counterexample): in the acyclic network `S -> N` the operation identity of `N`
makes the hash of its output equal to the hash of the output of `S`; deduplication
relinks the input of `N` to the output of `N` itself, so the result has a cycle. -/
theorem remove_duplicates_introduces_cycle :
    network_colliding.wellformed = true ∧ network_colliding.acyclic ∧
      ∃ net1, optimize_network__remove_duplicates example_rng 10 network_colliding =
        some net1 ∧ ¬ net1.acyclic := by
  refine ⟨by decide, acyclic_of_topologically_ordered (fun n => 1 - n) (by decide), _, rfl,
    ?_⟩
  · intro hac
    apply hac 0
    apply Relation.TransGen.single
    exact ⟨0, 1, by decide, by decide, by decide⟩

/-- C3 (amended): when the hashing phase returns collision-free hashes on a well-formed
acyclic network, `optimize_network__remove_duplicates` returns an acyclic network. -/
theorem remove_duplicates_acyclic_of_collision_free (rng : Nat → Nat)
    (net : MFNetworkBuilder) (hwf : net.wellformed = true) (hac : net.acyclic) (fuel : Nat)
    (hcf : hashes_collision_free rng net fuel = true) :
    ∃ net1, (∀ fuel1, fuel ≤ fuel1 →
        optimize_network__remove_duplicates rng fuel1 net = some net1) ∧ net1.acyclic := by
  unfold hashes_collision_free at hcf
  cases hrun : compute_output_hashes rng net fuel with
  | none => rw [hrun] at hcf; cases hcf
  | some st =>
    rw [hrun] at hcf
    refine ⟨_, fun fuel1 hle => remove_duplicates_eq rng net hrun fuel1 hle, ?_⟩
    apply acyclic_of_wellFounded
    exact ⟨fun n => similar_nodes_acc rng hwf hac hrun hcf n n (Or.inl rfl)⟩

/-- Witness for the amended C3 on the network `A -> B -> D`, `A -> C -> D`. -/
theorem remove_duplicates_acyclic_of_collision_free_witness :
    ∃ net1, (∀ fuel1, 20 ≤ fuel1 →
        optimize_network__remove_duplicates example_rng fuel1 network_ABCD = some net1) ∧
      net1.acyclic :=
  remove_duplicates_acyclic_of_collision_free example_rng network_ABCD (by decide)
    (acyclic_of_topologically_ordered (fun n => n) (by decide)) 20 (by decide)

/-! ## The reachability worklist -/

theorem marked_set (mask : List Bool) (m i : Nat) :
    marked (mask.set m true) i ↔ (i = m ∧ m < mask.length) ∨ marked mask i := by
  unfold marked
  rw [getD_set_true]
  by_cases h : i = m ∧ m < mask.length <;> simp [h]

theorem count_false_set (mask : List Bool) (m : Nat) (hm : m < mask.length)
    (hf : ¬ marked mask m) : (mask.set m true).count false + 1 = mask.count false := by
  unfold marked at hf
  induction mask generalizing m with
  | nil => simp at hm
  | cons b mask ih =>
    cases m with
    | zero =>
      simp only [List.getD_cons_zero, Bool.not_eq_true] at hf
      subst hf
      simp [List.count_cons]
    | succ m =>
      simp only [List.getD_cons_succ] at hf
      simp only [List.length_cons, Nat.add_lt_add_iff_right] at hm
      have := ih m hm hf
      simp only [List.set_cons_succ, List.count_cons]
      omega

theorem mark_and_push_spec (state : List Bool × List Nat) (m : Nat)
    (hm : m < state.1.length) :
    (mark_and_push state m).1.length = state.1.length ∧
      (∀ i, marked (mark_and_push state m).1 i ↔ marked state.1 i ∨ i = m) ∧
      (∀ x, x ∈ (mark_and_push state m).2 ↔
        x ∈ state.2 ∨ (x = m ∧ ¬ marked state.1 m)) ∧
      (mark_and_push state m).2.length + (mark_and_push state m).1.count false =
        state.2.length + state.1.count false := by
  unfold mark_and_push
  by_cases h : state.1.getD m false = true
  · rw [if_pos h]
    refine ⟨rfl, fun i => ?_, fun x => ?_, rfl⟩
    · constructor
      · exact fun hi => Or.inl hi
      · rintro (hi | hi)
        · exact hi
        · rw [hi]; exact h
    · constructor
      · exact fun hx => Or.inl hx
      · rintro (hx | hx)
        · exact hx
        · exact absurd h hx.2
  · rw [if_neg h]
    refine ⟨by simp, fun i => ?_, fun x => ?_, ?_⟩
    · simp only
      rw [marked_set]
      constructor
      · rintro (hi | hi)
        · exact Or.inr hi.1
        · exact Or.inl hi
      · rintro (hi | hi)
        · exact Or.inr hi
        · exact Or.inl ⟨hi, hm⟩
    · simp only [List.mem_cons]
      constructor
      · rintro (hx | hx)
        · exact Or.inr ⟨hx, h⟩
        · exact Or.inl hx
      · rintro (hx | hx)
        · exact Or.inr hx
        · exact Or.inl hx.1
    · have := count_false_set state.1 m hm h
      simp only [List.length_cons]
      omega

theorem foldl_mark_and_push_spec (ms : List Nat) (state : List Bool × List Nat)
    (hms : ∀ m ∈ ms, m < state.1.length) :
    (ms.foldl mark_and_push state).1.length = state.1.length ∧
      (∀ i, marked (ms.foldl mark_and_push state).1 i ↔ marked state.1 i ∨ i ∈ ms) ∧
      (∀ x, x ∈ (ms.foldl mark_and_push state).2 →
        x ∈ state.2 ∨ (x ∈ ms ∧ ¬ marked state.1 x)) ∧
      (∀ x, x ∈ state.2 → x ∈ (ms.foldl mark_and_push state).2) ∧
      (∀ x, x ∈ ms → ¬ marked state.1 x → x ∈ (ms.foldl mark_and_push state).2) ∧
      (ms.foldl mark_and_push state).2.length + (ms.foldl mark_and_push state).1.count false =
        state.2.length + state.1.count false := by
  induction ms generalizing state with
  | nil => simp
  | cons m ms ih =>
    obtain ⟨h1, h2, h3, h4⟩ := mark_and_push_spec state m (hms m (List.mem_cons_self _ _))
    have hms1 : ∀ x ∈ ms, x < (mark_and_push state m).1.length := by
      intro x hx
      rw [h1]
      exact hms x (List.mem_cons_of_mem _ hx)
    obtain ⟨g1, g2, g3, g4, g5, g6⟩ := ih (mark_and_push state m) hms1
    rw [List.foldl_cons]
    refine ⟨g1.trans h1, fun i => ?_, fun x hx => ?_, fun x hx => ?_, fun x hx hnm => ?_,
      g6.trans h4⟩
    · rw [g2, h2, List.mem_cons]
      tauto
    · rcases g3 x hx with e | e
      · rcases (h3 x).mp e with e1 | e1
        · exact Or.inl e1
        · exact Or.inr ⟨by rw [e1.1]; exact List.mem_cons_self _ _, by rw [e1.1]; exact e1.2⟩
      · refine Or.inr ⟨List.mem_cons_of_mem _ e.1, fun hmk => e.2 ((h2 x).mpr (Or.inl hmk))⟩
    · exact g4 x ((h3 x).mpr (Or.inl hx))
    · rcases List.mem_cons.mp hx with e | e
      · exact g4 x ((h3 x).mpr (Or.inr ⟨e, by rw [e] at hnm; exact hnm⟩))
      · by_cases hxm : x = m
        · exact g4 x ((h3 x).mpr (Or.inr ⟨hxm, by rw [hxm] at hnm; exact hnm⟩))
        · apply g5 x e
          intro hmk
          rcases (h2 x).mp hmk with e1 | e1
          · exact hnm e1
          · exact hxm e1

/-- The reachability worklist, run with enough fuel from a state that satisfies its
invariant, returns a mask that contains the start mask, is closed under `next`, and marks
only what every closed set containing the start mask and the stack contains. -/
theorem mark_reachable_spec (next : Nat → List Nat) (amount : Nat)
    (hnext : ∀ i m, m ∈ next i → m < amount) (fuel : Nat) (stack : List Nat)
    (mask : List Bool) (hlen : mask.length = amount)
    (hfuel : stack.length + mask.count false ≤ fuel) (hinv : mark_closed next mask stack) :
    (mark_reachable next fuel stack mask).length = amount ∧
      (∀ i, marked mask i → marked (mark_reachable next fuel stack mask) i) ∧
      (∀ i, marked (mark_reachable next fuel stack mask) i →
        ∀ m ∈ next i, marked (mark_reachable next fuel stack mask) m) ∧
      ∀ P : Nat → Prop, (∀ s ∈ stack, P s) → (∀ i, marked mask i → P i) →
        (∀ x m, P x → m ∈ next x → P m) →
        ∀ i, marked (mark_reachable next fuel stack mask) i → P i := by
  induction fuel generalizing stack mask with
  | zero =>
    have hs : stack = [] := by
      cases stack with
      | nil => rfl
      | cons _ _ => simp at hfuel
    subst hs
    simp only [mark_reachable]
    refine ⟨hlen, fun i h => h, fun i hi => ?_, fun P _ hP _ i hi => hP i hi⟩
    rcases hinv i hi with h | h
    · simp at h
    · exact h
  | succ fuel ih =>
    cases stack with
    | nil =>
      simp only [mark_reachable]
      refine ⟨hlen, fun i h => h, fun i hi => ?_, fun P _ hP _ i hi => hP i hi⟩
      rcases hinv i hi with h | h
      · simp at h
      · exact h
    | cons id rest =>
      have hms : ∀ m ∈ next id, m < (mask, rest).1.length := by
        intro m hm
        simp only [hlen]
        exact hnext id m hm
      obtain ⟨g1, g2, g3, g4, g5, g6⟩ := foldl_mark_and_push_spec (next id) (mask, rest) hms
      simp only at g1 g2 g3 g4 g5 g6
      have hfuel1 : ((next id).foldl mark_and_push (mask, rest)).2.length +
          ((next id).foldl mark_and_push (mask, rest)).1.count false ≤ fuel := by
        rw [g6]
        simp only [List.length_cons] at hfuel
        omega
      have hinv1 : mark_closed next ((next id).foldl mark_and_push (mask, rest)).1
          ((next id).foldl mark_and_push (mask, rest)).2 := by
        intro i hi
        by_cases hold : marked mask i
        · rcases hinv i hold with h | h
          · rcases List.mem_cons.mp h with e | e
            · right
              intro m hm
              rw [e] at hm
              exact (g2 m).mpr (Or.inr hm)
            · exact Or.inl (g4 i e)
          · right
            intro m hm
            exact (g2 m).mpr (Or.inl (h m hm))
        · rcases (g2 i).mp hi with h | h
          · exact absurd h hold
          · exact Or.inl (g5 i h hold)
      obtain ⟨k1, k2, k3, k4⟩ := ih _ _ (g1.trans hlen) hfuel1 hinv1
      simp only [mark_reachable]
      refine ⟨k1, fun i hi => k2 i ((g2 i).mpr (Or.inl hi)), k3, ?_⟩
      intro P hstack hmask hclosed i hi
      apply k4 P ?_ ?_ hclosed i hi
      · intro s hs
        rcases g3 s hs with e | e
        · exact hstack s (List.mem_cons_of_mem _ e)
        · exact hclosed id s (hstack id (List.mem_cons_self _ _)) e.1
      · intro j hj
        rcases (g2 j).mp hj with e | e
        · exact hmask j e
        · exact hclosed id j (hstack id (List.mem_cons_self _ _)) e

theorem count_le_length_bool (mask : List Bool) : mask.count false ≤ mask.length :=
  List.count_le_length _ _

theorem mask_of_nodes_length (amount : Nat) (nodes : List Nat) :
    (mask_of_nodes amount nodes).length = amount := by
  unfold mask_of_nodes
  have : ∀ (mask : List Bool),
      (nodes.foldl (fun mask id => mask.set id true) mask).length = mask.length := by
    induction nodes with
    | nil => intro mask; rfl
    | cons id nodes ih => intro mask; rw [List.foldl_cons, ih]; simp
  rw [this]
  simp

theorem marked_mask_of_nodes (amount : Nat) (nodes : List Nat) (i : Nat) :
    marked (mask_of_nodes amount nodes) i ↔ i ∈ nodes ∧ i < amount := by
  unfold mask_of_nodes
  have : ∀ (mask : List Bool), mask.length = amount →
      (marked (nodes.foldl (fun mask id => mask.set id true) mask) i ↔
        marked mask i ∨ (i ∈ nodes ∧ i < amount)) := by
    induction nodes with
    | nil => intro mask _; simp
    | cons id nodes ih =>
      intro mask hlen
      rw [List.foldl_cons, ih _ (by simpa using hlen), marked_set, hlen, List.mem_cons]
      constructor
      · rintro ((h | h) | h)
        · exact Or.inr ⟨Or.inl h.1, by rw [h.1]; exact h.2⟩
        · exact Or.inl h
        · exact Or.inr ⟨Or.inr h.1, h.2⟩
      · rintro (h | ⟨h | h, hlt⟩)
        · exact Or.inl (Or.inr h)
        · exact Or.inl (Or.inl ⟨h, by rw [← h]; exact hlt⟩)
        · exact Or.inr ⟨h, hlt⟩
  rw [this _ (by simp)]
  have hfalse : ¬ marked (List.replicate amount false) i := by
    unfold marked
    simp only [List.getD_eq_getElem?_getD, List.getElem?_replicate]
    by_cases h : i < amount <;> simp [h]
  simp [hfalse]

/-- The mask computed from the start nodes marks exactly the nodes reachable from a start
node along `next`. -/
theorem marked_mark_reachable (next : Nat → List Nat) (amount : Nat)
    (hnext : ∀ i m, m ∈ next i → m < amount) (nodes : List Nat)
    (hnodes : ∀ s ∈ nodes, s < amount) (i : Nat) :
    marked (mark_reachable next (nodes.length + amount) nodes.reverse
        (mask_of_nodes amount nodes)) i ↔
      ∃ s ∈ nodes, Relation.ReflTransGen (fun x y => y ∈ next x) s i := by
  have hlen := mask_of_nodes_length amount nodes
  have hfuel : nodes.reverse.length + (mask_of_nodes amount nodes).count false ≤
      nodes.length + amount := by
    have := count_le_length_bool (mask_of_nodes amount nodes)
    rw [hlen] at this
    simp only [List.length_reverse]
    omega
  have hinv : mark_closed next (mask_of_nodes amount nodes) nodes.reverse := by
    intro j hj
    exact Or.inl (List.mem_reverse.mpr ((marked_mask_of_nodes amount nodes j).mp hj).1)
  obtain ⟨_, k2, k3, k4⟩ := mark_reachable_spec next amount hnext _ _ _ hlen hfuel hinv
  constructor
  · intro hi
    apply k4 (fun j => ∃ s ∈ nodes, Relation.ReflTransGen (fun x y => y ∈ next x) s j) ?_ ?_ ?_
      i hi
    · intro s hs
      exact ⟨s, List.mem_reverse.mp hs, Relation.ReflTransGen.refl⟩
    · intro j hj
      exact ⟨j, ((marked_mask_of_nodes amount nodes j).mp hj).1, Relation.ReflTransGen.refl⟩
    · rintro x m ⟨s, hs, hsx⟩ hm
      exact ⟨s, hs, Relation.ReflTransGen.tail hsx hm⟩
  · rintro ⟨s, hs, hsi⟩
    induction hsi with
    | refl => exact k2 s ((marked_mask_of_nodes amount nodes s).mpr ⟨hs, hnodes s hs⟩)
    | tail _ hm ih => exact k3 _ ih _ hm

/-! ## Reachability in a network -/

theorem mem_origin_nodes {net : MFNetworkBuilder} (hwf : net.wellformed = true) {m x : Nat} :
    m ∈ net.origin_nodes x ↔ net.link m x := by
  unfold origin_nodes
  constructor
  · intro h
    cases hn : net.node_or_null_by_id_at x with
    | none => simp [hn] at h
    | some n =>
      rw [hn] at h
      simp only [List.mem_filterMap] at h
      obtain ⟨t, ht, hm⟩ := h
      cases ho : net.origin t with
      | none => simp [ho] at hm
      | some o =>
        rw [ho] at hm
        simp only [Option.some_bind] at hm
        obtain ⟨k, hk⟩ := List.mem_iff_getElem?.mp ht
        obtain ⟨s, hs, hsn, _, _⟩ := wellformed_inputs hwf hn hk
        exact ⟨t, o, by simp [socket_node, hs, hsn], ho, hm⟩
  · rintro ⟨t, o, ht, hto, ho⟩
    obtain ⟨s, so, hs, _, hin, _, _⟩ := wellformed_origin hwf hto
    obtain ⟨n, hn, _, hlist⟩ := wellformed_socket hwf hs
    have e : s.node = x := by simpa [socket_node, hs] using ht
    rw [e] at hn
    rw [hn]
    simp only [List.mem_filterMap]
    exact ⟨t, List.mem_iff_getElem?.mpr ⟨_, hlist hin⟩, by simp [hto, ho]⟩

theorem origin_nodes_lt {net : MFNetworkBuilder} (hwf : net.wellformed = true) (i m : Nat)
    (h : m ∈ net.origin_nodes i) : m < net.node_id_amount :=
  (link_lt hwf ((mem_origin_nodes hwf).mp h)).1

/-- The mask of the nodes "to the left of, inclusive" marks exactly the nodes with a
forward path to one of the given nodes. -/
theorem marked_left_of_inclusive {net : MFNetworkBuilder} (hwf : net.wellformed = true)
    (nodes : List Nat) (hnodes : ∀ s ∈ nodes, s < net.node_id_amount) (i : Nat) :
    marked (net.find_nodes_to_the_left_of__inclusive__mask nodes) i ↔
      ∃ s ∈ nodes, Relation.ReflTransGen net.link i s := by
  unfold find_nodes_to_the_left_of__inclusive__mask
  rw [marked_mark_reachable net.origin_nodes net.node_id_amount (origin_nodes_lt hwf) nodes
    hnodes i]
  have hrel : (fun x y => y ∈ net.origin_nodes x) = Function.swap net.link := by
    funext x y
    exact propext (mem_origin_nodes hwf)
  rw [hrel]
  constructor
  · rintro ⟨s, hs, h⟩
    exact ⟨s, hs, Relation.reflTransGen_swap.mp h⟩
  · rintro ⟨s, hs, h⟩
    exact ⟨s, hs, Relation.reflTransGen_swap.mpr h⟩

theorem marked_left_of_dummies {net : MFNetworkBuilder} (hwf : net.wellformed = true)
    (i : Nat) :
    marked (net.find_nodes_to_the_left_of__inclusive__mask net.dummy_nodes) i ↔
      reaches_dummy net i := by
  rw [marked_left_of_inclusive hwf]
  · unfold reaches_dummy
    constructor
    · rintro ⟨s, hs, h⟩
      exact ⟨s, mem_dummy_nodes.mp hs, h⟩
    · rintro ⟨s, hs, h⟩
      exact ⟨s, mem_dummy_nodes.mpr hs, h⟩
  · intro s hs
    obtain ⟨n, hn, _⟩ := is_dummy_iff.mp (mem_dummy_nodes.mp hs)
    exact node_at_eq_some_lt hn

theorem mem_nodes_by_id_inverted_id_mask {net : MFNetworkBuilder} {mask : List Bool}
    {id : Nat} :
    id ∈ net.nodes_by_id_inverted_id_mask mask ↔
      (net.node_or_null_by_id_at id).isSome = true ∧ ¬ marked mask id := by
  unfold nodes_by_id_inverted_id_mask marked
  simp only [List.mem_filter, List.mem_range, Bool.and_eq_true, Bool.not_eq_true',
    Bool.not_eq_true]
  constructor
  · exact fun h => h.2
  · intro h
    obtain ⟨n, hn⟩ := Option.isSome_iff_exists.mp h.1
    exact ⟨node_at_eq_some_lt hn, h⟩

/-- The nodes removed by `optimize_network__remove_unused_nodes`: the live nodes that do
not reach a dummy node. -/
theorem mem_unused_nodes {net : MFNetworkBuilder} (hwf : net.wellformed = true) {id : Nat} :
    id ∈ net.find_nodes_not_to_the_left_of__exclusive__vector net.dummy_nodes ↔
      (net.node_or_null_by_id_at id).isSome = true ∧ ¬ reaches_dummy net id := by
  unfold find_nodes_not_to_the_left_of__exclusive__vector
  rw [mem_nodes_by_id_inverted_id_mask, marked_left_of_dummies hwf]

/-! ## Removing nodes -/

theorem node_at_remove_node (net : MFNetworkBuilder) (id i : Nat) :
    (net.remove_node id).node_or_null_by_id_at i =
      if i = id then none else net.node_or_null_by_id_at i := by
  unfold remove_node node_or_null_by_id_at
  simp only [List.getElem?_set]
  by_cases h : id = i
  · subst h
    by_cases hl : id < net.node_or_null_by_id.length <;> simp [hl]
  · have : ¬ i = id := fun e => h e.symm
    simp [h, this]

theorem socket_at_remove_node (net : MFNetworkBuilder) (id i : Nat) :
    (net.remove_node id).socket_or_null_by_id_at i =
      net.remove_node_socket id (net.socket_or_null_by_id_at i) := by
  unfold remove_node socket_or_null_by_id_at
  simp only [List.getElem?_map]
  cases h : net.socket_or_null_by_id[i]? with
  | none => rfl
  | some e => cases e <;> rfl

theorem node_at_remove_nodes (net : MFNetworkBuilder) (nodes : List Nat) (i : Nat) :
    (net.remove_nodes nodes).node_or_null_by_id_at i =
      if i ∈ nodes then none else net.node_or_null_by_id_at i := by
  unfold remove_nodes
  induction nodes generalizing net with
  | nil => simp
  | cons id nodes ih =>
    rw [List.foldl_cons, ih, node_at_remove_node]
    by_cases h1 : i = id
    · simp [h1]
    · by_cases h2 : i ∈ nodes <;> simp [h1, h2]

theorem node_id_amount_remove_nodes (net : MFNetworkBuilder) (nodes : List Nat) :
    (net.remove_nodes nodes).node_id_amount = net.node_id_amount := by
  unfold remove_nodes
  induction nodes generalizing net with
  | nil => rfl
  | cons id nodes ih =>
    rw [List.foldl_cons, ih]
    simp [remove_node, node_id_amount]

theorem socket_id_amount_remove_nodes (net : MFNetworkBuilder) (nodes : List Nat) :
    (net.remove_nodes nodes).socket_id_amount = net.socket_id_amount := by
  unfold remove_nodes
  induction nodes generalizing net with
  | nil => rfl
  | cons id nodes ih =>
    rw [List.foldl_cons, ih]
    simp [remove_node, socket_id_amount]

theorem socket_node_remove_node (net : MFNetworkBuilder) (id o : Nat) :
    (net.remove_node id).socket_node o =
      if net.socket_node o = some id then none else net.socket_node o := by
  unfold socket_node
  rw [socket_at_remove_node]
  cases h : net.socket_or_null_by_id_at o with
  | none => simp [remove_node_socket]
  | some s =>
    simp only [remove_node_socket, Option.map_some', Option.some.injEq]
    by_cases h1 : s.node = id
    · simp [h1]
    · rw [if_neg h1, if_neg h1]
      by_cases h2 : s.origin.bind net.socket_node = some id
      · rw [if_pos h2]
        rfl
      · rw [if_neg h2]
        rfl

theorem socket_at_remove_nodes (net : MFNetworkBuilder) (nodes : List Nat) (i : Nat) :
    (net.remove_nodes nodes).socket_or_null_by_id_at i =
      remove_nodes_socket net nodes (net.socket_or_null_by_id_at i) := by
  induction nodes generalizing net with
  | nil =>
    cases h : net.socket_or_null_by_id_at i with
    | none => simp [remove_nodes, remove_nodes_socket, h]
    | some s =>
      simp only [remove_nodes, List.foldl_nil, h, remove_nodes_socket, List.not_mem_nil,
        if_false]
      cases s.origin.bind net.socket_node <;> rfl
  | cons id nodes ih =>
    have hstep : net.remove_nodes (id :: nodes) = (net.remove_node id).remove_nodes nodes := rfl
    rw [hstep, ih, socket_at_remove_node]
    cases h : net.socket_or_null_by_id_at i with
    | none => rfl
    | some s =>
      simp only [remove_node_socket, remove_nodes_socket, List.mem_cons]
      by_cases h1 : s.node = id
      · simp [h1, remove_nodes_socket]
      · rw [if_neg h1]
        by_cases h2 : s.origin.bind net.socket_node = some id
        · rw [if_pos h2]
          simp only [remove_nodes_socket, h2]
          by_cases h3 : s.node ∈ nodes
          · simp [h3]
          · simp [h1, h3]
        · rw [if_neg h2]
          simp only [remove_nodes_socket]
          have hown : s.origin.bind (net.remove_node id).socket_node =
              s.origin.bind net.socket_node := by
            cases ho : s.origin with
            | none => rfl
            | some o =>
              rw [ho] at h2
              simp only [Option.some_bind] at h2 ⊢
              rw [socket_node_remove_node, if_neg h2]
          rw [hown]
          by_cases h3 : s.node ∈ nodes
          · simp [h3]
          · simp only [h1, h3, or_self, if_false]
            cases hm : s.origin.bind net.socket_node with
            | none => rfl
            | some m =>
              have hne : m ≠ id := by
                intro e
                rw [e] at hm
                exact h2 hm
              simp [hne]

/-! ## Removal keeps a network well-formed -/

theorem sockets_owned_intro {net : MFNetworkBuilder} {id : Nat} {dir : Bool}
    {sockets : List Nat}
    (h : ∀ (k t : Nat), sockets[k]? = some t →
      ∃ s, net.socket_or_null_by_id_at t = some s ∧ s.node = id ∧ s.is_output = dir ∧
        s.index = k) : net.sockets_owned id dir sockets = true := by
  unfold sockets_owned
  rw [List.all_eq_true]
  rintro ⟨k, t⟩ hkt
  obtain ⟨s, hs, h1, h2, h3⟩ := h k t (List.mk_mem_enum_iff_getElem?.mp hkt)
  simp [hs, h1, h2, h3]

theorem wellformed_intro {net : MFNetworkBuilder}
    (h1 : ∀ (id : Nat) (n : MFBuilderNode) (k t : Nat),
      net.node_or_null_by_id_at id = some n → n.inputs[k]? = some t →
      ∃ s, net.socket_or_null_by_id_at t = some s ∧ s.node = id ∧ s.is_output = false ∧
        s.index = k)
    (h2 : ∀ (id : Nat) (n : MFBuilderNode) (k t : Nat),
      net.node_or_null_by_id_at id = some n → n.outputs[k]? = some t →
      ∃ s, net.socket_or_null_by_id_at t = some s ∧ s.node = id ∧ s.is_output = true ∧
        s.index = k)
    (h3 : ∀ (sid : Nat) (s : MFBuilderSocket), net.socket_or_null_by_id_at sid = some s →
      ∃ n, net.node_or_null_by_id_at s.node = some n ∧
        (s.is_output = true → n.outputs[s.index]? = some sid) ∧
        (s.is_output = false → n.inputs[s.index]? = some sid))
    (h4 : ∀ (sid : Nat) (s : MFBuilderSocket) (o : Nat),
      net.socket_or_null_by_id_at sid = some s → s.origin = some o →
      s.is_output = false ∧
        ∃ so, net.socket_or_null_by_id_at o = some so ∧ so.is_output = true) :
    net.wellformed = true := by
  unfold wellformed
  rw [Bool.and_eq_true, List.all_eq_true, List.all_eq_true]
  constructor
  · intro id _
    cases hn : net.node_or_null_by_id_at id with
    | none => rfl
    | some n =>
      simp only [Bool.and_eq_true]
      exact ⟨sockets_owned_intro fun k t hk => h1 id n k t hn hk,
        sockets_owned_intro fun k t hk => h2 id n k t hn hk⟩
  · intro sid _
    cases hs : net.socket_or_null_by_id_at sid with
    | none => rfl
    | some s =>
      simp only
      unfold socket_ok
      rw [Bool.and_eq_true]
      obtain ⟨n, hn, ho, hi⟩ := h3 sid s hs
      constructor
      · rw [hn]
        simp only
        cases hdir : s.is_output with
        | true => simp [ho hdir]
        | false => simp [hi hdir]
      · cases horig : s.origin with
        | none => rfl
        | some o =>
          obtain ⟨hin, so, hso, hout⟩ := h4 sid s o hs horig
          simp [hin, hso, hout]

theorem remove_nodes_socket_eq_some {net : MFNetworkBuilder} {nodes : List Nat}
    {x : Option MFBuilderSocket} {s1 : MFBuilderSocket}
    (h : remove_nodes_socket net nodes x = some s1) :
    ∃ s, x = some s ∧ s.node ∉ nodes ∧ s1.node = s.node ∧ s1.is_output = s.is_output ∧
      s1.index = s.index ∧ s1.data_type = s.data_type ∧
      (∀ o, s1.origin = some o ↔
        s.origin = some o ∧ ∀ m, net.socket_node o = some m → m ∉ nodes) := by
  cases x with
  | none => simp [remove_nodes_socket] at h
  | some s =>
    simp only [remove_nodes_socket] at h
    by_cases h1 : s.node ∈ nodes
    · rw [if_pos h1] at h
      cases h
    · rw [if_neg h1] at h
      refine ⟨s, rfl, h1, ?_⟩
      cases horig : s.origin with
      | none =>
        rw [horig] at h
        simp only [Option.none_bind, Option.some.injEq] at h
        subst h
        simp [horig]
      | some o =>
        rw [horig] at h
        simp only [Option.some_bind] at h
        cases hm : net.socket_node o with
        | none =>
          rw [hm] at h
          simp only [Option.some.injEq] at h
          subst h
          simp [horig, hm]
        | some m =>
          rw [hm] at h
          simp only at h
          by_cases h2 : m ∈ nodes
          · rw [if_pos h2] at h
            simp only [Option.some.injEq] at h
            subst h
            refine ⟨rfl, rfl, rfl, rfl, fun o1 => ?_⟩
            constructor
            · intro ho1
              cases ho1
            · rintro ⟨ho1, hall⟩
              cases ho1
              exact absurd h2 (hall m hm)
          · rw [if_neg h2] at h
            simp only [Option.some.injEq] at h
            subst h
            refine ⟨rfl, rfl, rfl, rfl, fun o1 => ?_⟩
            constructor
            · intro ho1
              rw [horig] at ho1
              cases ho1
              refine ⟨rfl, fun m1 hm1 => ?_⟩
              rw [hm] at hm1
              cases hm1
              exact h2
            · intro ho1
              rw [horig]
              exact ho1.1

theorem remove_nodes_socket_isSome (net : MFNetworkBuilder) {nodes : List Nat}
    {s : MFBuilderSocket} (h : s.node ∉ nodes) :
    ∃ s1, remove_nodes_socket net nodes (some s) = some s1 := by
  simp only [remove_nodes_socket]
  rw [if_neg h]
  cases s.origin.bind net.socket_node with
  | none => exact ⟨_, rfl⟩
  | some m =>
    simp only
    by_cases h2 : m ∈ nodes
    · rw [if_pos h2]; exact ⟨_, rfl⟩
    · rw [if_neg h2]; exact ⟨_, rfl⟩

/-- Removing nodes keeps a well-formed network well-formed. -/
theorem wellformed_remove_nodes {net : MFNetworkBuilder} (hwf : net.wellformed = true)
    (nodes : List Nat) : (net.remove_nodes nodes).wellformed = true := by
  have hnode : ∀ (id : Nat) (n : MFBuilderNode),
      (net.remove_nodes nodes).node_or_null_by_id_at id = some n →
      id ∉ nodes ∧ net.node_or_null_by_id_at id = some n := by
    intro id n hn
    rw [node_at_remove_nodes] at hn
    by_cases h : id ∈ nodes
    · rw [if_pos h] at hn
      cases hn
    · rw [if_neg h] at hn
      exact ⟨h, hn⟩
  have hkeep : ∀ (t : Nat) (s : MFBuilderSocket), net.socket_or_null_by_id_at t = some s →
      s.node ∉ nodes → ∃ s1, (net.remove_nodes nodes).socket_or_null_by_id_at t = some s1 ∧
        s1.node = s.node ∧ s1.is_output = s.is_output ∧ s1.index = s.index := by
    intro t s hs hnot
    obtain ⟨s1, hs1⟩ := remove_nodes_socket_isSome net hnot
    obtain ⟨s0, e0, _, g1, g2, g3, _⟩ := remove_nodes_socket_eq_some hs1
    cases e0
    exact ⟨s1, by rw [socket_at_remove_nodes, hs, hs1], g1, g2, g3⟩
  apply wellformed_intro
  · intro id n k t hn hk
    obtain ⟨hid, hn0⟩ := hnode id n hn
    obtain ⟨s, hs, e1, e2, e3⟩ := wellformed_inputs hwf hn0 hk
    obtain ⟨s1, hs1, g1, g2, g3⟩ := hkeep t s hs (by rw [e1]; exact hid)
    exact ⟨s1, hs1, by rw [g1, e1], by rw [g2, e2], by rw [g3, e3]⟩
  · intro id n k t hn hk
    obtain ⟨hid, hn0⟩ := hnode id n hn
    obtain ⟨s, hs, e1, e2, e3⟩ := wellformed_outputs hwf hn0 hk
    obtain ⟨s1, hs1, g1, g2, g3⟩ := hkeep t s hs (by rw [e1]; exact hid)
    exact ⟨s1, hs1, by rw [g1, e1], by rw [g2, e2], by rw [g3, e3]⟩
  · intro sid s1 hs1
    rw [socket_at_remove_nodes] at hs1
    obtain ⟨s, hs, hnot, g1, g2, g3, _⟩ := remove_nodes_socket_eq_some hs1
    obtain ⟨n, hn, ho, hi⟩ := wellformed_socket hwf hs
    refine ⟨n, ?_, ?_, ?_⟩
    · rw [node_at_remove_nodes, g1, if_neg hnot]
      exact hn
    · rw [g2, g3]
      exact ho
    · rw [g2, g3]
      exact hi
  · intro sid s1 o hs1 horig
    rw [socket_at_remove_nodes] at hs1
    obtain ⟨s, hs, hnot, g1, g2, g3, _, g5⟩ := remove_nodes_socket_eq_some hs1
    obtain ⟨h0, hm⟩ := (g5 o).mp horig
    have hto : net.origin sid = some o := by
      simp [origin, hs, h0]
    obtain ⟨s2, so, hs2, _, hin, hso, hout⟩ := wellformed_origin hwf hto
    rw [hs] at hs2
    cases hs2
    refine ⟨by rw [g2]; exact hin, ?_⟩
    have hown : so.node ∉ nodes := hm so.node (by simp [socket_node, hso])
    obtain ⟨so1, hso1, _, k2, _⟩ := hkeep o so hso hown
    exact ⟨so1, hso1, by rw [k2]; exact hout⟩

/-! ## The result of `optimize_network__remove_unused_nodes` -/

theorem node_at_remove_unused_nodes_of_reaches {net : MFNetworkBuilder}
    (hwf : net.wellformed = true) {id : Nat} (hr : reaches_dummy net id) :
    (optimize_network__remove_unused_nodes net).node_or_null_by_id_at id =
      net.node_or_null_by_id_at id := by
  unfold optimize_network__remove_unused_nodes
  rw [node_at_remove_nodes]
  have : id ∉ net.find_nodes_not_to_the_left_of__exclusive__vector net.dummy_nodes :=
    fun h => ((mem_unused_nodes hwf).mp h).2 hr
  rw [if_neg this]

theorem node_at_remove_unused_nodes_of_not_reaches {net : MFNetworkBuilder}
    (hwf : net.wellformed = true) {id : Nat} (hr : ¬ reaches_dummy net id) :
    (optimize_network__remove_unused_nodes net).node_or_null_by_id_at id = none := by
  unfold optimize_network__remove_unused_nodes
  rw [node_at_remove_nodes]
  cases hn : net.node_or_null_by_id_at id with
  | none => simp
  | some n =>
    have : id ∈ net.find_nodes_not_to_the_left_of__exclusive__vector net.dummy_nodes :=
      (mem_unused_nodes hwf).mpr ⟨by rw [hn]; rfl, hr⟩
    rw [if_pos this]

theorem reaches_dummy_of_link {net : MFNetworkBuilder} {a b : Nat} (hl : net.link a b)
    (hb : reaches_dummy net b) : reaches_dummy net a := by
  obtain ⟨d, hd, hp⟩ := hb
  exact ⟨d, hd, Relation.ReflTransGen.head hl hp⟩

theorem not_mem_unused_of_reaches {net : MFNetworkBuilder} (hwf : net.wellformed = true)
    {id : Nat} (h : reaches_dummy net id) :
    id ∉ net.find_nodes_not_to_the_left_of__exclusive__vector net.dummy_nodes :=
  fun hm => ((mem_unused_nodes hwf).mp hm).2 h

/-- A socket kept by `optimize_network__remove_unused_nodes` belongs to a node that
reaches a dummy, and it keeps its origin. -/
theorem socket_at_remove_unused_nodes {net : MFNetworkBuilder} (hwf : net.wellformed = true)
    {t : Nat} {s1 : MFBuilderSocket}
    (h : (optimize_network__remove_unused_nodes net).socket_or_null_by_id_at t = some s1) :
    ∃ s, net.socket_or_null_by_id_at t = some s ∧ reaches_dummy net s.node ∧
      s1.node = s.node ∧ s1.origin = s.origin := by
  unfold optimize_network__remove_unused_nodes at h
  rw [socket_at_remove_nodes] at h
  obtain ⟨s, hs, hnot, g1, _, _, _, g5⟩ := remove_nodes_socket_eq_some h
  obtain ⟨n, hn, _⟩ := wellformed_socket hwf hs
  have hreach : reaches_dummy net s.node := by
    by_contra hr
    exact hnot ((mem_unused_nodes hwf).mpr ⟨by rw [hn]; rfl, hr⟩)
  refine ⟨s, hs, hreach, g1, ?_⟩
  cases horig : s.origin with
  | none =>
    cases h1 : s1.origin with
    | none => rfl
    | some o =>
      have := ((g5 o).mp h1).1
      rw [horig] at this
      cases this
  | some o =>
    apply (g5 o).mpr
    refine ⟨horig, fun m hm => ?_⟩
    apply not_mem_unused_of_reaches hwf
    apply reaches_dummy_of_link _ hreach
    exact ⟨t, o, by simp [socket_node, hs], by simp [origin, hs, horig], hm⟩

theorem socket_kept_of_reaches {net : MFNetworkBuilder} (hwf : net.wellformed = true)
    {t : Nat} {s : MFBuilderSocket} (hs : net.socket_or_null_by_id_at t = some s)
    (hr : reaches_dummy net s.node) :
    ∃ s1, (optimize_network__remove_unused_nodes net).socket_or_null_by_id_at t = some s1 ∧
      s1.node = s.node ∧ s1.origin = s.origin := by
  obtain ⟨s1, hs1⟩ := remove_nodes_socket_isSome net (not_mem_unused_of_reaches hwf hr)
  have h : (optimize_network__remove_unused_nodes net).socket_or_null_by_id_at t = some s1 := by
    unfold optimize_network__remove_unused_nodes
    rw [socket_at_remove_nodes, hs, hs1]
  obtain ⟨s0, hs0, _, g1, g2⟩ := socket_at_remove_unused_nodes hwf h
  rw [hs] at hs0
  cases hs0
  exact ⟨s1, h, g1, g2⟩

theorem link_remove_unused_nodes {net : MFNetworkBuilder} (hwf : net.wellformed = true)
    {a b : Nat} (hl : net.link a b) (hb : reaches_dummy net b) :
    (optimize_network__remove_unused_nodes net).link a b := by
  have ha := reaches_dummy_of_link hl hb
  obtain ⟨t, o, ht, hto, ho⟩ := hl
  obtain ⟨s, so, hs, horig, _, hso, _⟩ := wellformed_origin hwf hto
  have e1 : s.node = b := by simpa [socket_node, hs] using ht
  have e2 : so.node = a := by simpa [socket_node, hso] using ho
  obtain ⟨s1, hs1, g1, g2⟩ := socket_kept_of_reaches hwf hs (by rw [e1]; exact hb)
  obtain ⟨so1, hso1, k1, _⟩ := socket_kept_of_reaches hwf hso (by rw [e2]; exact ha)
  refine ⟨t, o, ?_, ?_, ?_⟩
  · simp [socket_node, hs1, g1, e1]
  · simp [origin, hs1, g2, horig]
  · simp [socket_node, hso1, k1, e2]

theorem reaches_dummy_remove_unused_nodes {net : MFNetworkBuilder}
    (hwf : net.wellformed = true) {id : Nat} (h : reaches_dummy net id) :
    reaches_dummy (optimize_network__remove_unused_nodes net) id := by
  obtain ⟨d, hd, hp⟩ := h
  refine ⟨d, ?_, ?_⟩
  · unfold is_dummy at hd ⊢
    rw [node_at_remove_unused_nodes_of_reaches hwf
      (show reaches_dummy net d from ⟨d, hd, Relation.ReflTransGen.refl⟩)]
    exact hd
  · induction hp using Relation.ReflTransGen.head_induction_on with
    | refl => exact Relation.ReflTransGen.refl
    | head hl hp ih =>
      exact Relation.ReflTransGen.head (link_remove_unused_nodes hwf hl ⟨d, hd, hp⟩) ih

/-! ## Claims about `optimize_network__remove_unused_nodes` -/

/-- Every node of the network that results from `optimize_network__remove_unused_nodes`
has a forward path to a dummy node of that network. -/
theorem reaches_dummy_of_kept {net : MFNetworkBuilder} (hwf : net.wellformed = true)
    {id : Nat} {n : MFBuilderNode}
    (hn : (optimize_network__remove_unused_nodes net).node_or_null_by_id_at id = some n) :
    reaches_dummy (optimize_network__remove_unused_nodes net) id := by
  by_cases hr : reaches_dummy net id
  · exact reaches_dummy_remove_unused_nodes hwf hr
  · rw [node_at_remove_unused_nodes_of_not_reaches hwf hr] at hn
    cases hn

/-- C5: `optimize_network__remove_unused_nodes` removes a live node if and only if the
node has no forward path (a path of length zero counting) to a dummy node of the input
network; a kept node is unchanged, no dummy node is removed, and every function node that
cannot reach a dummy node is removed. -/
theorem remove_unused_nodes_removes_iff (net : MFNetworkBuilder)
    (hwf : net.wellformed = true) (id : Nat) (n : MFBuilderNode)
    (hn : net.node_or_null_by_id_at id = some n) :
    ((optimize_network__remove_unused_nodes net).node_or_null_by_id_at id = none ↔
        ¬ reaches_dummy net id) ∧
      (reaches_dummy net id →
        (optimize_network__remove_unused_nodes net).node_or_null_by_id_at id = some n) ∧
      (net.is_dummy id = true →
        (optimize_network__remove_unused_nodes net).node_or_null_by_id_at id = some n) ∧
      (net.is_function id = true → ¬ reaches_dummy net id →
        (optimize_network__remove_unused_nodes net).node_or_null_by_id_at id = none) := by
  have hkeep : reaches_dummy net id →
      (optimize_network__remove_unused_nodes net).node_or_null_by_id_at id = some n := by
    intro hr
    rw [node_at_remove_unused_nodes_of_reaches hwf hr, hn]
  have hdrop : ¬ reaches_dummy net id →
      (optimize_network__remove_unused_nodes net).node_or_null_by_id_at id = none := by
    intro hr
    exact node_at_remove_unused_nodes_of_not_reaches hwf hr
  refine ⟨⟨fun h hr => ?_, hdrop⟩, hkeep, fun hd => ?_, fun _ hr => hdrop hr⟩
  · rw [hkeep hr] at h
    cases h
  · exact hkeep ⟨id, hd, Relation.ReflTransGen.refl⟩

/-- Witness for C5: node 2 (`G`) of `network_unused`. -/
theorem remove_unused_nodes_removes_iff_witness :
    ((optimize_network__remove_unused_nodes network_unused).node_or_null_by_id_at 2 = none ↔
        ¬ reaches_dummy network_unused 2) ∧
      (reaches_dummy network_unused 2 →
        (optimize_network__remove_unused_nodes network_unused).node_or_null_by_id_at 2 =
          some { function := some (example_pure 8), inputs := [3], outputs := [4] }) ∧
      (network_unused.is_dummy 2 = true →
        (optimize_network__remove_unused_nodes network_unused).node_or_null_by_id_at 2 =
          some { function := some (example_pure 8), inputs := [3], outputs := [4] }) ∧
      (network_unused.is_function 2 = true → ¬ reaches_dummy network_unused 2 →
        (optimize_network__remove_unused_nodes network_unused).node_or_null_by_id_at 2 =
          none) :=
  remove_unused_nodes_removes_iff network_unused (by decide) 2
    { function := some (example_pure 8), inputs := [3], outputs := [4] } rfl

/-- C6: in the network that results from `optimize_network__remove_unused_nodes` every
remaining node has a forward path to a dummy node of that network, through remaining
nodes only, and every remaining socket has the origin it had before. -/
theorem remove_unused_nodes_keeps_paths (net : MFNetworkBuilder)
    (hwf : net.wellformed = true) :
    (∀ id n, (optimize_network__remove_unused_nodes net).node_or_null_by_id_at id = some n →
        reaches_dummy (optimize_network__remove_unused_nodes net) id) ∧
      ∀ t s, (optimize_network__remove_unused_nodes net).socket_or_null_by_id_at t = some s →
        (optimize_network__remove_unused_nodes net).origin t = net.origin t := by
  constructor
  · intro id n hn
    exact reaches_dummy_of_kept hwf hn
  · intro t s1 hs1
    obtain ⟨s, hs, _, _, g2⟩ := socket_at_remove_unused_nodes hwf hs1
    simp [origin, hs1, hs, g2]

/-- Witness for C6 on `network_unused`. -/
theorem remove_unused_nodes_keeps_paths_witness :
    (∀ id n,
        (optimize_network__remove_unused_nodes network_unused).node_or_null_by_id_at id =
          some n →
        reaches_dummy (optimize_network__remove_unused_nodes network_unused) id) ∧
      ∀ t s,
        (optimize_network__remove_unused_nodes network_unused).socket_or_null_by_id_at t =
          some s →
        (optimize_network__remove_unused_nodes network_unused).origin t =
          network_unused.origin t :=
  remove_unused_nodes_keeps_paths network_unused (by decide)

/-- C7: `optimize_network__remove_unused_nodes` is idempotent. -/
theorem remove_unused_nodes_idempotent (net : MFNetworkBuilder)
    (hwf : net.wellformed = true) :
    optimize_network__remove_unused_nodes (optimize_network__remove_unused_nodes net) =
      optimize_network__remove_unused_nodes net := by
  have hwf1 : (optimize_network__remove_unused_nodes net).wellformed = true :=
    wellformed_remove_nodes hwf _
  have hnil : (optimize_network__remove_unused_nodes net
      ).find_nodes_not_to_the_left_of__exclusive__vector
        (optimize_network__remove_unused_nodes net).dummy_nodes = [] := by
    apply List.eq_nil_iff_forall_not_mem.mpr
    intro id hid
    obtain ⟨hlive, hnot⟩ := (mem_unused_nodes hwf1).mp hid
    obtain ⟨n, hn⟩ := Option.isSome_iff_exists.mp hlive
    exact hnot (reaches_dummy_of_kept hwf hn)
  show (optimize_network__remove_unused_nodes net).remove_nodes _ = _
  rw [hnil]
  rfl

/-- Witness for C7 on `network_unused`. -/
theorem remove_unused_nodes_idempotent_witness :
    optimize_network__remove_unused_nodes
        (optimize_network__remove_unused_nodes network_unused) =
      optimize_network__remove_unused_nodes network_unused :=
  remove_unused_nodes_idempotent network_unused (by decide)

/-! ## Adding nodes -/

theorem node_id_amount_push (net : MFNetworkBuilder) (n : MFBuilderNode)
    (s : MFBuilderSocket) : (net.push n s).node_id_amount = net.node_id_amount + 1 := by
  simp [push, node_id_amount]

theorem socket_id_amount_push (net : MFNetworkBuilder) (n : MFBuilderNode)
    (s : MFBuilderSocket) : (net.push n s).socket_id_amount = net.socket_id_amount + 1 := by
  simp [push, socket_id_amount]

theorem node_at_push (net : MFNetworkBuilder) (n : MFBuilderNode) (s : MFBuilderSocket)
    (i : Nat) :
    (net.push n s).node_or_null_by_id_at i =
      if i = net.node_id_amount then some n else net.node_or_null_by_id_at i := by
  unfold push node_or_null_by_id_at node_id_amount
  simp only
  by_cases h : i = net.node_or_null_by_id.length
  · subst h
    simp
  · rw [if_neg h]
    by_cases hlt : i < net.node_or_null_by_id.length
    · rw [List.getElem?_append_left hlt]
    · have hgt : net.node_or_null_by_id.length < i := by omega
      rw [List.getElem?_eq_none (by simp; omega), List.getElem?_eq_none (by omega)]

theorem socket_at_push (net : MFNetworkBuilder) (n : MFBuilderNode) (s : MFBuilderSocket)
    (t : Nat) :
    (net.push n s).socket_or_null_by_id_at t =
      if t = net.socket_id_amount then some s else net.socket_or_null_by_id_at t := by
  unfold push socket_or_null_by_id_at socket_id_amount
  simp only
  by_cases h : t = net.socket_or_null_by_id.length
  · subst h
    simp
  · rw [if_neg h]
    by_cases hlt : t < net.socket_or_null_by_id.length
    · rw [List.getElem?_append_left hlt]
    · have hgt : net.socket_or_null_by_id.length < t := by omega
      rw [List.getElem?_eq_none (by simp; omega), List.getElem?_eq_none (by omega)]

theorem add_dummy_single_input (net : MFNetworkBuilder) (ty : MFDataType) :
    net.add_dummy [ty] [] =
      net.push { function := none, inputs := [net.socket_id_amount], outputs := [] }
        { node := net.node_id_amount, is_output := false, index := 0, data_type := ty,
          origin := none } := by
  simp [add_dummy, add_node, new_sockets, push, List.range_succ, List.enum_cons]

theorem add_function_single_output (net : MFNetworkBuilder) (f : MultiFunction)
    (ty : MFDataType) (hin : f.input_types = []) (hout : f.output_types = [ty]) :
    net.add_function f =
      net.push { function := some f, inputs := [], outputs := [net.socket_id_amount] }
        { node := net.node_id_amount, is_output := true, index := 0, data_type := ty,
          origin := none } := by
  simp [add_function, add_node, new_sockets, push, hin, hout, List.range_succ,
    List.enum_cons]

theorem constant_function_types (ty : MFDataType) (v : GenericValue) :
    (constant_function ty v).input_types = [] ∧ (constant_function ty v).output_types = [ty] := by
  cases ty <;> exact ⟨rfl, rfl⟩

theorem node_id_amount_relink_origin (net : MFNetworkBuilder) (r t : Nat) :
    (net.relink_origin r t).node_id_amount = net.node_id_amount := by
  unfold node_id_amount
  rw [nodes_relink_origin]

theorem node_at_relink_origin (net : MFNetworkBuilder) (r t i : Nat) :
    (net.relink_origin r t).node_or_null_by_id_at i = net.node_or_null_by_id_at i := by
  unfold node_or_null_by_id_at
  rw [nodes_relink_origin]

/-- The network with a probe on output socket `o`: the views of lines 145-147. -/
theorem add_probe_views (cur : MFNetworkBuilder) (o : Nat) (ty : MFDataType) :
    ((cur.add_dummy [ty] []).add_link o cur.socket_id_amount).node_id_amount =
        cur.node_id_amount + 1 ∧
      ((cur.add_dummy [ty] []).add_link o cur.socket_id_amount).socket_id_amount =
        cur.socket_id_amount + 1 ∧
      (∀ i, ((cur.add_dummy [ty] []).add_link o cur.socket_id_amount).node_or_null_by_id_at i =
        if i = cur.node_id_amount then
          some { function := none, inputs := [cur.socket_id_amount], outputs := [] }
        else cur.node_or_null_by_id_at i) ∧
      ∀ t, ((cur.add_dummy [ty] []).add_link o cur.socket_id_amount).socket_or_null_by_id_at t =
        if t = cur.socket_id_amount then
          some { node := cur.node_id_amount, is_output := false, index := 0, data_type := ty,
                 origin := some o }
        else cur.socket_or_null_by_id_at t := by
  unfold add_link
  rw [add_dummy_single_input]
  refine ⟨?_, ?_, fun i => ?_, fun t => ?_⟩
  · rw [node_id_amount_relink_origin, node_id_amount_push]
  · rw [socket_id_amount_relink_origin, socket_id_amount_push]
  · rw [node_at_relink_origin, node_at_push]
  · rw [socket_at_relink_origin, socket_at_push]
    by_cases h : t = cur.socket_id_amount
    · rw [if_pos h, if_pos h]
      simp
    · rw [if_neg h, if_neg h, socket_at_push, if_neg h]

theorem probes_added_refl (net : MFNetworkBuilder) : ProbesAdded net net [] :=
  ⟨rfl, rfl, fun _ _ => rfl, fun _ _ => rfl, fun i p h => by simp at h,
    fun i p h => by simp at h⟩

theorem probes_added_step {net cur : MFNetworkBuilder} {probed : List (Nat × MFDataType)}
    (h : ProbesAdded net cur probed) (o : Nat) (ty : MFDataType) :
    ProbesAdded net ((cur.add_dummy [ty] []).add_link o cur.socket_id_amount)
      (probed ++ [(o, ty)]) := by
  obtain ⟨v1, v2, v3, v4⟩ := add_probe_views cur o ty
  refine ⟨?_, ?_, fun i hi => ?_, fun t ht => ?_, fun i p hp => ?_, fun i p hp => ?_⟩
  · rw [v1, h.node_amount, List.length_append]
    simp only [List.length_singleton]
    omega
  · rw [v2, h.socket_amount, List.length_append]
    simp only [List.length_singleton]
    omega
  · rw [v3, if_neg (by rw [h.node_amount]; omega)]
    exact h.old_node i hi
  · rw [v4, if_neg (by rw [h.socket_amount]; omega)]
    exact h.old_socket t ht
  · by_cases hlt : i < probed.length
    · rw [List.getElem?_append_left hlt] at hp
      rw [v3, if_neg (by rw [h.node_amount]; omega)]
      exact h.probe_node i p hp
    · have hlen := (List.getElem?_eq_some_iff.mp hp).1
      simp only [List.length_append, List.length_singleton] at hlen
      have hi : i = probed.length := by omega
      subst hi
      rw [v3, if_pos h.node_amount.symm, h.socket_amount]
  · by_cases hlt : i < probed.length
    · rw [List.getElem?_append_left hlt] at hp
      rw [v4, if_neg (by rw [h.socket_amount]; omega)]
      exact h.probe_socket i p hp
    · have hlen := (List.getElem?_eq_some_iff.mp hp).1
      simp only [List.length_append, List.length_singleton] at hlen
      have hi : i = probed.length := by omega
      subst hi
      rw [v4, if_pos h.socket_amount.symm, h.node_amount]
      simp only [List.getElem?_concat_length, Option.some.injEq] at hp
      rw [← hp]

/-! ## The probes of `optimize_network__constant_folding` -/

theorem mark_and_push_length (state : List Bool × List Nat) (m : Nat) :
    (mark_and_push state m).1.length = state.1.length := by
  unfold mark_and_push
  by_cases h : state.1.getD m false = true
  · rw [if_pos h]
  · rw [if_neg h]
    simp

theorem foldl_mark_and_push_length (ms : List Nat) (state : List Bool × List Nat) :
    (ms.foldl mark_and_push state).1.length = state.1.length := by
  induction ms generalizing state with
  | nil => rfl
  | cons m ms ih => rw [List.foldl_cons, ih, mark_and_push_length]

theorem mark_reachable_length (next : Nat → List Nat) (fuel : Nat) (stack : List Nat)
    (mask : List Bool) : (mark_reachable next fuel stack mask).length = mask.length := by
  induction fuel generalizing stack mask with
  | zero => cases stack <;> rfl
  | succ fuel ih =>
    cases stack with
    | nil => rfl
    | cons id rest =>
      simp only [mark_reachable]
      rw [ih, foldl_mark_and_push_length]

theorem node_is_not_constant_length (net : MFNetworkBuilder) :
    (node_is_not_constant net).length = net.node_id_amount := by
  unfold node_is_not_constant find_nodes_to_the_right_of__inclusive__mask
  rw [mark_reachable_length, mask_of_nodes_length]

theorem probe_targets_eq (cur : MFNetworkBuilder) (mask : List Bool) (o : Nat)
    (ty : MFDataType) (ts : List Nat) :
    probe_targets cur mask o ty ts =
      if ts.any (owner_marked cur mask) = true then
        some ((cur.add_dummy [ty] []).add_link o cur.socket_id_amount, cur.node_id_amount)
      else none := by
  induction ts with
  | nil => rfl
  | cons t ts ih =>
    simp only [probe_targets, List.any_cons, Bool.or_eq_true]
    cases hn : cur.socket_node t with
    | none =>
      have h0 : owner_marked cur mask t = false := by simp [owner_marked, hn]
      simp only [h0, Bool.false_eq_true, false_or]
      exact ih
    | some m =>
      have h0 : owner_marked cur mask t = mask.getD m false := by
        simp only [owner_marked, hn]
      rw [h0, ih]
      simp only
      by_cases hm : mask.getD m false = true
      · have h1 : ¬ ((!mask.getD m false) = true) := by rw [hm]; decide
        rw [if_neg h1, if_pos (Or.inl hm)]
      · have h1 : (!mask.getD m false) = true := by
          cases hb : mask.getD m false with
          | true => exact absurd hb hm
          | false => rfl
        rw [if_pos h1]
        by_cases hB : ts.any (owner_marked cur mask) = true
        · rw [if_pos hB, if_pos (Or.inr hB)]
        · rw [if_neg hB, if_neg (not_or.mpr ⟨hm, hB⟩)]

theorem probes_added_origin_old {net cur : MFNetworkBuilder}
    {probed : List (Nat × MFDataType)} (h : ProbesAdded net cur probed) {t : Nat}
    (ht : t < net.socket_id_amount) :
    cur.origin t = net.origin t ∧ cur.socket_node t = net.socket_node t := by
  unfold origin socket_node
  rw [h.old_socket t ht]
  exact ⟨rfl, rfl⟩

theorem probes_added_socket_new {net cur : MFNetworkBuilder}
    {probed : List (Nat × MFDataType)} (h : ProbesAdded net cur probed) {t : Nat}
    (ht : net.socket_id_amount ≤ t) {s : MFBuilderSocket}
    (hs : cur.socket_or_null_by_id_at t = some s) :
    net.node_id_amount ≤ s.node := by
  have hlt := socket_at_eq_some_lt hs
  rw [h.socket_amount] at hlt
  obtain ⟨i, rfl⟩ := Nat.exists_eq_add_of_le ht
  have hi : i < probed.length := by omega
  have := h.probe_socket i probed[i] (List.getElem?_eq_getElem hi)
  rw [this] at hs
  cases hs
  simp

theorem has_non_constant_target_probes_added {net cur : MFNetworkBuilder}
    {probed : List (Nat × MFDataType)} (h : ProbesAdded net cur probed) (mask : List Bool)
    (hmask : mask.length = net.node_id_amount) (o : Nat) :
    has_non_constant_target cur mask o = has_non_constant_target net mask o := by
  rw [Bool.eq_iff_iff]
  unfold has_non_constant_target
  simp only [List.any_eq_true]
  constructor
  · rintro ⟨t, ht, hm⟩
    have hto := mem_targets.mp ht
    by_cases hlt : t < net.socket_id_amount
    · obtain ⟨e1, e2⟩ := probes_added_origin_old h hlt
      refine ⟨t, mem_targets.mpr (by rw [← e1]; exact hto), ?_⟩
      unfold owner_marked at hm ⊢
      rw [← e2]
      exact hm
    · exfalso
      unfold owner_marked at hm
      cases hs : cur.socket_or_null_by_id_at t with
      | none => simp [socket_node, hs] at hm
      | some s =>
        have hge := probes_added_socket_new h (Nat.le_of_not_lt hlt) hs
        simp only [socket_node, hs, Option.map_some'] at hm
        rw [List.getD_eq_getElem?_getD, List.getElem?_eq_none (by omega)] at hm
        simp at hm
  · rintro ⟨t, ht, hm⟩
    have hto := mem_targets.mp ht
    have hlt := origin_eq_some_lt hto
    obtain ⟨e1, e2⟩ := probes_added_origin_old h hlt
    refine ⟨t, mem_targets.mpr (by rw [e1]; exact hto), ?_⟩
    unfold owner_marked at hm ⊢
    rw [e2]
    exact hm

theorem probe_ids_append (amount : Nat) (probed : List (Nat × MFDataType))
    (p : Nat × MFDataType) :
    probe_ids amount (probed ++ [p]) = probe_ids amount probed ++ [amount + probed.length] := by
  simp [probe_ids, List.range_succ]

/-- The loop over the outputs of one node adds one probe for each boundary output of the
original network. -/
theorem probe_outputs_spec {net : MFNetworkBuilder} (mask : List Bool)
    (hmask : mask.length = net.node_id_amount) (outs : List Nat)
    (houts : ∀ o ∈ outs, o < net.socket_id_amount) (cur : MFNetworkBuilder)
    (probed : List (Nat × MFDataType)) (h : ProbesAdded net cur probed) :
    ∃ cur1, probe_outputs mask outs (cur, probe_ids net.node_id_amount probed) =
        (cur1, probe_ids net.node_id_amount
          (probed ++ outs.filterMap (boundary_output net mask))) ∧
      ProbesAdded net cur1 (probed ++ outs.filterMap (boundary_output net mask)) := by
  induction outs generalizing cur probed with
  | nil => exact ⟨cur, by simp [probe_outputs], by simpa using h⟩
  | cons o outs ih =>
    have ho := houts o (List.mem_cons_self _ _)
    have houts1 : ∀ x ∈ outs, x < net.socket_id_amount :=
      fun x hx => houts x (List.mem_cons_of_mem _ hx)
    simp only [probe_outputs]
    rw [h.old_socket o ho]
    cases hs : net.socket_or_null_by_id_at o with
    | none =>
      simp only
      have : boundary_output net mask o = none := by simp [boundary_output, hs]
      rw [List.filterMap_cons, this]
      exact ih houts1 cur probed h
    | some s =>
      simp only
      rw [probe_targets_eq]
      have hsame := has_non_constant_target_probes_added h mask hmask o
      unfold has_non_constant_target at hsame
      rw [hsame]
      by_cases hb : has_non_constant_target net mask o = true
      · have hb1 := hb
        unfold has_non_constant_target at hb1
        rw [if_pos hb1]
        simp only
        have : boundary_output net mask o = some (o, s.data_type) := by
          simp [boundary_output, hs, hb]
        rw [List.filterMap_cons, this]
        simp only
        have hstep := probes_added_step h o s.data_type
        obtain ⟨cur1, e1, e2⟩ := ih houts1 _ _ hstep
        rw [probe_ids_append] at e1
        refine ⟨cur1, ?_, ?_⟩
        · rw [h.node_amount, e1]
          simp
        · simpa using e2
      · have hb1 := hb
        unfold has_non_constant_target at hb1
        rw [if_neg hb1]
        simp only
        have : boundary_output net mask o = none := by
          simp [boundary_output, hs, hb]
        rw [List.filterMap_cons, this]
        exact ih houts1 cur probed h

/-- The loop over the constant nodes adds one probe for each boundary output of the
original network. -/
theorem add_probes_spec {net : MFNetworkBuilder} (hwf : net.wellformed = true)
    (mask : List Bool) (hmask : mask.length = net.node_id_amount) (ids : List Nat)
    (hids : ∀ id ∈ ids, id < net.node_id_amount) (cur : MFNetworkBuilder)
    (probed : List (Nat × MFDataType)) (h : ProbesAdded net cur probed) :
    ∃ cur1, add_probes mask ids (cur, probe_ids net.node_id_amount probed) =
        (cur1, probe_ids net.node_id_amount (probed ++ boundary_outputs net mask ids)) ∧
      ProbesAdded net cur1 (probed ++ boundary_outputs net mask ids) := by
  induction ids generalizing cur probed with
  | nil => exact ⟨cur, by simp [add_probes, boundary_outputs], by simpa [boundary_outputs] using h⟩
  | cons id ids ih =>
    have hid := hids id (List.mem_cons_self _ _)
    have hids1 : ∀ x ∈ ids, x < net.node_id_amount :=
      fun x hx => hids x (List.mem_cons_of_mem _ hx)
    have hcons : boundary_outputs net mask (id :: ids) =
        boundary_outputs_of_node net mask id ++ boundary_outputs net mask ids := by
      simp [boundary_outputs]
    simp only [add_probes]
    rw [h.old_node id hid, hcons]
    cases hn : net.node_or_null_by_id_at id with
    | none =>
      simp only
      have : boundary_outputs_of_node net mask id = [] := by
        simp [boundary_outputs_of_node, hn]
      rw [this, List.nil_append]
      exact ih hids1 cur probed h
    | some n =>
      simp only
      by_cases hz : n.inputs.length = 0
      · rw [if_pos hz]
        have : boundary_outputs_of_node net mask id = [] := by
          simp [boundary_outputs_of_node, hn, hz]
        rw [this, List.nil_append]
        exact ih hids1 cur probed h
      · rw [if_neg hz]
        have : boundary_outputs_of_node net mask id =
            n.outputs.filterMap (boundary_output net mask) := by
          simp [boundary_outputs_of_node, hn, hz]
        rw [this]
        have houts : ∀ o ∈ n.outputs, o < net.socket_id_amount :=
          fun o ho => (socket_node_of_output hwf hn ho).2
        obtain ⟨cur1, e1, e2⟩ := probe_outputs_spec mask hmask n.outputs houts cur probed h
        rw [e1]
        obtain ⟨cur2, e3, e4⟩ := ih hids1 cur1 _ e2
        rw [List.append_assoc] at e3 e4
        exact ⟨cur2, e3, e4⟩

/-- Lines 130-152: the probes created by the pass are in one-to-one correspondence, in
order, with the probed outputs of the original network. -/
theorem add_probes_result {net : MFNetworkBuilder} (hwf : net.wellformed = true) :
    ∃ cur, add_probes (node_is_not_constant net) (constant_builder_nodes net) (net, []) =
        (cur, probe_ids net.node_id_amount (probed_outputs net)) ∧
      ProbesAdded net cur (probed_outputs net) := by
  have hids : ∀ id ∈ constant_builder_nodes net, id < net.node_id_amount := by
    intro id hid
    obtain ⟨hlive, _⟩ := mem_nodes_by_id_inverted_id_mask.mp hid
    obtain ⟨n, hn⟩ := Option.isSome_iff_exists.mp hlive
    exact node_at_eq_some_lt hn
  have := add_probes_spec hwf (node_is_not_constant net) (node_is_not_constant_length net)
    (constant_builder_nodes net) hids net [] (probes_added_refl net)
  simpa [probe_ids, probed_outputs] using this

/-! ## Folding the probes -/

theorem socket_at_relink_targets (net : MFNetworkBuilder) (r : Nat) (ts : List Nat)
    (i : Nat) :
    (relink_targets net r ts).socket_or_null_by_id_at i =
      if i ∈ ts then
        (net.socket_or_null_by_id_at i).map fun s => { s with origin := some r }
      else net.socket_or_null_by_id_at i := by
  induction ts generalizing net with
  | nil => simp [relink_targets]
  | cons t ts ih =>
    have hstep : relink_targets net r (t :: ts) = relink_targets (net.relink_origin r t) r ts :=
      rfl
    rw [hstep, ih, socket_at_relink_origin]
    by_cases hi : i = t
    · subst hi
      by_cases hm : i ∈ ts
      · simp only [hm, if_true, List.mem_cons, or_true]
        cases net.socket_or_null_by_id_at i <;> rfl
      · simp [hm]
    · by_cases hm : i ∈ ts <;> simp [hi, hm]

theorem node_at_relink_targets (net : MFNetworkBuilder) (r : Nat) (ts : List Nat) (i : Nat) :
    (relink_targets net r ts).node_or_null_by_id_at i = net.node_or_null_by_id_at i := by
  unfold node_or_null_by_id_at
  rw [(same_nodes_and_sockets_relink_targets net r ts).1]

theorem node_id_amount_relink_targets (net : MFNetworkBuilder) (r : Nat) (ts : List Nat) :
    (relink_targets net r ts).node_id_amount = net.node_id_amount := by
  unfold node_id_amount
  rw [(same_nodes_and_sockets_relink_targets net r ts).1]

theorem folded_origin_append (outs : List Nat) (base o1 o : Nat) (hnot : o1 ∉ outs)
    (hlt : o1 < base) :
    (if folded_origin outs base o = o1 then base + outs.length
      else folded_origin outs base o) = folded_origin (outs ++ [o1]) base o := by
  unfold folded_origin
  by_cases hm : o ∈ outs
  · have hm1 : o ∈ outs ++ [o1] := List.mem_append_left _ hm
    rw [if_pos hm, if_pos hm1, List.indexOf_append_of_mem hm, if_neg (by omega)]
  · rw [if_neg hm]
    by_cases ho : o = o1
    · subst ho
      have hm1 : o ∈ outs ++ [o] := List.mem_append_right _ (List.mem_singleton_self o)
      rw [if_pos rfl, if_pos hm1, List.indexOf_append_of_not_mem hm, List.indexOf_cons_self]
      rfl
    · have hm1 : o ∉ outs ++ [o1] := by
        simp only [List.mem_append, List.mem_singleton, not_or]
        exact ⟨hm, ho⟩
      rw [if_neg ho, if_neg hm1]

theorem take_succ_map_fst (probed : List (Nat × MFDataType)) (j : Nat) (p : Nat × MFDataType)
    (hp : probed[j]? = some p) :
    (probed.take (j + 1)).map Prod.fst = (probed.take j).map Prod.fst ++ [p.1] := by
  rw [List.take_succ, hp]
  simp

theorem socket_at_fold_push (cur : MFNetworkBuilder) (pn : MFBuilderNode)
    (ps : MFBuilderSocket) (hps : ps.origin = none) (o t : Nat) :
    (relink_targets (cur.push pn ps) cur.socket_id_amount
        ((cur.push pn ps).targets o)).socket_or_null_by_id_at t =
      if t = cur.socket_id_amount then some ps
      else if cur.origin t = some o then
        (cur.socket_or_null_by_id_at t).map fun s =>
          { s with origin := some cur.socket_id_amount }
      else cur.socket_or_null_by_id_at t := by
  rw [socket_at_relink_targets, socket_at_push]
  by_cases ht : t = cur.socket_id_amount
  · have hnt : t ∉ (cur.push pn ps).targets o := by
      intro hmem
      have := mem_targets.mp hmem
      simp [origin, socket_at_push, ht, hps] at this
    rw [if_neg hnt, if_pos ht, if_pos ht]
  · rw [if_neg ht, if_neg ht]
    have hiff : t ∈ (cur.push pn ps).targets o ↔ cur.origin t = some o := by
      rw [mem_targets]
      unfold origin
      rw [socket_at_push, if_neg ht]
    by_cases hto : cur.origin t = some o
    · rw [if_pos (hiff.mpr hto), if_pos hto]
    · rw [if_neg (fun hm => hto (hiff.mp hm)), if_neg hto]

/-- One iteration of lines 196-232 keeps the description of the folded network. -/
theorem fold_probe_step {net net1 : MFNetworkBuilder} {probed : List (Nat × MFDataType)}
    (hadd : ProbesAdded net net1 probed)
    (hlive : ∀ (i : Nat) (p : Nat × MFDataType), probed[i]? = some p →
      ∃ s, net.socket_or_null_by_id_at p.1 = some s ∧ s.data_type = p.2)
    (hnodup : (probed.map Prod.fst).Nodup) (computed : Nat → GenericValue) (j : Nat)
    (hj : j < probed.length) (cur : MFNetworkBuilder)
    (h : ProbesFolded net1 probed computed j cur) :
    ProbesFolded net1 probed computed (j + 1)
      (fold_probe computed (probe_ids net.node_id_amount probed) cur j) := by
  have hp : probed[j]? = some probed[j] := List.getElem?_eq_getElem hj
  obtain ⟨so, hso, hty⟩ := hlive j probed[j] hp
  have holt : probed[j].1 < net.socket_id_amount := socket_at_eq_some_lt hso
  have hN1 := hadd.node_amount
  have hS1 := hadd.socket_amount
  -- the probe, its input socket and the probed output in the current network
  have hprobe : (probe_ids net.node_id_amount probed)[j]? = some (net.node_id_amount + j) := by
    simp [probe_ids, hj]
  have hnotin : probed[j].1 ∉ (probed.take j).map Prod.fst := by
    intro hmem
    obtain ⟨i, hi⟩ := List.mem_iff_getElem?.mp hmem
    have hilt : i < j := by
      have := (List.getElem?_eq_some_iff.mp hi).1
      simp only [List.length_map, List.length_take] at this
      omega
    rw [List.getElem?_map, List.getElem?_take_of_lt hilt] at hi
    have hi1 : (probed.map Prod.fst)[i]? = some probed[j].1 := by
      rw [List.getElem?_map]
      exact hi
    have hj1 : (probed.map Prod.fst)[j]? = some probed[j].1 := by
      rw [List.getElem?_map, hp]
      rfl
    have hij := (List.nodup_iff_getElem?_ne_getElem?.mp hnodup) i j hilt
      (by simpa using hj)
    exact hij (hi1.trans hj1.symm)
  have hnode : cur.node_or_null_by_id_at (net.node_id_amount + j) =
      some { function := none, inputs := [net.socket_id_amount + j], outputs := [] } := by
    rw [h.old_node _ (by omega)]
    exact hadd.probe_node j _ hp
  have hin0 : cur.input_0 (net.node_id_amount + j) = some (net.socket_id_amount + j) := by
    simp [input_0, hnode]
  have hpsock : cur.socket_or_null_by_id_at (net.socket_id_amount + j) =
      some (fold_socket ((probed.take j).map Prod.fst) net1.socket_id_amount
        { node := net.node_id_amount + j, is_output := false, index := 0,
          data_type := probed[j].2, origin := some probed[j].1 }) := by
    rw [h.old_socket _ (by omega), hadd.probe_socket j _ hp]
    rfl
  have horig : cur.origin (net.socket_id_amount + j) = some probed[j].1 := by
    simp only [origin, hpsock, fold_socket, Option.some_bind, Option.map_some', folded_origin]
    rw [if_neg hnotin]
  have hosock : cur.socket_or_null_by_id_at probed[j].1 =
      some (fold_socket ((probed.take j).map Prod.fst) net1.socket_id_amount so) := by
    rw [h.old_socket _ (by omega), hadd.old_socket _ holt, hso]
    rfl
  have hfold : fold_probe computed (probe_ids net.node_id_amount probed) cur j =
      relink_targets (cur.add_function (constant_function probed[j].2 (computed j)))
        cur.socket_id_amount
        ((cur.add_function (constant_function probed[j].2 (computed j))).targets
          probed[j].1) := by
    simp only [fold_probe, hprobe, hin0, Option.some_bind, horig, hosock, fold_socket, hty]
  obtain ⟨hci, hco⟩ := constant_function_types probed[j].2 (computed j)
  rw [hfold, add_function_single_output cur _ probed[j].2 hci hco]
  have hsock := socket_at_fold_push cur
    { function := some (constant_function probed[j].2 (computed j)), inputs := [],
      outputs := [cur.socket_id_amount] }
    { node := cur.node_id_amount, is_output := true, index := 0,
      data_type := probed[j].2, origin := none } rfl probed[j].1
  refine ⟨?_, ?_, fun i hi => ?_, fun t ht => ?_, fun i p hij hpi => ?_,
    fun i p hij hpi => ?_⟩
  · rw [node_id_amount_relink_targets, node_id_amount_push, h.node_amount]
    omega
  · rw [(same_nodes_and_sockets_relink_targets _ _ _).2.1, socket_id_amount_push,
      h.socket_amount]
    omega
  · rw [node_at_relink_targets, node_at_push, if_neg (by rw [h.node_amount]; omega)]
    exact h.old_node i hi
  · rw [hsock, if_neg (by rw [h.socket_amount]; omega), h.old_socket t ht,
      take_succ_map_fst probed j _ hp]
    unfold origin
    rw [h.old_socket t ht]
    cases hs1 : net1.socket_or_null_by_id_at t with
    | none => simp
    | some s1 =>
      simp only [Option.map_some', Option.some_bind, fold_socket]
      have hlen : ((probed.take j).map Prod.fst).length = j := by
        simp only [List.length_map, List.length_take]
        omega
      cases ho1 : s1.origin with
      | none => simp
      | some o1 =>
        have key := folded_origin_append ((probed.take j).map Prod.fst) net1.socket_id_amount
          probed[j].1 o1 hnotin (by omega)
        rw [hlen] at key
        simp only [Option.map_some', Option.some.injEq]
        by_cases hc : folded_origin ((probed.take j).map Prod.fst) net1.socket_id_amount o1 =
            probed[j].1
        · rw [if_pos hc] at key
          rw [if_pos hc, ← key, h.socket_amount]
        · rw [if_neg hc] at key
          rw [if_neg hc, ← key]
  · rw [node_at_relink_targets, node_at_push]
    by_cases hi : i = j
    · subst hi
      rw [if_pos h.node_amount.symm, h.socket_amount]
      rw [hp] at hpi
      cases hpi
      rfl
    · rw [if_neg (by rw [h.node_amount]; omega)]
      exact h.folded_node i p (by omega) hpi
  · rw [hsock]
    by_cases hi : i = j
    · subst hi
      rw [if_pos h.socket_amount.symm, h.node_amount]
      rw [hp] at hpi
      cases hpi
      rfl
    · have hilt : i < j := by omega
      rw [if_neg (by rw [h.socket_amount]; omega)]
      have hfs := h.folded_socket i p hilt hpi
      have hno : cur.origin (net1.socket_id_amount + i) ≠ some probed[j].1 := by
        simp [origin, hfs]
      rw [if_neg hno]
      exact hfs

/-! ## The result of `optimize_network__constant_folding` -/

theorem fold_socket_nil (base : Nat) (s : MFBuilderSocket) : fold_socket [] base s = s := by
  unfold fold_socket folded_origin
  cases h : s.origin with
  | none =>
    cases s
    simp_all
  | some o =>
    cases s
    simp_all

theorem probes_folded_zero (net1 : MFNetworkBuilder) (probed : List (Nat × MFDataType))
    (computed : Nat → GenericValue) : ProbesFolded net1 probed computed 0 net1 := by
  refine ⟨rfl, rfl, fun _ _ => rfl, fun t _ => ?_, fun i p hi _ => absurd hi (by omega),
    fun i p hi _ => absurd hi (by omega)⟩
  simp only [List.take_zero, List.map_nil]
  cases net1.socket_or_null_by_id_at t with
  | none => rfl
  | some s => simp [fold_socket_nil]

/-- Lines 196-232: the loop over the parameter indices. -/
theorem fold_probes_spec {net net1 : MFNetworkBuilder} {probed : List (Nat × MFDataType)}
    (hadd : ProbesAdded net net1 probed)
    (hlive : ∀ (i : Nat) (p : Nat × MFDataType), probed[i]? = some p →
      ∃ s, net.socket_or_null_by_id_at p.1 = some s ∧ s.data_type = p.2)
    (hnodup : (probed.map Prod.fst).Nodup) (computed : Nat → GenericValue) (j : Nat)
    (hj : j ≤ probed.length) :
    ProbesFolded net1 probed computed j
      ((List.range j).foldl (fold_probe computed (probe_ids net.node_id_amount probed))
        net1) := by
  induction j with
  | zero => exact probes_folded_zero net1 probed computed
  | succ j ih =>
    rw [List.range_succ, List.foldl_append]
    exact fold_probe_step hadd hlive hnodup computed j (by omega) _ (ih (by omega))

theorem mem_probe_ids {amount : Nat} {probed : List (Nat × MFDataType)} {i : Nat} :
    i ∈ probe_ids amount probed ↔ amount ≤ i ∧ i < amount + probed.length := by
  unfold probe_ids
  simp only [List.mem_map, List.mem_range]
  constructor
  · rintro ⟨a, ha, rfl⟩
    omega
  · intro h
    exact ⟨i - amount, by omega, by omega⟩

theorem remove_nodes_socket_keep {net : MFNetworkBuilder} {nodes : List Nat}
    {s : MFBuilderSocket} (hnode : s.node ∉ nodes)
    (horig : ∀ o m, s.origin = some o → net.socket_node o = some m → m ∉ nodes) :
    remove_nodes_socket net nodes (some s) = some s := by
  simp only [remove_nodes_socket]
  rw [if_neg hnode]
  cases ho : s.origin with
  | none => rfl
  | some o =>
    simp only [Option.some_bind]
    cases hm : net.socket_node o with
    | none => rfl
    | some m =>
      simp only
      rw [if_neg (horig o m ho hm)]

theorem input_0_probes {net net1 : MFNetworkBuilder} {probed : List (Nat × MFDataType)}
    (hadd : ProbesAdded net net1 probed) :
    (probe_ids net.node_id_amount probed).filterMap net1.input_0 =
      probe_ids net.socket_id_amount probed := by
  unfold probe_ids
  rw [List.filterMap_map]
  have : ∀ i ∈ List.range probed.length,
      (net1.input_0 ∘ fun x => net.node_id_amount + x) i = some (net.socket_id_amount + i) := by
    intro i hi
    have hlt := List.mem_range.mp hi
    simp only [Function.comp, input_0,
      hadd.probe_node i probed[i] (List.getElem?_eq_getElem hlt)]
    rfl
  rw [List.filterMap_congr this]
  rw [← List.filterMap_eq_map]
  rfl

theorem boundary_output_eq_some {net : MFNetworkBuilder} {mask : List Bool} {o : Nat}
    {p : Nat × MFDataType} (h : boundary_output net mask o = some p) :
    p.1 = o ∧ has_non_constant_target net mask o = true ∧
      ∃ s, net.socket_or_null_by_id_at o = some s ∧ s.data_type = p.2 := by
  unfold boundary_output at h
  cases hs : net.socket_or_null_by_id_at o with
  | none => simp [hs] at h
  | some s =>
    rw [hs] at h
    simp only at h
    by_cases hb : has_non_constant_target net mask o = true
    · rw [if_pos hb] at h
      cases h
      exact ⟨rfl, hb, s, rfl, rfl⟩
    · rw [if_neg hb] at h
      cases h

/-- What it means to be a probed output socket. -/
theorem mem_boundary_outputs {net : MFNetworkBuilder} {mask : List Bool} {nodes : List Nat}
    {p : Nat × MFDataType} :
    p ∈ boundary_outputs net mask nodes ↔
      ∃ id n s, id ∈ nodes ∧ net.node_or_null_by_id_at id = some n ∧ n.inputs.length ≠ 0 ∧
        p.1 ∈ n.outputs ∧ has_non_constant_target net mask p.1 = true ∧
        net.socket_or_null_by_id_at p.1 = some s ∧ s.data_type = p.2 := by
  unfold boundary_outputs
  simp only [List.mem_flatMap]
  constructor
  · rintro ⟨id, hid, hp⟩
    unfold boundary_outputs_of_node at hp
    cases hn : net.node_or_null_by_id_at id with
    | none => simp [hn] at hp
    | some n =>
      rw [hn] at hp
      simp only at hp
      by_cases hz : n.inputs.length = 0
      · simp [hz] at hp
      · rw [if_neg hz, List.mem_filterMap] at hp
        obtain ⟨o, ho, hbo⟩ := hp
        obtain ⟨e, hb, s, hs, hty⟩ := boundary_output_eq_some hbo
        rw [← e] at ho hb hs
        exact ⟨id, n, s, hid, hn, hz, ho, hb, hs, hty⟩
  · rintro ⟨id, n, s, hid, hn, hz, ho, hb, hs, hty⟩
    refine ⟨id, hid, ?_⟩
    unfold boundary_outputs_of_node
    rw [hn]
    simp only
    rw [if_neg hz, List.mem_filterMap]
    refine ⟨p.1, ho, ?_⟩
    simp only [boundary_output, hs, hb, if_true, hty]

theorem filterMap_boundary_sublist (net : MFNetworkBuilder) (mask : List Bool)
    (outs : List Nat) :
    ((outs.filterMap (boundary_output net mask)).map Prod.fst).Sublist outs := by
  induction outs with
  | nil => simp
  | cons o outs ih =>
    rw [List.filterMap_cons]
    cases hb : boundary_output net mask o with
    | none => exact List.Sublist.cons _ ih
    | some p =>
      simp only [List.map_cons]
      rw [(boundary_output_eq_some hb).1]
      exact List.Sublist.cons₂ _ ih

theorem outputs_nodup {net : MFNetworkBuilder} (hwf : net.wellformed = true) {id : Nat}
    {n : MFBuilderNode} (hn : net.node_or_null_by_id_at id = some n) : n.outputs.Nodup := by
  rw [List.nodup_iff_getElem?_ne_getElem?]
  intro i j hij hj heq
  have hi : i < n.outputs.length := by omega
  obtain ⟨s1, hs1, _, _, e1⟩ := wellformed_outputs hwf hn (List.getElem?_eq_getElem hi)
  obtain ⟨s2, hs2, _, _, e2⟩ := wellformed_outputs hwf hn (List.getElem?_eq_getElem hj)
  have : n.outputs[i] = n.outputs[j] := by
    rw [List.getElem?_eq_getElem hi, List.getElem?_eq_getElem hj] at heq
    exact Option.some.inj heq
  rw [this, hs2] at hs1
  cases hs1
  omega

theorem boundary_outputs_of_node_fst_nodup {net : MFNetworkBuilder}
    (hwf : net.wellformed = true) (mask : List Bool) (id : Nat) :
    ((boundary_outputs_of_node net mask id).map Prod.fst).Nodup := by
  unfold boundary_outputs_of_node
  cases hn : net.node_or_null_by_id_at id with
  | none => simp
  | some n =>
    simp only
    by_cases hz : n.inputs.length = 0
    · simp [hz]
    · rw [if_neg hz]
      exact (outputs_nodup hwf hn).sublist (filterMap_boundary_sublist net mask n.outputs)

theorem mem_boundary_outputs_of_node_fst {net : MFNetworkBuilder}
    (hwf : net.wellformed = true) {mask : List Bool} {id o : Nat}
    (h : o ∈ (boundary_outputs_of_node net mask id).map Prod.fst) :
    net.socket_node o = some id := by
  unfold boundary_outputs_of_node at h
  cases hn : net.node_or_null_by_id_at id with
  | none => simp [hn] at h
  | some n =>
    rw [hn] at h
    simp only at h
    by_cases hz : n.inputs.length = 0
    · simp [hz] at h
    · rw [if_neg hz] at h
      have := (filterMap_boundary_sublist net mask n.outputs).subset h
      exact (socket_node_of_output hwf hn this).1

/-- The probed output sockets are pairwise distinct. -/
theorem probed_outputs_nodup {net : MFNetworkBuilder} (hwf : net.wellformed = true) :
    ((probed_outputs net).map Prod.fst).Nodup := by
  unfold probed_outputs boundary_outputs
  rw [List.map_flatMap, List.nodup_flatMap]
  constructor
  · intro id _
    exact boundary_outputs_of_node_fst_nodup hwf _ id
  · have hnd : (constant_builder_nodes net).Nodup := by
      unfold constant_builder_nodes nodes_by_id_inverted_id_mask
      exact (List.nodup_range _).filter _
    refine List.Pairwise.imp ?_ hnd
    intro a b hab
    rw [Function.onFun, List.disjoint_left]
    intro o h1 h2
    have e1 := mem_boundary_outputs_of_node_fst hwf h1
    have e2 := mem_boundary_outputs_of_node_fst hwf h2
    rw [e1] at e2
    exact hab (Option.some.inj e2)

theorem probed_outputs_live {net : MFNetworkBuilder} (i : Nat) (p : Nat × MFDataType)
    (hp : (probed_outputs net)[i]? = some p) :
    ∃ s, net.socket_or_null_by_id_at p.1 = some s ∧ s.data_type = p.2 := by
  have hmem : p ∈ probed_outputs net := List.mem_iff_getElem?.mpr ⟨i, hp⟩
  obtain ⟨_, _, s, _, _, _, _, _, hs, hty⟩ := mem_boundary_outputs.mp hmem
  exact ⟨s, hs, hty⟩

theorem constant_folding_unfold (engine : MFNetworkBuilder → List Nat → Nat → GenericValue)
    (net : MFNetworkBuilder) (net1 : MFNetworkBuilder) (probes : List Nat)
    (h : add_probes (node_is_not_constant net) (constant_builder_nodes net) (net, []) =
      (net1, probes)) :
    optimize_network__constant_folding engine net =
      if probes.length = 0 then net1
      else
        ((List.range probes.length).foldl
          (fold_probe (engine net1 (probes.filterMap net1.input_0)) probes) net1).remove_nodes
            probes := by
  unfold optimize_network__constant_folding
  simp only
  unfold node_is_not_constant constant_builder_nodes at h
  unfold node_is_not_constant at h
  rw [h]

theorem probe_ids_length (amount : Nat) (probed : List (Nat × MFDataType)) :
    (probe_ids amount probed).length = probed.length := by
  simp [probe_ids]

theorem wellformed_node_lt {net : MFNetworkBuilder} (hwf : net.wellformed = true) {t : Nat}
    {s : MFBuilderSocket} (hs : net.socket_or_null_by_id_at t = some s) :
    s.node < net.node_id_amount := by
  obtain ⟨n, hn, _⟩ := wellformed_socket hwf hs
  exact node_at_eq_some_lt hn

/-- The network returned by `optimize_network__constant_folding`, described by the probed
outputs of the original network and the values computed by the engine. -/
theorem constant_folding_result (engine : MFNetworkBuilder → List Nat → Nat → GenericValue)
    {net : MFNetworkBuilder} (hwf : net.wellformed = true) :
    ∃ net1, ProbesAdded net net1 (probed_outputs net) ∧
      add_probes (node_is_not_constant net) (constant_builder_nodes net) (net, []) =
        (net1, probe_ids net.node_id_amount (probed_outputs net)) ∧
      ConstantsFolded net (probed_outputs net)
        (engine net1 (probe_ids net.socket_id_amount (probed_outputs net)))
        (optimize_network__constant_folding engine net) := by
  obtain ⟨net1, hprobes, hadd⟩ := add_probes_result hwf
  refine ⟨net1, hadd, hprobes, ?_⟩
  rw [constant_folding_unfold engine net net1 _ hprobes, probe_ids_length,
    input_0_probes hadd]
  by_cases hk : (probed_outputs net).length = 0
  · rw [if_pos hk]
    have hnil : probed_outputs net = [] := List.length_eq_zero.mp hk
    have hadd0 := hadd
    rw [hnil] at hadd0 ⊢
    refine ⟨hadd0.node_amount, hadd0.socket_amount, hadd0.old_node, ?_, ?_, ?_, ?_, ?_⟩
    · intro i h1 h2
      simp at h2
      omega
    · intro i p hp
      simp at hp
    · intro t ht
      rw [hadd0.old_socket t ht]
      cases net.socket_or_null_by_id_at t with
      | none => rfl
      | some s => simp [fold_socket_nil]
    · intro t h1 h2
      simp at h2
      omega
    · intro i p hp
      simp at hp
  · rw [if_neg hk]
    have hfold := fold_probes_spec hadd probed_outputs_live (probed_outputs_nodup hwf)
      (engine net1 (probe_ids net.socket_id_amount (probed_outputs net)))
      (probed_outputs net).length (Nat.le_refl _)
    have hold := hfold.old_socket
    simp only [List.take_length] at hold
    have hN1 := hadd.node_amount
    have hS1 := hadd.socket_amount
    refine ⟨?_, ?_, fun i hi => ?_, fun i h1 h2 => ?_, fun i p hp => ?_, fun t ht => ?_,
      fun t h1 h2 => ?_, fun i p hp => ?_⟩
    · rw [node_id_amount_remove_nodes, hfold.node_amount, hN1]
    · rw [socket_id_amount_remove_nodes, hfold.socket_amount, hS1]
    · rw [node_at_remove_nodes, if_neg (fun hm => by have := mem_probe_ids.mp hm; omega),
        hfold.old_node i (by omega)]
      exact hadd.old_node i hi
    · rw [node_at_remove_nodes, if_pos (mem_probe_ids.mpr ⟨h1, h2⟩)]
    · have hilt := (List.getElem?_eq_some_iff.mp hp).1
      rw [node_at_remove_nodes, if_neg (fun hm => by have := mem_probe_ids.mp hm; omega)]
      have := hfold.folded_node i p hilt hp
      rw [hN1, hS1] at this
      exact this
    · rw [socket_at_remove_nodes, hold t (by omega), hadd.old_socket t ht]
      cases hs : net.socket_or_null_by_id_at t with
      | none => rfl
      | some s =>
        simp only [Option.map_some']
        rw [hS1]
        apply remove_nodes_socket_keep
        · intro hm
          have h1 := (mem_probe_ids.mp hm).1
          have h2 := wellformed_node_lt hwf hs
          simp only [fold_socket] at h1
          omega
        · intro o m ho hm hmem
          have hge := (mem_probe_ids.mp hmem).1
          have hlt := (mem_probe_ids.mp hmem).2
          simp only [fold_socket] at ho
          cases hso : s.origin with
          | none => simp [hso] at ho
          | some o1 =>
            rw [hso] at ho
            simp only [Option.map_some', Option.some.injEq] at ho
            unfold folded_origin at ho
            by_cases hin : o1 ∈ (probed_outputs net).map Prod.fst
            · rw [if_pos hin] at ho
              have hidx := List.indexOf_lt_length.mpr hin
              rw [List.length_map] at hidx
              have hfs := hfold.folded_socket _ _ hidx (List.getElem?_eq_getElem hidx)
              rw [hS1] at hfs
              rw [← ho] at hm
              simp only [socket_node, hfs, Option.map_some', Option.some.injEq] at hm
              omega
            · rw [if_neg hin] at ho
              subst ho
              have hto : net.origin t = some o1 := by simp [origin, hs, hso]
              obtain ⟨_, so, _, _, _, hso1, _⟩ := wellformed_origin hwf hto
              have hlt1 := socket_at_eq_some_lt hso1
              have hnode := wellformed_node_lt hwf hso1
              rw [socket_node, hold o1 (by omega), hadd.old_socket o1 hlt1,
                hso1] at hm
              simp only [Option.map_some', fold_socket, Option.some.injEq] at hm
              omega
    · rw [socket_at_remove_nodes, hold t (by omega)]
      obtain ⟨i, rfl⟩ := Nat.exists_eq_add_of_le h1
      have hi : i < (probed_outputs net).length := by omega
      rw [hadd.probe_socket i _ (List.getElem?_eq_getElem hi)]
      simp only [Option.map_some', remove_nodes_socket, fold_socket]
      rw [if_pos (mem_probe_ids.mpr ⟨by omega, by omega⟩)]
    · have hilt := (List.getElem?_eq_some_iff.mp hp).1
      rw [socket_at_remove_nodes]
      have := hfold.folded_socket i p hilt hp
      rw [hN1, hS1] at this
      rw [this]
      apply remove_nodes_socket_keep
      · intro hm
        have := mem_probe_ids.mp hm
        simp only at this
        omega
      · intro o m ho
        simp at ho

/-! ## Claims about the probes of `optimize_network__constant_folding` -/

theorem has_non_constant_target_iff {net : MFNetworkBuilder} {mask : List Bool} {o : Nat} :
    has_non_constant_target net mask o = true ↔
      ∃ t m, net.origin t = some o ∧ net.socket_node t = some m ∧ marked mask m := by
  unfold has_non_constant_target
  rw [List.any_eq_true]
  constructor
  · rintro ⟨t, ht, hm⟩
    unfold owner_marked at hm
    cases hn : net.socket_node t with
    | none => simp [hn] at hm
    | some m =>
      rw [hn] at hm
      exact ⟨t, m, mem_targets.mp ht, hn, hm⟩
  · rintro ⟨t, m, ht, hn, hm⟩
    refine ⟨t, mem_targets.mpr ht, ?_⟩
    unfold owner_marked
    rw [hn]
    exact hm

/-- C9: the probes created by `optimize_network__constant_folding` correspond one to one
to the probed outputs, which are pairwise distinct and are exactly the output sockets of a
candidate-constant node with at least one input that have a target owned by a
non-constant node; and the pass adds exactly one constant-value function node per probe
(the nodes after the removed probes), keeping the nodes that existed before. -/
theorem constant_folding_probe_count
    (engine : MFNetworkBuilder → List Nat → Nat → GenericValue) (net : MFNetworkBuilder)
    (hwf : net.wellformed = true) :
    ∃ net1 probes,
      add_probes (node_is_not_constant net) (constant_builder_nodes net) (net, []) =
        (net1, probes) ∧
      probes.length = ((probed_outputs net).map Prod.fst).length ∧
      ((probed_outputs net).map Prod.fst).Nodup ∧
      (∀ o, o ∈ (probed_outputs net).map Prod.fst ↔
        ∃ id n t m, (net.node_or_null_by_id_at id = some n ∧
            ¬ marked (node_is_not_constant net) id) ∧
          n.inputs.length ≠ 0 ∧ o ∈ n.outputs ∧ net.origin t = some o ∧
          net.socket_node t = some m ∧ marked (node_is_not_constant net) m) ∧
      (optimize_network__constant_folding engine net).node_id_amount =
        net.node_id_amount + probes.length + probes.length ∧
      (∀ i, i < net.node_id_amount →
        (optimize_network__constant_folding engine net).node_or_null_by_id_at i =
          net.node_or_null_by_id_at i) ∧
      (∀ i, net.node_id_amount ≤ i → i < net.node_id_amount + probes.length →
        (optimize_network__constant_folding engine net).node_or_null_by_id_at i = none) ∧
      ∀ i, i < probes.length → ∃ ty v,
        (optimize_network__constant_folding engine net).node_or_null_by_id_at
            (net.node_id_amount + probes.length + i) =
          some { function := some (constant_function ty v), inputs := [],
                 outputs := [net.socket_id_amount + probes.length + i] } := by
  obtain ⟨net1, _, hprobes, hfold⟩ := constant_folding_result engine hwf
  have hlen : (probe_ids net.node_id_amount (probed_outputs net)).length =
      (probed_outputs net).length := probe_ids_length _ _
  refine ⟨net1, _, hprobes, by rw [hlen, List.length_map], probed_outputs_nodup hwf, ?_, ?_, ?_,
    ?_, ?_⟩
  · intro o
    rw [List.mem_map]
    constructor
    · rintro ⟨p, hp, rfl⟩
      obtain ⟨id, n, s, hid, hn, hz, ho, hb, _, _⟩ := mem_boundary_outputs.mp hp
      obtain ⟨t, m, ht, hm, hmk⟩ := has_non_constant_target_iff.mp hb
      exact ⟨id, n, t, m, ⟨hn, (mem_nodes_by_id_inverted_id_mask.mp hid).2⟩, hz, ho, ht, hm,
        hmk⟩
    · rintro ⟨id, n, t, m, ⟨hn, hnm⟩, hz, ho, ht, hm, hmk⟩
      obtain ⟨k, hk⟩ := List.mem_iff_getElem?.mp ho
      obtain ⟨s, hs, _⟩ := wellformed_outputs hwf hn hk
      refine ⟨(o, s.data_type), ?_, rfl⟩
      apply mem_boundary_outputs.mpr
      refine ⟨id, n, s, ?_, hn, hz, ho, has_non_constant_target_iff.mpr ⟨t, m, ht, hm, hmk⟩, hs,
        rfl⟩
      exact mem_nodes_by_id_inverted_id_mask.mpr ⟨by rw [hn]; rfl, hnm⟩
  · rw [hlen]
    exact hfold.node_amount
  · exact hfold.old_node
  · rw [hlen]
    exact hfold.probe_node
  · intro i hi
    rw [hlen] at hi ⊢
    exact ⟨_, _, hfold.folded_node i _ (List.getElem?_eq_getElem hi)⟩

/-- Witness for C9 on the network `const1 -> Add -> D`. -/
theorem constant_folding_probe_count_witness :
    ∃ net1 probes,
      add_probes (node_is_not_constant network_const_add_example)
          (constant_builder_nodes network_const_add_example)
          (network_const_add_example, []) = (net1, probes) ∧
      probes.length = ((probed_outputs network_const_add_example).map Prod.fst).length ∧
      ((probed_outputs network_const_add_example).map Prod.fst).Nodup ∧
      (∀ o, o ∈ (probed_outputs network_const_add_example).map Prod.fst ↔
        ∃ id n t m, (network_const_add_example.node_or_null_by_id_at id = some n ∧
            ¬ marked (node_is_not_constant network_const_add_example) id) ∧
          n.inputs.length ≠ 0 ∧ o ∈ n.outputs ∧ network_const_add_example.origin t = some o ∧
          network_const_add_example.socket_node t = some m ∧
          marked (node_is_not_constant network_const_add_example) m) ∧
      (optimize_network__constant_folding example_engine
          network_const_add_example).node_id_amount =
        network_const_add_example.node_id_amount + probes.length + probes.length ∧
      (∀ i, i < network_const_add_example.node_id_amount →
        (optimize_network__constant_folding example_engine
            network_const_add_example).node_or_null_by_id_at i =
          network_const_add_example.node_or_null_by_id_at i) ∧
      (∀ i, network_const_add_example.node_id_amount ≤ i →
        i < network_const_add_example.node_id_amount + probes.length →
        (optimize_network__constant_folding example_engine
            network_const_add_example).node_or_null_by_id_at i = none) ∧
      ∀ i, i < probes.length → ∃ ty v,
        (optimize_network__constant_folding example_engine
            network_const_add_example).node_or_null_by_id_at
            (network_const_add_example.node_id_amount + probes.length + i) =
          some { function := some (constant_function ty v), inputs := [],
                 outputs := [network_const_add_example.socket_id_amount + probes.length + i] } :=
  constant_folding_probe_count example_engine network_const_add_example (by decide)

/-- C10 (counterexample): in the network `const1 -> Add -> D` the pass creates one probe
(the dummy node 3) and the input of `D` (socket 3), fed by the output of `Add` (socket 2)
before the pass, is fed by another socket afterwards. -/
theorem constant_folding_const_add_counterexample :
    (add_probes (node_is_not_constant network_const_add_example)
        (constant_builder_nodes network_const_add_example)
        (network_const_add_example, [])).2 = [3] ∧
      network_const_add_example.origin 3 = some 2 ∧
      (optimize_network__constant_folding example_engine network_const_add_example).origin 3 =
        some 6 := by
  decide

theorem network_const_add_eq (ty : MFDataType) (h0 h1 h2 : Option Nat) (v : GenericValue)
    (c1 : List GenericValue → List GenericValue)
    (c2 : MFContext → List GenericValue → List GenericValue) :
    network_const_add (scenario_const ty h0 v) (scenario_pure ty h1 c1)
        (scenario_context ty h2 c2) =
      { node_or_null_by_id :=
          [some { function := some (scenario_const ty h0 v), inputs := [], outputs := [0] },
           some { function := some (scenario_pure ty h1 c1), inputs := [1], outputs := [2] },
           some { function := some (scenario_context ty h2 c2), inputs := [3],
                  outputs := [4] }]
        socket_or_null_by_id :=
          [some { node := 0, is_output := true, index := 0, data_type := ty, origin := none },
           some { node := 1, is_output := false, index := 0, data_type := ty,
                  origin := some 0 },
           some { node := 1, is_output := true, index := 0, data_type := ty, origin := none },
           some { node := 2, is_output := false, index := 0, data_type := ty,
                  origin := some 2 },
           some { node := 2, is_output := true, index := 0, data_type := ty,
                  origin := none }] } := rfl

theorem probed_outputs_const_add (ty : MFDataType) (h0 h1 h2 : Option Nat) (v : GenericValue)
    (c1 : List GenericValue → List GenericValue)
    (c2 : MFContext → List GenericValue → List GenericValue) :
    probed_outputs (network_const_add (scenario_const ty h0 v) (scenario_pure ty h1 c1)
        (scenario_context ty h2 c2)) = [(2, ty)] := by
  rw [network_const_add_eq]
  rfl

/-- C10 (amended): in the network `const1 -> Add -> D`, whatever the functions compute, the
pass creates exactly one probe (node 3, whose input socket 5 is fed by the output of
`Add`), adds the constant node 4 holding the value computed for the probe, and makes its
output (socket 6) the origin of the input of `D`; the link from `const1` to `Add` stays. -/
theorem constant_folding_const_add
    (engine : MFNetworkBuilder → List Nat → Nat → GenericValue) (ty : MFDataType)
    (h0 h1 h2 : Option Nat) (v : GenericValue) (c1 : List GenericValue → List GenericValue)
    (c2 : MFContext → List GenericValue → List GenericValue) :
    ∃ net1,
      add_probes
          (node_is_not_constant (network_const_add (scenario_const ty h0 v)
            (scenario_pure ty h1 c1) (scenario_context ty h2 c2)))
          (constant_builder_nodes (network_const_add (scenario_const ty h0 v)
            (scenario_pure ty h1 c1) (scenario_context ty h2 c2)))
          (network_const_add (scenario_const ty h0 v) (scenario_pure ty h1 c1)
            (scenario_context ty h2 c2), []) = (net1, [3]) ∧
      net1.origin 5 = some 2 ∧
      (optimize_network__constant_folding engine
          (network_const_add (scenario_const ty h0 v) (scenario_pure ty h1 c1)
            (scenario_context ty h2 c2))).origin 3 = some 6 ∧
      (optimize_network__constant_folding engine
          (network_const_add (scenario_const ty h0 v) (scenario_pure ty h1 c1)
            (scenario_context ty h2 c2))).node_or_null_by_id_at 4 =
        some { function := some (constant_function ty (engine net1 [5] 0)), inputs := [],
               outputs := [6] } ∧
      (optimize_network__constant_folding engine
          (network_const_add (scenario_const ty h0 v) (scenario_pure ty h1 c1)
            (scenario_context ty h2 c2))).node_or_null_by_id_at 3 = none ∧
      (optimize_network__constant_folding engine
          (network_const_add (scenario_const ty h0 v) (scenario_pure ty h1 c1)
            (scenario_context ty h2 c2))).origin 1 = some 0 := by
  have hwf : (network_const_add (scenario_const ty h0 v) (scenario_pure ty h1 c1)
      (scenario_context ty h2 c2)).wellformed = true := by
    rw [network_const_add_eq]
    rfl
  obtain ⟨net1, hadd, hprobes, hfold⟩ := constant_folding_result engine hwf
  rw [probed_outputs_const_add] at hadd hprobes hfold
  have hN : (network_const_add (scenario_const ty h0 v) (scenario_pure ty h1 c1)
      (scenario_context ty h2 c2)).node_id_amount = 3 := by
    rw [network_const_add_eq]
    rfl
  have hS : (network_const_add (scenario_const ty h0 v) (scenario_pure ty h1 c1)
      (scenario_context ty h2 c2)).socket_id_amount = 5 := by
    rw [network_const_add_eq]
    rfl
  have hs3 : (network_const_add (scenario_const ty h0 v) (scenario_pure ty h1 c1)
      (scenario_context ty h2 c2)).socket_or_null_by_id_at 3 =
      some { node := 2, is_output := false, index := 0, data_type := ty, origin := some 2 } := by
    rw [network_const_add_eq]
    rfl
  have hs1 : (network_const_add (scenario_const ty h0 v) (scenario_pure ty h1 c1)
      (scenario_context ty h2 c2)).socket_or_null_by_id_at 1 =
      some { node := 1, is_output := false, index := 0, data_type := ty, origin := some 0 } := by
    rw [network_const_add_eq]
    rfl
  refine ⟨net1, ?_, ?_, ?_, ?_, ?_, ?_⟩
  · rw [hprobes, hN]
    rfl
  · have := hadd.probe_socket 0 (2, ty) rfl
    rw [hS] at this
    simp [origin, this]
  · have := hfold.old_socket 3 (by rw [hS]; omega)
    rw [hs3, hS] at this
    simp only [origin, this]
    rfl
  · have := hfold.folded_node 0 (2, ty) rfl
    rw [hN, hS] at this
    exact this
  · exact hfold.probe_node 3 (by rw [hN]) (by rw [hN]; simp)
  · have := hfold.old_socket 1 (by rw [hS]; omega)
    rw [hs1, hS] at this
    simp only [origin, this]
    rfl


/-! ## Evaluation -/

theorem all_values_mono {f g : Nat → Option GenericValue} (l : List Nat)
    (h : ∀ t ∈ l, ∀ v, f t = some v → g t = some v) (vs : List GenericValue)
    (hf : all_values f l = some vs) : all_values g l = some vs := by
  induction l generalizing vs with
  | nil => simpa [all_values] using hf
  | cons t l ih =>
    simp only [all_values] at hf ⊢
    cases hft : f t with
    | none => simp [hft] at hf
    | some v =>
      cases hfl : all_values f l with
      | none => simp [hft, hfl] at hf
      | some ws =>
        rw [h t (List.mem_cons_self _ _) v hft,
          ih (fun x hx => h x (List.mem_cons_of_mem _ hx)) ws hfl]
        rw [hft, hfl] at hf
        exact hf

theorem all_values_some {f : Nat → Option GenericValue} (l : List Nat)
    (h : ∀ t ∈ l, ∃ v, f t = some v) : ∃ vs, all_values f l = some vs := by
  induction l with
  | nil => exact ⟨[], rfl⟩
  | cons t l ih =>
    obtain ⟨v, hv⟩ := h t (List.mem_cons_self _ _)
    obtain ⟨vs, hvs⟩ := ih (fun x hx => h x (List.mem_cons_of_mem _ hx))
    exact ⟨v :: vs, by simp [all_values, hv, hvs]⟩

theorem all_values_elem {f : Nat → Option GenericValue} (l : List Nat)
    (vs : List GenericValue) (hf : all_values f l = some vs) :
    ∀ t ∈ l, ∃ v, f t = some v := by
  induction l generalizing vs with
  | nil => simp
  | cons t l ih =>
    simp only [all_values] at hf
    cases hft : f t with
    | none => simp [hft] at hf
    | some v =>
      cases hfl : all_values f l with
      | none => simp [hft, hfl] at hf
      | some ws =>
        intro x hx
        rcases List.mem_cons.mp hx with e | e
        · rw [e]
          exact ⟨v, hft⟩
        · exact ih ws hfl x e

/-- The values of two lists of sockets agree position by position. -/
theorem all_values_pointwise {f g : Nat → Option GenericValue} (l1 l2 : List Nat)
    (hlen : l1.length = l2.length)
    (h : ∀ (j t1 t2 : Nat), l1[j]? = some t1 → l2[j]? = some t2 →
      ∀ v, f t1 = some v → g t2 = some v) (vs : List GenericValue)
    (hf : all_values f l1 = some vs) : all_values g l2 = some vs := by
  induction l1 generalizing l2 vs with
  | nil =>
    cases l2 with
    | nil => simpa [all_values] using hf
    | cons _ _ => simp at hlen
  | cons t1 l1 ih =>
    cases l2 with
    | nil => simp at hlen
    | cons t2 l2 =>
      simp only [all_values] at hf ⊢
      cases hft : f t1 with
      | none => simp [hft] at hf
      | some v =>
        cases hfl : all_values f l1 with
        | none => simp [hft, hfl] at hf
        | some ws =>
          rw [h 0 t1 t2 (by simp) (by simp) v hft,
            ih l2 (by simpa using hlen) (fun j a b ha hb => h (j + 1) a b (by simpa using ha)
              (by simpa using hb)) ws hfl]
          rw [hft, hfl] at hf
          exact hf

/-- The value of input `t` with fuel `fuel`, as the evaluator computes it for the inputs of
a function node. -/
theorem evaluate_output_succ_eq (net : MFNetworkBuilder) (ctx : MFContext)
    (values : Nat → GenericValue) (fuel o : Nat) :
    evaluate_output net ctx values (fuel + 1) o =
      match net.socket_or_null_by_id_at o with
      | none => none
      | some s =>
        match net.node_or_null_by_id_at s.node with
        | none => none
        | some n =>
          match n.function with
          | none => some (values o)
          | some f =>
            match all_values (evaluate_input net ctx values fuel) n.inputs with
            | none => none
            | some args => some ((f.call ctx args).getD s.index default) := by
  rw [evaluate_output]
  rfl

theorem evaluate_output_succ (net : MFNetworkBuilder) (ctx : MFContext)
    (values : Nat → GenericValue) (fuel : Nat) (o : Nat) (v : GenericValue)
    (h : evaluate_output net ctx values fuel o = some v) :
    evaluate_output net ctx values (fuel + 1) o = some v := by
  induction fuel generalizing o v with
  | zero => simp [evaluate_output] at h
  | succ fuel ih =>
    rw [evaluate_output_succ_eq] at h ⊢
    cases hs : net.socket_or_null_by_id_at o with
    | none => rw [hs] at h; cases h
    | some s =>
      rw [hs] at h
      simp only at h ⊢
      cases hn : net.node_or_null_by_id_at s.node with
      | none => rw [hn] at h; cases h
      | some n =>
        rw [hn] at h
        simp only at h ⊢
        cases hf : n.function with
        | none => rw [hf] at h; exact h
        | some f =>
          rw [hf] at h
          simp only at h ⊢
          cases ha : all_values (evaluate_input net ctx values fuel) n.inputs with
          | none => rw [ha] at h; cases h
          | some args =>
            rw [ha] at h
            have hstep : ∀ t ∈ n.inputs, ∀ x, evaluate_input net ctx values fuel t = some x →
                evaluate_input net ctx values (fuel + 1) t = some x := by
              intro t _ x hx
              unfold evaluate_input at hx ⊢
              cases ho : net.origin t with
              | none => rw [ho] at hx; exact hx
              | some o1 =>
                rw [ho] at hx
                exact ih o1 x hx
            rw [all_values_mono n.inputs hstep args ha]
            exact h

theorem evaluate_output_mono (net : MFNetworkBuilder) (ctx : MFContext)
    (values : Nat → GenericValue) {fuel fuel1 : Nat} (hle : fuel ≤ fuel1) {o : Nat}
    {v : GenericValue} (h : evaluate_output net ctx values fuel o = some v) :
    evaluate_output net ctx values fuel1 o = some v := by
  induction hle with
  | refl => exact h
  | step _ ih => exact evaluate_output_succ net ctx values _ o v ih

theorem evaluate_input_mono (net : MFNetworkBuilder) (ctx : MFContext)
    (values : Nat → GenericValue) {fuel fuel1 : Nat} (hle : fuel ≤ fuel1) {t : Nat}
    {v : GenericValue} (h : evaluate_input net ctx values fuel t = some v) :
    evaluate_input net ctx values fuel1 t = some v := by
  unfold evaluate_input at h ⊢
  cases ho : net.origin t with
  | none => rw [ho] at h; exact h
  | some o => rw [ho] at h; exact evaluate_output_mono net ctx values hle h

/-- Two successful evaluations of a socket give the same value. -/
theorem evaluate_output_unique (net : MFNetworkBuilder) (ctx : MFContext)
    (values : Nat → GenericValue) {fuel fuel1 o : Nat} {v v1 : GenericValue}
    (h : evaluate_output net ctx values fuel o = some v)
    (h1 : evaluate_output net ctx values fuel1 o = some v1) : v = v1 := by
  have e := evaluate_output_mono net ctx values (Nat.le_max_left fuel fuel1) h
  have e1 := evaluate_output_mono net ctx values (Nat.le_max_right fuel fuel1) h1
  rw [e] at e1
  exact Option.some.inj e1

/-- Finitely many sockets that all evaluate can be evaluated with one fuel. -/
theorem evaluate_input_uniform (net : MFNetworkBuilder) (ctx : MFContext)
    (values : Nat → GenericValue) (l : List Nat)
    (h : ∀ t ∈ l, ∃ fuel v, evaluate_input net ctx values fuel t = some v) :
    ∃ fuel, ∀ t ∈ l, ∃ v, evaluate_input net ctx values fuel t = some v := by
  induction l with
  | nil => exact ⟨0, by simp⟩
  | cons t l ih =>
    obtain ⟨k1, v1, h1⟩ := h t (List.mem_cons_self _ _)
    obtain ⟨k2, h2⟩ := ih (fun x hx => h x (List.mem_cons_of_mem _ hx))
    refine ⟨max k1 k2, fun x hx => ?_⟩
    rcases List.mem_cons.mp hx with e | e
    · rw [e]
      exact ⟨v1, evaluate_input_mono net ctx values (Nat.le_max_left _ _) h1⟩
    · obtain ⟨v, hv⟩ := h2 x e
      exact ⟨v, evaluate_input_mono net ctx values (Nat.le_max_right _ _) hv⟩

/-- In a well-formed acyclic network every live socket owned by node `n` evaluates. -/
theorem evaluate_output_total {net : MFNetworkBuilder} (hwf : net.wellformed = true)
    (hac : net.acyclic) (ctx : MFContext) (values : Nat → GenericValue) (n : Nat) :
    ∀ o s, net.socket_or_null_by_id_at o = some s → s.node = n →
      ∃ fuel v, evaluate_output net ctx values fuel o = some v := by
  induction n using (acyclic_wellFounded hwf hac).induction with
  | _ n ih =>
    intro o s hs hsn
    obtain ⟨nd, hnd, _⟩ := wellformed_socket hwf hs
    have hinputs : ∀ t ∈ nd.inputs, ∃ fuel v, evaluate_input net ctx values fuel t = some v := by
      intro t ht
      unfold evaluate_input
      cases ho : net.origin t with
      | none => exact ⟨0, _, rfl⟩
      | some o1 =>
        obtain ⟨_, so, _, _, _, hso, _⟩ := wellformed_origin hwf ho
        obtain ⟨k, hk⟩ := List.mem_iff_getElem?.mp ht
        obtain ⟨st, hst, hstn, _, _⟩ := wellformed_inputs hwf hnd hk
        have hlink : net.link so.node n :=
          ⟨t, o1, by simp [socket_node, hst, hstn, hsn], ho, by simp [socket_node, hso]⟩
        exact ih so.node hlink o1 so hso rfl
    obtain ⟨fuel, hfuel⟩ := evaluate_input_uniform net ctx values nd.inputs hinputs
    obtain ⟨args, hargs⟩ := all_values_some nd.inputs hfuel
    refine ⟨fuel + 1, ?_⟩
    rw [evaluate_output_succ_eq, hs]
    simp only [hnd]
    cases hf : nd.function with
    | none => exact ⟨_, rfl⟩
    | some f =>
      simp only [hargs]
      exact ⟨_, rfl⟩

theorem evaluate_input_total {net : MFNetworkBuilder} (hwf : net.wellformed = true)
    (hac : net.acyclic) (ctx : MFContext) (values : Nat → GenericValue) (t : Nat) :
    ∃ fuel v, evaluate_input net ctx values fuel t = some v := by
  unfold evaluate_input
  cases ho : net.origin t with
  | none => exact ⟨0, _, rfl⟩
  | some o =>
    obtain ⟨_, so, _, _, _, hso, _⟩ := wellformed_origin hwf ho
    exact evaluate_output_total hwf hac ctx values so.node o so hso rfl



theorem all_values_congr {f g : Nat → Option GenericValue} (l : List Nat)
    (h : ∀ t ∈ l, f t = g t) : all_values f l = all_values g l := by
  induction l with
  | nil => rfl
  | cons t l ih =>
    simp only [all_values]
    rw [h t (List.mem_cons_self _ _), ih (fun x hx => h x (List.mem_cons_of_mem _ hx))]

theorem evaluate_output_zero (net : MFNetworkBuilder) (ctx : MFContext)
    (values : Nat → GenericValue) (o : Nat) : evaluate_output net ctx values 0 o = none := by
  rw [evaluate_output]

/-- The probes do not change the value of an original socket. -/
theorem evaluate_output_probes_added {net net1 : MFNetworkBuilder}
    {probed : List (Nat × MFDataType)} (hwf : net.wellformed = true)
    (hadd : ProbesAdded net net1 probed) (ctx : MFContext) (values : Nat → GenericValue)
    (fuel : Nat) : ∀ o, o < net.socket_id_amount →
      evaluate_output net1 ctx values fuel o = evaluate_output net ctx values fuel o := by
  induction fuel with
  | zero => intro o _; rw [evaluate_output_zero, evaluate_output_zero]
  | succ fuel ih =>
    intro o ho
    rw [evaluate_output_succ_eq, evaluate_output_succ_eq, hadd.old_socket o ho]
    cases hs : net.socket_or_null_by_id_at o with
    | none => rfl
    | some s =>
      simp only
      rw [hadd.old_node s.node (wellformed_node_lt hwf hs)]
      cases hn : net.node_or_null_by_id_at s.node with
      | none => rfl
      | some n =>
        simp only
        cases hf : n.function with
        | none => rfl
        | some f =>
          simp only
          have hcongr : ∀ t ∈ n.inputs, evaluate_input net1 ctx values fuel t =
              evaluate_input net ctx values fuel t := by
            intro t ht
            obtain ⟨k, hk⟩ := List.mem_iff_getElem?.mp ht
            obtain ⟨st, hst, _⟩ := wellformed_inputs hwf hn hk
            have hlt := socket_at_eq_some_lt hst
            have horig : net1.origin t = net.origin t := by
              unfold origin
              rw [hadd.old_socket t hlt]
            unfold evaluate_input
            rw [horig]
            cases ho1 : net.origin t with
            | none => rfl
            | some o1 =>
              obtain ⟨_, so, _, _, _, hso, _⟩ := wellformed_origin hwf ho1
              exact ih o1 (socket_at_eq_some_lt hso)
          rw [all_values_congr n.inputs hcongr]

/-- What `engine_computes_probes` says, in terms of the probed output sockets. -/
theorem engine_computes_probes_spec
    (engine : MFNetworkBuilder → List Nat → Nat → GenericValue) {net net1 : MFNetworkBuilder}
    (hwf : net.wellformed = true) (hadd : ProbesAdded net net1 (probed_outputs net))
    (haddeq : add_probes (node_is_not_constant net) (constant_builder_nodes net) (net, []) =
      (net1, probe_ids net.node_id_amount (probed_outputs net)))
    {ctx : MFContext} {values : Nat → GenericValue} {fuel : Nat}
    (h : engine_computes_probes engine net ctx values fuel = true) (i : Nat)
    (p : Nat × MFDataType) (hp : (probed_outputs net)[i]? = some p) :
    evaluate_output net ctx values fuel p.1 =
      some (engine net1 (probe_ids net.socket_id_amount (probed_outputs net)) i) := by
  unfold engine_computes_probes at h
  simp only [haddeq, input_0_probes hadd, List.all_eq_true, List.mem_range] at h
  have hi : i < (probed_outputs net).length := by
    by_contra hlt
    rw [List.getElem?_eq_none (by omega)] at hp
    cases hp
  have hget : (probe_ids net.socket_id_amount (probed_outputs net))[i]? =
      some (net.socket_id_amount + i) := by
    unfold probe_ids
    rw [List.getElem?_map, List.getElem?_range hi]
    rfl
  have h1 := h i (by rw [probe_ids_length]; exact hi)
  rw [hget] at h1
  simp only [decide_eq_true_eq] at h1
  unfold evaluate_input at h1
  have horig : net1.origin (net.socket_id_amount + i) = some p.1 := by
    unfold origin
    rw [hadd.probe_socket i p hp]
    rfl
  rw [horig] at h1
  obtain ⟨s, hs, _⟩ := probed_outputs_live i p hp
  rw [← evaluate_output_probes_added hwf hadd ctx values fuel p.1 (socket_at_eq_some_lt hs)]
  exact h1


theorem constant_function_call (data_type : MFDataType) (value : GenericValue)
    (ctx : MFContext) (args : List GenericValue) :
    ((constant_function data_type value).call ctx args).getD 0 default = value := by
  cases data_type <;> rfl

/-- The value of the output of constant node `i` in the folded network. -/
theorem evaluate_output_folded {net result : MFNetworkBuilder}
    {probed : List (Nat × MFDataType)} {computed : Nat → GenericValue}
    (hfold : ConstantsFolded net probed computed result) (ctx : MFContext)
    (values : Nat → GenericValue) (fuel i : Nat) (p : Nat × MFDataType)
    (hp : probed[i]? = some p) :
    evaluate_output result ctx values (fuel + 1) (net.socket_id_amount + probed.length + i) =
      some (computed i) := by
  rw [evaluate_output_succ_eq, hfold.folded_socket i p hp]
  simp only [hfold.folded_node i p hp, all_values, constant_function_call]

/-- The origins of an original socket in the folded network. -/
theorem origin_folded {net result : MFNetworkBuilder} {probed : List (Nat × MFDataType)}
    {computed : Nat → GenericValue} (hfold : ConstantsFolded net probed computed result)
    {t : Nat} (ht : t < net.socket_id_amount) :
    result.origin t = (net.origin t).map
      (folded_origin (probed.map Prod.fst) (net.socket_id_amount + probed.length)) := by
  unfold origin
  rw [hfold.old_socket t ht]
  cases net.socket_or_null_by_id_at t with
  | none => rfl
  | some s => rfl

/-- Folding keeps the value of every original socket, when the computed values are the
values of the probed output sockets. -/
theorem evaluate_output_constants_folded {net result : MFNetworkBuilder}
    {probed : List (Nat × MFDataType)} {computed : Nat → GenericValue}
    (hwf : net.wellformed = true) (hfold : ConstantsFolded net probed computed result)
    (ctx : MFContext) (values : Nat → GenericValue)
    (hcomputed : ∀ (i : Nat) (p : Nat × MFDataType), probed[i]? = some p →
      ∃ fuel, evaluate_output net ctx values fuel p.1 = some (computed i))
    (fuel : Nat) :
    (∀ o v, o < net.socket_id_amount → evaluate_output net ctx values fuel o = some v →
      evaluate_output result ctx values fuel o = some v) ∧
    (∀ t v, t < net.socket_id_amount → evaluate_input net ctx values fuel t = some v →
      evaluate_input result ctx values fuel t = some v) := by
  induction fuel with
  | zero =>
    have hout : ∀ o v, o < net.socket_id_amount →
        evaluate_output net ctx values 0 o = some v →
        evaluate_output result ctx values 0 o = some v := by
      intro o v _ h
      rw [evaluate_output_zero] at h
      cases h
    refine ⟨hout, ?_⟩
    intro t v ht h
    unfold evaluate_input at h ⊢
    rw [origin_folded hfold ht]
    cases ho : net.origin t with
    | none => rw [ho] at h; exact h
    | some o =>
      rw [ho] at h
      simp only at h
      rw [evaluate_output_zero] at h
      cases h
  | succ fuel ih =>
    have hout : ∀ o v, o < net.socket_id_amount →
        evaluate_output net ctx values (fuel + 1) o = some v →
        evaluate_output result ctx values (fuel + 1) o = some v := by
      intro o v ho h
      rw [evaluate_output_succ_eq] at h ⊢
      rw [hfold.old_socket o ho]
      cases hs : net.socket_or_null_by_id_at o with
      | none => rw [hs] at h; cases h
      | some s =>
        rw [hs] at h
        simp only [Option.map_some'] at h ⊢
        have hnode : (fold_socket (probed.map Prod.fst)
            (net.socket_id_amount + probed.length) s).node = s.node := rfl
        have hindex : (fold_socket (probed.map Prod.fst)
            (net.socket_id_amount + probed.length) s).index = s.index := rfl
        rw [hnode, hindex, hfold.old_node s.node (wellformed_node_lt hwf hs)]
        cases hn : net.node_or_null_by_id_at s.node with
        | none => rw [hn] at h; cases h
        | some n =>
          rw [hn] at h
          simp only at h ⊢
          cases hf : n.function with
          | none => rw [hf] at h; exact h
          | some f =>
            rw [hf] at h
            simp only at h ⊢
            cases ha : all_values (evaluate_input net ctx values fuel) n.inputs with
            | none => rw [ha] at h; cases h
            | some args =>
              rw [ha] at h
              have hstep : ∀ t ∈ n.inputs, ∀ x, evaluate_input net ctx values fuel t = some x →
                  evaluate_input result ctx values fuel t = some x := by
                intro t ht x hx
                obtain ⟨k, hk⟩ := List.mem_iff_getElem?.mp ht
                obtain ⟨st, hst, _⟩ := wellformed_inputs hwf hn hk
                exact ih.2 t x (socket_at_eq_some_lt hst) hx
              rw [all_values_mono n.inputs hstep args ha]
              exact h
    refine ⟨hout, ?_⟩
    intro t v ht h
    unfold evaluate_input at h ⊢
    rw [origin_folded hfold ht]
    cases ho : net.origin t with
    | none => rw [ho] at h; exact h
    | some o =>
      rw [ho] at h
      simp only at h
      simp only [Option.map_some']
      obtain ⟨_, so, _, _, _, hso, _⟩ := wellformed_origin hwf ho
      unfold folded_origin
      by_cases hmem : o ∈ probed.map Prod.fst
      · rw [if_pos hmem]
        have hidx := List.indexOf_get? hmem
        rw [List.get?_eq_getElem?, List.getElem?_map] at hidx
        cases hp : probed[(probed.map Prod.fst).indexOf o]? with
        | none => rw [hp] at hidx; cases hidx
        | some p =>
          rw [hp] at hidx
          have hfst : p.1 = o := Option.some.inj hidx
          obtain ⟨fuel1, h1⟩ := hcomputed _ p hp
          rw [hfst] at h1
          rw [evaluate_output_folded hfold ctx values fuel _ p hp,
            evaluate_output_unique net ctx values h h1]
      · rw [if_neg hmem]
        exact hout o v (socket_at_eq_some_lt hso) h




/-- Claim C8. For a well-formed acyclic network, a context and an assignment of external
values, if the engine returns for every probe the value that arrives at it, then every
live socket of the original network, in particular every input socket of a dummy node,
receives the same value in the network produced by `optimize_network__constant_folding` as
in the original network; both evaluations return with enough fuel. The network may even
contain context-dependent nodes. -/
theorem constant_folding_preserves_values
    (engine : MFNetworkBuilder → List Nat → Nat → GenericValue) {net : MFNetworkBuilder}
    (hwf : net.wellformed = true) (hac : net.acyclic) (ctx : MFContext)
    (values : Nat → GenericValue) (fuel_e : Nat)
    (hengine : engine_computes_probes engine net ctx values fuel_e = true) (t : Nat)
    (s : MFBuilderSocket) (hs : net.socket_or_null_by_id_at t = some s) :
    ∃ v fuel0, ∀ fuel, fuel0 ≤ fuel →
      evaluate_input net ctx values fuel t = some v ∧
      evaluate_input (optimize_network__constant_folding engine net) ctx values fuel t =
        some v := by
  obtain ⟨net1, hadd, haddeq, hfold⟩ := constant_folding_result engine hwf
  obtain ⟨k, v, hk⟩ := evaluate_input_total hwf hac ctx values t
  refine ⟨v, k, fun fuel hle => ?_⟩
  have h := evaluate_input_mono net ctx values hle hk
  exact ⟨h, (evaluate_output_constants_folded hwf hfold ctx values
    (fun i p hp => ⟨fuel_e, engine_computes_probes_spec engine hwf hadd haddeq hengine i p hp⟩)
    fuel).2 t v (socket_at_eq_some_lt hs) h⟩

/-- Claim C8 on the network `const1 -> Add -> E`, `A -> F -> E2`: the output of `Add` is
folded, and the dummy input 3 of `E` receives the same value before and after. -/
theorem constant_folding_preserves_values_witness :
    (network_fold_example.wellformed = true ∧
      engine_computes_probes example_engine network_fold_example 3 example_values 6 = true ∧
      network_fold_example.origin 3 = some 2 ∧
      (optimize_network__constant_folding example_engine network_fold_example).origin 3 =
        some 9) ∧
    ∃ v fuel0, ∀ fuel, fuel0 ≤ fuel →
      evaluate_input network_fold_example 3 example_values fuel 3 = some v ∧
      evaluate_input (optimize_network__constant_folding example_engine network_fold_example)
        3 example_values fuel 3 = some v :=
  ⟨by decide,
    constant_folding_preserves_values example_engine (by decide)
      (acyclic_of_topologically_ordered (fun n => n) (by decide)) 3 example_values 6
      (by decide) 3
      { node := 2, is_output := false, index := 0, data_type := MFDataType.Single 0,
        origin := some 2 } rfl⟩



/-- Two lists of sockets whose values agree position by position, each with its own fuel,
have the same values with one fuel. -/
theorem all_values_pointwise_fuel (f : Nat → Option GenericValue)
    (g : Nat → Nat → Option GenericValue)
    (hmono : ∀ k k1 t x, k ≤ k1 → g k t = some x → g k1 t = some x) (l1 l2 : List Nat)
    (hlen : l1.length = l2.length)
    (h : ∀ (j t1 t2 : Nat), l1[j]? = some t1 → l2[j]? = some t2 →
      ∀ x, f t1 = some x → ∃ k, g k t2 = some x) (vs : List GenericValue)
    (hf : all_values f l1 = some vs) : ∃ k, all_values (g k) l2 = some vs := by
  induction l1 generalizing l2 vs with
  | nil =>
    cases l2 with
    | nil => exact ⟨0, by simpa [all_values] using hf⟩
    | cons _ _ => simp at hlen
  | cons t1 l1 ih =>
    cases l2 with
    | nil => simp at hlen
    | cons t2 l2 =>
      simp only [all_values] at hf
      cases hft : f t1 with
      | none => simp [hft] at hf
      | some v =>
        cases hfl : all_values f l1 with
        | none => simp [hft, hfl] at hf
        | some ws =>
          rw [hft, hfl] at hf
          obtain ⟨k1, hk1⟩ := h 0 t1 t2 (by simp) (by simp) v hft
          obtain ⟨k2, hk2⟩ := ih l2 (by simpa using hlen)
            (fun j a b ha hb => h (j + 1) a b (by simpa using ha) (by simpa using hb)) ws hfl
          refine ⟨max k1 k2, ?_⟩
          simp only [all_values]
          rw [hmono k1 (max k1 k2) t2 v (Nat.le_max_left _ _) hk1,
            all_values_mono l2 (fun t _ x hx => hmono k2 (max k1 k2) t x
              (Nat.le_max_right _ _) hx) ws hk2]
          exact hf

theorem evaluate_input_of_origin {net : MFNetworkBuilder} {t o : Nat}
    (ho : net.origin t = some o) (ctx : MFContext) (values : Nat → GenericValue) (fuel : Nat) :
    evaluate_input net ctx values fuel t = evaluate_output net ctx values fuel o := by
  unfold evaluate_input
  rw [ho]

theorem evaluate_input_of_no_origin {net : MFNetworkBuilder} {t : Nat}
    (ho : net.origin t = none) (ctx : MFContext) (values : Nat → GenericValue) (fuel : Nat) :
    evaluate_input net ctx values fuel t = some (values t) := by
  unfold evaluate_input
  rw [ho]

/-- With collision-free hashes and honest operation identities, two output sockets with the
same hash have the same value. -/
theorem evaluate_output_of_equal_hash {net : MFNetworkBuilder} (hwf : net.wellformed = true)
    (hac : net.acyclic) {hashes : List (Option Nat)}
    (hcf : collision_free net hashes = true) (hhonest : honest_identities net)
    (ctx : MFContext) (values : Nat → GenericValue) (n : Nat) :
    ∀ o1 o2 s1 h, net.socket_or_null_by_id_at o1 = some s1 → s1.node = n →
      hash_at hashes o1 = some h → hash_at hashes o2 = some h →
      ∀ fuel v, evaluate_output net ctx values fuel o1 = some v →
        ∃ fuel2, evaluate_output net ctx values fuel2 o2 = some v := by
  induction n using (acyclic_wellFounded hwf hac).induction with
  | _ n ih =>
    intro o1 o2 s1 h hs1 hs1n h1 h2 fuel v hv
    by_cases hne : o1 = o2
    · rw [← hne]
      exact ⟨fuel, hv⟩
    · obtain ⟨s1a, s2, n1, n2, f1, f2, p, hs1a, hs2, hidx, hn1, hn2, hf1, hf2, hp1, hp2, hlen,
        hin⟩ := structurally_equal_spec (collision_free_spec hcf hne h1 h2)
      rw [hs1] at hs1a
      cases hs1a
      cases fuel with
      | zero => rw [evaluate_output_zero] at hv; cases hv
      | succ k =>
        rw [evaluate_output_succ_eq, hs1] at hv
        simp only [hn1, hf1] at hv
        cases ha : all_values (evaluate_input net ctx values k) n1.inputs with
        | none => rw [ha] at hv; cases hv
        | some args =>
          rw [ha] at hv
          simp only at hv
          have hpoint : ∀ (j t1 t2 : Nat), n1.inputs[j]? = some t1 → n2.inputs[j]? = some t2 →
              ∀ x, evaluate_input net ctx values k t1 = some x →
                ∃ k2, evaluate_input net ctx values k2 t2 = some x := by
            intro j t1 t2 ht1 ht2 x hx
            obtain ⟨a, b, w, hoa, hob, hwa, hwb⟩ := hin j t1 t2 ht1 ht2
            rw [evaluate_input_of_origin hoa] at hx
            obtain ⟨_, sa, _, _, _, hsa, _⟩ := wellformed_origin hwf hoa
            obtain ⟨st1, hst1, hst1n, _, _⟩ := wellformed_inputs hwf hn1 ht1
            have hlink : net.link sa.node n :=
              ⟨t1, a, by simp [socket_node, hst1, hst1n, hs1n], hoa, by simp [socket_node, hsa]⟩
            obtain ⟨k2, hk2⟩ := ih sa.node hlink a b sa w hsa rfl hwa hwb k x hx
            exact ⟨k2, by rw [evaluate_input_of_origin hob]; exact hk2⟩
          obtain ⟨K, hK⟩ := all_values_pointwise_fuel (evaluate_input net ctx values k)
            (evaluate_input net ctx values)
            (fun k k1 t x hle hx => evaluate_input_mono net ctx values hle hx)
            n1.inputs n2.inputs hlen hpoint args ha
          refine ⟨K + 1, ?_⟩
          rw [evaluate_output_succ_eq, hs2]
          simp only [hn2, hf2, hK]
          rw [← hhonest s1.node s2.node n1 n2 f1 f2 p hn1 hn2 hf1 hf2 hp1 hp2, ← hidx]
          exact hv


theorem node_at_of_same_nodes_and_sockets {net net1 : MFNetworkBuilder}
    (h : same_nodes_and_sockets net net1) (i : Nat) :
    net1.node_or_null_by_id_at i = net.node_or_null_by_id_at i := by
  unfold node_or_null_by_id_at
  rw [h.1]

theorem socket_at_of_same_nodes_and_sockets {net net1 : MFNetworkBuilder}
    (h : same_nodes_and_sockets net net1) {o : Nat} {s : MFBuilderSocket}
    (hs : net.socket_or_null_by_id_at o = some s) :
    ∃ s1, net1.socket_or_null_by_id_at o = some s1 ∧ s1.node = s.node ∧
      s1.index = s.index := by
  have h1 := h.2.2 o
  rw [hs] at h1
  cases hs1 : net1.socket_or_null_by_id_at o with
  | none => rw [hs1] at h1; cases h1
  | some s1 =>
    rw [hs1] at h1
    simp only [Option.map_some', Option.some.injEq] at h1
    have e1 := congrArg MFBuilderSocket.node h1
    have e2 := congrArg MFBuilderSocket.index h1
    exact ⟨s1, rfl, e1, e2⟩

/-- One input socket of node `n` keeps its value under deduplication, when the sockets of
the nodes that feed `n` in the deduplicated network keep theirs. -/
theorem evaluate_input_remove_duplicates_step (rng : Nat → Nat) {net : MFNetworkBuilder}
    (hwf : net.wellformed = true) (hac : net.acyclic) {fuel : Nat} {st : HashState}
    (hrun : compute_output_hashes rng net fuel = some st)
    (hcf : collision_free net st.hash_by_output_socket = true)
    (hhonest : honest_identities net) (ctx : MFContext) (values : Nat → GenericValue)
    {n : Nat}
    (hih : ∀ m, (deduplicate_all net (outputs_by_hash st.hash_by_output_socket)).link m n →
      ∀ o s, net.socket_or_null_by_id_at o = some s → s.node = m →
        ∀ k v, evaluate_output net ctx values k o = some v →
          ∃ k1, evaluate_output (deduplicate_all net
            (outputs_by_hash st.hash_by_output_socket)) ctx values k1 o = some v)
    {t : Nat} (ht : net.socket_node t = some n) (k : Nat) (x : GenericValue)
    (hx : evaluate_input net ctx values k t = some x) :
    ∃ k1, evaluate_input (deduplicate_all net (outputs_by_hash st.hash_by_output_socket))
      ctx values k1 t = some x := by
  have hsame := same_nodes_and_sockets_deduplicate_all net
    (outputs_by_hash st.hash_by_output_socket)
  cases ho : net.origin t with
  | none =>
    have hnew : (deduplicate_all net (outputs_by_hash st.hash_by_output_socket)).origin t =
        none := by
      rw [origin_remove_duplicates, ho]
      rfl
    rw [evaluate_input_of_no_origin ho] at hx
    exact ⟨0, by rw [evaluate_input_of_no_origin hnew]; exact hx⟩
  | some a =>
    obtain ⟨h, hha, hnew⟩ := remove_duplicates_origin rng hwf hrun ho
    have hr := (first_with_hash_spec st.hash_by_output_socket hha).1
    obtain ⟨_, sa, _, _, _, hsa, _⟩ := wellformed_origin hwf ho
    rw [evaluate_input_of_origin ho] at hx
    obtain ⟨k2, hk2⟩ := evaluate_output_of_equal_hash hwf hac hcf hhonest ctx values sa.node
      a _ sa h hsa rfl hha hr k x hx
    obtain ⟨id, hid, _⟩ := (compute_output_hashes_invariant rng hwf hrun).1.core.hash_owner
      _ h hr
    cases hsr : net.socket_or_null_by_id_at (first_with_hash st.hash_by_output_socket h) with
    | none => simp [socket_node, hsr] at hid
    | some sr =>
      have hsrn : sr.node = id := by simpa [socket_node, hsr] using hid
      have hlink : (deduplicate_all net (outputs_by_hash st.hash_by_output_socket)).link
          id n :=
        ⟨t, _, by rw [socket_node_of_same_nodes_and_sockets hsame]; exact ht, hnew,
          by rw [socket_node_of_same_nodes_and_sockets hsame]; exact hid⟩
      obtain ⟨k3, hk3⟩ := hih id hlink _ sr hsr hsrn k2 x hk2
      exact ⟨k3, by rw [evaluate_input_of_origin hnew]; exact hk3⟩

/-- With collision-free hashes and honest operation identities, every socket keeps its
value under deduplication. -/
theorem evaluate_output_remove_duplicates (rng : Nat → Nat) {net : MFNetworkBuilder}
    (hwf : net.wellformed = true) (hac : net.acyclic) {fuel : Nat} {st : HashState}
    (hrun : compute_output_hashes rng net fuel = some st)
    (hcf : collision_free net st.hash_by_output_socket = true)
    (hhonest : honest_identities net) (ctx : MFContext) (values : Nat → GenericValue)
    (n : Nat) :
    ∀ o s, net.socket_or_null_by_id_at o = some s → s.node = n →
      ∀ k v, evaluate_output net ctx values k o = some v →
        ∃ k1, evaluate_output (deduplicate_all net
          (outputs_by_hash st.hash_by_output_socket)) ctx values k1 o = some v := by
  have hsame := same_nodes_and_sockets_deduplicate_all net
    (outputs_by_hash st.hash_by_output_socket)
  have hwfd : WellFounded
      (deduplicate_all net (outputs_by_hash st.hash_by_output_socket)).link :=
    ⟨fun n => similar_nodes_acc rng hwf hac hrun hcf n n (Or.inl rfl)⟩
  induction n using hwfd.induction with
  | _ n ih =>
    intro o s hs hsn k v hv
    obtain ⟨s1, hs1, hs1n, hs1i⟩ := socket_at_of_same_nodes_and_sockets hsame hs
    obtain ⟨nd, hnd, _⟩ := wellformed_socket hwf hs
    cases k with
    | zero => rw [evaluate_output_zero] at hv; cases hv
    | succ k =>
      rw [evaluate_output_succ_eq, hs] at hv
      simp only [hnd] at hv
      cases hf : nd.function with
      | none =>
        rw [hf] at hv
        refine ⟨1, ?_⟩
        rw [evaluate_output_succ_eq, hs1]
        simp only [hs1n, node_at_of_same_nodes_and_sockets hsame, hnd, hf]
        exact hv
      | some f =>
        rw [hf] at hv
        simp only at hv
        cases ha : all_values (evaluate_input net ctx values k) nd.inputs with
        | none => rw [ha] at hv; cases hv
        | some args =>
          rw [ha] at hv
          simp only at hv
          have hpoint : ∀ (j t1 t2 : Nat), nd.inputs[j]? = some t1 → nd.inputs[j]? = some t2 →
              ∀ x, evaluate_input net ctx values k t1 = some x →
                ∃ k1, evaluate_input (deduplicate_all net
                  (outputs_by_hash st.hash_by_output_socket)) ctx values k1 t2 = some x := by
            intro j t1 t2 ht1 ht2 x hx
            rw [ht1] at ht2
            cases ht2
            obtain ⟨st1, hst1, hst1n, _, _⟩ := wellformed_inputs hwf hnd ht1
            exact evaluate_input_remove_duplicates_step rng hwf hac hrun hcf hhonest ctx values
              ih (by simp [socket_node, hst1, hst1n, hsn]) k x hx
          obtain ⟨K, hK⟩ := all_values_pointwise_fuel (evaluate_input net ctx values k)
            (evaluate_input (deduplicate_all net (outputs_by_hash st.hash_by_output_socket))
              ctx values)
            (fun k k1 t x hle hx => evaluate_input_mono _ ctx values hle hx)
            nd.inputs nd.inputs rfl hpoint args ha
          refine ⟨K + 1, ?_⟩
          rw [evaluate_output_succ_eq, hs1]
          simp only [hs1n, hs1i, node_at_of_same_nodes_and_sockets hsame, hnd, hf, hK]
          exact hv




/-- The operation identities of the network `A -> B -> D`, `A -> C -> D` are honest. -/
theorem honest_identities_ABCD : honest_identities network_ABCD := by
  have hcall : ∀ b nb fb p, network_ABCD.node_or_null_by_id_at b = some nb →
      nb.function = some fb → fb.operation_hash = some p →
      fb.call = (example_pure 7).call := by
    intro b nb fb p hb hfb hpb
    have hlt : b < 4 := node_at_eq_some_lt hb
    have h0 : network_ABCD.node_or_null_by_id_at 0 =
        some { function := none, inputs := [], outputs := [0] } := rfl
    have h1 : network_ABCD.node_or_null_by_id_at 1 =
        some { function := some (example_pure 7), inputs := [1], outputs := [2] } := rfl
    have h2 : network_ABCD.node_or_null_by_id_at 2 =
        some { function := some (example_pure 7), inputs := [3], outputs := [4] } := rfl
    have h3 : network_ABCD.node_or_null_by_id_at 3 =
        some { function := some example_context_sum, inputs := [5, 6], outputs := [7] } := rfl
    interval_cases b
    · rw [h0] at hb
      cases hb
      cases hfb
    · rw [h1] at hb
      cases hb
      cases hfb
      rfl
    · rw [h2] at hb
      cases hb
      cases hfb
      rfl
    · rw [h3] at hb
      cases hb
      cases hfb
      cases hpb
  intro b c nb nc fb fc p hb hc hfb hfc hpb hpc
  rw [hcall b nb fb p hb hfb hpb, hcall c nc fc p hc hfc hpc]

/-- C2 (counterexample): the operation identity of the two-output node `G` makes both of
its outputs hash to 0, so deduplication relinks the dummy input 3 from output 1 to
output 0, although the two outputs carry the different values 2 and 1; the value arriving
at the dummy input 3 changes from 2 to 1. -/
theorem remove_duplicates_changes_value :
    network_two_outputs.wellformed = true ∧
      topologically_ordered network_two_outputs (fun n => n) = true ∧
      network_two_outputs.origin 3 = some 1 ∧
      evaluate_output network_two_outputs 0 example_values 5 1 =
        some (GenericValue.single 2) ∧
      evaluate_output network_two_outputs 0 example_values 5 0 =
        some (GenericValue.single 1) ∧
      evaluate_input network_two_outputs 0 example_values 5 3 =
        some (GenericValue.single 2) ∧
      ∃ net1, optimize_network__remove_duplicates example_rng 10 network_two_outputs =
          some net1 ∧
        net1.origin 3 = some 0 ∧
        evaluate_input net1 0 example_values 5 3 = some (GenericValue.single 1) :=
  ⟨by decide, by decide, by decide, by decide, by decide, by decide, _, rfl, by decide,
    by decide⟩

/-- C2 (amended): on a well-formed acyclic network whose hashes are free of collisions and
whose operation identities are honest, the pass returns, any two output sockets with the
same hash (in particular an output whose consumers are relinked and its representative)
have the same value for every context and every assignment of external values, and every
input socket (in particular every dummy input) receives the same value before and after
the pass. -/
theorem remove_duplicates_preserves_values (rng : Nat → Nat) (net : MFNetworkBuilder)
    (hwf : net.wellformed = true) (hac : net.acyclic) (fuel : Nat)
    (hcf : hashes_collision_free rng net fuel = true) (hhonest : honest_identities net) :
    ∃ st net1, compute_output_hashes rng net fuel = some st ∧
      (∀ fuel1, fuel ≤ fuel1 →
        optimize_network__remove_duplicates rng fuel1 net = some net1) ∧
      ∀ (ctx : MFContext) (values : Nat → GenericValue),
        (∀ o1 o2 h, hash_at st.hash_by_output_socket o1 = some h →
          hash_at st.hash_by_output_socket o2 = some h →
          ∃ v fuel0, ∀ k, fuel0 ≤ k →
            evaluate_output net ctx values k o1 = some v ∧
            evaluate_output net ctx values k o2 = some v) ∧
        ∀ t, ∃ v fuel0, ∀ k, fuel0 ≤ k →
          evaluate_input net ctx values k t = some v ∧
          evaluate_input net1 ctx values k t = some v := by
  unfold hashes_collision_free at hcf
  cases hrun : compute_output_hashes rng net fuel with
  | none => rw [hrun] at hcf; cases hcf
  | some st =>
    rw [hrun] at hcf
    simp only at hcf
    refine ⟨st, _, rfl, fun fuel1 hle => remove_duplicates_eq rng net hrun fuel1 hle, ?_⟩
    intro ctx values
    constructor
    · intro o1 o2 h h1 h2
      obtain ⟨id, hid, _⟩ := (compute_output_hashes_invariant rng hwf hrun).1.core.hash_owner
        o1 h h1
      cases hs1 : net.socket_or_null_by_id_at o1 with
      | none => simp [socket_node, hs1] at hid
      | some s1 =>
        obtain ⟨k1, v, hv⟩ := evaluate_output_total hwf hac ctx values s1.node o1 s1 hs1 rfl
        obtain ⟨k2, hk2⟩ := evaluate_output_of_equal_hash hwf hac hcf hhonest ctx values
          s1.node o1 o2 s1 h hs1 rfl h1 h2 k1 v hv
        exact ⟨v, max k1 k2, fun k hle =>
          ⟨evaluate_output_mono net ctx values (le_trans (Nat.le_max_left _ _) hle) hv,
            evaluate_output_mono net ctx values (le_trans (Nat.le_max_right _ _) hle) hk2⟩⟩
    · intro t
      obtain ⟨k1, v, hv⟩ := evaluate_input_total hwf hac ctx values t
      have hnew : ∃ k2, evaluate_input
          (deduplicate_all net (outputs_by_hash st.hash_by_output_socket)) ctx values k2 t =
            some v := by
        cases ho : net.origin t with
        | none =>
          have hnone : (deduplicate_all net
              (outputs_by_hash st.hash_by_output_socket)).origin t = none := by
            rw [origin_remove_duplicates, ho]
            rfl
          rw [evaluate_input_of_no_origin ho] at hv
          exact ⟨0, by rw [evaluate_input_of_no_origin hnone]; exact hv⟩
        | some a =>
          obtain ⟨s, _, hs, _⟩ := wellformed_origin hwf ho
          exact evaluate_input_remove_duplicates_step rng hwf hac hrun hcf hhonest ctx values
            (fun m _ => evaluate_output_remove_duplicates rng hwf hac hrun hcf hhonest ctx
              values m)
            (by simp [socket_node, hs] : net.socket_node t = some s.node) k1 v hv
      obtain ⟨k2, hk2⟩ := hnew
      exact ⟨v, max k1 k2, fun k hle =>
        ⟨evaluate_input_mono net ctx values (le_trans (Nat.le_max_left _ _) hle) hv,
          evaluate_input_mono _ ctx values (le_trans (Nat.le_max_right _ _) hle) hk2⟩⟩

/-- Witness for the amended C2 on the network `A -> B -> D`, `A -> C -> D`. -/
theorem remove_duplicates_preserves_values_witness :
    (network_ABCD.wellformed = true ∧ hashes_collision_free example_rng network_ABCD 20 = true ∧
      honest_identities network_ABCD) ∧
    ∃ st net1, compute_output_hashes example_rng network_ABCD 20 = some st ∧
      (∀ fuel1, 20 ≤ fuel1 →
        optimize_network__remove_duplicates example_rng fuel1 network_ABCD = some net1) ∧
      ∀ (ctx : MFContext) (values : Nat → GenericValue),
        (∀ o1 o2 h, hash_at st.hash_by_output_socket o1 = some h →
          hash_at st.hash_by_output_socket o2 = some h →
          ∃ v fuel0, ∀ k, fuel0 ≤ k →
            evaluate_output network_ABCD ctx values k o1 = some v ∧
            evaluate_output network_ABCD ctx values k o2 = some v) ∧
        ∀ t, ∃ v fuel0, ∀ k, fuel0 ≤ k →
          evaluate_input network_ABCD ctx values k t = some v ∧
          evaluate_input net1 ctx values k t = some v :=
  ⟨⟨by decide, by decide, honest_identities_ABCD⟩,
    remove_duplicates_preserves_values example_rng network_ABCD (by decide)
      (acyclic_of_topologically_ordered (fun n => n) (by decide)) 20 (by decide)
      honest_identities_ABCD⟩


/-! ## The chain `const1 -> Add -> const2 -> Mul -> D` -/

/-- C11 (counterexample): in the chain `const1 -> Add -> const2 -> Mul -> D` the pass
creates one probe (the dummy node 5) and relinks the input of `D` (socket 7) from the
output of `Mul` (socket 6) to the output of the literal node (socket 10), but `const1`,
`Add` and `const2` (nodes 0, 1 and 2) are still in the network afterwards. -/
theorem constant_folding_chain_counterexample :
    network_chain_example.wellformed = true ∧
      (add_probes (node_is_not_constant network_chain_example)
        (constant_builder_nodes network_chain_example) (network_chain_example, [])).2 = [5] ∧
      network_chain_example.origin 7 = some 6 ∧
      (optimize_network__constant_folding example_engine network_chain_example).origin 7 =
        some 10 ∧
      ((optimize_network__constant_folding example_engine
        network_chain_example).node_or_null_by_id_at 0).isSome = true ∧
      ((optimize_network__constant_folding example_engine
        network_chain_example).node_or_null_by_id_at 1).isSome = true ∧
      ((optimize_network__constant_folding example_engine
        network_chain_example).node_or_null_by_id_at 2).isSome = true := by
  decide

theorem network_chain_nodes (ty : MFDataType) (h0 h1 h2 h3 h4 : Option Nat) (v : GenericValue)
    (c1 c2 c3 : List GenericValue → List GenericValue)
    (c4 : MFContext → List GenericValue → List GenericValue) :
    ((((MFNetworkBuilder.empty.add_function (scenario_const ty h0 v)).add_function
      (scenario_pure ty h1 c1)).add_function (scenario_pure ty h2 c2)).add_function
      (scenario_pure ty h3 c3)).add_function (scenario_context ty h4 c4) =
      { node_or_null_by_id :=
          [some { function := some (scenario_const ty h0 v), inputs := [], outputs := [0] },
           some { function := some (scenario_pure ty h1 c1), inputs := [1], outputs := [2] },
           some { function := some (scenario_pure ty h2 c2), inputs := [3], outputs := [4] },
           some { function := some (scenario_pure ty h3 c3), inputs := [5], outputs := [6] },
           some { function := some (scenario_context ty h4 c4), inputs := [7],
                  outputs := [8] }]
        socket_or_null_by_id :=
          [some { node := 0, is_output := true, index := 0, data_type := ty, origin := none },
           some { node := 1, is_output := false, index := 0, data_type := ty, origin := none },
           some { node := 1, is_output := true, index := 0, data_type := ty, origin := none },
           some { node := 2, is_output := false, index := 0, data_type := ty, origin := none },
           some { node := 2, is_output := true, index := 0, data_type := ty, origin := none },
           some { node := 3, is_output := false, index := 0, data_type := ty, origin := none },
           some { node := 3, is_output := true, index := 0, data_type := ty, origin := none },
           some { node := 4, is_output := false, index := 0, data_type := ty, origin := none },
           some { node := 4, is_output := true, index := 0, data_type := ty,
                  origin := none }] } := rfl

theorem network_chain_eq (ty : MFDataType) (h0 h1 h2 h3 h4 : Option Nat) (v : GenericValue)
    (c1 c2 c3 : List GenericValue → List GenericValue)
    (c4 : MFContext → List GenericValue → List GenericValue) :
    network_chain (scenario_const ty h0 v) (scenario_pure ty h1 c1) (scenario_pure ty h2 c2)
        (scenario_pure ty h3 c3) (scenario_context ty h4 c4) =
      { node_or_null_by_id :=
          [some { function := some (scenario_const ty h0 v), inputs := [], outputs := [0] },
           some { function := some (scenario_pure ty h1 c1), inputs := [1], outputs := [2] },
           some { function := some (scenario_pure ty h2 c2), inputs := [3], outputs := [4] },
           some { function := some (scenario_pure ty h3 c3), inputs := [5], outputs := [6] },
           some { function := some (scenario_context ty h4 c4), inputs := [7],
                  outputs := [8] }]
        socket_or_null_by_id :=
          [some { node := 0, is_output := true, index := 0, data_type := ty, origin := none },
           some { node := 1, is_output := false, index := 0, data_type := ty,
                  origin := some 0 },
           some { node := 1, is_output := true, index := 0, data_type := ty, origin := none },
           some { node := 2, is_output := false, index := 0, data_type := ty,
                  origin := some 2 },
           some { node := 2, is_output := true, index := 0, data_type := ty, origin := none },
           some { node := 3, is_output := false, index := 0, data_type := ty,
                  origin := some 4 },
           some { node := 3, is_output := true, index := 0, data_type := ty, origin := none },
           some { node := 4, is_output := false, index := 0, data_type := ty,
                  origin := some 6 },
           some { node := 4, is_output := true, index := 0, data_type := ty,
                  origin := none }] } := by
  unfold network_chain
  rw [network_chain_nodes]
  rfl


theorem node_is_not_constant_chain (ty : MFDataType) (h0 h1 h2 h3 h4 : Option Nat)
    (v : GenericValue) (c1 c2 c3 : List GenericValue → List GenericValue)
    (c4 : MFContext → List GenericValue → List GenericValue) :
    node_is_not_constant (network_chain (scenario_const ty h0 v) (scenario_pure ty h1 c1)
      (scenario_pure ty h2 c2) (scenario_pure ty h3 c3) (scenario_context ty h4 c4)) =
        [false, false, false, false, true] := by
  rw [network_chain_eq]
  rfl

theorem constant_builder_nodes_chain (ty : MFDataType) (h0 h1 h2 h3 h4 : Option Nat)
    (v : GenericValue) (c1 c2 c3 : List GenericValue → List GenericValue)
    (c4 : MFContext → List GenericValue → List GenericValue) :
    constant_builder_nodes (network_chain (scenario_const ty h0 v) (scenario_pure ty h1 c1)
      (scenario_pure ty h2 c2) (scenario_pure ty h3 c3) (scenario_context ty h4 c4)) =
        [0, 1, 2, 3] := by
  unfold constant_builder_nodes
  rw [node_is_not_constant_chain, network_chain_eq]
  rfl

theorem probed_outputs_chain (ty : MFDataType) (h0 h1 h2 h3 h4 : Option Nat)
    (v : GenericValue) (c1 c2 c3 : List GenericValue → List GenericValue)
    (c4 : MFContext → List GenericValue → List GenericValue) :
    probed_outputs (network_chain (scenario_const ty h0 v) (scenario_pure ty h1 c1)
      (scenario_pure ty h2 c2) (scenario_pure ty h3 c3) (scenario_context ty h4 c4)) =
        [(6, ty)] := by
  unfold probed_outputs
  rw [node_is_not_constant_chain, constant_builder_nodes_chain, network_chain_eq]
  rfl

theorem wellformed_chain (ty : MFDataType) (h0 h1 h2 h3 h4 : Option Nat)
    (v : GenericValue) (c1 c2 c3 : List GenericValue → List GenericValue)
    (c4 : MFContext → List GenericValue → List GenericValue) :
    (network_chain (scenario_const ty h0 v) (scenario_pure ty h1 c1)
      (scenario_pure ty h2 c2) (scenario_pure ty h3 c3)
      (scenario_context ty h4 c4)).wellformed = true := by
  rw [network_chain_eq]
  rfl


/-- C11 (amended): in the chain `const1 -> Add -> const2 -> Mul -> D`, whatever the
functions compute, the pass creates exactly one probe (node 5, whose input socket 9 is fed
by the output of `Mul`, socket 6), adds exactly one literal node (node 6) holding the value
computed for the probe, makes its output (socket 10) the origin of the input of `D`, and
removes the probe; `const1`, `Add`, `const2`, `Mul` and `D` all stay in the network,
unchanged, and the links between them stay as well. -/
theorem constant_folding_chain
    (engine : MFNetworkBuilder → List Nat → Nat → GenericValue) (ty : MFDataType)
    (h0 h1 h2 h3 h4 : Option Nat) (v : GenericValue)
    (c1 c2 c3 : List GenericValue → List GenericValue)
    (c4 : MFContext → List GenericValue → List GenericValue) :
    ∃ net1,
      add_probes
          (node_is_not_constant (network_chain (scenario_const ty h0 v)
            (scenario_pure ty h1 c1) (scenario_pure ty h2 c2) (scenario_pure ty h3 c3)
            (scenario_context ty h4 c4)))
          (constant_builder_nodes (network_chain (scenario_const ty h0 v)
            (scenario_pure ty h1 c1) (scenario_pure ty h2 c2) (scenario_pure ty h3 c3)
            (scenario_context ty h4 c4)))
          (network_chain (scenario_const ty h0 v) (scenario_pure ty h1 c1)
            (scenario_pure ty h2 c2) (scenario_pure ty h3 c3)
            (scenario_context ty h4 c4), []) = (net1, [5]) ∧
      net1.origin 9 = some 6 ∧
      (optimize_network__constant_folding engine
          (network_chain (scenario_const ty h0 v) (scenario_pure ty h1 c1)
            (scenario_pure ty h2 c2) (scenario_pure ty h3 c3)
            (scenario_context ty h4 c4))).node_id_amount = 7 ∧
      (optimize_network__constant_folding engine
          (network_chain (scenario_const ty h0 v) (scenario_pure ty h1 c1)
            (scenario_pure ty h2 c2) (scenario_pure ty h3 c3)
            (scenario_context ty h4 c4))).node_or_null_by_id_at 6 =
        some { function := some (constant_function ty (engine net1 [9] 0)), inputs := [],
               outputs := [10] } ∧
      (optimize_network__constant_folding engine
          (network_chain (scenario_const ty h0 v) (scenario_pure ty h1 c1)
            (scenario_pure ty h2 c2) (scenario_pure ty h3 c3)
            (scenario_context ty h4 c4))).node_or_null_by_id_at 5 = none ∧
      (optimize_network__constant_folding engine
          (network_chain (scenario_const ty h0 v) (scenario_pure ty h1 c1)
            (scenario_pure ty h2 c2) (scenario_pure ty h3 c3)
            (scenario_context ty h4 c4))).origin 7 = some 10 ∧
      (∀ i, i < 5 →
        (optimize_network__constant_folding engine
          (network_chain (scenario_const ty h0 v) (scenario_pure ty h1 c1)
            (scenario_pure ty h2 c2) (scenario_pure ty h3 c3)
            (scenario_context ty h4 c4))).node_or_null_by_id_at i =
        (network_chain (scenario_const ty h0 v) (scenario_pure ty h1 c1)
            (scenario_pure ty h2 c2) (scenario_pure ty h3 c3)
            (scenario_context ty h4 c4)).node_or_null_by_id_at i ∧
        ((network_chain (scenario_const ty h0 v) (scenario_pure ty h1 c1)
            (scenario_pure ty h2 c2) (scenario_pure ty h3 c3)
            (scenario_context ty h4 c4)).node_or_null_by_id_at i).isSome = true) ∧
      (optimize_network__constant_folding engine
          (network_chain (scenario_const ty h0 v) (scenario_pure ty h1 c1)
            (scenario_pure ty h2 c2) (scenario_pure ty h3 c3)
            (scenario_context ty h4 c4))).origin 1 = some 0 ∧
      (optimize_network__constant_folding engine
          (network_chain (scenario_const ty h0 v) (scenario_pure ty h1 c1)
            (scenario_pure ty h2 c2) (scenario_pure ty h3 c3)
            (scenario_context ty h4 c4))).origin 3 = some 2 ∧
      (optimize_network__constant_folding engine
          (network_chain (scenario_const ty h0 v) (scenario_pure ty h1 c1)
            (scenario_pure ty h2 c2) (scenario_pure ty h3 c3)
            (scenario_context ty h4 c4))).origin 5 = some 4 := by
  have hwf := wellformed_chain ty h0 h1 h2 h3 h4 v c1 c2 c3 c4
  obtain ⟨net1, hadd, hprobes, hfold⟩ := constant_folding_result engine hwf
  rw [probed_outputs_chain] at hadd hprobes hfold
  have hN : (network_chain (scenario_const ty h0 v) (scenario_pure ty h1 c1)
      (scenario_pure ty h2 c2) (scenario_pure ty h3 c3)
      (scenario_context ty h4 c4)).node_id_amount = 5 := by
    rw [network_chain_eq]
    rfl
  have hS : (network_chain (scenario_const ty h0 v) (scenario_pure ty h1 c1)
      (scenario_pure ty h2 c2) (scenario_pure ty h3 c3)
      (scenario_context ty h4 c4)).socket_id_amount = 9 := by
    rw [network_chain_eq]
    rfl
  have horigin : ∀ t, t < 9 →
      (optimize_network__constant_folding engine
        (network_chain (scenario_const ty h0 v) (scenario_pure ty h1 c1)
          (scenario_pure ty h2 c2) (scenario_pure ty h3 c3)
          (scenario_context ty h4 c4))).origin t =
      ((network_chain (scenario_const ty h0 v) (scenario_pure ty h1 c1)
          (scenario_pure ty h2 c2) (scenario_pure ty h3 c3)
          (scenario_context ty h4 c4)).origin t).map (folded_origin [6] 10) := by
    intro t ht
    have := origin_folded hfold (by rw [hS]; exact ht : t < _)
    rw [hS] at this
    exact this
  have ho : ∀ t, t < 9 → (network_chain (scenario_const ty h0 v) (scenario_pure ty h1 c1)
      (scenario_pure ty h2 c2) (scenario_pure ty h3 c3)
      (scenario_context ty h4 c4)).origin t =
      ([none, some 0, none, some 2, none, some 4, none, some 6, none] : List (Option Nat)).getD
        t none := by
    intro t ht
    rw [network_chain_eq]
    interval_cases t <;> rfl
  refine ⟨net1, ?_, ?_, ?_, ?_, ?_, ?_, ?_, ?_, ?_, ?_⟩
  · rw [hprobes, hN]
    rfl
  · have := hadd.probe_socket 0 (6, ty) rfl
    rw [hS] at this
    simp [origin, this]
  · rw [hfold.node_amount, hN]
    rfl
  · have := hfold.folded_node 0 (6, ty) rfl
    rw [hN, hS] at this
    exact this
  · exact hfold.probe_node 5 (by rw [hN]) (by rw [hN]; simp)
  · rw [horigin 7 (by omega), ho 7 (by omega)]
    rfl
  · intro i hi
    refine ⟨hfold.old_node i (by rw [hN]; exact hi), ?_⟩
    rw [network_chain_eq]
    interval_cases i <;> rfl
  · rw [horigin 1 (by omega), ho 1 (by omega)]
    rfl
  · rw [horigin 3 (by omega), ho 3 (by omega)]
    rfl
  · rw [horigin 5 (by omega), ho 5 (by omega)]
    rfl

/-! ## Frame properties of `optimize_network__constant_folding` -/

theorem filter_range_extend (p q : Nat → Bool) (a b : Nat) (hle : a ≤ b)
    (hold : ∀ t, t < a → p t = q t) (hnew : ∀ t, a ≤ t → t < b → p t = false) :
    (List.range b).filter p = (List.range a).filter q := by
  obtain ⟨k, rfl⟩ := Nat.exists_eq_add_of_le hle
  clear hle
  induction k with
  | zero =>
    apply List.filter_congr
    intro t ht
    exact hold t (List.mem_range.mp ht)
  | succ k ih =>
    rw [← Nat.add_assoc, List.range_succ, List.filter_append,
      ih (fun t h1 h2 => hnew t h1 (by omega))]
    simp [hnew (a + k) (by omega) (by omega)]

/-- The targets of an output socket in a network that extends `net` by sockets that do not
have it as origin. -/
theorem targets_eq_of_origin {net cur : MFNetworkBuilder} {o : Nat}
    (hle : net.socket_id_amount ≤ cur.socket_id_amount)
    (hold : ∀ t, t < net.socket_id_amount →
      (cur.origin t = some o ↔ net.origin t = some o))
    (hnew : ∀ t, net.socket_id_amount ≤ t → cur.origin t ≠ some o) :
    cur.targets o = net.targets o := by
  unfold targets
  apply filter_range_extend _ _ _ _ hle
  · intro t ht
    have := hold t ht
    by_cases h : net.origin t = some o
    · simp [h, this.mpr h]
    · have h1 : ¬ cur.origin t = some o := fun hc => h (this.mp hc)
      simp [h, h1]
  · intro t ht _
    simpa using hnew t ht

/-- An output socket of a node without inputs is not probed. -/
theorem not_probed_of_no_inputs {net : MFNetworkBuilder} (hwf : net.wellformed = true)
    {id : Nat} {n : MFBuilderNode} (hn : net.node_or_null_by_id_at id = some n)
    (hzero : n.inputs.length = 0) {o : Nat} (ho : o ∈ n.outputs) :
    o ∉ (probed_outputs net).map Prod.fst := by
  intro hmem
  obtain ⟨p, hp, hfst⟩ := List.mem_map.mp hmem
  obtain ⟨id1, n1, _, _, hn1, hlen, hout, _⟩ := mem_boundary_outputs.mp hp
  rw [hfst] at hout
  have e1 := (socket_node_of_output hwf hn ho).1
  have e2 := (socket_node_of_output hwf hn1 hout).1
  rw [e1] at e2
  cases e2
  rw [hn] at hn1
  cases hn1
  exact hlen hzero

/-- The origins that are an output socket that is not probed are the same before and after
the pass. -/
theorem origin_constants_folded_iff {net result : MFNetworkBuilder}
    {probed : List (Nat × MFDataType)} {computed : Nat → GenericValue}
    (hfold : ConstantsFolded net probed computed result) {o : Nat}
    (holt : o < net.socket_id_amount) (hnot : o ∉ probed.map Prod.fst) (t : Nat) :
    result.origin t = some o ↔ net.origin t = some o := by
  by_cases ht : t < net.socket_id_amount
  · rw [origin_folded hfold ht]
    cases horig : net.origin t with
    | none => simp
    | some o1 =>
      simp only [Option.map_some', Option.some.injEq]
      unfold folded_origin
      by_cases hm : o1 ∈ probed.map Prod.fst
      · rw [if_pos hm]
        constructor
        · intro h
          omega
        · intro h
          rw [h] at hm
          exact absurd hm hnot
      · rw [if_neg hm]
  · have hnone : net.origin t = none := by
      cases h : net.origin t with
      | none => rfl
      | some o1 => exact absurd (origin_eq_some_lt h) ht
    rw [hnone]
    constructor
    · intro h
      exfalso
      have hlt := origin_eq_some_lt h
      rw [hfold.socket_amount] at hlt
      by_cases h1 : t < net.socket_id_amount + probed.length
      · have := hfold.probe_socket t (by omega) h1
        simp [origin, this] at h
      · have hi : t - (net.socket_id_amount + probed.length) < probed.length := by omega
        have := hfold.folded_socket (t - (net.socket_id_amount + probed.length)) _
          (List.getElem?_eq_getElem hi)
        rw [show net.socket_id_amount + probed.length +
          (t - (net.socket_id_amount + probed.length)) = t by omega] at this
        simp [origin, this] at h
    · intro h
      cases h


/-- The origins that are an output socket that is not probed are the same with and without
the probes. -/
theorem origin_probes_added_iff {net net1 : MFNetworkBuilder}
    {probed : List (Nat × MFDataType)} (hadd : ProbesAdded net net1 probed) {o : Nat}
    (hnot : o ∉ probed.map Prod.fst) (t : Nat) :
    net1.origin t = some o ↔ net.origin t = some o := by
  by_cases ht : t < net.socket_id_amount
  · have : net1.origin t = net.origin t := by
      unfold origin
      rw [hadd.old_socket t ht]
    rw [this]
  · have hnone : net.origin t = none := by
      cases h : net.origin t with
      | none => rfl
      | some o1 => exact absurd (origin_eq_some_lt h) ht
    rw [hnone]
    constructor
    · intro h
      exfalso
      have hlt := origin_eq_some_lt h
      rw [hadd.socket_amount] at hlt
      have hi : t - net.socket_id_amount < probed.length := by omega
      have := hadd.probe_socket (t - net.socket_id_amount) _ (List.getElem?_eq_getElem hi)
      rw [show net.socket_id_amount + (t - net.socket_id_amount) = t by omega] at this
      simp only [origin, this, Option.some_bind, Option.some.injEq] at h
      exact hnot (List.mem_map.mpr ⟨_, List.getElem_mem _, h⟩)
    · intro h
      cases h

/-- C12: for every node without inputs, no output socket of the node is probed by
`optimize_network__constant_folding`: the targets of each of its outputs are the same in
the network with the probes as before, and they are the same after the pass. -/
theorem constant_folding_keeps_sources
    (engine : MFNetworkBuilder → List Nat → Nat → GenericValue) (net : MFNetworkBuilder)
    (hwf : net.wellformed = true) (id : Nat) (n : MFBuilderNode)
    (hn : net.node_or_null_by_id_at id = some n) (hzero : n.inputs.length = 0) (o : Nat)
    (ho : o ∈ n.outputs) :
    o ∉ (probed_outputs net).map Prod.fst ∧
      (add_probes (node_is_not_constant net) (constant_builder_nodes net)
        (net, [])).1.targets o = net.targets o ∧
      (optimize_network__constant_folding engine net).targets o = net.targets o := by
  have hnot := not_probed_of_no_inputs hwf hn hzero ho
  have holt := (socket_node_of_output hwf hn ho).2
  obtain ⟨net1, hadd, haddeq, hfold⟩ := constant_folding_result engine hwf
  refine ⟨hnot, ?_, ?_⟩
  · rw [haddeq]
    apply targets_eq_of_origin
    · rw [hadd.socket_amount]
      omega
    · intro t _
      exact origin_probes_added_iff hadd hnot t
    · intro t ht h
      have h1 := (origin_probes_added_iff hadd hnot t).mp h
      have := origin_eq_some_lt h1
      omega
  · apply targets_eq_of_origin
    · rw [hfold.socket_amount]
      omega
    · intro t _
      exact origin_constants_folded_iff hfold holt hnot t
    · intro t ht h
      have h1 := (origin_constants_folded_iff hfold holt hnot t).mp h
      have := origin_eq_some_lt h1
      omega

/-- Witness for C12 on the network `const1 -> Add -> D`: the output of `const1` keeps its
target, the input of `Add`. -/
theorem constant_folding_keeps_sources_witness :
    network_const_add_example.targets 0 = [1] ∧
      0 ∉ (probed_outputs network_const_add_example).map Prod.fst ∧
      (add_probes (node_is_not_constant network_const_add_example)
        (constant_builder_nodes network_const_add_example)
        (network_const_add_example, [])).1.targets 0 = network_const_add_example.targets 0 ∧
      (optimize_network__constant_folding example_engine
        network_const_add_example).targets 0 = network_const_add_example.targets 0 :=
  ⟨by decide,
    constant_folding_keeps_sources example_engine network_const_add_example (by decide) 0
      { function := some (scenario_const (MFDataType.Single 0) (some 1)
          (GenericValue.single 5)), inputs := [], outputs := [0] } rfl rfl 0 (by decide)⟩


theorem probe_outputs_of_no_target (net : MFNetworkBuilder) (mask : List Bool)
    (outs : List Nat) (h : ∀ o ∈ outs, has_non_constant_target net mask o = false)
    (probes : List Nat) : probe_outputs mask outs (net, probes) = (net, probes) := by
  induction outs with
  | nil => rfl
  | cons o outs ih =>
    have ih1 := ih (fun x hx => h x (List.mem_cons_of_mem _ hx))
    unfold probe_outputs
    cases hs : net.socket_or_null_by_id_at o with
    | none => simp only [hs]; exact ih1
    | some s =>
      have hno : (net.targets o).any (owner_marked net mask) = false :=
        h o (List.mem_cons_self _ _)
      simp only [hs, probe_targets_eq, hno]
      exact ih1

theorem add_probes_of_no_target (net : MFNetworkBuilder) (mask : List Bool) (ids : List Nat)
    (h : ∀ id ∈ ids, ∀ n, net.node_or_null_by_id_at id = some n → n.inputs.length ≠ 0 →
      ∀ o ∈ n.outputs, has_non_constant_target net mask o = false)
    (probes : List Nat) : add_probes mask ids (net, probes) = (net, probes) := by
  induction ids with
  | nil => rfl
  | cons id ids ih =>
    have ih1 := ih (fun x hx => h x (List.mem_cons_of_mem _ hx))
    unfold add_probes
    cases hn : net.node_or_null_by_id_at id with
    | none => simp only [hn]; exact ih1
    | some n =>
      simp only [hn]
      by_cases hz : n.inputs.length = 0
      · rw [if_pos hz]
        exact ih1
      · rw [if_neg hz, probe_outputs_of_no_target net mask n.outputs
          (h id (List.mem_cons_self _ _) n hn hz)]
        exact ih1

/-- When no output is probed, no output socket of a candidate-constant node with inputs has
a target owned by a non-constant node. -/
theorem no_boundary_of_probed_outputs_nil {net : MFNetworkBuilder}
    (hwf : net.wellformed = true) (hnil : probed_outputs net = []) :
    ∀ id n o t m, net.node_or_null_by_id_at id = some n →
      ¬ marked (node_is_not_constant net) id → n.inputs.length ≠ 0 → o ∈ n.outputs →
      net.origin t = some o → net.socket_node t = some m →
      ¬ marked (node_is_not_constant net) m := by
  intro id n o t m hn hid hlen ho ht hm hmarked
  obtain ⟨k, hk⟩ := List.mem_iff_getElem?.mp ho
  obtain ⟨s, hs, _⟩ := wellformed_outputs hwf hn hk
  have hmem : (o, s.data_type) ∈ probed_outputs net := by
    unfold probed_outputs
    refine mem_boundary_outputs.mpr ⟨id, n, s, ?_, hn, hlen, ho,
      has_non_constant_target_iff.mpr ⟨t, m, ht, hm, hmarked⟩, hs, rfl⟩
    unfold constant_builder_nodes
    exact mem_nodes_by_id_inverted_id_mask.mpr ⟨by simp [hn], hid⟩
  rw [hnil] at hmem
  cases hmem

/-- C13: if no output socket of a candidate-constant node with at least one input has a
target owned by a non-constant node, the loop of lines 130-152 creates no probe and leaves
the network as it is, and `optimize_network__constant_folding` returns the network
unchanged, whatever the evaluation engine is: the engine is not used. -/
theorem constant_folding_without_probes
    (engine : MFNetworkBuilder → List Nat → Nat → GenericValue) (net : MFNetworkBuilder)
    (hnone : ∀ id n o t m, net.node_or_null_by_id_at id = some n →
      ¬ marked (node_is_not_constant net) id → n.inputs.length ≠ 0 → o ∈ n.outputs →
      net.origin t = some o → net.socket_node t = some m →
      ¬ marked (node_is_not_constant net) m) :
    add_probes (node_is_not_constant net) (constant_builder_nodes net) (net, []) =
        (net, []) ∧
      optimize_network__constant_folding engine net = net := by
  have hadd : add_probes (node_is_not_constant net) (constant_builder_nodes net) (net, []) =
      (net, []) := by
    apply add_probes_of_no_target
    intro id hid n hn hlen o ho
    have hid1 := (mem_nodes_by_id_inverted_id_mask.mp hid).2
    cases hb : has_non_constant_target net (node_is_not_constant net) o with
    | false => rfl
    | true =>
      obtain ⟨t, m, ht, hm, hmarked⟩ := has_non_constant_target_iff.mp hb
      exact absurd hmarked (hnone id n o t m hn hid1 hlen ho ht hm)
  refine ⟨hadd, ?_⟩
  rw [constant_folding_unfold engine net net [] hadd]
  rfl

/-- Witness for C13 on the network `const1 -> Add`, `A -> D`, where the output of `Add` has
no target. -/
theorem constant_folding_without_probes_witness :
    (constant_builder_nodes network_no_frontier = [0, 1] ∧
      network_no_frontier.targets 2 = []) ∧
    add_probes (node_is_not_constant network_no_frontier)
        (constant_builder_nodes network_no_frontier) (network_no_frontier, []) =
        (network_no_frontier, []) ∧
      optimize_network__constant_folding example_engine network_no_frontier =
        network_no_frontier :=
  ⟨by decide,
    constant_folding_without_probes example_engine network_no_frontier
      (no_boundary_of_probed_outputs_nil (by decide) (by decide))⟩

/-! ## The iterations of the hashing loop -/

theorem hash_function_nodes_step (rng : Nat → Nat) (net : MFNetworkBuilder) (fuel id : Nat)
    (rest : List Nat) (st : HashState) :
    hash_function_nodes rng net (fuel + 1) (id :: rest) st =
      (hash_loop_step rng net id rest st).bind fun next =>
        hash_function_nodes rng net fuel next.1 next.2 := by
  simp only [hash_function_nodes, hash_loop_step]
  by_cases h : st.node_outputs_are_hashed.getD id false = true
  · rw [if_pos h, if_pos h]
    rfl
  · rw [if_neg h, if_neg h]
    cases net.node_or_null_by_id_at id with
    | none => rfl
    | some node =>
      simp only
      cases node.function with
      | none => rfl
      | some f =>
        simp only
        cases unhashed_origin_nodes net st node with
        | cons d more => rfl
        | nil =>
          simp only
          cases combine_input_hashes rng net st.hash_by_output_socket node.inputs
              827823743 st.rng with
          | none => rfl
          | some r => rfl

/-- The state in which the loop ends is reached by iterations of the loop. -/
theorem hash_function_nodes_reaches (rng : Nat → Nat) (net : MFNetworkBuilder) (fuel : Nat)
    (stack : List Nat) (st st1 : HashState)
    (h : hash_function_nodes rng net fuel stack st = some st1) :
    Relation.ReflTransGen (hash_loop_next rng net) (stack, st) ([], st1) := by
  induction fuel generalizing stack st with
  | zero =>
    cases stack with
    | nil =>
      simp only [hash_function_nodes, Option.some.injEq] at h
      rw [h]
    | cons id rest => simp [hash_function_nodes] at h
  | succ fuel ih =>
    cases stack with
    | nil =>
      simp only [hash_function_nodes, Option.some.injEq] at h
      rw [h]
    | cons id rest =>
      rw [hash_function_nodes_step] at h
      cases hstep : hash_loop_step rng net id rest st with
      | none => rw [hstep] at h; cases h
      | some next =>
        rw [hstep] at h
        exact Relation.ReflTransGen.head ⟨id, rest, rfl, hstep⟩ (ih next.1 next.2 h)

theorem compute_output_hashes_reaches (rng : Nat → Nat) (net : MFNetworkBuilder)
    {fuel : Nat} {st : HashState} (h : compute_output_hashes rng net fuel = some st) :
    hash_loop_reaches rng net ([], st) :=
  hash_function_nodes_reaches rng net fuel _ _ st h


theorem hash_loop_step_pop (rng : Nat → Nat) (net : MFNetworkBuilder) {st : HashState}
    {id : Nat} (h : st.is_hashed id) (rest : List Nat) :
    hash_loop_step rng net id rest st = some (rest, st) := by
  unfold HashState.is_hashed at h
  unfold hash_loop_step
  rw [if_pos h]

theorem hash_loop_step_push (rng : Nat → Nat) (net : MFNetworkBuilder) {st : HashState}
    {id : Nat} (h : ¬ st.is_hashed id) {node : MFBuilderNode} {f : MultiFunction}
    (hn : net.node_or_null_by_id_at id = some node) (hf : node.function = some f)
    (hne : unhashed_origin_nodes net st node ≠ []) (rest : List Nat) :
    hash_loop_step rng net id rest st =
      some ((unhashed_origin_nodes net st node).reverse ++ id :: rest, st) := by
  unfold HashState.is_hashed at h
  unfold hash_loop_step
  rw [if_neg h]
  simp only [hn, hf]
  cases hu : unhashed_origin_nodes net st node with
  | nil => exact absurd hu hne
  | cons d more => rfl

theorem hash_loop_step_ready (rng : Nat → Nat) (net : MFNetworkBuilder) {st : HashState}
    {id : Nat} (h : ¬ st.is_hashed id) {node : MFBuilderNode} {f : MultiFunction}
    (hn : net.node_or_null_by_id_at id = some node) (hf : node.function = some f)
    (hready : unhashed_origin_nodes net st node = []) {c pos : Nat}
    (hcomb : combine_input_hashes rng net st.hash_by_output_socket node.inputs 827823743
      st.rng = some (c, pos)) (rest : List Nat) :
    hash_loop_step rng net id rest st =
      some (rest,
        { hash_by_output_socket :=
            hash_outputs net (u32 (c * 462347 + operation_hash_or_random rng f pos))
              node.outputs st.hash_by_output_socket
          node_outputs_are_hashed := st.node_outputs_are_hashed.set id true
          rng := match f.operation_hash with
            | some _ => pos
            | none => pos + 1 }) := by
  unfold HashState.is_hashed at h
  unfold hash_loop_step
  rw [if_neg h]
  simp only [hn, hf, hready, hcomb]
  rfl

theorem combine_input_hashes_pos_le (rng : Nat → Nat) (net : MFNetworkBuilder)
    (hashes : List (Option Nat)) (inputs : List Nat) (acc pos : Nat) (r : Nat × Nat)
    (h : combine_input_hashes rng net hashes inputs acc pos = some r) : pos ≤ r.2 := by
  induction inputs generalizing acc pos with
  | nil =>
    simp only [combine_input_hashes, Option.some.injEq] at h
    rw [← h]
  | cons t inputs ih =>
    simp only [combine_input_hashes] at h
    cases ho : net.origin t with
    | none =>
      rw [ho] at h
      have := ih _ _ h
      omega
    | some o =>
      rw [ho] at h
      simp only at h
      cases hh : hash_at hashes o with
      | none => rw [hh] at h; cases h
      | some v =>
        rw [hh] at h
        exact ih _ _ h

/-- The step that hashes a function node: the new state satisfies the invariant, extends
the old state, and is described entry by entry. -/
theorem hash_loop_ready_state (rng : Nat → Nat) {net : MFNetworkBuilder}
    (hwf : net.wellformed = true) {st : HashState} (hinv : HashInv rng net st) {id : Nat}
    (h : ¬ st.is_hashed id) {node : MFBuilderNode} {f : MultiFunction}
    (hn : net.node_or_null_by_id_at id = some node) (hf : node.function = some f)
    (hready : unhashed_origin_nodes net st node = []) {c pos : Nat}
    (hcomb : combine_input_hashes rng net st.hash_by_output_socket node.inputs 827823743
      st.rng = some (c, pos)) (st1 : HashState)
    (hst1 : st1 =
      { hash_by_output_socket :=
          hash_outputs net (u32 (c * 462347 + operation_hash_or_random rng f pos))
            node.outputs st.hash_by_output_socket
        node_outputs_are_hashed := st.node_outputs_are_hashed.set id true
        rng := match f.operation_hash with
          | some _ => pos
          | none => pos + 1 }) :
    HashInv rng net st1 ∧ st.extended_by st1 ∧
      (∀ i, st1.is_hashed i ↔ i = id ∨ st.is_hashed i) ∧
      ∀ o s, o ∈ node.outputs → net.socket_or_null_by_id_at o = some s →
        hash_at st1.hash_by_output_socket o =
          some (u32 (u32 (c * 462347 + operation_hash_or_random rng f pos) *
            (45234 + 567243 * s.index))) := by
  obtain ⟨st2, hinv2, hext2, _, heq⟩ := hash_loop_ready rng hwf hinv h hn hf hready
  have e := heq 0 []
  rw [hash_function_nodes_step, hash_loop_step_ready rng net h hn hf hready hcomb] at e
  simp only [Option.some_bind, hash_function_nodes, Option.some.injEq] at e
  rw [← hst1] at e
  rw [← e] at hinv2 hext2
  have hlt : id < st.node_outputs_are_hashed.length := by
    rw [hinv.core.hashed_length]
    exact node_at_eq_some_lt hn
  refine ⟨hinv2, hext2, fun i => ?_, fun o s ho hs => ?_⟩
  · rw [hst1, is_hashed_set]
    constructor
    · rintro (h1 | h1)
      · exact Or.inl h1.1
      · exact Or.inr h1
    · rintro (h1 | h1)
      · exact Or.inl ⟨h1, hlt⟩
      · exact Or.inr h1
  · have hl : o < st.hash_by_output_socket.length := by
      rw [hinv.core.hash_length]
      exact socket_at_eq_some_lt hs
    rw [hst1]
    simp only
    rw [hash_at_hash_outputs, hs]
    simp [ho, hl]


/-- The step that hashes a function node keeps the record of the generator positions. -/
theorem hash_draws_ready (rng : Nat → Nat) {net : MFNetworkBuilder}
    (hwf : net.wellformed = true) {st : HashState} (hinv : HashInv rng net st) {id : Nat}
    (h : ¬ st.is_hashed id) {node : MFBuilderNode} {f : MultiFunction}
    (hn : net.node_or_null_by_id_at id = some node) (hf : node.function = some f)
    (hready : unhashed_origin_nodes net st node = []) {c pos : Nat}
    (hcomb : combine_input_hashes rng net st.hash_by_output_socket node.inputs 827823743
      st.rng = some (c, pos)) (st1 : HashState)
    (hst1 : st1 =
      { hash_by_output_socket :=
          hash_outputs net (u32 (c * 462347 + operation_hash_or_random rng f pos))
            node.outputs st.hash_by_output_socket
        node_outputs_are_hashed := st.node_outputs_are_hashed.set id true
        rng := match f.operation_hash with
          | some _ => pos
          | none => pos + 1 })
    {draw : Nat → Nat} (hdraw : HashDraws rng net st draw) :
    ∃ draw1, HashDraws rng net st1 draw1 := by
  obtain ⟨_, hext, hiff, hnew⟩ := hash_loop_ready_state rng hwf hinv h hn hf hready hcomb
    st1 hst1
  have hpos : st.rng ≤ pos := combine_input_hashes_pos_le rng net _ _ _ _ _ hcomb
  have hold : ∀ i n1 f1, st1.is_hashed i → i ≠ id → net.node_or_null_by_id_at i = some n1 →
      n1.function = some f1 → f1.operation_hash = none →
      st.is_hashed i ∧ draw i < st.rng ∧
      ∃ p0 c0,
        combine_input_hashes rng net st1.hash_by_output_socket n1.inputs 827823743 p0 =
          some (c0, draw i) ∧
        ∀ o s, o ∈ n1.outputs → net.socket_or_null_by_id_at o = some s →
          hash_at st1.hash_by_output_socket o =
            some (u32 (u32 (c0 * 462347 + u32 (rng (draw i))) *
              (45234 + 567243 * s.index))) := by
    intro i n1 f1 hi hne hn1 hf1 hop
    have hi0 : st.is_hashed i := by
      rcases (hiff i).mp hi with e | e
      · exact absurd e hne
      · exact e
    obtain ⟨hlt, p0, c0, hc0, hout⟩ := hdraw.formula i n1 f1 hi0 hn1 hf1 hop
    exact ⟨hi0, hlt, p0, c0, combine_input_hashes_mono rng net hext.2 _ _ _ _ hc0,
      fun o s ho hs => hext.2 o _ (hout o s ho hs)⟩
  cases hop : f.operation_hash with
  | some p =>
    have hrng : st1.rng = pos := by rw [hst1, hop]
    have hne : ∀ i n1 f1, net.node_or_null_by_id_at i = some n1 → n1.function = some f1 →
        f1.operation_hash = none → i ≠ id := by
      intro i n1 f1 hn1 hf1 hop1 e
      rw [e, hn] at hn1
      cases hn1
      rw [hf] at hf1
      cases hf1
      rw [hop] at hop1
      cases hop1
    refine ⟨draw, ⟨?_, ?_⟩⟩
    · intro i n1 f1 hi hn1 hf1 hop1
      obtain ⟨_, hlt, hrest⟩ := hold i n1 f1 hi (hne i n1 f1 hn1 hf1 hop1) hn1 hf1 hop1
      exact ⟨by omega, hrest⟩
    · intro i1 i2 n1 n2 f1 f2 h1 h2 hn1 hn2 hf1 hf2 hop1 hop2 he
      exact hdraw.different i1 i2 n1 n2 f1 f2
        (hold i1 n1 f1 h1 (hne i1 n1 f1 hn1 hf1 hop1) hn1 hf1 hop1).1
        (hold i2 n2 f2 h2 (hne i2 n2 f2 hn2 hf2 hop2) hn2 hf2 hop2).1
        hn1 hn2 hf1 hf2 hop1 hop2 he
  | none =>
    have hrng : st1.rng = pos + 1 := by rw [hst1, hop]
    have hrandom : operation_hash_or_random rng f pos = u32 (rng pos) := by
      unfold operation_hash_or_random
      rw [hop]
    refine ⟨fun i => if i = id then pos else draw i, ⟨?_, ?_⟩⟩
    · intro i n1 f1 hi hn1 hf1 hop1
      by_cases e : i = id
      · subst e
        rw [hn] at hn1
        cases hn1
        simp only [if_true]
        refine ⟨by omega, st.rng, c, ?_, ?_⟩
        · have := combine_input_hashes_mono rng net hext.2 _ _ _ _ hcomb
          exact this
        · intro o s ho hs
          rw [hnew o s ho hs, hrandom]
      · simp only [if_neg e]
        obtain ⟨_, hlt, hrest⟩ := hold i n1 f1 hi e hn1 hf1 hop1
        exact ⟨by omega, hrest⟩
    · intro i1 i2 n1 n2 f1 f2 h1 h2 hn1 hn2 hf1 hf2 hop1 hop2 he
      by_cases e1 : i1 = id
      · by_cases e2 : i2 = id
        · rw [e1, e2]
        · simp only [if_pos e1, if_neg e2] at he
          have := (hold i2 n2 f2 h2 e2 hn2 hf2 hop2).2.1
          omega
      · by_cases e2 : i2 = id
        · simp only [if_neg e1, if_pos e2] at he
          have := (hold i1 n1 f1 h1 e1 hn1 hf1 hop1).2.1
          omega
        · simp only [if_neg e1, if_neg e2] at he
          exact hdraw.different i1 i2 n1 n2 f1 f2 (hold i1 n1 f1 h1 e1 hn1 hf1 hop1).1
            (hold i2 n2 f2 h2 e2 hn2 hf2 hop2).1 hn1 hn2 hf1 hf2 hop1 hop2 he

/-- The invariant holds when the worklist loop starts. -/
theorem hash_loop_inv_start (rng : Nat → Nat) {net : MFNetworkBuilder}
    (hwf : net.wellformed = true) : HashLoopInv rng net (hash_loop_start rng net) := by
  have h0 : ∀ i, ¬ HashState.is_hashed
      { hash_by_output_socket := List.replicate net.socket_id_amount none
        node_outputs_are_hashed := List.replicate net.node_id_amount false
        rng := 0 } i := by
    intro i
    unfold HashState.is_hashed
    simp only [List.getD_eq_getElem?_getD, List.getElem?_replicate]
    by_cases h : i < net.node_id_amount <;> simp [h]
  have hc : HashCore net
      { hash_by_output_socket := List.replicate net.socket_id_amount none
        node_outputs_are_hashed := List.replicate net.node_id_amount false
        rng := 0 } := by
    refine ⟨by simp, by simp, fun i hi => absurd hi (h0 i), fun o h ho => ?_⟩
    simp only [hash_at_replicate_none] at ho
    cases ho
  obtain ⟨_, h2, _, _⟩ := hash_dummy_nodes_spec rng hwf net.dummy_nodes
    (fun id hid => mem_dummy_nodes.mp hid) _ hc (fun i hi => absurd hi (h0 i))
  have hnot : ∀ i n f, (hash_loop_start rng net).2.is_hashed i →
      net.node_or_null_by_id_at i = some n → n.function = some f → False := by
    intro i n f hi hn hf
    obtain ⟨n1, hn1, hf1⟩ := is_dummy_iff.mp (h2 i hi)
    rw [hn] at hn1
    cases hn1
    rw [hf] at hf1
    cases hf1
  refine ⟨seeding_invariant rng hwf, ?_, fun _ => 0, ⟨?_, ?_⟩⟩
  · intro id hid
    exact mem_function_nodes.mp (List.mem_reverse.mp hid)
  · intro i n f hi hn hf _
    exact (hnot i n f hi hn hf).elim
  · intro i1 _ n1 _ f1 _ h1 _ hn1 _ hf1 _ _ _ _
    exact (hnot i1 n1 f1 h1 hn1 hf1).elim

/-- Every iteration of the worklist loop keeps the invariant. -/
theorem hash_loop_inv_next (rng : Nat → Nat) {net : MFNetworkBuilder}
    (hwf : net.wellformed = true) {a b : List Nat × HashState}
    (ha : HashLoopInv rng net a) (hab : hash_loop_next rng net a b) :
    HashLoopInv rng net b := by
  obtain ⟨id, rest, hstack, hstep⟩ := hab
  obtain ⟨stack, st⟩ := a
  simp only at hstack hstep
  subst hstack
  obtain ⟨hinv, hfun, draw, hdraw⟩ := ha
  simp only at hinv hfun hdraw
  by_cases hh : st.is_hashed id
  · rw [hash_loop_step_pop rng net hh] at hstep
    cases hstep
    exact ⟨hinv, fun i hi => hfun i (List.mem_cons_of_mem _ hi), draw, hdraw⟩
  · obtain ⟨node, f, hn, hf⟩ := is_function_iff.mp (hfun id (List.mem_cons_self _ _))
    by_cases hready : unhashed_origin_nodes net st node = []
    · obtain ⟨⟨c, pos⟩, hcomb⟩ := combine_input_hashes_some rng net st.hash_by_output_socket
        node.inputs (ready_origins_hashed hwf hinv.core hready) 827823743 st.rng
      rw [hash_loop_step_ready rng net hh hn hf hready hcomb] at hstep
      cases hstep
      refine ⟨(hash_loop_ready_state rng hwf hinv hh hn hf hready hcomb _ rfl).1,
        fun i hi => hfun i (List.mem_cons_of_mem _ hi),
        hash_draws_ready rng hwf hinv hh hn hf hready hcomb _ rfl hdraw⟩
    · rw [hash_loop_step_push rng net hh hn hf hready] at hstep
      cases hstep
      refine ⟨hinv, fun i hi => ?_, draw, hdraw⟩
      rcases List.mem_append.mp hi with e | e
      · exact unhashed_origin_is_function rng hwf hinv (List.mem_reverse.mp e)
      · exact hfun i e

/-- The invariant holds in every iteration of the worklist loop. -/
theorem hash_loop_inv_reaches (rng : Nat → Nat) {net : MFNetworkBuilder}
    (hwf : net.wellformed = true) {a : List Nat × HashState}
    (ha : hash_loop_reaches rng net a) : HashLoopInv rng net a := by
  unfold hash_loop_reaches at ha
  induction ha with
  | refl => exact hash_loop_inv_start rng hwf
  | tail _ hbc ih => exact hash_loop_inv_next rng hwf ih hbc

/-! ## The hashes of the outputs of one node -/

theorem u32_eq_iff (a b : Nat) : u32 a = u32 b ↔ a ≡ b [MOD 2 ^ 32] := Iff.rfl

theorem u32_mul_u32 (a b : Nat) : u32 (u32 a * b) = u32 (a * b) := by
  rw [u32_eq_iff]
  exact Nat.ModEq.mul_right _ (Nat.mod_modEq _ _)

/-- Two outputs of a node with hash `nh` get the same hash exactly when `2 ^ 32` divides
the product of `nh` and the difference of their indices. -/
theorem u32_mul_index_eq_iff (nh i j : Nat) (hij : i ≤ j) :
    u32 (nh * (45234 + 567243 * i)) = u32 (nh * (45234 + 567243 * j)) ↔
      2 ^ 32 ∣ nh * (j - i) := by
  rw [u32_eq_iff]
  have hle : nh * (45234 + 567243 * i) ≤ nh * (45234 + 567243 * j) :=
    Nat.mul_le_mul_left _ (by omega)
  rw [Nat.modEq_iff_dvd' hle]
  have hsub : nh * (45234 + 567243 * j) - nh * (45234 + 567243 * i) =
      nh * (j - i) * 567243 := by
    rw [← Nat.mul_sub]
    have : 45234 + 567243 * j - (45234 + 567243 * i) = (j - i) * 567243 := by
      rw [Nat.sub_mul]
      omega
    rw [this, Nat.mul_assoc]
  rw [hsub]
  exact Nat.Coprime.dvd_mul_right (by norm_num)

theorem not_dvd_of_odd (nh d : Nat) (hodd : nh % 2 = 1) (hpos : 0 < d) (hlt : d < 2 ^ 32) :
    ¬ 2 ^ 32 ∣ nh * d := by
  intro h
  have hco : Nat.Coprime (2 ^ 32) nh := by
    apply Nat.Coprime.pow_left
    rw [Nat.coprime_two_left, Nat.odd_iff]
    exact hodd
  have := Nat.le_of_dvd hpos (hco.dvd_of_dvd_mul_left h)
  omega


/-- C14 (counterexample): the node hash of the two-output node of `network_two_outputs` is
0, so its outputs with indices 0 and 1 (sockets 0 and 1) both get hash 0 and
deduplication puts them into one class: the consumer of output 1 is relinked to output 0.
A node hash of `2 ^ 31` collapses the outputs with indices 0 and 2 as well. -/
theorem output_hashes_collapse :
    (compute_output_hashes example_rng network_two_outputs 10).map
        (fun st => (hash_at st.hash_by_output_socket 0, hash_at st.hash_by_output_socket 1)) =
      some (some 0, some 0) ∧
    network_two_outputs.socket_node 0 = some 0 ∧ network_two_outputs.socket_node 1 = some 0 ∧
    (network_two_outputs.socket_or_null_by_id_at 0).map MFBuilderSocket.index = some 0 ∧
    (network_two_outputs.socket_or_null_by_id_at 1).map MFBuilderSocket.index = some 1 ∧
    network_two_outputs.origin 3 = some 1 ∧
    (optimize_network__remove_duplicates example_rng 10 network_two_outputs).map
        (fun net1 => net1.origin 3) = some (some 0) ∧
    u32 (2 ^ 31 * (45234 + 567243 * 0)) = u32 (2 ^ 31 * (45234 + 567243 * 2)) := by
  decide

/-- C14 (amended): on a well-formed acyclic network the hashing returns, and for every
function node there is a node hash `nh` such that the output with index `i` gets the hash
`nh * (45234 + 567243 * i)` modulo `2 ^ 32`; two outputs of the node with indices `i ≤ j`
get the same hash exactly when `2 ^ 32` divides `nh * (j - i)`. In particular, when `nh` is
odd and the node has at most `2 ^ 32` outputs, distinct outputs get distinct hashes. -/
theorem output_hashes_of_node (rng : Nat → Nat) (net : MFNetworkBuilder)
    (hwf : net.wellformed = true) (hac : net.acyclic) :
    ∃ fuel0 st, (∀ fuel, fuel0 ≤ fuel → compute_output_hashes rng net fuel = some st) ∧
      ∀ id n f, net.node_or_null_by_id_at id = some n → n.function = some f →
        ∃ nh,
          (∀ o s, o ∈ n.outputs → net.socket_or_null_by_id_at o = some s →
            hash_at st.hash_by_output_socket o =
              some (u32 (nh * (45234 + 567243 * s.index)))) ∧
          (∀ o1 o2 s1 s2, o1 ∈ n.outputs → o2 ∈ n.outputs →
            net.socket_or_null_by_id_at o1 = some s1 →
            net.socket_or_null_by_id_at o2 = some s2 → s1.index ≤ s2.index →
            (hash_at st.hash_by_output_socket o1 = hash_at st.hash_by_output_socket o2 ↔
              2 ^ 32 ∣ nh * (s2.index - s1.index))) ∧
          (nh % 2 = 1 → n.outputs.length ≤ 2 ^ 32 → ∀ o1 o2, o1 ∈ n.outputs →
            o2 ∈ n.outputs → o1 ≠ o2 →
            hash_at st.hash_by_output_socket o1 ≠ hash_at st.hash_by_output_socket o2) := by
  obtain ⟨fuel0, st, hinv, hall, hrun⟩ := compute_output_hashes_terminates rng hwf hac
  refine ⟨fuel0, st, hrun, ?_⟩
  intro id n f hn hf
  obtain ⟨pos, c, pos1, _, hout⟩ := hinv.formula id n f (hall id n hn) hn hf
  have hiff : ∀ o1 o2 s1 s2, o1 ∈ n.outputs → o2 ∈ n.outputs →
      net.socket_or_null_by_id_at o1 = some s1 →
      net.socket_or_null_by_id_at o2 = some s2 → s1.index ≤ s2.index →
      (hash_at st.hash_by_output_socket o1 = hash_at st.hash_by_output_socket o2 ↔
        2 ^ 32 ∣ u32 (c * 462347 + operation_hash_or_random rng f pos1) *
          (s2.index - s1.index)) := by
    intro o1 o2 s1 s2 ho1 ho2 hs1 hs2 hle
    rw [hout o1 s1 ho1 hs1, hout o2 s2 ho2 hs2, Option.some.injEq]
    exact u32_mul_index_eq_iff _ _ _ hle
  refine ⟨u32 (c * 462347 + operation_hash_or_random rng f pos1), hout, hiff, ?_⟩
  intro hodd hlen o1 o2 ho1 ho2 hne heq
  obtain ⟨k1, hk1⟩ := List.mem_iff_getElem?.mp ho1
  obtain ⟨k2, hk2⟩ := List.mem_iff_getElem?.mp ho2
  obtain ⟨s1, hs1, _, _, hi1⟩ := wellformed_outputs hwf hn hk1
  obtain ⟨s2, hs2, _, _, hi2⟩ := wellformed_outputs hwf hn hk2
  have hl1 : k1 < n.outputs.length := by
    by_contra hc
    rw [List.getElem?_eq_none (by omega)] at hk1
    cases hk1
  have hl2 : k2 < n.outputs.length := by
    by_contra hc
    rw [List.getElem?_eq_none (by omega)] at hk2
    cases hk2
  have hk : k1 ≠ k2 := by
    intro e
    rw [e, hk2] at hk1
    exact hne (Option.some.inj hk1).symm
  rcases Nat.lt_or_gt_of_ne hk with hlt | hlt
  · have := (hiff o1 o2 s1 s2 ho1 ho2 hs1 hs2 (by omega)).mp heq
    exact not_dvd_of_odd _ _ hodd (by omega) (by omega) this
  · have := (hiff o2 o1 s2 s1 ho2 ho1 hs2 hs1 (by omega)).mp heq.symm
    exact not_dvd_of_odd _ _ hodd (by omega) (by omega) this

/-- Witness for the amended C14 on the network `P -> E`, whose two-output node has an odd
node hash: its two outputs get different hashes. -/
theorem output_hashes_of_node_witness :
    (network_pair.wellformed = true ∧
      (compute_output_hashes example_rng network_pair 10).map
        (fun st => decide (hash_at st.hash_by_output_socket 0 =
          hash_at st.hash_by_output_socket 1)) = some false) ∧
    ∃ fuel0 st,
      (∀ fuel, fuel0 ≤ fuel → compute_output_hashes example_rng network_pair fuel = some st) ∧
      ∀ id n f, network_pair.node_or_null_by_id_at id = some n → n.function = some f →
        ∃ nh,
          (∀ o s, o ∈ n.outputs → network_pair.socket_or_null_by_id_at o = some s →
            hash_at st.hash_by_output_socket o =
              some (u32 (nh * (45234 + 567243 * s.index)))) ∧
          (∀ o1 o2 s1 s2, o1 ∈ n.outputs → o2 ∈ n.outputs →
            network_pair.socket_or_null_by_id_at o1 = some s1 →
            network_pair.socket_or_null_by_id_at o2 = some s2 → s1.index ≤ s2.index →
            (hash_at st.hash_by_output_socket o1 = hash_at st.hash_by_output_socket o2 ↔
              2 ^ 32 ∣ nh * (s2.index - s1.index))) ∧
          (nh % 2 = 1 → n.outputs.length ≤ 2 ^ 32 → ∀ o1 o2, o1 ∈ n.outputs →
            o2 ∈ n.outputs → o1 ≠ o2 →
            hash_at st.hash_by_output_socket o1 ≠ hash_at st.hash_by_output_socket o2) :=
  ⟨by decide,
    output_hashes_of_node example_rng network_pair (by decide)
      (acyclic_of_topologically_ordered (fun n => n) (by decide))⟩

/-! ## Function nodes without operation identity -/

theorem combine_input_hashes_eq_foldl (rng : Nat → Nat) (net : MFNetworkBuilder)
    (hashes : List (Option Nat)) (inputs : List Nat) (acc pos : Nat) (r : Nat × Nat)
    (h : combine_input_hashes rng net hashes inputs acc pos = some r) :
    ∃ hs, input_hashes rng net hashes inputs pos = some hs ∧
      r.1 = hs.foldl (fun a x => u32 (a * 456123 + x)) acc := by
  induction inputs generalizing acc pos with
  | nil =>
    simp only [combine_input_hashes, Option.some.injEq] at h
    exact ⟨[], rfl, by rw [← h]; rfl⟩
  | cons t inputs ih =>
    simp only [combine_input_hashes] at h
    simp only [input_hashes]
    cases ho : net.origin t with
    | none =>
      rw [ho] at h
      obtain ⟨hs, hhs, hr⟩ := ih _ _ h
      exact ⟨u32 (rng pos) :: hs, by simp [hhs], by rw [hr]; rfl⟩
    | some o =>
      rw [ho] at h
      simp only at h ⊢
      cases hh : hash_at hashes o with
      | none => rw [hh] at h; cases h
      | some v =>
        rw [hh] at h
        obtain ⟨hs, hhs, hr⟩ := ih _ _ h
        exact ⟨v :: hs, by simp [hhs], by rw [hr]; rfl⟩

theorem foldl_u32_modEq (hs : List Nat) (a b : Nat) (hab : a ≡ b [MOD 2 ^ 32]) :
    hs.foldl (fun a x => u32 (a * 456123 + x)) a ≡
      hs.foldl (fun acc h => acc * 456123 + h) b [MOD 2 ^ 32] := by
  induction hs generalizing a b with
  | nil => exact hab
  | cons x hs ih =>
    simp only [List.foldl_cons]
    apply ih
    exact (Nat.mod_modEq _ _).trans (Nat.ModEq.add_right _ (Nat.ModEq.mul_right _ hab))

/-- The hash computed by lines 49-69, with a reduction after every operation, is the
output hash of the specification. -/
theorem u32_hash_eq_formula (hs : List Nat) (p i : Nat) :
    u32 (u32 (hs.foldl (fun a x => u32 (a * 456123 + x)) 827823743 * 462347 + u32 p) *
      (45234 + 567243 * i)) = output_hash_formula hs p i := by
  unfold output_hash_formula accumulated_hash
  rw [u32_mul_u32]
  show _ ≡ _ [MOD 2 ^ 32]
  apply Nat.ModEq.mul_right
  exact Nat.ModEq.add (Nat.ModEq.mul_right _ (foldl_u32_modEq hs _ _ (Nat.ModEq.refl _)))
    (Nat.mod_modEq _ _)

theorem input_hashes_length (rng : Nat → Nat) (net : MFNetworkBuilder)
    (hashes : List (Option Nat)) (inputs : List Nat) (pos : Nat) (hs : List Nat)
    (h : input_hashes rng net hashes inputs pos = some hs) : hs.length = inputs.length := by
  induction inputs generalizing pos hs with
  | nil =>
    simp only [input_hashes, Option.some.injEq] at h
    rw [← h]
  | cons t inputs ih =>
    simp only [input_hashes] at h
    cases ho : net.origin t with
    | none =>
      rw [ho] at h
      simp only [Option.map_eq_some'] at h
      obtain ⟨hs1, h1, rfl⟩ := h
      simp [ih _ _ h1]
    | some o =>
      rw [ho] at h
      simp only at h
      cases hh : hash_at hashes o with
      | none => rw [hh] at h; cases h
      | some v =>
        rw [hh] at h
        simp only [Option.map_eq_some'] at h
        obtain ⟨hs1, h1, rfl⟩ := h
        simp [ih _ _ h1]

/-- Entry `k` of the input hashes: the hash of the origin of input `k`, or the value of
the generator at the position after the draws for the earlier inputs without origin. -/
theorem input_hashes_getElem (rng : Nat → Nat) (net : MFNetworkBuilder)
    (hashes : List (Option Nat)) (inputs : List Nat) (pos : Nat) (hs : List Nat)
    (h : input_hashes rng net hashes inputs pos = some hs) (k t : Nat)
    (hk : inputs[k]? = some t) :
    (∀ o, net.origin t = some o → hash_at hashes o = hs[k]?) ∧
      (net.origin t = none →
        hs[k]? = some (u32 (rng (pos +
          ((inputs.take k).filter fun x => (net.origin x).isNone).length)))) := by
  induction inputs generalizing pos hs k with
  | nil => simp at hk
  | cons x inputs ih =>
    simp only [input_hashes] at h
    cases ho : net.origin x with
    | none =>
      rw [ho] at h
      simp only [Option.map_eq_some'] at h
      obtain ⟨hs1, h1, rfl⟩ := h
      cases k with
      | zero =>
        simp only [List.getElem?_cons_zero, Option.some.injEq] at hk
        subst hk
        simp [ho]
      | succ k =>
        simp only [List.getElem?_cons_succ] at hk
        obtain ⟨g1, g2⟩ := ih _ _ h1 k hk
        refine ⟨fun o hto => by simpa using g1 o hto, fun hnone => ?_⟩
        have := g2 hnone
        simp only [List.getElem?_cons_succ, List.take_succ_cons, List.filter_cons, ho,
          Option.isNone_none, if_true, List.length_cons]
        rw [this]
        congr 3
        omega
    | some o =>
      rw [ho] at h
      simp only at h
      cases hh : hash_at hashes o with
      | none => rw [hh] at h; cases h
      | some v =>
        rw [hh] at h
        simp only [Option.map_eq_some'] at h
        obtain ⟨hs1, h1, rfl⟩ := h
        cases k with
        | zero =>
          simp only [List.getElem?_cons_zero, Option.some.injEq] at hk
          subst hk
          refine ⟨fun o1 hto => ?_, fun hnone => ?_⟩
          · rw [ho] at hto
            cases hto
            simpa using hh
          · rw [ho] at hnone
            cases hnone
        | succ k =>
          simp only [List.getElem?_cons_succ] at hk
          obtain ⟨g1, g2⟩ := ih _ _ h1 k hk
          refine ⟨fun o1 hto => by simpa using g1 o1 hto, fun hnone => ?_⟩
          have := g2 hnone
          simp only [List.getElem?_cons_succ, List.take_succ_cons, List.filter_cons, ho,
            Option.isNone_some]
          simpa using this

/-! ## The generator positions of the hashing loop -/

/-- The accumulation of the input hashes advances the generator by the number of inputs
without origin. -/
theorem combine_input_hashes_pos (rng : Nat → Nat) (net : MFNetworkBuilder)
    (hashes : List (Option Nat)) (inputs : List Nat) (acc pos : Nat) (r : Nat × Nat)
    (h : combine_input_hashes rng net hashes inputs acc pos = some r) :
    r.2 = pos + unlinked_inputs net inputs := by
  induction inputs generalizing acc pos with
  | nil =>
    simp only [combine_input_hashes, Option.some.injEq] at h
    rw [← h]
    rfl
  | cons t inputs ih =>
    simp only [combine_input_hashes] at h
    unfold unlinked_inputs at ih ⊢
    cases ho : net.origin t with
    | none =>
      rw [ho] at h
      have := ih _ _ h
      simp only [List.filter_cons, ho, Option.isNone_none, if_true, List.length_cons]
      omega
    | some o =>
      rw [ho] at h
      simp only at h
      cases hh : hash_at hashes o with
      | none => rw [hh] at h; cases h
      | some v =>
        rw [hh] at h
        have := ih _ _ h
        simpa [List.filter_cons, ho] using this

theorem hash_dummy_outputs_draws (rng : Nat → Nat) (outs : List Nat) (st : HashState)
    (h : ∀ o v, hash_at st.hash_by_output_socket o = some v →
      ∃ q, q < st.rng ∧ v = u32 (rng q)) :
    ∀ o v, hash_at (hash_dummy_outputs rng outs st).hash_by_output_socket o = some v →
      ∃ q, q < (hash_dummy_outputs rng outs st).rng ∧ v = u32 (rng q) := by
  induction outs generalizing st with
  | nil => exact h
  | cons x outs ih =>
    simp only [hash_dummy_outputs]
    apply ih
    intro o v hv
    simp only at hv ⊢
    rw [hash_at_set] at hv
    by_cases hc : o = x ∧ x < st.hash_by_output_socket.length
    · rw [if_pos hc] at hv
      cases hv
      exact ⟨st.rng, by omega, rfl⟩
    · rw [if_neg hc] at hv
      obtain ⟨q, hq, e⟩ := h o v hv
      exact ⟨q, by omega, e⟩

theorem hash_dummy_nodes_draws (rng : Nat → Nat) (net : MFNetworkBuilder) (ids : List Nat)
    (st : HashState)
    (h : ∀ o v, hash_at st.hash_by_output_socket o = some v →
      ∃ q, q < st.rng ∧ v = u32 (rng q)) :
    ∀ o v, hash_at (hash_dummy_nodes rng net ids st).hash_by_output_socket o = some v →
      ∃ q, q < (hash_dummy_nodes rng net ids st).rng ∧ v = u32 (rng q) := by
  induction ids generalizing st with
  | nil => exact h
  | cons id ids ih =>
    simp only [hash_dummy_nodes]
    cases hn : net.node_or_null_by_id_at id with
    | none => exact ih st h
    | some node =>
      simp only
      apply ih
      exact hash_dummy_outputs_draws rng node.outputs st h

/-- Every hash stored by the seeding loop is a value drawn below `seed_draws`. -/
theorem seed_draws_hashes (rng : Nat → Nat) (net : MFNetworkBuilder) (o v : Nat)
    (h : hash_at (hash_loop_start rng net).2.hash_by_output_socket o = some v) :
    ∃ q, q < seed_draws rng net ∧ v = u32 (rng q) := by
  refine hash_dummy_nodes_draws rng net net.dummy_nodes _ ?_ o v h
  intro o1 v1 h1
  simp only [hash_at_replicate_none] at h1
  cases h1

/-- The record of the generator positions holds when the worklist loop starts. -/
theorem hash_positions_start (rng : Nat → Nat) {net : MFNetworkBuilder}
    (hwf : net.wellformed = true) :
    HashPositions rng net (hash_loop_start rng net).2 (fun _ => 0) := by
  have hloop := hash_loop_inv_start rng hwf
  have hnot : ∀ i n f, (hash_loop_start rng net).2.is_hashed i →
      net.node_or_null_by_id_at i = some n → n.function = some f → False := by
    intro i n f hi hn hf
    obtain ⟨n1, hn1, ho⟩ := hloop.inv.core.outputs_hashed i hi
    have h0 : ∀ i, ¬ HashState.is_hashed
        { hash_by_output_socket := List.replicate net.socket_id_amount none
          node_outputs_are_hashed := List.replicate net.node_id_amount false
          rng := 0 } i := by
      intro i
      unfold HashState.is_hashed
      simp only [List.getD_eq_getElem?_getD, List.getElem?_replicate]
      by_cases h : i < net.node_id_amount <;> simp [h]
    have hc : HashCore net
        { hash_by_output_socket := List.replicate net.socket_id_amount none
          node_outputs_are_hashed := List.replicate net.node_id_amount false
          rng := 0 } := by
      refine ⟨by simp, by simp, fun i hi => absurd hi (h0 i), fun o h ho => ?_⟩
      simp only [hash_at_replicate_none] at ho
      cases ho
    obtain ⟨_, h2, _, _⟩ := hash_dummy_nodes_spec rng hwf net.dummy_nodes
      (fun id hid => mem_dummy_nodes.mp hid) _ hc (fun i hi => absurd hi (h0 i))
    obtain ⟨n2, hn2, hf2⟩ := is_dummy_iff.mp (h2 i hi)
    rw [hn] at hn2
    cases hn2
    rw [hf] at hf2
    cases hf2
  refine ⟨Nat.le_refl _, ?_, ?_, ?_⟩
  · intro id n o hn hf ho
    have hd := hloop.inv.dummies_hashed id (is_dummy_iff.mpr ⟨n, hn, hf⟩)
    obtain ⟨n1, hn1, hall⟩ := hloop.inv.core.outputs_hashed id hd
    rw [hn] at hn1
    cases hn1
    obtain ⟨v, hv⟩ := hash_at_isSome_iff.mp (hall o ho)
    obtain ⟨q, hq, e⟩ := seed_draws_hashes rng net o v hv
    exact ⟨q, hq, by rw [hv, e]⟩
  · intro i n f hi hn hf
    exact (hnot i n f hi hn hf).elim
  · intro i1 _ n1 _ f1 _ h1 _ _ hn1 _ hf1 _
    exact (hnot i1 n1 f1 h1 hn1 hf1).elim

/-- The step that hashes a function node keeps the record of the generator positions. -/
theorem hash_positions_ready (rng : Nat → Nat) {net : MFNetworkBuilder}
    (hwf : net.wellformed = true) {st : HashState} (hinv : HashInv rng net st) {id : Nat}
    (h : ¬ st.is_hashed id) {node : MFBuilderNode} {f : MultiFunction}
    (hn : net.node_or_null_by_id_at id = some node) (hf : node.function = some f)
    (hready : unhashed_origin_nodes net st node = []) {c pos : Nat}
    (hcomb : combine_input_hashes rng net st.hash_by_output_socket node.inputs 827823743
      st.rng = some (c, pos)) (st1 : HashState)
    (hst1 : st1 =
      { hash_by_output_socket :=
          hash_outputs net (u32 (c * 462347 + operation_hash_or_random rng f pos))
            node.outputs st.hash_by_output_socket
        node_outputs_are_hashed := st.node_outputs_are_hashed.set id true
        rng := match f.operation_hash with
          | some _ => pos
          | none => pos + 1 })
    (rest : List Nat) (hreach : hash_loop_reaches rng net (id :: rest, st))
    {start : Nat → Nat} (hpos : HashPositions rng net st start) :
    ∃ start1, HashPositions rng net st1 start1 := by
  obtain ⟨_, hext, hiff, hnew⟩ := hash_loop_ready_state rng hwf hinv h hn hf hready hcomb
    st1 hst1
  have hp : pos = st.rng + unlinked_inputs net node.inputs :=
    combine_input_hashes_pos rng net _ _ _ _ _ hcomb
  have hrng : st1.rng = st.rng + draws_of_node net node f := by
    rw [hst1]
    unfold draws_of_node
    cases f.operation_hash with
    | some p => simp only; omega
    | none => simp only; omega
  have hstep : hash_loop_next rng net (id :: rest, st) (rest, st1) := by
    refine ⟨id, rest, rfl, ?_⟩
    rw [hst1]
    exact hash_loop_step_ready rng net h hn hf hready hcomb rest
  have hseed := hpos.seeded
  have hold : ∀ i, st1.is_hashed i → i ≠ id → st.is_hashed i := by
    intro i hi hne
    rcases (hiff i).mp hi with e | e
    · exact absurd e hne
    · exact e
  refine ⟨fun i => if i = id then st.rng else start i, ⟨?_, ?_, ?_, ?_⟩⟩
  · omega
  · intro i n o hn1 hf1 ho
    obtain ⟨q, hq, e⟩ := hpos.dummy i n o hn1 hf1 ho
    exact ⟨q, hq, hext.2 o _ e⟩
  · intro i n1 f1 hi hn1 hf1
    by_cases e : i = id
    · subst e
      rw [hn] at hn1
      cases hn1
      rw [hf] at hf1
      cases hf1
      simp only [if_true]
      refine ⟨hseed, by omega, ⟨rest, st, st1, hreach, hstep, h, (hiff i).mpr (Or.inl rfl),
        rfl, hrng⟩, c, ?_, ?_⟩
      · rw [← hp]
        exact combine_input_hashes_mono rng net hext.2 _ _ _ _ hcomb
      · intro o s ho hs
        rw [hnew o s ho hs, hp]
    · simp only [if_neg e]
      obtain ⟨h1, h2, h3, c0, h4, h5⟩ := hpos.node i n1 f1 (hold i hi e) hn1 hf1
      exact ⟨h1, by omega, h3, c0, combine_input_hashes_mono rng net hext.2 _ _ _ _ h4,
        fun o s ho hs => hext.2 o _ (h5 o s ho hs)⟩
  · intro i1 i2 n1 n2 f1 f2 h1 h2 hne hn1 hn2 hf1 hf2
    by_cases e1 : i1 = id
    · have e2 : i2 ≠ id := fun e => hne (e1.trans e.symm)
      simp only [if_pos e1, if_neg e2]
      exact Or.inr (hpos.node i2 n2 f2 (hold i2 h2 e2) hn2 hf2).2.1
    · by_cases e2 : i2 = id
      · simp only [if_neg e1, if_pos e2]
        exact Or.inl (hpos.node i1 n1 f1 (hold i1 h1 e1) hn1 hf1).2.1
      · simp only [if_neg e1, if_neg e2]
        exact hpos.disjoint i1 i2 n1 n2 f1 f2 (hold i1 h1 e1) (hold i2 h2 e2) hne hn1 hn2
          hf1 hf2

/-- Every iteration of the worklist loop keeps the record of the generator positions. -/
theorem hash_positions_next (rng : Nat → Nat) {net : MFNetworkBuilder}
    (hwf : net.wellformed = true) {a b : List Nat × HashState}
    (hreach : hash_loop_reaches rng net a)
    (ha : ∃ start, HashPositions rng net a.2 start) (hab : hash_loop_next rng net a b) :
    ∃ start, HashPositions rng net b.2 start := by
  have hloop := hash_loop_inv_reaches rng hwf hreach
  obtain ⟨id, rest, hstack, hstep⟩ := hab
  obtain ⟨stack, st⟩ := a
  simp only at hstack hstep
  subst hstack
  obtain ⟨hinv, hfun, _⟩ := hloop
  obtain ⟨start, hpos⟩ := ha
  simp only at hinv hfun hpos
  by_cases hh : st.is_hashed id
  · rw [hash_loop_step_pop rng net hh] at hstep
    cases hstep
    exact ⟨start, hpos⟩
  · obtain ⟨node, f, hn, hf⟩ := is_function_iff.mp (hfun id (List.mem_cons_self _ _))
    by_cases hready : unhashed_origin_nodes net st node = []
    · obtain ⟨⟨c, pos⟩, hcomb⟩ := combine_input_hashes_some rng net st.hash_by_output_socket
        node.inputs (ready_origins_hashed hwf hinv.core hready) 827823743 st.rng
      rw [hash_loop_step_ready rng net hh hn hf hready hcomb] at hstep
      cases hstep
      exact hash_positions_ready rng hwf hinv hh hn hf hready hcomb _ rfl rest hreach hpos
    · rw [hash_loop_step_push rng net hh hn hf hready] at hstep
      cases hstep
      exact ⟨start, hpos⟩

/-- The record of the generator positions holds in every iteration of the worklist
loop. -/
theorem hash_positions_reaches (rng : Nat → Nat) {net : MFNetworkBuilder}
    (hwf : net.wellformed = true) {a : List Nat × HashState}
    (ha : hash_loop_reaches rng net a) : ∃ start, HashPositions rng net a.2 start := by
  unfold hash_loop_reaches at ha
  induction ha with
  | refl => exact ⟨fun _ => 0, hash_positions_start rng hwf⟩
  | tail hab hbc ih => exact hash_positions_next rng hwf hab ih hbc


theorem unlinked_inputs_take_lt (net : MFNetworkBuilder) (inputs : List Nat)
    (k1 k2 t : Nat) (hk : k1 < k2) (h1 : inputs[k1]? = some t) (ho : net.origin t = none) :
    unlinked_inputs net (inputs.take k1) < unlinked_inputs net (inputs.take k2) := by
  unfold unlinked_inputs
  induction inputs generalizing k1 k2 with
  | nil => simp at h1
  | cons x xs ih =>
    cases k2 with
    | zero => omega
    | succ k2 =>
      cases k1 with
      | zero =>
        simp only [List.getElem?_cons_zero, Option.some.injEq] at h1
        subst h1
        simp [List.filter_cons, ho]
      | succ k1 =>
        simp only [List.getElem?_cons_succ] at h1
        have := ih k1 k2 (by omega) h1
        simp only [List.take_succ_cons, List.filter_cons]
        cases hx : (net.origin x).isNone
        · simpa using this
        · simpa using this

theorem unlinked_inputs_take_lt_all (net : MFNetworkBuilder) (inputs : List Nat)
    (k t : Nat) (h1 : inputs[k]? = some t) (ho : net.origin t = none) :
    unlinked_inputs net (inputs.take k) < unlinked_inputs net inputs := by
  have hk : k < inputs.length := (List.getElem?_eq_some_iff.mp h1).1
  have := unlinked_inputs_take_lt net inputs k inputs.length t hk h1 ho
  rwa [List.take_length] at this

theorem unlinked_inputs_le_draws (net : MFNetworkBuilder) (n : MFBuilderNode)
    (f : MultiFunction) : unlinked_inputs net n.inputs ≤ draws_of_node net n f := by
  unfold draws_of_node
  omega

/-- The hash computed by lines 49-69 with a random operation hash is the output hash of
the specification for the drawn value. -/
theorem u32_random_hash_eq_formula (hs : List Nat) (r i : Nat) :
    u32 (u32 (hs.foldl (fun a x => u32 (a * 456123 + x)) 827823743 * 462347 + u32 r) *
      (45234 + 567243 * i)) = output_hash_formula hs r i :=
  u32_hash_eq_formula hs r i

/-- C16: on a well-formed acyclic network the hashing returns, and for every function node
that exposes the operation identity `p` the hash of its output with index `i` is
`(acc_n * 462347 + p) * (45234 + 567243 * i)` modulo `2 ^ 32`, where `acc_0 = 827823743`
and `acc_k = acc_(k-1) * 456123 + h_k`; `h_k` is the hash of the origin of input `k`, and
for an input without origin it is the value of the generator at position
`start id + u`, where `u` is the number of earlier inputs of the node without origin and
`start id` is the position of the generator when the run of the worklist loop hashes the
node. These draws are fresh: the iteration that hashes node `id` moves the generator
from `start id` to `start id + draws_of_node`, after the draws of the seeding loop; the
positions used for different function nodes do not overlap, two different inputs without
origin never read the same position, every hash of a dummy output is a value drawn by the
seeding loop below `seed_draws`, and a function without operation identity takes the
last position of its own node as its operation hash. -/
theorem output_hash_polynomial (rng : Nat → Nat) (net : MFNetworkBuilder)
    (hwf : net.wellformed = true) (hac : net.acyclic) :
    ∃ (fuel0 : Nat) (st : HashState) (start : Nat → Nat),
      (∀ fuel, fuel0 ≤ fuel → compute_output_hashes rng net fuel = some st) ∧
      (∀ id n f p, net.node_or_null_by_id_at id = some n → n.function = some f →
        f.operation_hash = some p →
        ∃ hs, input_hashes rng net st.hash_by_output_socket n.inputs (start id) = some hs ∧
          hs.length = n.inputs.length ∧
          (∀ (k t : Nat), n.inputs[k]? = some t →
            (∀ o, net.origin t = some o → hash_at st.hash_by_output_socket o = hs[k]?) ∧
            (net.origin t = none →
              unlinked_inputs net (n.inputs.take k) < unlinked_inputs net n.inputs ∧
              hs[k]? =
                some (u32 (rng (start id + unlinked_inputs net (n.inputs.take k)))))) ∧
          ∀ o s, o ∈ n.outputs → net.socket_or_null_by_id_at o = some s →
            hash_at st.hash_by_output_socket o =
              some (output_hash_formula hs p s.index)) ∧
      (∀ id n f, net.node_or_null_by_id_at id = some n → n.function = some f →
        seed_draws rng net ≤ start id ∧ start id + draws_of_node net n f ≤ st.rng ∧
        hash_loop_hashes_node rng net id (start id) (start id + draws_of_node net n f)) ∧
      (∀ id1 id2 n1 n2 f1 f2, id1 ≠ id2 → net.node_or_null_by_id_at id1 = some n1 →
        net.node_or_null_by_id_at id2 = some n2 → n1.function = some f1 →
        n2.function = some f2 →
        start id1 + draws_of_node net n1 f1 ≤ start id2 ∨
          start id2 + draws_of_node net n2 f2 ≤ start id1) ∧
      (∀ id1 id2 n1 n2 f1 f2 (k1 k2 t1 t2 : Nat), net.node_or_null_by_id_at id1 = some n1 →
        net.node_or_null_by_id_at id2 = some n2 → n1.function = some f1 →
        n2.function = some f2 → n1.inputs[k1]? = some t1 → n2.inputs[k2]? = some t2 →
        net.origin t1 = none → net.origin t2 = none → (id1 ≠ id2 ∨ k1 ≠ k2) →
        start id1 + unlinked_inputs net (n1.inputs.take k1) ≠
          start id2 + unlinked_inputs net (n2.inputs.take k2)) ∧
      (∀ id n o, net.node_or_null_by_id_at id = some n → n.function = none →
        o ∈ n.outputs →
        ∃ q, q < seed_draws rng net ∧
          hash_at st.hash_by_output_socket o = some (u32 (rng q))) ∧
      ∀ id n f, net.node_or_null_by_id_at id = some n → n.function = some f →
        f.operation_hash = none →
        ∃ hs, input_hashes rng net st.hash_by_output_socket n.inputs (start id) = some hs ∧
          ∀ o s, o ∈ n.outputs → net.socket_or_null_by_id_at o = some s →
            hash_at st.hash_by_output_socket o =
              some (output_hash_formula hs
                (rng (start id + unlinked_inputs net n.inputs)) s.index) := by
  obtain ⟨fuel0, st, hinv, hall, hrun⟩ := compute_output_hashes_terminates rng hwf hac
  have hreach := compute_output_hashes_reaches rng net (hrun fuel0 (Nat.le_refl _))
  obtain ⟨start, hpos⟩ := hash_positions_reaches rng hwf hreach
  simp only at hpos
  have hin : ∀ id n f (k t : Nat), net.node_or_null_by_id_at id = some n →
      n.function = some f → n.inputs[k]? = some t → net.origin t = none →
      start id ≤ start id + unlinked_inputs net (n.inputs.take k) ∧
        start id + unlinked_inputs net (n.inputs.take k) <
          start id + draws_of_node net n f := by
    intro id n f k t hn hf hk ho
    have h1 := unlinked_inputs_take_lt_all net n.inputs k t hk ho
    have h2 := unlinked_inputs_le_draws net n f
    omega
  refine ⟨fuel0, st, start, hrun, ?_, ?_, ?_, ?_, ?_, ?_⟩
  · intro id n f p hn hf hp
    obtain ⟨_, _, _, c, hcomb, hout⟩ := hpos.node id n f (hall id n hn) hn hf
    obtain ⟨hs, hhs, hc⟩ := combine_input_hashes_eq_foldl rng net _ _ _ _ _ hcomb
    simp only at hc
    refine ⟨hs, hhs, input_hashes_length rng net _ _ _ _ hhs, fun k t hk => ?_, ?_⟩
    · obtain ⟨g1, g2⟩ := input_hashes_getElem rng net _ _ _ _ hhs k t hk
      exact ⟨g1, fun ho => ⟨unlinked_inputs_take_lt_all net n.inputs k t hk ho, g2 ho⟩⟩
    · intro o s ho hs1
      have hop : operation_hash_or_random rng f
          (start id + unlinked_inputs net n.inputs) = u32 p := by
        unfold operation_hash_or_random
        rw [hp]
      rw [hout o s ho hs1, hop, hc, u32_hash_eq_formula]
  · intro id n f hn hf
    obtain ⟨h1, h2, h3, _⟩ := hpos.node id n f (hall id n hn) hn hf
    exact ⟨h1, h2, h3⟩
  · intro id1 id2 n1 n2 f1 f2 hne hn1 hn2 hf1 hf2
    exact hpos.disjoint id1 id2 n1 n2 f1 f2 (hall id1 n1 hn1) (hall id2 n2 hn2) hne hn1 hn2
      hf1 hf2
  · intro id1 id2 n1 n2 f1 f2 k1 k2 t1 t2 hn1 hn2 hf1 hf2 hk1 hk2 ho1 ho2 hne
    by_cases e : id1 = id2
    · subst e
      rw [hn1] at hn2
      cases hn2
      have hk : k1 ≠ k2 := by
        rcases hne with h | h
        · exact absurd rfl h
        · exact h
      rcases Nat.lt_or_gt_of_ne hk with h | h
      · have := unlinked_inputs_take_lt net n1.inputs k1 k2 t1 h hk1 ho1
        omega
      · have := unlinked_inputs_take_lt net n1.inputs k2 k1 t2 h hk2 ho2
        omega
    · have h1 := hin id1 n1 f1 k1 t1 hn1 hf1 hk1 ho1
      have h2 := hin id2 n2 f2 k2 t2 hn2 hf2 hk2 ho2
      rcases hpos.disjoint id1 id2 n1 n2 f1 f2 (hall id1 n1 hn1) (hall id2 n2 hn2) e hn1
        hn2 hf1 hf2 with h | h
      · omega
      · omega
  · exact hpos.dummy
  · intro id n f hn hf hp
    obtain ⟨_, _, _, c, hcomb, hout⟩ := hpos.node id n f (hall id n hn) hn hf
    obtain ⟨hs, hhs, hc⟩ := combine_input_hashes_eq_foldl rng net _ _ _ _ _ hcomb
    simp only at hc
    refine ⟨hs, hhs, ?_⟩
    intro o s ho hs1
    have hop : operation_hash_or_random rng f
        (start id + unlinked_inputs net n.inputs) =
          u32 (rng (start id + unlinked_inputs net n.inputs)) := by
      unfold operation_hash_or_random
      rw [hp]
    rw [hout o s ho hs1, hop, hc, u32_random_hash_eq_formula]

/-- Witness for C16 on the network `A`, `X -> E`, `Y -> E` with the generator
`example_rng`: the seeding loop draws one value, the inputs of `Y` and `X` have no origin
and get the values drawn at the positions 1 and 2, the outputs of `X` and `Y` (sockets 2
and 4) get the hashes given by the formula for these two values, and the two hashes
differ. -/
theorem output_hash_polynomial_witness :
    (network_unlinked.wellformed = true ∧
      topologically_ordered network_unlinked (fun n => n) = true ∧
      seed_draws example_rng network_unlinked = 1 ∧
      (compute_output_hashes example_rng network_unlinked 10).map
          (fun st => (st.rng, hash_at st.hash_by_output_socket 2,
            hash_at st.hash_by_output_socket 4)) =
        some (3, some (output_hash_formula [u32 (example_rng 2)] 7 0),
          some (output_hash_formula [u32 (example_rng 1)] 7 0)) ∧
      output_hash_formula [u32 (example_rng 2)] 7 0 ≠
        output_hash_formula [u32 (example_rng 1)] 7 0) ∧
    ∃ (fuel0 : Nat) (st : HashState) (start : Nat → Nat),
      (∀ fuel, fuel0 ≤ fuel → compute_output_hashes example_rng network_unlinked fuel = some st) ∧
      (∀ id n f p, network_unlinked.node_or_null_by_id_at id = some n → n.function = some f →
        f.operation_hash = some p →
        ∃ hs, input_hashes example_rng network_unlinked st.hash_by_output_socket n.inputs (start id) = some hs ∧
          hs.length = n.inputs.length ∧
          (∀ (k t : Nat), n.inputs[k]? = some t →
            (∀ o, network_unlinked.origin t = some o → hash_at st.hash_by_output_socket o = hs[k]?) ∧
            (network_unlinked.origin t = none →
              unlinked_inputs network_unlinked (n.inputs.take k) < unlinked_inputs network_unlinked n.inputs ∧
              hs[k]? =
                some (u32 (example_rng (start id + unlinked_inputs network_unlinked (n.inputs.take k)))))) ∧
          ∀ o s, o ∈ n.outputs → network_unlinked.socket_or_null_by_id_at o = some s →
            hash_at st.hash_by_output_socket o =
              some (output_hash_formula hs p s.index)) ∧
      (∀ id n f, network_unlinked.node_or_null_by_id_at id = some n → n.function = some f →
        seed_draws example_rng network_unlinked ≤ start id ∧ start id + draws_of_node network_unlinked n f ≤ st.rng ∧
        hash_loop_hashes_node example_rng network_unlinked id (start id) (start id + draws_of_node network_unlinked n f)) ∧
      (∀ id1 id2 n1 n2 f1 f2, id1 ≠ id2 → network_unlinked.node_or_null_by_id_at id1 = some n1 →
        network_unlinked.node_or_null_by_id_at id2 = some n2 → n1.function = some f1 →
        n2.function = some f2 →
        start id1 + draws_of_node network_unlinked n1 f1 ≤ start id2 ∨
          start id2 + draws_of_node network_unlinked n2 f2 ≤ start id1) ∧
      (∀ id1 id2 n1 n2 f1 f2 (k1 k2 t1 t2 : Nat), network_unlinked.node_or_null_by_id_at id1 = some n1 →
        network_unlinked.node_or_null_by_id_at id2 = some n2 → n1.function = some f1 →
        n2.function = some f2 → n1.inputs[k1]? = some t1 → n2.inputs[k2]? = some t2 →
        network_unlinked.origin t1 = none → network_unlinked.origin t2 = none → (id1 ≠ id2 ∨ k1 ≠ k2) →
        start id1 + unlinked_inputs network_unlinked (n1.inputs.take k1) ≠
          start id2 + unlinked_inputs network_unlinked (n2.inputs.take k2)) ∧
      (∀ id n o, network_unlinked.node_or_null_by_id_at id = some n → n.function = none →
        o ∈ n.outputs →
        ∃ q, q < seed_draws example_rng network_unlinked ∧
          hash_at st.hash_by_output_socket o = some (u32 (example_rng q))) ∧
      ∀ id n f, network_unlinked.node_or_null_by_id_at id = some n → n.function = some f →
        f.operation_hash = none →
        ∃ hs, input_hashes example_rng network_unlinked st.hash_by_output_socket n.inputs (start id) = some hs ∧
          ∀ o s, o ∈ n.outputs → network_unlinked.socket_or_null_by_id_at o = some s →
            hash_at st.hash_by_output_socket o =
              some (output_hash_formula hs
                (example_rng (start id + unlinked_inputs network_unlinked n.inputs)) s.index) :=
  ⟨by decide,
    output_hash_polynomial example_rng network_unlinked (by decide)
      (acyclic_of_topologically_ordered (fun n => n) (by decide))⟩

/-! ## Termination and the invariants of the hashing loop -/

theorem hash_loop_next_right_unique (rng : Nat → Nat) (net : MFNetworkBuilder) :
    Relator.RightUnique (hash_loop_next rng net) := by
  intro a b c hab hac
  obtain ⟨id, rest, h1, h2⟩ := hab
  obtain ⟨id1, rest1, h3, h4⟩ := hac
  rw [h1] at h3
  cases h3
  rw [h2] at h4
  exact Option.some.inj h4

theorem hash_loop_next_extended (rng : Nat → Nat) {net : MFNetworkBuilder}
    (hwf : net.wellformed = true) {a b : List Nat × HashState}
    (ha : HashLoopInv rng net a) (hab : hash_loop_next rng net a b) :
    a.2.extended_by b.2 := by
  obtain ⟨id, rest, hstack, hstep⟩ := hab
  obtain ⟨stack, st⟩ := a
  simp only at hstack hstep
  subst hstack
  have hinv := ha.inv
  have hfun := ha.stack_functions
  simp only at hinv hfun
  by_cases hh : st.is_hashed id
  · rw [hash_loop_step_pop rng net hh] at hstep
    cases hstep
    exact extended_by_refl st
  · obtain ⟨node, f, hn, hf⟩ := is_function_iff.mp (hfun id (List.mem_cons_self _ _))
    by_cases hready : unhashed_origin_nodes net st node = []
    · obtain ⟨⟨c, pos⟩, hcomb⟩ := combine_input_hashes_some rng net st.hash_by_output_socket
        node.inputs (ready_origins_hashed hwf hinv.core hready) 827823743 st.rng
      rw [hash_loop_step_ready rng net hh hn hf hready hcomb] at hstep
      cases hstep
      exact (hash_loop_ready_state rng hwf hinv hh hn hf hready hcomb _ rfl).2.1
    · rw [hash_loop_step_push rng net hh hn hf hready] at hstep
      cases hstep
      exact extended_by_refl st

theorem hash_loop_extended (rng : Nat → Nat) {net : MFNetworkBuilder}
    (hwf : net.wellformed = true) {a b : List Nat × HashState}
    (ha : hash_loop_reaches rng net a)
    (hab : Relation.ReflTransGen (hash_loop_next rng net) a b) :
    hash_loop_reaches rng net b ∧ a.2.extended_by b.2 := by
  induction hab with
  | refl => exact ⟨ha, extended_by_refl _⟩
  | tail _ hbc ih =>
    exact ⟨Relation.ReflTransGen.tail ih.1 hbc,
      extended_by_trans ih.2
        (hash_loop_next_extended rng hwf (hash_loop_inv_reaches rng hwf ih.1) hbc)⟩

/-- Every stack and state of the run lies before the end of the run. -/
theorem hash_loop_reaches_end (rng : Nat → Nat) (net : MFNetworkBuilder)
    {a : List Nat × HashState} {st : HashState} (ha : hash_loop_reaches rng net a)
    (hend : hash_loop_reaches rng net ([], st)) :
    Relation.ReflTransGen (hash_loop_next rng net) a ([], st) := by
  rcases Relation.ReflTransGen.total_of_right_unique (hash_loop_next_right_unique rng net)
    ha hend with h | h
  · exact h
  · rcases Relation.ReflTransGen.cases_head h with e | ⟨c, hc, _⟩
    · rw [← e]
    · obtain ⟨id, rest, h1, _⟩ := hc
      cases h1

/-- C17: on a well-formed acyclic network the worklist loop terminates: with enough fuel
the hashing returns a state, which the loop reaches from its start by finitely many
iterations; in that state every output socket of every node, dummy or function, carries
a hash, and it is the hash the socket was given when it was assigned: a hash stored in
any iteration of the loop is still stored, unchanged, at the end. -/
theorem hashing_terminates (rng : Nat → Nat) (net : MFNetworkBuilder)
    (hwf : net.wellformed = true) (hac : net.acyclic) :
    ∃ fuel0 st, (∀ fuel, fuel0 ≤ fuel → compute_output_hashes rng net fuel = some st) ∧
      hash_loop_reaches rng net ([], st) ∧
      (∀ id n o, net.node_or_null_by_id_at id = some n → o ∈ n.outputs →
        ∃ h, hash_at st.hash_by_output_socket o = some h) ∧
      ∀ a, hash_loop_reaches rng net a → ∀ o h,
        hash_at a.2.hash_by_output_socket o = some h →
        hash_at st.hash_by_output_socket o = some h := by
  obtain ⟨fuel0, st, hinv, hall, hrun⟩ := compute_output_hashes_terminates rng hwf hac
  have hend := compute_output_hashes_reaches rng net (hrun fuel0 (Nat.le_refl _))
  refine ⟨fuel0, st, hrun, hend, ?_, ?_⟩
  · intro id n o hn ho
    obtain ⟨n1, hn1, hout⟩ := hinv.core.outputs_hashed id (hall id n hn)
    rw [hn] at hn1
    cases hn1
    exact hash_at_isSome_iff.mp (hout o ho)
  · intro a ha o h hh
    exact (hash_loop_extended rng hwf ha (hash_loop_reaches_end rng net ha hend)).2.2 o h hh

/-- Witness for C17 on the network `A -> B -> D`, `A -> C -> D`. -/
theorem hashing_terminates_witness :
    ∃ fuel0 st,
      (∀ fuel, fuel0 ≤ fuel → compute_output_hashes example_rng network_ABCD fuel = some st) ∧
      hash_loop_reaches example_rng network_ABCD ([], st) ∧
      (∀ id n o, network_ABCD.node_or_null_by_id_at id = some n → o ∈ n.outputs →
        ∃ h, hash_at st.hash_by_output_socket o = some h) ∧
      ∀ a, hash_loop_reaches example_rng network_ABCD a → ∀ o h,
        hash_at a.2.hash_by_output_socket o = some h →
        hash_at st.hash_by_output_socket o = some h :=
  hashing_terminates example_rng network_ABCD (by decide)
    (acyclic_of_topologically_ordered (fun n => n) (by decide))


theorem combine_input_hashes_origin (rng : Nat → Nat) (net : MFNetworkBuilder)
    (hashes : List (Option Nat)) (inputs : List Nat) (acc pos : Nat) (r : Nat × Nat)
    (h : combine_input_hashes rng net hashes inputs acc pos = some r) :
    ∀ t ∈ inputs, ∀ o, net.origin t = some o → ∃ v, hash_at hashes o = some v := by
  induction inputs generalizing acc pos with
  | nil => simp
  | cons x inputs ih =>
    simp only [combine_input_hashes] at h
    intro t ht o hto
    cases ho : net.origin x with
    | none =>
      rw [ho] at h
      rcases List.mem_cons.mp ht with e | e
      · rw [e, ho] at hto
        cases hto
      · exact ih _ _ h t e o hto
    | some o1 =>
      rw [ho] at h
      simp only at h
      cases hh : hash_at hashes o1 with
      | none => rw [hh] at h; cases h
      | some v =>
        rw [hh] at h
        rcases List.mem_cons.mp ht with e | e
        · rw [e, ho] at hto
          cases hto
          exact ⟨v, hh⟩
        · exact ih _ _ h t e o hto

/-- What one iteration of the loop does, by the three cases of lines 32-74. -/
theorem hash_loop_next_cases (rng : Nat → Nat) {net : MFNetworkBuilder}
    (hwf : net.wellformed = true) {a : List Nat × HashState} (ha : HashLoopInv rng net a)
    {id : Nat} {rest : List Nat} (hstack : a.1 = id :: rest) :
    ∃ b, hash_loop_next rng net a b ∧
      (b.2 = a.2 ∨
        ∃ n f, net.node_or_null_by_id_at id = some n ∧ n.function = some f ∧
          unhashed_origin_nodes net a.2 n = [] ∧ ∀ i, b.2.is_hashed i → i = id ∨
            a.2.is_hashed i) := by
  obtain ⟨stack, st⟩ := a
  simp only at hstack
  subst hstack
  have hinv := ha.inv
  have hfun := ha.stack_functions
  simp only at hinv hfun
  by_cases hh : st.is_hashed id
  · exact ⟨(rest, st), ⟨id, rest, rfl, hash_loop_step_pop rng net hh rest⟩, Or.inl rfl⟩
  · obtain ⟨node, f, hn, hf⟩ := is_function_iff.mp (hfun id (List.mem_cons_self _ _))
    by_cases hready : unhashed_origin_nodes net st node = []
    · obtain ⟨⟨c, pos⟩, hcomb⟩ := combine_input_hashes_some rng net st.hash_by_output_socket
        node.inputs (ready_origins_hashed hwf hinv.core hready) 827823743 st.rng
      refine ⟨_, ⟨id, rest, rfl, hash_loop_step_ready rng net hh hn hf hready hcomb rest⟩,
        Or.inr ⟨node, f, hn, hf, hready, fun i hi => ?_⟩⟩
      exact ((hash_loop_ready_state rng hwf hinv hh hn hf hready hcomb _ rfl).2.2.1 i).mp hi
    · exact ⟨_, ⟨id, rest, rfl, hash_loop_step_push rng net hh hn hf hready rest⟩, Or.inl rfl⟩

/-- C18: in every iteration of the worklist loop all dummy nodes are hashed and every stack
entry is a function node; the iteration does not fail; an iteration hashes the outputs of
a node only when every node that owns the origin of one of its inputs is hashed already
and every such origin carries a hash; the same holds for every function node that is
hashed; and every unhashed origin node that is pushed is a function node. -/
theorem hash_loop_order (rng : Nat → Nat) (net : MFNetworkBuilder)
    (hwf : net.wellformed = true) (a : List Nat × HashState)
    (ha : hash_loop_reaches rng net a) :
    (∀ d, net.is_dummy d = true → a.2.is_hashed d) ∧
    (∀ id ∈ a.1, net.is_function id = true) ∧
    (a.1 ≠ [] → ∃ b, hash_loop_next rng net a b) ∧
    (∀ b, hash_loop_next rng net a b → ∀ id n, ¬ a.2.is_hashed id → b.2.is_hashed id →
      net.node_or_null_by_id_at id = some n → ∀ t ∈ n.inputs, ∀ o m, net.origin t = some o →
      net.socket_node o = some m →
      a.2.is_hashed m ∧ ∃ h, hash_at a.2.hash_by_output_socket o = some h) ∧
    (∀ id n f, a.2.is_hashed id → net.node_or_null_by_id_at id = some n →
      n.function = some f → ∀ t ∈ n.inputs, ∀ o m, net.origin t = some o →
      net.socket_node o = some m →
      a.2.is_hashed m ∧ ∃ h, hash_at a.2.hash_by_output_socket o = some h) ∧
    (∀ id rest n, a.1 = id :: rest → net.node_or_null_by_id_at id = some n →
      ∀ d ∈ unhashed_origin_nodes net a.2 n, net.is_function d = true) := by
  have hloop := hash_loop_inv_reaches rng hwf ha
  have hinv := hloop.inv
  have howner : ∀ o m h, net.socket_node o = some m →
      hash_at a.2.hash_by_output_socket o = some h → a.2.is_hashed m := by
    intro o m h hm hh
    obtain ⟨m1, hm1, hhashed⟩ := hinv.core.hash_owner o h hh
    rw [hm] at hm1
    cases hm1
    exact hhashed
  refine ⟨hinv.dummies_hashed, hloop.stack_functions, ?_, ?_, ?_, ?_⟩
  · intro hne
    cases hstack : a.1 with
    | nil => exact absurd hstack hne
    | cons id rest =>
      obtain ⟨b, hb, _⟩ := hash_loop_next_cases rng hwf hloop hstack
      exact ⟨b, hb⟩
  · intro b hab id n hnot hhashed hn t ht o m hto hm
    have hab2 := hab
    obtain ⟨top, rest, hstack, _⟩ := hab2
    obtain ⟨b1, hab1, hcases⟩ := hash_loop_next_cases rng hwf hloop hstack
    have hb : b1 = b := hash_loop_next_right_unique rng net hab1 hab
    rw [hb] at hcases
    rcases hcases with e | ⟨n1, f1, hn1, _, hready, hiff⟩
    · rw [e] at hhashed
      exact absurd hhashed hnot
    · rcases hiff id hhashed with e | e
      · rw [e, hn1] at hn
        cases hn
        obtain ⟨h, hh⟩ := hash_at_isSome_iff.mp
          (ready_origins_hashed hwf hinv.core hready t ht o hto)
        exact ⟨howner o m h hm hh, h, hh⟩
      · exact absurd e hnot
  · intro id n f hid hn hf t ht o m hto hm
    obtain ⟨_, _, _, hcomb, _⟩ := hinv.formula id n f hid hn hf
    obtain ⟨h, hh⟩ := combine_input_hashes_origin rng net _ _ _ _ _ hcomb t ht o hto
    exact ⟨howner o m h hm hh, h, hh⟩
  · intro id rest n _ _ d hd
    exact unhashed_origin_is_function rng hwf hinv hd

/-- Witness for C18 at the start of the loop on the network `A -> B -> D`, `A -> C -> D`. -/
theorem hash_loop_order_witness :
    ((hash_loop_start example_rng network_ABCD).1 = [3, 2, 1] ∧
      unhashed_origin_nodes network_ABCD (hash_loop_start example_rng network_ABCD).2
        { function := some example_context_sum, inputs := [5, 6], outputs := [7] } =
          [1, 2]) ∧
    (∀ d, network_ABCD.is_dummy d = true →
      (hash_loop_start example_rng network_ABCD).2.is_hashed d) ∧
    (∀ id ∈ (hash_loop_start example_rng network_ABCD).1,
      network_ABCD.is_function id = true) ∧
    ((hash_loop_start example_rng network_ABCD).1 ≠ [] →
      ∃ b, hash_loop_next example_rng network_ABCD
        (hash_loop_start example_rng network_ABCD) b) ∧
    (∀ b, hash_loop_next example_rng network_ABCD (hash_loop_start example_rng network_ABCD)
        b →
      ∀ id n, ¬ (hash_loop_start example_rng network_ABCD).2.is_hashed id →
      b.2.is_hashed id → network_ABCD.node_or_null_by_id_at id = some n →
      ∀ t ∈ n.inputs, ∀ o m, network_ABCD.origin t = some o →
      network_ABCD.socket_node o = some m →
      (hash_loop_start example_rng network_ABCD).2.is_hashed m ∧
        ∃ h, hash_at (hash_loop_start example_rng network_ABCD).2.hash_by_output_socket o =
          some h) ∧
    (∀ id n f, (hash_loop_start example_rng network_ABCD).2.is_hashed id →
      network_ABCD.node_or_null_by_id_at id = some n → n.function = some f →
      ∀ t ∈ n.inputs, ∀ o m, network_ABCD.origin t = some o →
      network_ABCD.socket_node o = some m →
      (hash_loop_start example_rng network_ABCD).2.is_hashed m ∧
        ∃ h, hash_at (hash_loop_start example_rng network_ABCD).2.hash_by_output_socket o =
          some h) ∧
    (∀ id rest n, (hash_loop_start example_rng network_ABCD).1 = id :: rest →
      network_ABCD.node_or_null_by_id_at id = some n →
      ∀ d ∈ unhashed_origin_nodes network_ABCD (hash_loop_start example_rng network_ABCD).2 n,
        network_ABCD.is_function d = true) :=
  ⟨by decide,
    hash_loop_order example_rng network_ABCD (by decide)
      (hash_loop_start example_rng network_ABCD) Relation.ReflTransGen.refl⟩

/-! ## Links and nodes after `optimize_network__constant_folding` -/

/-- C20: `optimize_network__constant_folding` keeps every node that existed before the
call, unchanged, and removes every probe it created; every other node of the result is one
of the constant-value function nodes added by the pass, after the ids of the probes; and
the dummy nodes of the result are the dummy nodes of the network before the call. -/
theorem constant_folding_node_set
    (engine : MFNetworkBuilder → List Nat → Nat → GenericValue) (net : MFNetworkBuilder)
    (hwf : net.wellformed = true) :
    (∀ i, i < net.node_id_amount →
      (optimize_network__constant_folding engine net).node_or_null_by_id_at i =
        net.node_or_null_by_id_at i) ∧
    (∀ id ∈ (add_probes (node_is_not_constant net) (constant_builder_nodes net)
        (net, [])).2,
      net.node_id_amount ≤ id ∧
      (add_probes (node_is_not_constant net) (constant_builder_nodes net)
        (net, [])).1.is_dummy id = true ∧
      (optimize_network__constant_folding engine net).node_or_null_by_id_at id = none) ∧
    (∀ i n, net.node_id_amount ≤ i →
      (optimize_network__constant_folding engine net).node_or_null_by_id_at i = some n →
      ∃ ty v s, n = { function := some (constant_function ty v), inputs := [],
                      outputs := [s] }) ∧
    (optimize_network__constant_folding engine net).node_id_amount =
      net.node_id_amount + (probed_outputs net).length + (probed_outputs net).length ∧
    (optimize_network__constant_folding engine net).dummy_nodes = net.dummy_nodes := by
  obtain ⟨net1, hadd, haddeq, hfold⟩ := constant_folding_result engine hwf
  have hnew : ∀ i n, net.node_id_amount ≤ i →
      (optimize_network__constant_folding engine net).node_or_null_by_id_at i = some n →
      ∃ ty v s, n = { function := some (constant_function ty v), inputs := [],
                      outputs := [s] } := by
    intro i n hle hn
    have hlt := node_at_eq_some_lt hn
    rw [hfold.node_amount] at hlt
    by_cases h1 : i < net.node_id_amount + (probed_outputs net).length
    · rw [hfold.probe_node i hle h1] at hn
      cases hn
    · have hi : i - (net.node_id_amount + (probed_outputs net).length) <
          (probed_outputs net).length := by omega
      have := hfold.folded_node _ _ (List.getElem?_eq_getElem hi)
      rw [show net.node_id_amount + (probed_outputs net).length +
        (i - (net.node_id_amount + (probed_outputs net).length)) = i by omega, hn] at this
      exact ⟨_, _, _, Option.some.inj this⟩
  refine ⟨hfold.old_node, ?_, hnew, hfold.node_amount, ?_⟩
  · intro id hid
    rw [haddeq] at hid ⊢
    simp only at hid ⊢
    unfold probe_ids at hid
    obtain ⟨i, hi, rfl⟩ := List.mem_map.mp hid
    have hi1 := List.mem_range.mp hi
    refine ⟨by omega, ?_, hfold.probe_node _ (by omega) (by omega)⟩
    unfold is_dummy
    rw [hadd.probe_node i _ (List.getElem?_eq_getElem hi1)]
    rfl
  · unfold dummy_nodes
    apply filter_range_extend
    · rw [hfold.node_amount]
      omega
    · intro i hi
      unfold is_dummy
      rw [hfold.old_node i hi]
    · intro i hle _
      unfold is_dummy
      cases hn : (optimize_network__constant_folding engine net).node_or_null_by_id_at i with
      | none => rfl
      | some n =>
        obtain ⟨ty, v, s, e⟩ := hnew i n hle hn
        rw [e]
        rfl

/-- Witness for C20 on the network `const1 -> Add -> E`, `A -> F -> E2`: the probe (node 6)
is removed, nodes 0 to 5 stay, node 7 is the constant node, and the dummy nodes are 2, 3
and 5 before and after. -/
theorem constant_folding_node_set_witness :
    ((add_probes (node_is_not_constant network_fold_example)
        (constant_builder_nodes network_fold_example)
        (network_fold_example, [])).2 = [6] ∧
      network_fold_example.node_id_amount = 6 ∧
      network_fold_example.dummy_nodes = [2, 3, 5]) ∧
    (∀ i, i < network_fold_example.node_id_amount →
      (optimize_network__constant_folding example_engine
        network_fold_example).node_or_null_by_id_at i =
        network_fold_example.node_or_null_by_id_at i) ∧
    (∀ id ∈ (add_probes (node_is_not_constant network_fold_example)
        (constant_builder_nodes network_fold_example)
        (network_fold_example, [])).2,
      network_fold_example.node_id_amount ≤ id ∧
      (add_probes (node_is_not_constant network_fold_example)
        (constant_builder_nodes network_fold_example)
        (network_fold_example, [])).1.is_dummy id = true ∧
      (optimize_network__constant_folding example_engine
        network_fold_example).node_or_null_by_id_at id = none) ∧
    (∀ i n, network_fold_example.node_id_amount ≤ i →
      (optimize_network__constant_folding example_engine
        network_fold_example).node_or_null_by_id_at i = some n →
      ∃ ty v s, n = { function := some (constant_function ty v), inputs := [],
                      outputs := [s] }) ∧
    (optimize_network__constant_folding example_engine
        network_fold_example).node_id_amount =
      network_fold_example.node_id_amount +
        (probed_outputs network_fold_example).length +
        (probed_outputs network_fold_example).length ∧
    (optimize_network__constant_folding example_engine
      network_fold_example).dummy_nodes = network_fold_example.dummy_nodes :=
  ⟨by decide, constant_folding_node_set example_engine network_fold_example (by decide)⟩

/-! ## The candidate constant set -/

theorem mem_target_nodes {net : MFNetworkBuilder} (hwf : net.wellformed = true) {m x : Nat} :
    x ∈ net.target_nodes m ↔ net.link m x := by
  unfold target_nodes
  constructor
  · intro h
    cases hn : net.node_or_null_by_id_at m with
    | none => simp [hn] at h
    | some n =>
      rw [hn] at h
      simp only [List.mem_flatMap, List.mem_filterMap] at h
      obtain ⟨o, ho, t, ht, hx⟩ := h
      exact ⟨t, o, hx, mem_targets.mp ht, (socket_node_of_output hwf hn ho).1⟩
  · rintro ⟨t, o, ht, hto, ho⟩
    obtain ⟨m1, nm, hm1, hnm, hout⟩ := origin_owner hwf hto
    rw [ho] at hm1
    cases hm1
    rw [hnm]
    simp only [List.mem_flatMap, List.mem_filterMap]
    exact ⟨o, hout, t, mem_targets.mpr hto, ht⟩

theorem target_nodes_lt {net : MFNetworkBuilder} (hwf : net.wellformed = true) (i m : Nat)
    (h : m ∈ net.target_nodes i) : m < net.node_id_amount :=
  (link_lt hwf ((mem_target_nodes hwf).mp h)).2

/-- The mask of the nodes "to the right of, inclusive" marks exactly the nodes reached by a
forward path from one of the given nodes. -/
theorem marked_right_of_inclusive {net : MFNetworkBuilder} (hwf : net.wellformed = true)
    (nodes : List Nat) (hnodes : ∀ s ∈ nodes, s < net.node_id_amount) (i : Nat) :
    marked (net.find_nodes_to_the_right_of__inclusive__mask nodes) i ↔
      ∃ s ∈ nodes, Relation.ReflTransGen net.link s i := by
  unfold find_nodes_to_the_right_of__inclusive__mask
  rw [marked_mark_reachable net.target_nodes net.node_id_amount (target_nodes_lt hwf) nodes
    hnodes i]
  have hrel : (fun x y => y ∈ net.target_nodes x) = net.link := by
    funext x y
    exact propext (mem_target_nodes hwf)
  rw [hrel]

/-- The roots of the non-constant mask (lines 116-122): the dummy nodes and the function
nodes whose function depends on context. -/
theorem mem_non_constant_nodes {net : MFNetworkBuilder} {id : Nat} :
    id ∈ non_constant_nodes net ↔
      ∃ n, net.node_or_null_by_id_at id = some n ∧
        (n.function = none ∨ ∃ f, n.function = some f ∧ f.depends_on_context = true) := by
  unfold non_constant_nodes
  rw [List.mem_append, List.mem_filter, mem_dummy_nodes, mem_function_nodes, is_dummy_iff,
    is_function_iff]
  constructor
  · rintro (⟨n, hn, hf⟩ | ⟨⟨n, f, hn, hf⟩, hd⟩)
    · exact ⟨n, hn, Or.inl hf⟩
    · simp only [hn, hf] at hd
      exact ⟨n, hn, Or.inr ⟨f, hf, hd⟩⟩
  · rintro ⟨n, hn, hf | ⟨f, hf, hd⟩⟩
    · exact Or.inl ⟨n, hn, hf⟩
    · refine Or.inr ⟨⟨n, f, hn, hf⟩, ?_⟩
      simp only [hn, hf]
      exact hd

/-- The non-constant mask (lines 124-125) marks exactly the nodes reached by a forward path
from a dummy node or from a function node that depends on context. -/
theorem marked_node_is_not_constant {net : MFNetworkBuilder} (hwf : net.wellformed = true)
    (i : Nat) :
    marked (node_is_not_constant net) i ↔
      ∃ s ∈ non_constant_nodes net, Relation.ReflTransGen net.link s i := by
  unfold node_is_not_constant
  apply marked_right_of_inclusive hwf
  intro s hs
  obtain ⟨n, hn, _⟩ := mem_non_constant_nodes.mp hs
  exact node_at_eq_some_lt hn

/-- A candidate-constant node is a function node whose function does not depend on
context. -/
theorem constant_node_function {net : MFNetworkBuilder} (hwf : net.wellformed = true)
    {id : Nat} (hid : id ∈ constant_builder_nodes net) :
    ∃ n f, net.node_or_null_by_id_at id = some n ∧ n.function = some f ∧
      f.depends_on_context = false := by
  obtain ⟨hlive, hnot⟩ := mem_nodes_by_id_inverted_id_mask.mp hid
  obtain ⟨n, hn⟩ := Option.isSome_iff_exists.mp hlive
  have hroot : id ∉ non_constant_nodes net := fun h =>
    hnot ((marked_node_is_not_constant hwf id).mpr ⟨id, h, Relation.ReflTransGen.refl⟩)
  cases hf : n.function with
  | none => exact absurd (mem_non_constant_nodes.mpr ⟨n, hn, Or.inl hf⟩) hroot
  | some f =>
    cases hd : f.depends_on_context with
    | false => exact ⟨n, f, hn, hf, hd⟩
    | true => exact absurd (mem_non_constant_nodes.mpr ⟨n, hn, Or.inr ⟨f, hf, hd⟩⟩) hroot

/-- Every node with a forward path to a candidate-constant node is a candidate-constant
node. -/
theorem constant_node_upstream {net : MFNetworkBuilder} (hwf : net.wellformed = true)
    {id m : Nat} (hid : id ∈ constant_builder_nodes net)
    (hpath : Relation.ReflTransGen net.link m id) : m ∈ constant_builder_nodes net := by
  obtain ⟨hlive, hnot⟩ := mem_nodes_by_id_inverted_id_mask.mp hid
  have hnotm : ¬ marked (node_is_not_constant net) m := by
    intro hm
    obtain ⟨s, hs, hsm⟩ := (marked_node_is_not_constant hwf m).mp hm
    exact hnot ((marked_node_is_not_constant hwf id).mpr ⟨s, hs, hsm.trans hpath⟩)
  have hlivem : (net.node_or_null_by_id_at m).isSome = true := by
    rcases Relation.ReflTransGen.cases_head hpath with e | ⟨c, hmc, _⟩
    · rw [e]
      exact hlive
    · obtain ⟨na, _, _, _, hna, _⟩ := (link_iff hwf).mp hmc
      rw [hna]
      rfl
  exact mem_nodes_by_id_inverted_id_mask.mpr ⟨hlivem, hnotm⟩


/-- The value of an output socket of a candidate-constant node does not depend on the
context or on the external values of the dummy outputs, when the functions that do not
depend on context ignore it. -/
theorem evaluate_output_of_constant {net : MFNetworkBuilder} (hwf : net.wellformed = true)
    (ctx ctx1 : MFContext) (values values1 : Nat → GenericValue)
    (hvalues : ∀ t s, net.socket_or_null_by_id_at t = some s → s.is_output = false →
      values t = values1 t)
    (hcalls : ∀ id n f, net.node_or_null_by_id_at id = some n → n.function = some f →
      f.depends_on_context = false → ∀ args, f.call ctx args = f.call ctx1 args)
    (fuel : Nat) :
    ∀ o id, net.socket_node o = some id → id ∈ constant_builder_nodes net →
      evaluate_output net ctx values fuel o = evaluate_output net ctx1 values1 fuel o := by
  induction fuel with
  | zero =>
    intro o id _ _
    rw [evaluate_output_zero, evaluate_output_zero]
  | succ fuel ih =>
    intro o id ho hid
    rw [evaluate_output_succ_eq, evaluate_output_succ_eq]
    cases hs : net.socket_or_null_by_id_at o with
    | none => simp [socket_node, hs] at ho
    | some s =>
      have hsn : s.node = id := by simpa [socket_node, hs] using ho
      obtain ⟨n, f, hn, hf, hd⟩ := constant_node_function hwf hid
      simp only [hsn, hn, hf]
      have hcongr : ∀ t ∈ n.inputs, evaluate_input net ctx values fuel t =
          evaluate_input net ctx1 values1 fuel t := by
        intro t ht
        obtain ⟨k, hk⟩ := List.mem_iff_getElem?.mp ht
        obtain ⟨st, hst, hstn, hin, _⟩ := wellformed_inputs hwf hn hk
        unfold evaluate_input
        cases hto : net.origin t with
        | none => exact congrArg some (hvalues t st hst hin)
        | some o2 =>
          obtain ⟨m, _, hm, _, _⟩ := origin_owner hwf hto
          have hlink : net.link m id := ⟨t, o2, by simp [socket_node, hst, hstn], hto, hm⟩
          exact ih o2 m hm (constant_node_upstream hwf hid (Relation.ReflTransGen.single hlink))
      rw [all_values_congr n.inputs hcongr]
      cases all_values (evaluate_input net ctx1 values1 fuel) n.inputs with
      | none => rfl
      | some args =>
        simp only
        rw [hcalls id n f hn hf hd args]

/-- C21: in `optimize_network__constant_folding` every node of the candidate constant set
is a function node whose function does not depend on context, the node that owns the
origin of any of its inputs is in the set again, and so is every node with a forward path
to it, none of which is a dummy node. Every probe is wired to an output socket of a node
of the set, and the value that arrives at the probe is the same for every context and for
all external values of the dummy outputs, when the functions that do not depend on
context ignore it. -/
theorem constant_set_closed_under_origins (net : MFNetworkBuilder)
    (hwf : net.wellformed = true) :
    (∀ id ∈ constant_builder_nodes net,
      (∃ n f, net.node_or_null_by_id_at id = some n ∧ n.function = some f ∧
        f.depends_on_context = false) ∧
      (∀ n t o m, net.node_or_null_by_id_at id = some n → t ∈ n.inputs →
        net.origin t = some o → net.socket_node o = some m →
        m ∈ constant_builder_nodes net) ∧
      ∀ m, Relation.ReflTransGen net.link m id →
        m ∈ constant_builder_nodes net ∧ net.is_dummy m = false ∧
        ∃ n f, net.node_or_null_by_id_at m = some n ∧ n.function = some f ∧
          f.depends_on_context = false) ∧
    ∀ (i : Nat) (p : Nat × MFDataType), (probed_outputs net)[i]? = some p →
      (add_probes (node_is_not_constant net) (constant_builder_nodes net)
        (net, [])).1.origin (net.socket_id_amount + i) = some p.1 ∧
      (∃ id ∈ constant_builder_nodes net, net.socket_node p.1 = some id) ∧
      ∀ (ctx ctx1 : MFContext) (values values1 : Nat → GenericValue),
        (∀ t s, net.socket_or_null_by_id_at t = some s → s.is_output = false →
          values t = values1 t) →
        (∀ id n f, net.node_or_null_by_id_at id = some n → n.function = some f →
          f.depends_on_context = false → ∀ args, f.call ctx args = f.call ctx1 args) →
        ∀ fuel,
          evaluate_input (add_probes (node_is_not_constant net) (constant_builder_nodes net)
            (net, [])).1 ctx values fuel (net.socket_id_amount + i) =
          evaluate_input (add_probes (node_is_not_constant net) (constant_builder_nodes net)
            (net, [])).1 ctx1 values1 fuel (net.socket_id_amount + i) := by
  constructor
  · intro id hid
    refine ⟨constant_node_function hwf hid, ?_, ?_⟩
    · intro n t o m hn ht hto hm
      obtain ⟨k, hk⟩ := List.mem_iff_getElem?.mp ht
      obtain ⟨st, hst, hstn, _, _⟩ := wellformed_inputs hwf hn hk
      have hlink : net.link m id := ⟨t, o, by simp [socket_node, hst, hstn], hto, hm⟩
      exact constant_node_upstream hwf hid (Relation.ReflTransGen.single hlink)
    · intro m hpath
      have hm := constant_node_upstream hwf hid hpath
      obtain ⟨n, f, hn, hf, hd⟩ := constant_node_function hwf hm
      refine ⟨hm, ?_, n, f, hn, hf, hd⟩
      unfold is_dummy
      rw [hn]
      simp only [hf]
      rfl
  · intro i p hp
    obtain ⟨net1, haddeq, hadd⟩ := add_probes_result hwf
    rw [haddeq]
    simp only
    have horigin : net1.origin (net.socket_id_amount + i) = some p.1 := by
      unfold origin
      rw [hadd.probe_socket i p hp]
      rfl
    have hmem : p ∈ probed_outputs net := List.mem_iff_getElem?.mpr ⟨i, hp⟩
    obtain ⟨id, n, s, hid, hn, _, hout, _, hs, _⟩ := mem_boundary_outputs.mp hmem
    have howner := (socket_node_of_output hwf hn hout).1
    refine ⟨horigin, ⟨id, hid, howner⟩, ?_⟩
    intro ctx ctx1 values values1 hvalues hcalls fuel
    rw [evaluate_input_of_origin horigin, evaluate_input_of_origin horigin,
      evaluate_output_probes_added hwf hadd ctx values fuel p.1 (socket_at_eq_some_lt hs),
      evaluate_output_probes_added hwf hadd ctx1 values1 fuel p.1 (socket_at_eq_some_lt hs)]
    exact evaluate_output_of_constant hwf ctx ctx1 values values1 hvalues hcalls fuel p.1 id
      howner hid

/-- Witness for C21 on the chain `const1 -> Add -> const2 -> Mul -> D`: the candidate
constant set is `const1`, `Add`, `const2`, `Mul`, and the probe is wired to the output of
`Mul`. -/
theorem constant_set_closed_under_origins_witness :
    (constant_builder_nodes network_chain_example = [0, 1, 2, 3] ∧
      probed_outputs network_chain_example = [(6, MFDataType.Single 0)]) ∧
    (∀ id ∈ constant_builder_nodes network_chain_example,
      (∃ n f, network_chain_example.node_or_null_by_id_at id = some n ∧
        n.function = some f ∧ f.depends_on_context = false) ∧
      (∀ n t o m, network_chain_example.node_or_null_by_id_at id = some n → t ∈ n.inputs →
        network_chain_example.origin t = some o →
        network_chain_example.socket_node o = some m →
        m ∈ constant_builder_nodes network_chain_example) ∧
      ∀ m, Relation.ReflTransGen network_chain_example.link m id →
        m ∈ constant_builder_nodes network_chain_example ∧
        network_chain_example.is_dummy m = false ∧
        ∃ n f, network_chain_example.node_or_null_by_id_at m = some n ∧
          n.function = some f ∧ f.depends_on_context = false) ∧
    ∀ (i : Nat) (p : Nat × MFDataType), (probed_outputs network_chain_example)[i]? = some p →
      (add_probes (node_is_not_constant network_chain_example)
        (constant_builder_nodes network_chain_example)
        (network_chain_example, [])).1.origin (network_chain_example.socket_id_amount + i) =
          some p.1 ∧
      (∃ id ∈ constant_builder_nodes network_chain_example,
        network_chain_example.socket_node p.1 = some id) ∧
      ∀ (ctx ctx1 : MFContext) (values values1 : Nat → GenericValue),
        (∀ t s, network_chain_example.socket_or_null_by_id_at t = some s →
          s.is_output = false → values t = values1 t) →
        (∀ id n f, network_chain_example.node_or_null_by_id_at id = some n →
          n.function = some f → f.depends_on_context = false →
          ∀ args, f.call ctx args = f.call ctx1 args) →
        ∀ fuel,
          evaluate_input (add_probes (node_is_not_constant network_chain_example)
            (constant_builder_nodes network_chain_example)
            (network_chain_example, [])).1 ctx values fuel
            (network_chain_example.socket_id_amount + i) =
          evaluate_input (add_probes (node_is_not_constant network_chain_example)
            (constant_builder_nodes network_chain_example)
            (network_chain_example, [])).1 ctx1 values1 fuel
            (network_chain_example.socket_id_amount + i) :=
  ⟨by decide, constant_set_closed_under_origins network_chain_example (by decide)⟩

end FN
